import Mathlib

/-! Ordered maps of CPP-Data-Structures-THU: BST, AVL tree and splay tree.

The three node classes (`BSTNode`, `AVLNode`, `SplayNode`) have the same fields and the
three map classes share `UpdateHeight`, `UpdateHeightAbove`, `SearchIn` and `RemoveAt`
word for word, so these are embedded once.

Pointers.  A node pointer is embedded as the subtree it owns (`Node`, `null` for
`nullptr`) together with the chain of its ancestors (`List Frame`, nearest ancestor
first): following `parent_` drops the first frame, following `lc_`/`rc_` pushes one.
A frame records the ancestor's own fields, the side on which the chain continues below
it and its other child.  Writing through a child slot (a `Node*&`) is re-attaching a
subtree under the unchanged chain.  The fields `npl_` and `color_` are never read or
written by the map classes and are left out.  The scratch field `hot_` is reset by every
`Search` before it is read, so it is passed along as a value instead of being stored.

Keys are taken from a linear order (the code compares them with `==` and `<` only).  The
`int` fields `size_` and `height_` are unbounded integers here: the maps are considered
while they hold fewer than `2^31` nodes, where no `int` overflows.  Dereferencing a null
pointer is modelled as the result `none`.
-/

namespace DSA

/-- A node pointer with everything below it: `null` is `nullptr`. -/
inductive Node (K V : Type) where
  | null : Node K V
  | mk (lc_ : Node K V) (key_ : K) (value_ : V) (height_ : Int) (rc_ : Node K V) : Node K V
deriving DecidableEq

/-- Which child slot of its parent a node hangs in. -/
inductive Side where
  | left : Side
  | right : Side
deriving DecidableEq

/-- One ancestor on the `parent_` chain of a node. -/
structure Frame (K V : Type) where
  side : Side
  key_ : K
  value_ : V
  height_ : Int
  other : Node K V
deriving DecidableEq

variable {K V : Type}

/-- The ancestor of frame `f` with subtree `c` hanging in the slot the chain came through. -/
def Frame.attach (f : Frame K V) (c : Node K V) : Node K V :=
  match f.side with
  | Side.left => Node.mk c f.key_ f.value_ f.height_ f.other
  | Side.right => Node.mk f.other f.key_ f.value_ f.height_ c

/-- The whole tree seen from a position: the subtree put back under all its ancestors. -/
def plug : Node K V → List (Frame K V) → Node K V
  | c, [] => c
  | c, f :: up => plug (f.attach c) up

namespace Node

/-- Embeds `IsRoot`: no parent. -/
def IsRoot (path : List (Frame K V)) : Bool :=
  match path with
  | [] => true
  | _ :: _ => false

/-- Embeds `IsLChild`: has a parent and hangs in its left slot. -/
def IsLChild (path : List (Frame K V)) : Bool :=
  match path with
  | [] => false
  | f :: _ => decide (f.side = Side.left)

/-- Embeds `IsRChild`: has a parent and hangs in its right slot. -/
def IsRChild (path : List (Frame K V)) : Bool :=
  match path with
  | [] => false
  | f :: _ => decide (f.side = Side.right)

/-- Embeds `GetStature`: the cached height, `-1` for `nullptr`. -/
def GetStature : Node K V → Int
  | null => -1
  | mk _ _ _ h _ => h

/-- Embeds `GetSize` of the node class: number of nodes of the subtree. -/
def GetSize : Node K V → Nat
  | null => 0
  | mk l _ _ _ r => 1 + l.GetSize + r.GetSize

/-- The nodes in the order `TraverseInR` visits them, each shown as `(key_, value_)`. -/
def inorder : Node K V → List (K × V)
  | null => []
  | mk l k v _ r => l.inorder ++ (k, v) :: r.inorder

/-- The keys in inorder. -/
def keys (t : Node K V) : List K := t.inorder.map Prod.fst

/-- Embeds `UpdateHeight`: store `1 + max` of the children's statures.  Every call site passes a
non-null node. -/
def UpdateHeight : Node K V → Node K V
  | null => null
  | mk l k v _ r =>
      mk l k v (1 + (if GetStature l > GetStature r then GetStature l else GetStature r)) r

/-- Embeds `UpdateHeightAbove(x)`: update `x` and then every ancestor; yields the tree.  With
`x == nullptr` the loop body never runs. -/
def UpdateHeightAbove : Node K V → List (Frame K V) → Node K V
  | null, path => plug null path
  | mk l k v h r, [] => UpdateHeight (mk l k v h r)
  | mk l k v h r, f :: up => UpdateHeightAbove (f.attach (UpdateHeight (mk l k v h r))) up

/-- Embeds `UpdateHeightAbove(hot)` for the parent `hot` of the position `(c, path)`. -/
def UpdateHeightAboveParent (c : Node K V) (path : List (Frame K V)) : Node K V :=
  match path with
  | [] => c
  | f :: up => UpdateHeightAbove (f.attach c) up

/-- Embeds `GetBalanceFactor`: stature of the left child minus stature of the right child.  The
argument is a C++ reference, so it is never null; the `null` case only makes the function
total. -/
def GetBalanceFactor : Node K V → Int
  | null => 0
  | mk l _ _ _ r => GetStature l - GetStature r

/-- Embeds `IsAVLBalanced`: the balance factor lies in `[-1, 1]`. -/
def IsAVLBalanced (x : Node K V) : Bool :=
  decide (GetBalanceFactor x ≥ -1) && decide (GetBalanceFactor x ≤ 1)

/-- Embeds `GetHigherChild(x)` for the pointer `x` below the chain `path`: the child of greater
stature, on a tie the left child when `x` is a left child and the right child otherwise.
`none` stands for dereferencing a null `x`. -/
def GetHigherChild : Node K V → List (Frame K V) → Option (Node K V × List (Frame K V))
  | null, _ => none
  | mk l k v h r, path =>
      if GetStature l > GetStature r then some (l, ⟨Side.left, k, v, h, r⟩ :: path)
      else if GetStature r > GetStature l then some (r, ⟨Side.right, k, v, h, l⟩ :: path)
      else if IsLChild path = true then some (l, ⟨Side.left, k, v, h, r⟩ :: path)
      else some (r, ⟨Side.right, k, v, h, l⟩ :: path)

/-- Embeds `Connect34(a, b, c, t0, t1, t2, t3)`: `b` over `a` (with `t0`, `t1`) and `c` (with `t2`,
`t3`), heights updated for `a`, `c`, then `b`.  Each of `a`, `b`, `c` is given by its key,
value and old cached height. -/
def Connect34 (a b c : K × V × Int) (t0 t1 t2 t3 : Node K V) : Node K V :=
  UpdateHeight (mk (UpdateHeight (mk t0 a.1 a.2.1 a.2.2 t1)) b.1 b.2.1 b.2.2
    (UpdateHeight (mk t2 c.1 c.2.1 c.2.2 t3)))

/-- Embeds `RotateAt(v)` for the pointer `v` below the chain `path` (its parent `p` and grandparent
`g` are the first two frames).  Returns the new local root, whose `parent_` is the old
`g->parent_`.  `none` stands for dereferencing a null `v`, `p` or `g`. -/
def RotateAt : Node K V → List (Frame K V) → Option (Node K V)
  | mk vl vk vv vh vr, p :: g :: _ =>
      match g.side, p.side with
      | Side.left, Side.left =>
          some (Connect34 (vk, vv, vh) (p.key_, p.value_, p.height_) (g.key_, g.value_, g.height_)
            vl vr p.other g.other)
      | Side.left, Side.right =>
          some (Connect34 (p.key_, p.value_, p.height_) (vk, vv, vh) (g.key_, g.value_, g.height_)
            p.other vl vr g.other)
      | Side.right, Side.right =>
          some (Connect34 (g.key_, g.value_, g.height_) (p.key_, p.value_, p.height_) (vk, vv, vh)
            g.other p.other vl vr)
      | Side.right, Side.left =>
          some (Connect34 (g.key_, g.value_, g.height_) (vk, vv, vh) (p.key_, p.value_, p.height_)
            g.other vl vr p.other)
  | _, _ => none

/-- Embeds `RotateAt(GetHigherChild(GetHigherChild(g)))` for the node `g` below the chain `up`. -/
def rotateHigher (g : Node K V) (up : List (Frame K V)) : Option (Node K V) :=
  match GetHigherChild g up with
  | none => none
  | some (p, pp) =>
      match GetHigherChild p pp with
      | none => none
      | some (v, vp) => RotateAt v vp

/-- One double step of `Splay` for `v` (fields given) below parent `p` and grandparent `g`:
the four attachments, then `UpdateHeight` of `g`, `p`, `v`.  Returns `v`. -/
def splayStep (vl : Node K V) (vk : K) (vv : V) (vh : Int) (vr : Node K V)
    (p g : Frame K V) : Node K V :=
  match p.side, g.side with
  | Side.left, Side.left =>
      UpdateHeight (mk vl vk vv vh
        (UpdateHeight (mk vr p.key_ p.value_ p.height_
          (UpdateHeight (mk p.other g.key_ g.value_ g.height_ g.other)))))
  | Side.left, Side.right =>
      UpdateHeight (mk (UpdateHeight (mk g.other g.key_ g.value_ g.height_ vl)) vk vv vh
        (UpdateHeight (mk vr p.key_ p.value_ p.height_ p.other)))
  | Side.right, Side.right =>
      UpdateHeight (mk
        (UpdateHeight (mk
          (UpdateHeight (mk g.other g.key_ g.value_ g.height_ p.other))
          p.key_ p.value_ p.height_ vl)) vk vv vh vr)
  | Side.right, Side.left =>
      UpdateHeight (mk (UpdateHeight (mk p.other p.key_ p.value_ p.height_ vl)) vk vv vh
        (UpdateHeight (mk vr g.key_ g.value_ g.height_ g.other)))

/-- The final single step of `Splay` when `v` has a parent `p` but no grandparent. -/
def splayLast (vl : Node K V) (vk : K) (vv : V) (vh : Int) (vr : Node K V)
    (p : Frame K V) : Node K V :=
  match p.side with
  | Side.left =>
      UpdateHeight (mk vl vk vv vh (UpdateHeight (mk vr p.key_ p.value_ p.height_ p.other)))
  | Side.right =>
      UpdateHeight (mk (UpdateHeight (mk p.other p.key_ p.value_ p.height_ vl)) vk vv vh vr)

/-- Embeds `Splay(v)` for the pointer `v` below the chain `path`: returns the new root. -/
def Splay : Node K V → List (Frame K V) → Node K V
  | null, _ => null
  | mk vl vk vv vh vr, [] => mk vl vk vv vh vr
  | mk vl vk vv vh vr, [p] => splayLast vl vk vv vh vr p
  | mk vl vk vv vh vr, p :: g :: up => Splay (splayStep vl vk vv vh vr p g) up

variable [LinearOrder K]

/-- Embeds `SearchIn(v, k, hot)`: descend from `v` comparing keys; returns the slot reached (a node
with key `k`, or the empty slot where `k` would go) and `hot`, its chain of ancestors. -/
def SearchIn : Node K V → K → List (Frame K V) → Node K V × List (Frame K V)
  | null, _, hot => (null, hot)
  | mk l key val h r, k, hot =>
      if key = k then (mk l key val h r, hot)
      else if k < key then SearchIn l k (⟨Side.left, key, val, h, r⟩ :: hot)
      else SearchIn r k (⟨Side.right, key, val, h, l⟩ :: hot)

/-- The descent of `GetSucc` when a right child exists: from the node with the given fields
go left while there is a left child.  Returns the fields of the node reached (its `lc_` is
null) and the chain walked, relative to the starting node. -/
def leftmost : Node K V → K → V → Int → Node K V → List (Frame K V) →
    K × V × Int × Node K V × List (Frame K V)
  | null, k, v, h, r, path => (k, v, h, r, path)
  | mk ll lk lv lh lr, k, v, h, r, path => leftmost ll lk lv lh lr (⟨Side.left, k, v, h, r⟩ :: path)

/-- Embeds `RemoveAt(x, hot)` for the non-null node `x` with the given fields below the chain `hot`.
Returns `succ`, the subtree now in the slot of the node physically unlinked, and the new
`hot`, the chain of ancestors of that slot. -/
def RemoveAt (xl : Node K V) (_xk : K) (_xv : V) (xh : Int) (xr : Node K V)
    (hot : List (Frame K V)) : Node K V × List (Frame K V) :=
  match xl, xr with
  | null, _ => (xr, hot)
  | mk _ _ _ _ _, null => (xl, hot)
  | mk _ _ _ _ _, mk rl rk rv rh rr =>
      match leftmost rl rk rv rh rr [] with
      | (wk, wv, _, wr, spine) => (wr, spine ++ ⟨Side.right, wk, wv, xh, xl⟩ :: hot)

end Node

open Node

/-! ## BinarySearchTreeMap -/

/-- The state of a `BinarySearchTreeMap`. -/
structure BinarySearchTreeMap (K V : Type) where
  size_ : Int
  root_ : Node K V
deriving DecidableEq

namespace BinarySearchTreeMap

variable [LinearOrder K]

/-- The constructor. -/
def empty : BinarySearchTreeMap K V := ⟨0, null⟩

/-- Embeds `GetSize`. -/
def GetSize (m : BinarySearchTreeMap K V) : Int := m.size_

/-- Embeds `IsEmpty`: `!static_cast<bool>(GetSize())`. -/
def IsEmpty (m : BinarySearchTreeMap K V) : Bool := decide (m.GetSize = 0)

/-- Embeds `Search`: the slot reached and `hot_`. -/
def Search (m : BinarySearchTreeMap K V) (k : K) : Node K V × List (Frame K V) :=
  SearchIn m.root_ k []

/-- Embeds `Insert`: returns the new state and the key and value of the node returned. -/
def Insert (m : BinarySearchTreeMap K V) (k : K) (v : V) : BinarySearchTreeMap K V × (K × V) :=
  match m.Search k with
  | (Node.mk _ key val _ _, _) => (m, (key, val))
  | (Node.null, hot) =>
      (⟨m.size_ + 1, UpdateHeightAbove (Node.mk null k v 0 null) hot⟩, (k, v))

/-- Embeds `Remove`: returns the new state and the success flag. -/
def Remove (m : BinarySearchTreeMap K V) (k : K) : BinarySearchTreeMap K V × Bool :=
  match m.Search k with
  | (Node.null, _) => (m, false)
  | (Node.mk l key val h r, hot) =>
      match RemoveAt l key val h r hot with
      | (succ, hot') => (⟨m.size_ - 1, UpdateHeightAboveParent succ hot'⟩, true)

end BinarySearchTreeMap

/-! ## AVLTreeMap -/

/-- The state of an `AVLTreeMap`. -/
structure AVLTreeMap (K V : Type) where
  size_ : Int
  root_ : Node K V
deriving DecidableEq

namespace AVLTreeMap

variable [LinearOrder K]

/-- The constructor. -/
def empty : AVLTreeMap K V := ⟨0, null⟩

/-- Embeds `GetSize`. -/
def GetSize (m : AVLTreeMap K V) : Int := m.size_

/-- Embeds `IsEmpty`: `!static_cast<bool>(GetSize())`. -/
def IsEmpty (m : AVLTreeMap K V) : Bool := decide (m.GetSize = 0)

/-- Embeds `Search`: the slot reached and `hot_`. -/
def Search (m : AVLTreeMap K V) (k : K) : Node K V × List (Frame K V) :=
  SearchIn m.root_ k []

/-- The `for` loop of `Insert`: `c` is the subtree below `g`, the first frame of the chain.
At the first unbalanced `g` the rotated subtree is written to `FromParentTo(*g)` and the
loop breaks; otherwise `UpdateHeight(g)` and one step up.  Yields the tree. -/
def InsertLoop : Node K V → List (Frame K V) → Option (Node K V)
  | c, [] => some c
  | c, f :: up =>
      if IsAVLBalanced (f.attach c) = false then
        match rotateHigher (f.attach c) up with
        | none => none
        | some b => some (plug b up)
      else InsertLoop (UpdateHeight (f.attach c)) up

/-- Embeds `Insert`: the new state and the key and value of the node returned; `none` when a null
pointer would be dereferenced. -/
def Insert (m : AVLTreeMap K V) (k : K) (v : V) : Option (AVLTreeMap K V × (K × V)) :=
  match m.Search k with
  | (Node.mk _ key val _ _, _) => some (m, (key, val))
  | (Node.null, hot) =>
      match InsertLoop (Node.mk null k v 0 null) hot with
      | none => none
      | some t => some (⟨m.size_ + 1, t⟩, (k, v))

/-- The `for` loop of `Remove`: at every unbalanced `g` rotate and continue from the new
local root; `UpdateHeight(g)` and one step up in every round.  Yields the tree. -/
def RemoveLoop : Node K V → List (Frame K V) → Option (Node K V)
  | c, [] => some c
  | c, f :: up =>
      if IsAVLBalanced (f.attach c) = false then
        match rotateHigher (f.attach c) up with
        | none => none
        | some b => RemoveLoop (UpdateHeight b) up
      else RemoveLoop (UpdateHeight (f.attach c)) up

/-- Embeds `Remove`: the new state and the success flag; `none` when a null pointer would be
dereferenced. -/
def Remove (m : AVLTreeMap K V) (k : K) : Option (AVLTreeMap K V × Bool) :=
  match m.Search k with
  | (Node.null, _) => some (m, false)
  | (Node.mk l key val h r, hot) =>
      match RemoveAt l key val h r hot with
      | (succ, hot') =>
          match RemoveLoop succ hot' with
          | none => none
          | some t => some (⟨m.size_ - 1, t⟩, true)

end AVLTreeMap

/-! ## SplayTreeMap -/

/-- The state of a `SplayTreeMap`. -/
structure SplayTreeMap (K V : Type) where
  size_ : Int
  root_ : Node K V
deriving DecidableEq

namespace SplayTreeMap

variable [LinearOrder K]

/-- The constructor. -/
def empty : SplayTreeMap K V := ⟨0, null⟩

/-- Embeds `GetSize`. -/
def GetSize (m : SplayTreeMap K V) : Int := m.size_

/-- Embeds `IsEmpty`: `!static_cast<bool>(GetSize())`. -/
def IsEmpty (m : SplayTreeMap K V) : Bool := decide (m.GetSize = 0)

/-- Embeds `Search`: `root_ = Splay(x != nullptr ? x : hot_)`; the handle returned is the new
`root_`. -/
def Search (m : SplayTreeMap K V) (k : K) : SplayTreeMap K V :=
  match SearchIn m.root_ k [] with
  | (Node.mk l key val h r, hot) => ⟨m.size_, Splay (Node.mk l key val h r) hot⟩
  | (Node.null, []) => ⟨m.size_, Splay null []⟩
  | (Node.null, f :: up) => ⟨m.size_, Splay (f.attach null) up⟩

/-- Embeds `Insert`: the new state and the key and value of the node returned; `none` when a null
pointer would be dereferenced. -/
def Insert (m : SplayTreeMap K V) (k : K) (v : V) : Option (SplayTreeMap K V × (K × V)) :=
  match m.root_ with
  | Node.null => some (⟨m.size_ + 1, Node.mk null k v 0 null⟩, (k, v))
  | Node.mk _ _ _ _ _ =>
      match (m.Search k).root_ with
      | Node.null => none
      | Node.mk tl tk tv th tr =>
          if tk = k then some (m.Search k, (tk, tv))
          else if tk < k then
            some (⟨(m.Search k).size_ + 1,
              UpdateHeightAbove (Node.mk tl tk tv th null) [⟨Side.left, k, v, 0, tr⟩]⟩, (k, v))
          else
            some (⟨(m.Search k).size_ + 1,
              UpdateHeightAbove (Node.mk null tk tv th tr) [⟨Side.right, k, v, 0, tl⟩]⟩, (k, v))

/-- Embeds `Remove`: the new state and the success flag; `none` when a null pointer would be
dereferenced. -/
def Remove (m : SplayTreeMap K V) (k : K) : Option (SplayTreeMap K V × Bool) :=
  match m.root_ with
  | Node.null => some (m, false)
  | Node.mk _ _ _ _ _ =>
      match (m.Search k).root_ with
      | Node.null => none
      | Node.mk wl wk _ _ wr =>
          if wk ≠ k then some (m.Search k, false)
          else
            match wl, wr with
            | Node.null, _ => some (⟨(m.Search k).size_ - 1, UpdateHeight wr⟩, true)
            | Node.mk _ _ _ _ _, Node.null => some (⟨(m.Search k).size_ - 1, UpdateHeight wl⟩, true)
            | Node.mk _ _ _ _ _, Node.mk _ _ _ _ _ =>
                match (Search ⟨(m.Search k).size_, wr⟩ wk).root_ with
                | Node.null => none
                | Node.mk _ rk rv rh rr =>
                    some (⟨(m.Search k).size_ - 1, UpdateHeight (Node.mk wl rk rv rh rr)⟩, true)

end SplayTreeMap

/-! ## Inorder sequence around a position -/

/-- The pairs visited before the position whose ancestors are `path`. -/
def ctxL : List (Frame K V) → List (K × V)
  | [] => []
  | f :: up =>
      match f.side with
      | Side.left => ctxL up
      | Side.right => ctxL up ++ (f.other.inorder ++ [(f.key_, f.value_)])

/-- The pairs visited after the position whose ancestors are `path`. -/
def ctxR : List (Frame K V) → List (K × V)
  | [] => []
  | f :: up =>
      match f.side with
      | Side.left => (f.key_, f.value_) :: f.other.inorder ++ ctxR up
      | Side.right => ctxR up

/-- Keys strictly increasing along a list of pairs. -/
def KeysIncreasing [LT K] (l : List (K × V)) : Prop := l.Pairwise (fun a b => a.1 < b.1)

/-- Every pair before the position has a key below `k`, every pair after it a key above. -/
def Splits [LT K] (k : K) (path : List (Frame K V)) : Prop :=
  (∀ p ∈ ctxL path, p.1 < k) ∧ (∀ p ∈ ctxR path, k < p.1)

/-- The sequence `after` is `before` with the pair `(k, v)` put in at its place in key order. -/
def InsertedInto [LT K] (k : K) (v : V) (before after : List (K × V)) : Prop :=
  ∃ l1 l2, before = l1 ++ l2 ∧ after = l1 ++ (k, v) :: l2 ∧
    (∀ p ∈ l1, p.1 < k) ∧ (∀ p ∈ l2, k < p.1)

/-- The sequence `after` is `before` with the pair of key `k` taken out and the rest kept. -/
def DeletedFrom (k : K) (before after : List (K × V)) : Prop :=
  ∃ l1 val l2, before = l1 ++ (k, val) :: l2 ∧ after = l1 ++ l2

/-- The true height of a subtree: `-1` when empty, a leaf has `0`. -/
def Node.height : Node K V → Int
  | Node.null => -1
  | Node.mk l _ _ _ r => 1 + max l.height r.height

/-- At every node the two subtrees differ in true height by at most one. -/
def Node.Balanced : Node K V → Prop
  | Node.null => True
  | Node.mk l _ _ _ r =>
      l.Balanced ∧ r.Balanced ∧ l.height - r.height ≤ 1 ∧ r.height - l.height ≤ 1

/-- At every node `GetBalanceFactor`, computed from the cached heights, is -1, 0 or 1. -/
def Node.FactorsInRange : Node K V → Prop
  | Node.null => True
  | Node.mk l k v h r =>
      l.FactorsInRange ∧ r.FactorsInRange ∧
        (GetBalanceFactor (Node.mk l k v h r) = -1 ∨ GetBalanceFactor (Node.mk l k v h r) = 0 ∨
          GetBalanceFactor (Node.mk l k v h r) = 1)

/-- At every node the cached `height_` is the true height. -/
def Node.HeightsExact : Node K V → Prop
  | Node.null => True
  | Node.mk l _ _ h r => l.HeightsExact ∧ r.HeightsExact ∧ h = 1 + max l.height r.height

/-- AVL tree with exact cached heights. -/
def Node.AVLInv : Node K V → Prop
  | Node.null => True
  | Node.mk l _ _ h r =>
      l.AVLInv ∧ r.AVLInv ∧ h = 1 + max l.height r.height ∧
        l.height - r.height ≤ 1 ∧ r.height - l.height ≤ 1

/-- The chain of ancestors is that of an AVL tree around a subtree of true height `n`. -/
def AVLCtx : List (Frame K V) → Int → Prop
  | [], _ => True
  | f :: up, n =>
      f.other.AVLInv ∧ n - f.other.height ≤ 1 ∧ f.other.height - n ≤ 1 ∧
        f.height_ = 1 + max n f.other.height ∧ AVLCtx up f.height_

/-- States of an `AVLTreeMap` reachable from the empty map. -/
inductive AVLTreeMap.Reachable [LinearOrder K] : AVLTreeMap K V → Prop
  | empty : AVLTreeMap.Reachable AVLTreeMap.empty
  | insert {m m' : AVLTreeMap K V} (k : K) (v : V) (r : K × V) :
      AVLTreeMap.Reachable m → m.Insert k v = some (m', r) → AVLTreeMap.Reachable m'
  | remove {m m' : AVLTreeMap K V} (k : K) (b : Bool) :
      AVLTreeMap.Reachable m → m.Remove k = some (m', b) → AVLTreeMap.Reachable m'

/-- States of a `SplayTreeMap` reachable from the empty map. -/
inductive SplayTreeMap.Reachable [LinearOrder K] : SplayTreeMap K V → Prop
  | empty : SplayTreeMap.Reachable SplayTreeMap.empty
  | search {m : SplayTreeMap K V} (k : K) :
      SplayTreeMap.Reachable m → SplayTreeMap.Reachable (m.Search k)
  | insert {m m' : SplayTreeMap K V} (k : K) (v : V) (r : K × V) :
      SplayTreeMap.Reachable m → m.Insert k v = some (m', r) → SplayTreeMap.Reachable m'
  | remove {m m' : SplayTreeMap K V} (k : K) (b : Bool) :
      SplayTreeMap.Reachable m → m.Remove k = some (m', b) → SplayTreeMap.Reachable m'

/-- States of a `BinarySearchTreeMap` reachable from the empty map. -/
inductive BinarySearchTreeMap.Reachable [LinearOrder K] : BinarySearchTreeMap K V → Prop
  | empty : BinarySearchTreeMap.Reachable BinarySearchTreeMap.empty
  | insert {m : BinarySearchTreeMap K V} (k : K) (v : V) :
      BinarySearchTreeMap.Reachable m → BinarySearchTreeMap.Reachable (m.Insert k v).1
  | remove {m : BinarySearchTreeMap K V} (k : K) :
      BinarySearchTreeMap.Reachable m → BinarySearchTreeMap.Reachable (m.Remove k).1

/-! ## The maps of the scenarios: keys `1, 2, 3, …` inserted in increasing order, each key
with itself as value -/

/-- A node without children, as `new Node(k, v)` makes it. -/
def leaf (k : Nat) : Node Nat Nat := Node.mk Node.null k k 0 Node.null

/-- The `AVLTreeMap` after `Insert(1, 1)`. -/
def avl1 : AVLTreeMap Nat Nat := ⟨1, leaf 1⟩

/-- The `AVLTreeMap` after inserting 1, 2. -/
def avl2 : AVLTreeMap Nat Nat := ⟨2, Node.mk Node.null 1 1 1 (leaf 2)⟩

/-- The `AVLTreeMap` after inserting 1, 2, 3: the root is 2. -/
def avl3 : AVLTreeMap Nat Nat := ⟨3, Node.mk (leaf 1) 2 2 1 (leaf 3)⟩

/-- The `AVLTreeMap` after inserting 1 to 4. -/
def avl4 : AVLTreeMap Nat Nat := ⟨4, Node.mk (leaf 1) 2 2 2 (Node.mk Node.null 3 3 1 (leaf 4))⟩

/-- The `AVLTreeMap` after inserting 1 to 5. -/
def avl5 : AVLTreeMap Nat Nat := ⟨5, Node.mk (leaf 1) 2 2 2 (Node.mk (leaf 3) 4 4 1 (leaf 5))⟩

/-- The `AVLTreeMap` after inserting 1 to 6. -/
def avl6 : AVLTreeMap Nat Nat :=
  ⟨6, Node.mk (Node.mk (leaf 1) 2 2 1 (leaf 3)) 4 4 2 (Node.mk Node.null 5 5 1 (leaf 6))⟩

/-- The `AVLTreeMap` after inserting 1 to 7. -/
def avl7 : AVLTreeMap Nat Nat :=
  ⟨7, Node.mk (Node.mk (leaf 1) 2 2 1 (leaf 3)) 4 4 2 (Node.mk (leaf 5) 6 6 1 (leaf 7))⟩

/-- The `BinarySearchTreeMap` after inserting 1, 2, 3: a right spine. -/
def bst3 : BinarySearchTreeMap Nat Nat :=
  ⟨3, Node.mk Node.null 1 1 2 (Node.mk Node.null 2 2 1 (leaf 3))⟩

/-- The `SplayTreeMap` after `Insert(1, 1)`. -/
def splay1 : SplayTreeMap Nat Nat := ⟨1, leaf 1⟩

/-- The `SplayTreeMap` after inserting 1, 2. -/
def splay2 : SplayTreeMap Nat Nat := ⟨2, Node.mk (leaf 1) 2 2 1 Node.null⟩

/-- The `SplayTreeMap` after inserting 1, 2, 3: a left spine with root 3. -/
def splay3 : SplayTreeMap Nat Nat :=
  ⟨3, Node.mk (Node.mk (leaf 1) 2 2 1 Node.null) 3 3 2 Node.null⟩

end DSA

namespace DSA
open Node
variable {K V : Type}

/-! ## GetSucc and the inorder traversals of the node classes -/

namespace Node

/-- The climb of `GetSucc` when there is no right child, for the pointer `s` below the chain
`path`: `while (IsRChild(*s)) s = s->parent_;` and then `s = s->parent_`.  The null pointer
is `(null, [])`. -/
def climb : Node K V → List (Frame K V) → Node K V × List (Frame K V)
  | _, [] => (null, [])
  | s, f :: up =>
      match f.side with
      | Side.right => climb (f.attach s) up
      | Side.left => (f.attach s, up)

/-- The member function `GetSucc` of the node with the given fields below the chain `path`:
with a right child the leftmost node below it, otherwise the climb.  Returns the pointer
`s` with its chain of ancestors; the null pointer is `(null, [])`. -/
def GetSucc (l : Node K V) (k : K) (v : V) (h : Int) (r : Node K V)
    (path : List (Frame K V)) : Node K V × List (Frame K V) :=
  match r with
  | mk rl rk rv rh rr =>
      match leftmost rl rk rv rh rr (⟨Side.right, k, v, h, l⟩ :: path) with
      | (wk, wv, wh, wr, sp) => (mk null wk wv wh wr, sp)
  | null => climb (mk l k v h null) path

/-- The values in the order `TraverseInR` passes them to `visit`. -/
def TraverseInR : Node K V → List V
  | null => []
  | mk l _ v _ r => TraverseInR l ++ v :: TraverseInR r

/-- The helper `GoAlongLeftBranch(x, s)`: push `x` and the nodes of its left branch; the top
of the stack is the head of the list. -/
def GoAlongLeftBranch : Node K V → List (Node K V) → List (Node K V)
  | null, s => s
  | mk l k v h r, s => GoAlongLeftBranch l (mk l k v h r :: s)

/-- The loop of `TraverseInI1` with `fuel` rounds left, the stack `s` and the values visited
so far.  `none` when the fuel runs out (or a null pointer would be dereferenced). -/
def TraverseInI1Loop : Nat → Node K V → List (Node K V) → List V → Option (List V)
  | 0, _, _, _ => none
  | fuel + 1, x, s, out =>
      match GoAlongLeftBranch x s with
      | [] => some out
      | null :: _ => none
      | mk _ _ v _ r :: s' => TraverseInI1Loop fuel r s' (out ++ [v])

/-- The traversal `TraverseInI1(x, visit)`: the values visited. -/
def TraverseInI1 (fuel : Nat) (x : Node K V) : Option (List V) := TraverseInI1Loop fuel x [] []

/-- The loop of `TraverseInI2` with `fuel` rounds left. -/
def TraverseInI2Loop : Nat → Node K V → List (Node K V) → List V → Option (List V)
  | 0, _, _, _ => none
  | fuel + 1, mk l k v h r, s, out => TraverseInI2Loop fuel l (mk l k v h r :: s) out
  | fuel + 1, null, mk _ _ v _ r :: s, out => TraverseInI2Loop fuel r s (out ++ [v])
  | _ + 1, null, null :: _, _ => none
  | _ + 1, null, [], out => some out

/-- The traversal `TraverseInI2(x, visit)`: the values visited. -/
def TraverseInI2 (fuel : Nat) (x : Node K V) : Option (List V) := TraverseInI2Loop fuel x [] []

/-- The loop of `TraverseInI3` with `fuel` rounds left, for the pointer `x` below the chain
`path` and the flag `backtrack`. -/
def TraverseInI3Loop : Nat → Node K V → List (Frame K V) → Bool → List V → Option (List V)
  | 0, _, _, _, _ => none
  | _ + 1, null, _, _, _ => none
  | fuel + 1, mk l k v h r, path, backtrack, out =>
      match backtrack, l, r with
      | false, mk ll lk lv lh lr, _ =>
          TraverseInI3Loop fuel (mk ll lk lv lh lr) (⟨Side.left, k, v, h, r⟩ :: path) false out
      | _, _, mk rl rk rv rh rr =>
          TraverseInI3Loop fuel (mk rl rk rv rh rr) (⟨Side.right, k, v, h, l⟩ :: path) false
            (out ++ [v])
      | _, _, null =>
          match GetSucc l k v h null path with
          | (null, _) => some (out ++ [v])
          | (mk sl sk sv sh sr, sp) => TraverseInI3Loop fuel (mk sl sk sv sh sr) sp true (out ++ [v])

/-- The traversal `TraverseInI3(x, visit)` for a node `x` without parent: the values
visited. -/
def TraverseInI3 (fuel : Nat) (x : Node K V) : Option (List V) :=
  TraverseInI3Loop fuel x [] false []

/-- The member function `TraverseIn`: `choice` is the number drawn from `{0, 1, 2, 3}`. -/
def TraverseIn (fuel : Nat) (choice : Fin 4) (x : Node K V) : Option (List V) :=
  match choice with
  | 0 => TraverseInI1 fuel x
  | 1 => TraverseInI2 fuel x
  | 2 => TraverseInI3 fuel x
  | 3 => some (TraverseInR x)

/-- The subtree with its leftmost node unlinked and that node's right child put in its
slot; every other node stays where it is (cached heights are left as they are). -/
def unlinkLeftmost : Node K V → Node K V
  | null => null
  | mk null _ _ _ r => r
  | mk (mk ll lk lv lh lr) k v h r => mk (unlinkLeftmost (mk ll lk lv lh lr)) k v h r

/-- The tree with every cached height forgotten (set to 0): its shape, keys and values. -/
def shape : Node K V → Node K V
  | null => null
  | mk l k v _ r => mk (shape l) k v 0 (shape r)

/-- Number of rounds `TraverseInI3` spends below a node entered with `backtrack == false`. -/
def rounds : Node K V → Nat
  | null => 0
  | mk null _ _ _ r => 1 + rounds r
  | mk (mk ll lk lv lh lr) _ _ _ r => 1 + rounds (mk ll lk lv lh lr) + 1 + rounds r

/-- Number of rounds `TraverseInI3` still spends on the ancestors after the subtree below
the chain is finished. -/
def roundsAbove : List (Frame K V) → Nat
  | [] => 0
  | f :: up =>
      match f.side with
      | Side.left => 1 + rounds f.other + roundsAbove up
      | Side.right => roundsAbove up

/-- Number of rounds still needed by `TraverseInI1` or `TraverseInI2` for the nodes waiting on
the stack: each is visited and its right subtree traversed with cost `w`. -/
def stackCost (w : Node K V → Nat) : List (Node K V) → Nat
  | [] => 0
  | null :: s => stackCost w s
  | mk _ _ _ _ r :: s => 1 + w r + stackCost w s

/-- The values still to be visited for the nodes waiting on the stack. -/
def stackValues : List (Node K V) → List V
  | [] => []
  | null :: s => stackValues s
  | mk _ _ v _ r :: s => v :: TraverseInR r ++ stackValues s

end Node

/-- The `BinarySearchTreeMap` after inserting 2, 1, 3: root 2 with two leaves. -/
def bst213 : BinarySearchTreeMap Nat Nat := ⟨3, Node.mk (leaf 1) 2 2 1 (leaf 3)⟩

end DSA

namespace DSA
open Node
variable {K V : Type}

/-! ## The rebalancing loops of `AVLTreeMap` with the calls of `RotateAt` recorded -/

/-- The two subtrees of the root differ in true height by at most one. -/
def Node.RootBalanced : Node K V → Prop
  | Node.null => True
  | Node.mk l _ _ _ r => l.height - r.height ≤ 1 ∧ r.height - l.height ≤ 1

namespace AVLTreeMap

variable [LinearOrder K]

/-- The `for` loop of `Insert` together with a log of its calls of `RotateAt`: a call made
for the ancestor `g` is logged as the number of proper ancestors of `g`. -/
def InsertLoopLog : Node K V → List (Frame K V) → Option (Node K V × List Nat)
  | c, [] => some (c, [])
  | c, f :: up =>
      if IsAVLBalanced (f.attach c) = false then
        match rotateHigher (f.attach c) up with
        | none => none
        | some b => some (plug b up, [up.length])
      else InsertLoopLog (UpdateHeight (f.attach c)) up

/-- The `for` loop of `Remove` together with a log of its calls of `RotateAt`, the earliest
call first: a call made for the ancestor `g` is logged as the number of proper ancestors of
`g`. -/
def RemoveLoopLog : Node K V → List (Frame K V) → Option (Node K V × List Nat)
  | c, [] => some (c, [])
  | c, f :: up =>
      if IsAVLBalanced (f.attach c) = false then
        match rotateHigher (f.attach c) up with
        | none => none
        | some b =>
            match RemoveLoopLog (UpdateHeight b) up with
            | none => none
            | some (t, log) => some (t, up.length :: log)
      else RemoveLoopLog (UpdateHeight (f.attach c)) up

/-- Embeds `Remove` with the log of its calls of `RotateAt`. -/
def RemoveLog (m : AVLTreeMap K V) (k : K) : Option (AVLTreeMap K V × Bool × List Nat) :=
  match m.Search k with
  | (Node.null, _) => some (m, false, [])
  | (Node.mk l key val h r, hot) =>
      match RemoveAt l key val h r hot with
      | (succ, hot') =>
          match RemoveLoopLog succ hot' with
          | none => none
          | some (t, log) => some (⟨m.size_ - 1, t⟩, true, log)

/-- The state after the calls `Insert(k, k)` for the keys of the list, from the left. -/
def insertAll : List K → AVLTreeMap K K → Option (AVLTreeMap K K)
  | [], m => some m
  | k :: ks, m =>
      match m.Insert k k with
      | none => none
      | some (m', _) => insertAll ks m'

end AVLTreeMap

/-- The `AVLTreeMap` after inserting 5, 3, 8, 2, 4, 7, 10, 1, 6, 9, 11, 12. -/
def avl12 : AVLTreeMap Nat Nat :=
  ⟨12, Node.mk
    (Node.mk (Node.mk (leaf 1) 2 2 1 Node.null) 3 3 2 (leaf 4)) 5 5 4
    (Node.mk (Node.mk (leaf 6) 7 7 1 Node.null) 8 8 3
      (Node.mk (leaf 9) 10 10 2 (Node.mk Node.null 11 11 1 (leaf 12))))⟩

/-! ## Vector

`Vector<T>` is embedded by `size_`, `capacity_` and the cells of `element_` that hold a value,
from rank 0 on: a cell that was never written is not in the list, and reading it (or a cell
outside the buffer) is `none`.  A `Rank` argument is a natural number, the guard
`lo < 0 || hi < 0` of the source being then false; a thrown exception is `none` too.
`Rank`, `size_` and `capacity_` are `int` in the source and unbounded here: the vectors are
considered while their capacity stays below `2^30`, where no `int` expression of the source
(`lo + hi`, `2 * capacity_`) exceeds `INT_MAX`.  The one `int` addition that overflows on
smaller vectors, that of the constructor of `Fibonacci`, is embedded with its bound. -/

/-- Embeds the fields of `Vector<T>`. -/
structure Vector (T : Type) where
  /-- The number of elements. -/
  size_ : Nat
  /-- The number of cells of the buffer. -/
  capacity_ : Nat
  /-- The cells of the buffer that hold a value. -/
  element_ : List T
deriving DecidableEq

/-- Embeds an assignment `element_[i] = x` to a cell that holds a value. -/
def writeAt {T : Type} (a : List T) (i : Nat) (x : T) : Option (List T) :=
  if i < a.length then some (a.set i x) else none

/-- Embeds an assignment `element_[i] = x` to a cell that holds a value or to the first cell
that holds none. -/
def storeAt {T : Type} (a : List T) (i : Nat) (x : T) : Option (List T) :=
  if i < a.length then some (a.set i x) else if i = a.length then some (a ++ [x]) else none

namespace Vector

variable {T : Type}

/-- Embeds the constructor `Vector(int c = 11, Rank s = 0, T v = 0)`. -/
def new (c : Nat) (s : Nat) (v : T) : Vector T := ⟨s, c, List.replicate s v⟩

/-- Embeds `GetSize`. -/
def GetSize (v : Vector T) : Nat := v.size_

/-- Embeds `Expand`: when the buffer is full, a buffer of twice the capacity (of at least 22
cells) receives the elements `[0, size)`. -/
def Expand (v : Vector T) : Option (Vector T) :=
  if v.GetSize < v.capacity_ then some v
  else if v.element_.length < v.GetSize then none
  else some ⟨v.size_, 2 * (if v.capacity_ < 11 then 11 else v.capacity_),
    v.element_.take v.GetSize⟩

/-- Embeds `Shrink`: when at most a quarter of a buffer of 22 cells or more is used, a buffer
of half the capacity receives the elements `[0, size)`. -/
def Shrink (v : Vector T) : Option (Vector T) :=
  if v.capacity_ / 2 < 11 then some v
  else if v.GetSize * 4 > v.capacity_ then some v
  else if v.element_.length < v.GetSize then none
  else some ⟨v.size_, v.capacity_ / 2, v.element_.take v.GetSize⟩

/-- Embeds `Insert(const T& e)`, that is `Insert(GetSize(), e)`: after `Expand` no element is
moved and `e` is written to the cell of rank `size`. -/
def Insert (v : Vector T) (e : T) : Option (Vector T × Nat) :=
  match v.Expand with
  | none => none
  | some w =>
      match storeAt w.element_ w.size_ e with
      | none => none
      | some a => some (⟨w.size_ + 1, w.capacity_, a⟩, w.size_)

/-- The vector after the calls `Insert(e)` for the elements of the list, from the left. -/
def insertAll : List T → Vector T → Option (Vector T)
  | [], v => some v
  | e :: es, v =>
      match v.Insert e with
      | none => none
      | some (w, _) => insertAll es w

variable [DecidableEq T]

/-- The `while` loop of `Uniquify`, for `n` more values of `j`; yields the buffer and `i`. -/
def UniquifyLoop : List T → Nat → Nat → Nat → Option (List T × Nat)
  | a, i, _, 0 => some (a, i)
  | a, i, j, n + 1 =>
      match a[i]?, a[j]? with
      | some x, some y =>
          if x ≠ y then
            match writeAt a (i + 1) y with
            | none => none
            | some a' => UniquifyLoop a' (i + 1) (j + 1) n
          else UniquifyLoop a i (j + 1) n
      | _, _ => none

/-- Embeds `Uniquify`: the loop runs for `j = 1, ..., size - 1`, then `size_ = ++i`, `Shrink()`
and `return j - i`.  Yields the new state and the returned number. -/
def Uniquify (v : Vector T) : Option (Vector T × Int) :=
  match UniquifyLoop v.element_ 0 1 (v.size_ - 1) with
  | none => none
  | some (a, i) =>
      match Shrink ⟨i + 1, v.capacity_, a⟩ with
      | none => none
      | some w => some (w, ((1 + (v.size_ - 1) : Nat) : Int) - ((i + 1 : Nat) : Int))

end Vector

/-! ### Searching a sorted `Vector`

`BinSearch` and `FibSearch` are embedded.  `Search(e, lo, hi)`, which is to draw one of the two
at random, is not: its body declares the engine `std::default_random_engine e` under the name
of its parameter `e`, so the statement `return u(e) ? BinSearch(e, lo, hi) : FibSearch(e, lo, hi)`
has no value to search for, and the function is ill-formed as it stands. -/

/-- Embeds the fields of `Fibonacci`. -/
structure Fibonacci where
  /-- The number of elements of the series. -/
  size_ : Nat
  /-- The series. -/
  fib_ : List Int
  /-- The current position. -/
  position_ : Nat
deriving DecidableEq

namespace Fibonacci

/-- The `for` loop of the constructor, for `n` more elements: `fib_[i] = fib_[i - 1] +
fib_[i - 2]`, an `int` addition, which is `none` when the sum exceeds `INT_MAX`. -/
def fill : List Int → Nat → Option (List Int)
  | f, 0 => some f
  | f, n + 1 =>
      match f[f.length - 1]?, f[f.length - 2]? with
      | some x, some y => if x + y ≤ 2147483647 then fill (f ++ [x + y]) n else none
      | _, _ => none

/-- Embeds the constructor `Fibonacci(int s)`. -/
def new (s : Int) : Option Fibonacci :=
  match fill [0, 1] ((if s ≤ 2 then 2 else s.toNat) - 2) with
  | none => none
  | some f => some ⟨if s ≤ 2 then 2 else s.toNat, f, (if s ≤ 2 then 2 else s.toNat) - 1⟩

/-- Embeds `Get`. -/
def Get (f : Fibonacci) : Option Int := f.fib_[f.position_]?

/-- Embeds `Prev`. -/
def Prev (f : Fibonacci) : Fibonacci :=
  if f.position_ = 0 then f else ⟨f.size_, f.fib_, f.position_ - 1⟩

/-- The loop `while (fib.Get() > d) fib.Prev();` by recursion on the position; at position 0
`Prev` changes nothing, and the loop would not end. -/
def PrevWhile (size : Nat) (fib : List Int) (d : Int) : Nat → Option Fibonacci
  | 0 =>
      match fib[0]? with
      | none => none
      | some x => if x > d then none else some ⟨size, fib, 0⟩
  | p + 1 =>
      match fib[p + 1]? with
      | none => none
      | some x => if x > d then PrevWhile size fib d p else some ⟨size, fib, p + 1⟩

end Fibonacci

namespace Vector

variable {T : Type} [LinearOrder T]

/-- The `while` loop of `BinSearch`; yields `lo - 1`. -/
def BinSearchLoop (a : List T) (e : T) : Nat → Nat → Nat → Option Int
  | 0, _, _ => none
  | fuel + 1, lo, hi =>
      if lo < hi then
        match a[(lo + hi) / 2]? with
        | none => none
        | some x =>
            if e < x then BinSearchLoop a e fuel lo ((lo + hi) / 2)
            else BinSearchLoop a e fuel ((lo + hi) / 2 + 1) hi
      else some ((lo : Int) - 1)

/-- Embeds `BinSearch`. -/
def BinSearch (fuel : Nat) (v : Vector T) (e : T) (lo hi : Nat) : Option Int :=
  if lo > v.GetSize ∨ hi > v.GetSize then none
  else BinSearchLoop v.element_ e fuel lo hi

/-- The outer `while` loop of `FibSearch`.  The result `some none` says that the loop was left
with `lo >= hi`: the function then ends without a `return` statement. -/
def FibSearchLoop (a : List T) (e : T) : Nat → Fibonacci → Nat → Nat → Option (Option Int)
  | 0, _, _, _ => none
  | fuel + 1, fib, lo, hi =>
      if lo < hi then
        match Fibonacci.PrevWhile fib.size_ fib.fib_ ((hi : Int) - lo) fib.position_ with
        | none => none
        | some fib' =>
            match fib'.Get with
            | none => none
            | some g =>
                if (lo : Int) + g - 1 < 0 then none
                else
                  match a[((lo : Int) + g - 1).toNat]? with
                  | none => none
                  | some x =>
                      if e < x then FibSearchLoop a e fuel fib' lo ((lo : Int) + g - 1).toNat
                      else if e > x then
                        FibSearchLoop a e fuel fib' (((lo : Int) + g - 1).toNat + 1) hi
                      else some (some ((lo : Int) + g - 1))
      else some none

/-- Embeds `FibSearch`. -/
def FibSearch (fuel : Nat) (v : Vector T) (e : T) (lo hi : Nat) : Option (Option Int) :=
  if lo > v.GetSize ∨ hi > v.GetSize then none
  else
    match Fibonacci.new ((hi : Int) - lo) with
    | none => none
    | some fib => FibSearchLoop v.element_ e fuel fib lo hi

end Vector

/-- The elements of ranks `[lo, hi)`. -/
def segment {T : Type} (a : List T) (lo hi : Nat) : List T := (a.take hi).drop lo

/-- The cells of ranks `[lo, hi)` that hold a value are in non-decreasing order. -/
def SortedOn {T : Type} [LinearOrder T] (a : List T) (lo hi : Nat) : Prop :=
  ∀ i j x y, lo ≤ i → i ≤ j → j < hi → a[i]? = some x → a[j]? = some y → x ≤ y

/-- Two arrays of the same length agree outside the ranks `[lo, hi)`. -/
def SameOutside {T : Type} (a b : List T) (lo hi : Nat) : Prop :=
  a.length = b.length ∧ ∀ i, i < lo ∨ hi ≤ i → a[i]? = b[i]?

/-- Every cell of ranks `[lo, mid)` that holds a value holds one not greater than that of any
cell of ranks `[mid, hi)`. -/
def AllLe {T : Type} [LinearOrder T] (a : List T) (lo mid hi : Nat) : Prop :=
  ∀ i j x y, lo ≤ i → i < mid → mid ≤ j → j < hi → a[i]? = some x → a[j]? = some y → x ≤ y

/-- What is asked of the series of a `Fibonacci` object: the current position is inside the
series and not 0, the element at position 1 is 1 and so is every element from position 1 on
at least. -/
def Fibonacci.ok : Option Fibonacci → Bool
  | none => false
  | some f =>
      decide (1 ≤ f.position_) && decide (f.position_ < f.fib_.length) &&
        decide (f.fib_[1]? = some 1) && (f.fib_.drop 1).all (fun x => decide (1 ≤ x))

/-! ## PriorityQueueArrayHeap

The fields are those of the base class `ArrayForHeap<T>`, embedded as those of `Vector<T>`.
An index is a natural number; `Parent(0)` is 0 in the source too, where `(0 - 1) / 2`
truncates to 0. -/

/-- Embeds the fields of `PriorityQueueArrayHeap<T>`. -/
structure PriorityQueueArrayHeap (T : Type) where
  /-- The number of elements. -/
  size_ : Nat
  /-- The number of cells of the buffer. -/
  capacity_ : Nat
  /-- The cells of the buffer that hold a value. -/
  element_ : List T
deriving DecidableEq

namespace PriorityQueueArrayHeap

variable {T : Type}

/-- Embeds the default constructor, that of `ArrayForHeap(11, 0, 0)`. -/
def new : PriorityQueueArrayHeap T := ⟨0, 11, []⟩

/-- Embeds `GetSize`. -/
def GetSize (h : PriorityQueueArrayHeap T) : Nat := h.size_

/-- Embeds `IsEmpty`. -/
def IsEmpty (h : PriorityQueueArrayHeap T) : Bool := decide (h.GetSize = 0)

/-- Embeds `InHeap` for an index that is not negative. -/
def InHeap (h : PriorityQueueArrayHeap T) (i : Nat) : Bool := decide (i < h.GetSize)

/-- Embeds `Parent` for an index that is not negative. -/
def Parent (i : Nat) : Nat := (i - 1) / 2

/-- Embeds `LastInternal`: `Parent(GetSize() - 1)` in `int` arithmetic, where the division
truncates towards zero. -/
def LastInternal (h : PriorityQueueArrayHeap T) : Int := Int.tdiv ((h.GetSize : Int) - 1 - 1) 2

/-- Embeds `LChild`. -/
def LChild (i : Nat) : Nat := 2 * i + 1

/-- Embeds `RChild`. -/
def RChild (i : Nat) : Nat := 2 * i + 2

/-- Embeds `HasParent`. -/
def HasParent (i : Nat) : Bool := decide (i > 0)

/-- Embeds `ArrayForHeap::Expand`. -/
def Expand (h : PriorityQueueArrayHeap T) : Option (PriorityQueueArrayHeap T) :=
  if h.GetSize < h.capacity_ then some h
  else if h.element_.length < h.GetSize then none
  else some ⟨h.size_, 2 * (if h.capacity_ < 11 then 11 else h.capacity_),
    h.element_.take h.GetSize⟩

variable [LinearOrder T]

/-- Embeds `GetHigher`. -/
def GetHigher (h : PriorityQueueArrayHeap T) (i j : Nat) : Option Nat :=
  match h.element_[i]?, h.element_[j]? with
  | some x, some y => some (if x < y then j else i)
  | _, _ => none

/-- Embeds `GetMaxOfThree`. -/
def GetMaxOfThree (h : PriorityQueueArrayHeap T) (i : Nat) : Option Nat :=
  if h.InHeap (RChild i) = true then
    match h.GetHigher i (LChild i) with
    | none => none
    | some m => h.GetHigher m (RChild i)
  else if h.InHeap (LChild i) = true then h.GetHigher i (LChild i)
  else some i

/-- The `while` loop of `PercolateDown`; yields the state and the final index. -/
def PercolateDownLoop :
    Nat → PriorityQueueArrayHeap T → Nat → Nat → Option (PriorityQueueArrayHeap T × Nat)
  | 0, _, _, _ => none
  | fuel + 1, h, i, j =>
      if i ≠ j then
        match h.element_[i]?, h.element_[j]? with
        | some x, some y =>
            match GetMaxOfThree ⟨h.size_, h.capacity_, (h.element_.set i y).set j x⟩ j with
            | none => none
            | some j' =>
                PercolateDownLoop fuel ⟨h.size_, h.capacity_, (h.element_.set i y).set j x⟩ j j'
        | _, _ => none
      else some (h, i)

/-- Embeds `PercolateDown`. -/
def PercolateDown (fuel : Nat) (h : PriorityQueueArrayHeap T) (i : Nat) :
    Option (PriorityQueueArrayHeap T × Nat) :=
  match h.GetMaxOfThree i with
  | none => none
  | some j => PercolateDownLoop fuel h i j

/-- Embeds `PercolateUp`, a `while` loop. -/
def PercolateUp : Nat → PriorityQueueArrayHeap T → Nat → Option (PriorityQueueArrayHeap T × Nat)
  | 0, _, _ => none
  | fuel + 1, h, i =>
      if HasParent i = true then
        match h.element_[i]?, h.element_[Parent i]? with
        | some x, some y =>
            if x < y then some (h, i)
            else PercolateUp fuel ⟨h.size_, h.capacity_, (h.element_.set i y).set (Parent i) x⟩
              (Parent i)
        | _, _ => none
      else some (h, i)

/-- The `for` loop of `Heapify` from the index `k - 1` down; it ends at the index -1, which
is not in the heap. -/
def HeapifyLoop (fuel : Nat) : PriorityQueueArrayHeap T → Nat → Option (PriorityQueueArrayHeap T)
  | h, 0 => some h
  | h, k + 1 =>
      if h.InHeap k = true then
        match h.PercolateDown fuel k with
        | none => none
        | some (h', _) => HeapifyLoop fuel h' k
      else some h

/-- Embeds `Heapify`. -/
def Heapify (fuel : Nat) (h : PriorityQueueArrayHeap T) : Option (PriorityQueueArrayHeap T) :=
  match h.LastInternal with
  | Int.ofNat i => HeapifyLoop fuel h (i + 1)
  | Int.negSucc _ => some h

/-- Embeds the constructor `PriorityQueueArrayHeap(T* A, int n)`: `CopyFrom(A, 0, n)`, then
`Heapify()`. -/
def ofArray (fuel : Nat) (A : List T) (n : Nat) : Option (PriorityQueueArrayHeap T) :=
  if A.length < n then none else Heapify fuel ⟨n, 2 * n, A.take n⟩

/-- Embeds `Insert`: `ArrayForHeap::Insert(e)`, which writes `e` to the cell of index `size`
after `Expand()`, then `PercolateUp(GetSize() - 1)`. -/
def Insert (fuel : Nat) (h : PriorityQueueArrayHeap T) (e : T) :
    Option (PriorityQueueArrayHeap T) :=
  match h.Expand with
  | none => none
  | some w =>
      match storeAt w.element_ w.size_ e with
      | none => none
      | some a =>
          match PercolateUp fuel ⟨w.size_ + 1, w.capacity_, a⟩ (w.size_ + 1 - 1) with
          | none => none
          | some (h', _) => some h'

/-- Embeds `GetMax`. -/
def GetMax (h : PriorityQueueArrayHeap T) : Option T := h.element_[0]?

/-- Embeds `DeleteMax`; yields the state and the element returned. -/
def DeleteMax (fuel : Nat) (h : PriorityQueueArrayHeap T) :
    Option (PriorityQueueArrayHeap T × T) :=
  if h.GetSize = 0 then
    match h.element_[0]? with
    | none => none
    | some x => some (h, x)
  else
    match h.element_[0]?, h.element_[h.size_ - 1]? with
    | some max, some last =>
        match PercolateDown fuel ⟨h.size_ - 1, h.capacity_, h.element_.set 0 last⟩ 0 with
        | none => none
        | some (h', _) => some (h', max)
    | _, _ => none

/-- The elements stored. -/
def contents (h : PriorityQueueArrayHeap T) : List T := h.element_.take h.size_

end PriorityQueueArrayHeap

/-- States of a `PriorityQueueArrayHeap` built by a constructor and calls of `Insert` and
`DeleteMax`. -/
inductive PriorityQueueArrayHeap.Reachable {T : Type} [LinearOrder T] :
    PriorityQueueArrayHeap T → Prop
  | new : PriorityQueueArrayHeap.Reachable PriorityQueueArrayHeap.new
  | ofArray (fuel : Nat) (A : List T) (n : Nat) {h : PriorityQueueArrayHeap T} :
      PriorityQueueArrayHeap.ofArray fuel A n = some h → PriorityQueueArrayHeap.Reachable h
  | insert (fuel : Nat) (e : T) {h h' : PriorityQueueArrayHeap T} :
      PriorityQueueArrayHeap.Reachable h → h.Insert fuel e = some h' →
      PriorityQueueArrayHeap.Reachable h'
  | deleteMax (fuel : Nat) (m : T) {h h' : PriorityQueueArrayHeap T} :
      PriorityQueueArrayHeap.Reachable h → h.DeleteMax fuel = some (h', m) →
      PriorityQueueArrayHeap.Reachable h'

/-- The heap order for the cells whose parent has index `k` at least: such a cell in the heap
is not greater than its parent. -/
def PriorityQueueArrayHeap.HeapFrom {T : Type} [LinearOrder T] (a : List T) (n k : Nat) : Prop :=
  ∀ c x y, 0 < c → c < n → k ≤ PriorityQueueArrayHeap.Parent c → a[c]? = some x →
    a[PriorityQueueArrayHeap.Parent c]? = some y → x ≤ y

/-- The elements are in cells that hold a value and in heap order. -/
def PriorityQueueArrayHeap.IsHeap {T : Type} [LinearOrder T] (h : PriorityQueueArrayHeap T) :
    Prop :=
  h.size_ ≤ h.element_.length ∧ PriorityQueueArrayHeap.HeapFrom h.element_ h.size_ 0

/-! ### Sorting a `Vector` -/

namespace Vector

variable {T : Type} [LinearOrder T]

/-- The `for` loop of `BubbleSort`, for `n` more values of `i`; yields the buffer and
`uncertain_upper_bound`. -/
def BubblePass : List T → Nat → Nat → Nat → Option (List T × Nat)
  | a, _, 0, u => some (a, u)
  | a, i, n + 1, u =>
      match a[i]?, a[i + 1]? with
      | some x, some y =>
          if x > y then BubblePass ((a.set i y).set (i + 1) x) (i + 1) n i
          else BubblePass a (i + 1) n u
      | _, _ => none

/-- The `while` loop of `BubbleSort`. -/
def BubbleLoop : Nat → List T → Nat → Nat → Option (List T)
  | 0, _, _, _ => none
  | fuel + 1, a, lo, upper_bound =>
      if lo < upper_bound then
        match BubblePass a lo (upper_bound - lo) 0 with
        | none => none
        | some (a', u) => BubbleLoop fuel a' lo u
      else some a

/-- Embeds `BubbleSort`. -/
def BubbleSort (fuel : Nat) (v : Vector T) (lo hi : Nat) : Option (Vector T) :=
  if lo > v.GetSize ∨ hi > v.GetSize then none
  else
    match BubbleLoop fuel v.element_ lo (hi - 1) with
    | none => none
    | some a => some ⟨v.size_, v.capacity_, a⟩

/-- The inner `for` loop of `SelectionSort`, for `n` more values of `i`; yields `max`. -/
def SelectionMax (a : List T) : Nat → Nat → Nat → Option Nat
  | _, 0, max => some max
  | i, n + 1, max =>
      match a[i]?, a[max]? with
      | some x, some m => SelectionMax a (i + 1) n (if x ≥ m then i else max)
      | _, _ => none

/-- The outer `for` loop of `SelectionSort`, for `n` more values of `upper_bound`, the next
one being `lo + n`. -/
def SelectionLoop : List T → Nat → Nat → Option (List T)
  | a, _, 0 => some a
  | a, lo, n + 1 =>
      match SelectionMax a (lo + 1) (lo + (n + 1) - lo) lo with
      | none => none
      | some max =>
          if max = lo + (n + 1) then SelectionLoop a lo n
          else
            match a[lo + (n + 1)]?, a[max]? with
            | some x, some m => SelectionLoop ((a.set (lo + (n + 1)) m).set max x) lo n
            | _, _ => none

/-- Embeds `SelectionSort`. -/
def SelectionSort (v : Vector T) (lo hi : Nat) : Option (Vector T) :=
  if lo > v.GetSize ∨ hi > v.GetSize then none
  else
    match SelectionLoop v.element_ lo (hi - 1 - lo) with
    | none => none
    | some a => some ⟨v.size_, v.capacity_, a⟩

/-- The `for` loop of `Merge`: `B` is the copy of the first run, the second run `C` begins at
`mi` and has `lc` elements, `A` begins at `lo`. -/
def MergeLoop (B : List T) (lo mi lc : Nat) : Nat → List T → Nat → Nat → Nat → Option (List T)
  | 0, _, _, _, _ => none
  | fuel + 1, a, i, j, k =>
      if j < B.length then
        match B[j]? with
        | none => none
        | some b =>
            if k ≥ lc then
              match writeAt a (lo + i) b with
              | none => none
              | some a' => MergeLoop B lo mi lc fuel a' (i + 1) (j + 1) k
            else
              match a[mi + k]? with
              | none => none
              | some c =>
                  if b ≤ c then
                    match writeAt a (lo + i) b with
                    | none => none
                    | some a' => MergeLoop B lo mi lc fuel a' (i + 1) (j + 1) k
                  else
                    match writeAt a (lo + i) c with
                    | none => none
                    | some a' => MergeLoop B lo mi lc fuel a' (i + 1) j (k + 1)
      else some a

/-- Embeds `Merge`. -/
def Merge (fuel : Nat) (a : List T) (lo mi hi : Nat) : Option (List T) :=
  if a.length < mi then none
  else MergeLoop ((a.take mi).drop lo) lo mi (hi - mi) fuel a 0 0 0

/-- Embeds `MergeSort` on the buffer, `size` being `GetSize()`. -/
def MergeSortRec (size : Nat) : Nat → List T → Nat → Nat → Option (List T)
  | 0, _, _, _ => none
  | fuel + 1, a, lo, hi =>
      if lo > size ∨ hi > size then none
      else if hi - lo ≤ 1 then some a
      else
        match MergeSortRec size fuel a lo ((lo + hi) / 2) with
        | none => none
        | some a1 =>
            match MergeSortRec size fuel a1 ((lo + hi) / 2) hi with
            | none => none
            | some a2 => Merge (fuel + 1) a2 lo ((lo + hi) / 2) hi

/-- Embeds `MergeSort`. -/
def MergeSort (fuel : Nat) (v : Vector T) (lo hi : Nat) : Option (Vector T) :=
  match MergeSortRec v.GetSize fuel v.element_ lo hi with
  | none => none
  | some a => some ⟨v.size_, v.capacity_, a⟩

/-- The loop `while ((lo < hi) && (pivot <= element_[hi])) hi--;`; yields `hi`. -/
def PartitionDown (a : List T) (pivot : T) (lo : Nat) : Nat → Option Nat
  | 0 => some 0
  | hi + 1 =>
      if lo < hi + 1 then
        match a[hi + 1]? with
        | none => none
        | some x => if pivot ≤ x then PartitionDown a pivot lo hi else some (hi + 1)
      else some (hi + 1)

/-- The loop `while ((lo < hi) && (pivot >= element_[lo])) lo++;`; yields `lo`. -/
def PartitionUp (a : List T) (pivot : T) (hi : Nat) : Nat → Nat → Option Nat
  | 0, _ => none
  | fuel + 1, lo =>
      if lo < hi then
        match a[lo]? with
        | none => none
        | some x => if pivot ≥ x then PartitionUp a pivot hi fuel (lo + 1) else some lo
      else some lo

/-- The outer `while` loop of `GetPartition`; yields the buffer and `lo`. -/
def PartitionLoop (pivot : T) : Nat → List T → Nat → Nat → Option (List T × Nat)
  | 0, _, _, _ => none
  | fuel + 1, a, lo, hi =>
      if lo < hi then
        match PartitionDown a pivot lo hi with
        | none => none
        | some hi' =>
            match a[hi']? with
            | none => none
            | some x =>
                match writeAt a lo x with
                | none => none
                | some a1 =>
                    match PartitionUp a1 pivot hi' (fuel + 1) lo with
                    | none => none
                    | some lo' =>
                        match a1[lo']? with
                        | none => none
                        | some y =>
                            match writeAt a1 hi' y with
                            | none => none
                            | some a2 => PartitionLoop pivot fuel a2 lo' hi'
      else some (a, lo)

/-- Embeds `GetPartition`, the offset drawn by `u(e)` being `rd`; yields the buffer and the
rank of the pivot. -/
def GetPartition (fuel : Nat) (rd : Nat) (a : List T) (lo hi : Nat) : Option (List T × Nat) :=
  match a[lo]?, a[lo + rd]? with
  | some x, some p =>
      match PartitionLoop p fuel ((a.set lo p).set (lo + rd) x) lo (hi - 1) with
      | none => none
      | some (a', mi) =>
          match writeAt a' mi p with
          | none => none
          | some a2 => some (a2, mi)
  | _, _ => none

/-- Embeds `QuickSort` on the buffer, `size` being `GetSize()`; `pick lo hi`, reduced to the
interval `[0, hi - lo - 1]` of the distribution, is the offset drawn in `GetPartition(lo, hi)`. -/
def QuickSortRec (pick : Nat → Nat → Nat) (size : Nat) : Nat → List T → Nat → Nat → Option (List T)
  | 0, _, _, _ => none
  | fuel + 1, a, lo, hi =>
      if lo > size ∨ hi > size then none
      else if hi - lo ≤ 1 then some a
      else
        match GetPartition (fuel + 1) (pick lo hi % (hi - lo)) a lo hi with
        | none => none
        | some (a1, mi) =>
            match QuickSortRec pick size fuel a1 lo mi with
            | none => none
            | some a2 => QuickSortRec pick size fuel a2 (mi + 1) hi

/-- Embeds `QuickSort`. -/
def QuickSort (fuel : Nat) (pick : Nat → Nat → Nat) (v : Vector T) (lo hi : Nat) :
    Option (Vector T) :=
  match QuickSortRec pick v.GetSize fuel v.element_ lo hi with
  | none => none
  | some a => some ⟨v.size_, v.capacity_, a⟩

/-- The `while` loop of `HeapSort`. -/
def HeapSortLoop : Nat → PriorityQueueArrayHeap T → List T → Nat → Option (List T)
  | 0, _, _, _ => none
  | fuel + 1, heap, a, hi =>
      if heap.IsEmpty = false then
        match heap.DeleteMax (fuel + 1) with
        | none => none
        | some (heap', m) =>
            if hi = 0 then none
            else
              match writeAt a (hi - 1) m with
              | none => none
              | some a' => HeapSortLoop fuel heap' a' (hi - 1)
      else some a

/-- Embeds `HeapSort`; the heap is built from the array `element_ + lo` of `hi - lo` elements,
and a negative number of elements makes the allocation fail. -/
def HeapSort (fuel : Nat) (v : Vector T) (lo hi : Nat) : Option (Vector T) :=
  if lo > v.GetSize ∨ hi > v.GetSize then none
  else if hi < lo then none
  else
    match PriorityQueueArrayHeap.ofArray fuel (v.element_.drop lo) (hi - lo) with
    | none => none
    | some heap =>
        match HeapSortLoop fuel heap v.element_ hi with
        | none => none
        | some a => some ⟨v.size_, v.capacity_, a⟩

/-- Embeds `Sort(lo, hi)`, the value drawn by `u(e)` being `choice` (the name `Sort` is
reserved). -/
def SortRange (fuel : Nat) (choice : Fin 5) (pick : Nat → Nat → Nat) (v : Vector T) (lo hi : Nat) :
    Option (Vector T) :=
  if lo > v.GetSize ∨ hi > v.GetSize then none
  else
    match choice with
    | 0 => BubbleSort fuel v lo hi
    | 1 => SelectionSort v lo hi
    | 2 => MergeSort fuel v lo hi
    | 3 => HeapSort fuel v lo hi
    | 4 => QuickSort fuel pick v lo hi

end Vector

/-- The `Vector<int>` of the demo `main` before `Sort()`: 1, 2, 3, 4, 5, 6, 7, 11, 10, 9, 8 in
a buffer of 22 cells, of which five more hold values written earlier. -/
def vecMain : Vector Int := ⟨11, 22, [1, 2, 3, 4, 5, 6, 7, 11, 10, 9, 8, 12, 11, 10, 9, 8]⟩

/-- The `PriorityQueueArrayHeap<int>` after `Insert(1)`, `Insert(2)`, `Insert(3)`. -/
def pq123 : PriorityQueueArrayHeap Int := ⟨3, 11, [3, 1, 2]⟩

/-! ## HashMapDictionary

The bucket array `ht_` is a list of optional entries, `nullptr` being `none`; `capacity_` is
the number of its cells.  An entry `Entry<K, V>` is a pair.  `HashCode` is a parameter `hc`:
the source overloads it for `char`, `int`, `long long` and `char[]`, and `hcInt` is the one
for `int` with a `size_t` of 64 bits.

`BitMap::Expand` only appends bytes that are 0, which `Test` cannot tell from absent ones:
the bitmap is embedded by the list of its bits, an absent bit being read as 0. -/

/-- Embeds the fields of `BitMap`: the bits of `map_`, the most significant bit of a byte
first. -/
structure BitMap where
  /-- The bits. -/
  bits : List Bool
deriving DecidableEq

namespace BitMap

/-- Embeds `Init(n)`: `(n + 7) / 8` bytes, all 0. -/
def Init (n : Nat) : BitMap := ⟨List.replicate (8 * ((n + 7) / 8)) false⟩

/-- Embeds `Expand(k)`: when `k` is beyond the bits, the map of `Init(2 * k)` receives the old
bytes. -/
def Expand (b : BitMap) (k : Nat) : BitMap :=
  if k < b.bits.length then b
  else ⟨b.bits ++ List.replicate (8 * ((2 * k + 7) / 8) - b.bits.length) false⟩

/-- Embeds `Set(k)`. -/
def Set (b : BitMap) (k : Nat) : BitMap := ⟨(b.Expand k).bits.set k true⟩

/-- Embeds `Test(k)`. -/
def Test (b : BitMap) (k : Nat) : Bool := (b.Expand k).bits.getD k false

end BitMap

/-- Embeds the fields of `HashMapDictionary<K, V>`. -/
structure HashMapDictionary (K V : Type) where
  /-- The number of entries. -/
  size_ : Int
  /-- The bucket array, of `capacity_` cells. -/
  ht_ : List (Option (K × V))
  /-- The marks of lazy removal. -/
  lazy_removal_ : BitMap
deriving DecidableEq

/-- Embeds `HashCode(int k)`, the conversion to a `size_t` of 64 bits. -/
def hcInt (k : Int) : Nat := (k % 18446744073709551616).toNat

namespace HashMapDictionary

variable {K V : Type}

/-- The field `capacity_`. -/
def capacity_ (m : HashMapDictionary K V) : Nat := m.ht_.length

/-- Embeds `GetSize`. -/
def GetSize (m : HashMapDictionary K V) : Int := m.size_

/-- Embeds `IsLazilyRemoved`. -/
def IsLazilyRemoved (m : HashMapDictionary K V) (x : Nat) : Bool := m.lazy_removal_.Test x

/-- The greatest `j` among `k, k - 1, ..., 0` whose square is at most `n`. -/
def sqrtFrom (n : Nat) : Nat → Nat
  | 0 => 0
  | k + 1 => if (k + 1) * (k + 1) ≤ n then k + 1 else sqrtFrom n k

/-- The value of `temp = sqrt(i)`, an `int`: the integer part of the square root. -/
def sqrtInt (i : Nat) : Nat := sqrtFrom i i

/-- The loop of `GetPrime`: the first `i` from the given one on that no `j` from 2 to the
integer part of its square root divides. -/
def GetPrimeLoop : Nat → Nat → Option Nat
  | 0, _ => none
  | fuel + 1, i =>
      if (List.range' 2 (sqrtInt i - 1)).all (fun j => decide (i % j ≠ 0)) then some i
      else GetPrimeLoop fuel (i + 1)

/-- Embeds `GetPrime`. -/
def GetPrime (fuel : Nat) (c : Nat) : Option Nat := GetPrimeLoop fuel c

/-- Embeds the constructor `HashMapDictionary(int c)`. -/
def new (fuel : Nat) (c : Nat) : Option (HashMapDictionary K V) :=
  match GetPrime fuel c with
  | none => none
  | some p => some ⟨0, List.replicate p none, BitMap.Init p⟩

variable [DecidableEq K]

/-- The `while` loop of `ProbeForHit`. -/
def ProbeForHitLoop (m : HashMapDictionary K V) (k : K) : Nat → Nat → Option Nat
  | 0, _ => none
  | fuel + 1, r =>
      match m.ht_[r]? with
      | none => none
      | some (some e) =>
          if e.1 ≠ k then ProbeForHitLoop m k fuel ((r + 1) % m.capacity_) else some r
      | some none =>
          if m.IsLazilyRemoved r = true then ProbeForHitLoop m k fuel ((r + 1) % m.capacity_)
          else some r

/-- Embeds `ProbeForHit`; the remainder by a capacity 0 is undefined. -/
def ProbeForHit (hc : K → Nat) (fuel : Nat) (m : HashMapDictionary K V) (k : K) : Option Nat :=
  if m.capacity_ = 0 then none else ProbeForHitLoop m k fuel (hc k % m.capacity_)

/-- The `while` loop of `ProbeForFree`. -/
def ProbeForFreeLoop (m : HashMapDictionary K V) : Nat → Nat → Option Nat
  | 0, _ => none
  | fuel + 1, r =>
      match m.ht_[r]? with
      | none => none
      | some (some _) => ProbeForFreeLoop m fuel ((r + 1) % m.capacity_)
      | some none => some r

/-- Embeds `ProbeForFree`. -/
def ProbeForFree (hc : K → Nat) (fuel : Nat) (m : HashMapDictionary K V) (k : K) : Option Nat :=
  if m.capacity_ = 0 then none else ProbeForFreeLoop m fuel (hc k % m.capacity_)

/-- The `for` loop of `Rehash` over the old buckets, `put` being `Put`. -/
def RehashLoop (put : HashMapDictionary K V → K → V → Option (HashMapDictionary K V × Bool)) :
    List (Option (K × V)) → HashMapDictionary K V → Option (HashMapDictionary K V)
  | [], m => some m
  | none :: rest, m => RehashLoop put rest m
  | some e :: rest, m =>
      match put m e.1 e.2 with
      | none => none
      | some (m', _) => RehashLoop put rest m'

/-- Embeds `Rehash`, `put` being `Put`: a bucket array of `GetPrime(2 * capacity_)` cells,
a new bitmap, `size_ = 0`, and every old entry put again. -/
def RehashWith (put : HashMapDictionary K V → K → V → Option (HashMapDictionary K V × Bool))
    (fuel : Nat) (m : HashMapDictionary K V) : Option (HashMapDictionary K V) :=
  match GetPrime fuel (2 * m.capacity_) with
  | none => none
  | some p => RehashLoop put m.ht_ ⟨0, List.replicate p none, BitMap.Init p⟩

/-- Embeds `Put`; yields the state and the flag returned.  The calls of `Put` that `Rehash`
makes have one unit of fuel less. -/
def Put (hc : K → Nat) : Nat → HashMapDictionary K V → K → V →
    Option (HashMapDictionary K V × Bool)
  | 0, _, _, _ => none
  | fuel + 1, m, k, v =>
      match ProbeForHit hc (fuel + 1) m k with
      | none => none
      | some r =>
          match m.ht_[r]? with
          | none => none
          | some (some _) => some (m, false)
          | some none =>
              match ProbeForFree hc (fuel + 1) m k with
              | none => none
              | some r' =>
                  if r' < m.ht_.length then
                    if (m.size_ + 1) * 2 > (m.capacity_ : Int) then
                      match RehashWith (Put hc fuel) (fuel + 1)
                          ⟨m.size_ + 1, m.ht_.set r' (some (k, v)), m.lazy_removal_⟩ with
                      | none => none
                      | some m' => some (m', true)
                    else some (⟨m.size_ + 1, m.ht_.set r' (some (k, v)), m.lazy_removal_⟩, true)
                  else none

/-- Embeds `Rehash`. -/
def Rehash (hc : K → Nat) (fuel : Nat) (m : HashMapDictionary K V) :
    Option (HashMapDictionary K V) :=
  RehashWith (Put hc fuel) (fuel + 1) m

/-- Embeds `Get`; `some none` is the null pointer. -/
def Get (hc : K → Nat) (fuel : Nat) (m : HashMapDictionary K V) (k : K) : Option (Option V) :=
  match ProbeForHit hc fuel m k with
  | none => none
  | some r =>
      match m.ht_[r]? with
      | none => none
      | some (some e) => some (some e.2)
      | some none => some none

/-- Embeds `Remove`; yields the state and the flag returned. -/
def Remove (hc : K → Nat) (fuel : Nat) (m : HashMapDictionary K V) (k : K) :
    Option (HashMapDictionary K V × Bool) :=
  match ProbeForHit hc fuel m k with
  | none => none
  | some r =>
      match m.ht_[r]? with
      | none => none
      | some none => some (m, false)
      | some (some _) => some (⟨m.size_ - 1, m.ht_.set r none, m.lazy_removal_.Set r⟩, true)

/-- The entry `(k, v)` is in a bucket. -/
def Stored (m : HashMapDictionary K V) (k : K) (v : V) : Prop := some (k, v) ∈ m.ht_

/-- The bucket `r` ends a search: it is empty and not marked as lazily removed. -/
def Vacant (m : HashMapDictionary K V) (r : Nat) : Prop :=
  m.ht_[r]? = some none ∧ m.IsLazilyRemoved r = false

/-- What every reachable state satisfies: `size_` counts the entries, the bitmap has a bit for
every bucket, no key is in two buckets, and the probe sequence of a stored key reaches its bucket before any bucket that is
empty and not marked. -/
def Inv (hc : K → Nat) (m : HashMapDictionary K V) : Prop :=
  m.size_ = (m.ht_.countP Option.isSome : Int) ∧
  m.capacity_ ≤ m.lazy_removal_.bits.length ∧
  (∀ (i j : Nat) (k : K) (v v' : V), m.ht_[i]? = some (some (k, v)) →
    m.ht_[j]? = some (some (k, v')) → i = j) ∧
  (∀ (i : Nat) (k : K) (v : V), m.ht_[i]? = some (some (k, v)) →
    ∃ d, (hc k + d) % m.capacity_ = i ∧ ∀ d', d' < d → ¬ m.Vacant ((hc k + d') % m.capacity_))

end HashMapDictionary

/-- States of a `HashMapDictionary` reachable from the constructor by `Put` and `Remove`. -/
inductive HashMapDictionary.Reachable {K V : Type} [DecidableEq K] (hc : K → Nat) :
    HashMapDictionary K V → Prop
  | new (fuel c : Nat) {m : HashMapDictionary K V} :
      HashMapDictionary.new fuel c = some m → HashMapDictionary.Reachable hc m
  | put (fuel : Nat) (k : K) (v : V) (b : Bool) {m m' : HashMapDictionary K V} :
      HashMapDictionary.Reachable hc m → HashMapDictionary.Put hc fuel m k v = some (m', b) →
      HashMapDictionary.Reachable hc m'
  | remove (fuel : Nat) (k : K) (b : Bool) {m m' : HashMapDictionary K V} :
      HashMapDictionary.Reachable hc m → HashMapDictionary.Remove hc fuel m k = some (m', b) →
      HashMapDictionary.Reachable hc m'

end DSA

namespace DSA

/-! ## HashMapDictionary: what the claims speak of -/

/-- The call `Get(k)` yields `v` in the state `m`: with enough fuel it returns a pointer to
`v`, and whenever it returns it returns that. -/
def HashMapDictionary.Yields {K V : Type} [DecidableEq K] (hc : K → Nat)
    (m : HashMapDictionary K V) (k : K) (v : V) : Prop :=
  (∃ f0, ∀ fuel, f0 ≤ fuel → HashMapDictionary.Get hc fuel m k = some (some v)) ∧
    ∀ fuel res, HashMapDictionary.Get hc fuel m k = some res → res = some v

/-- The `HashMapDictionary<int, int>` of capacity 11 after `Put(k, 10 * k)` for the keys of
the list. -/
def hashAfter : List Int → Option (HashMapDictionary Int Int)
  | [] => HashMapDictionary.new 1 11
  | k :: ks =>
      match hashAfter ks with
      | none => none
      | some m =>
          match HashMapDictionary.Put hcInt 3 m k (10 * k) with
          | none => none
          | some (m', _) => some m'

/-- The state after `Put` of 1, 2, 3, 4, 5: five entries in eleven buckets. -/
def hash5 : HashMapDictionary Int Int :=
  ⟨5, [none, some (1, 10), some (2, 20), some (3, 30), some (4, 40), some (5, 50), none, none,
    none, none, none], BitMap.Init 11⟩

/-- The state after `Put` of 1, 12, 23, three keys of hash code 1 modulo 11. -/
def hash3 : HashMapDictionary Int Int :=
  ⟨3, [none, some (1, 10), some (12, 120), some (23, 230), none, none, none, none, none, none,
    none], BitMap.Init 11⟩

/-- The state of `hash5` after `Put(6, 60)`, which calls `Rehash`: 23 buckets. -/
def hash6 : HashMapDictionary Int Int :=
  ⟨6, [none, some (1, 10), some (2, 20), some (3, 30), some (4, 40), some (5, 50), some (6, 60)]
      ++ List.replicate 16 none, BitMap.Init 23⟩

/-- The state of `hash3` after `Remove(12)`: bucket 2 is empty and marked. -/
def hash2 : HashMapDictionary Int Int :=
  ⟨2, [none, some (1, 10), none, some (23, 230), none, none, none, none, none, none, none],
    (BitMap.Init 11).Set 2⟩

end DSA

namespace DSA

/-! ## List: the doubly linked list of `list_node.h` and `list.h`

The nodes live in a free store.  A pointer `ListNode<T>*` is an `Option Nat`: `none` is
`nullptr`, `some a` the address `a`.  The store is a list of cells; cell `a` holds the node
at address `a`, or `none` once the node is deleted.  `new` takes the next address past the
end of the store.  Dereferencing `nullptr`, a deleted node or an address outside the store
is undefined behaviour: the function returns `none`.  The `int` field `size_` and the `int`
counters are unbounded here: the lists are considered while they hold fewer than `2^31`
nodes.  A loop that counts an `int` down runs over the natural number of its rounds. -/

/-- The class `ListNode<T>`. -/
structure ListNode (T : Type) where
  data_ : T
  pred_ : Option Nat
  succ_ : Option Nat
deriving DecidableEq

/-- The free store of the nodes. -/
abbrev Store (T : Type) : Type := List (Option (ListNode T))

/-- The fields of the class `List<T>` (the name `List` is taken in Lean). -/
structure LinkedList where
  size_ : Int
  header_ : Option Nat
  trailer_ : Option Nat
deriving DecidableEq

section
variable {T : Type}

/-- Read of the node `*p`. -/
def Store.node (s : Store T) (p : Option Nat) : Option (ListNode T) :=
  match p with
  | none => none
  | some a => (s[a]?).join

/-- The assignment `p->pred_ = v`. -/
def Store.setPred (s : Store T) (p v : Option Nat) : Option (Store T) :=
  match p, s.node p with
  | some a, some n => some (s.set a (some ⟨n.data_, v, n.succ_⟩))
  | _, _ => none

/-- The assignment `p->succ_ = v`. -/
def Store.setSucc (s : Store T) (p v : Option Nat) : Option (Store T) :=
  match p, s.node p with
  | some a, some n => some (s.set a (some ⟨n.data_, n.pred_, v⟩))
  | _, _ => none

/-- The expression `new ListNode<T>(e, p, s)`: the new store and the new address. -/
def Store.alloc (s : Store T) (n : ListNode T) : Store T × Option Nat :=
  (s ++ [some n], some s.length)

/-- The statement `delete p`. -/
def Store.free (s : Store T) (p : Option Nat) : Option (Store T) :=
  match p, s.node p with
  | some a, some _ => some (s.set a none)
  | _, _ => none

/-- `ListNode::InsertAsPred`, called on the node `this`. -/
def ListNode.InsertAsPred (s : Store T) (this : Option Nat) (e : T) :
    Option (Store T × Option Nat) := do
  let n ← s.node this
  let (s1, x) := s.alloc ⟨e, n.pred_, this⟩
  let s2 ← s1.setSucc n.pred_ x
  let s3 ← s2.setPred this x
  some (s3, x)

/-- `ListNode::InsertAsSucc`, called on the node `this`. -/
def ListNode.InsertAsSucc (s : Store T) (this : Option Nat) (e : T) :
    Option (Store T × Option Nat) := do
  let n ← s.node this
  let (s1, x) := s.alloc ⟨e, this, n.succ_⟩
  let s2 ← s1.setPred n.succ_ x
  let s3 ← s2.setSucc this x
  some (s3, x)

namespace LinkedList

/-- `List::Init`; `zero` is `static_cast<T>(0)`. -/
def Init (s : Store T) (zero : T) : Store T × LinkedList :=
  (s ++ [some ⟨zero, none, some (s.length + 1)⟩, some ⟨zero, some s.length, none⟩],
    ⟨0, some s.length, some (s.length + 1)⟩)

/-- `List::GetSize`. -/
def GetSize (L : LinkedList) : Int := L.size_

/-- The loop of `List::IsValid`, from the node `q`. -/
def IsValidLoop (s : Store T) (L : LinkedList) (p : Option Nat) :
    Nat → Option Nat → Option Bool
  | 0, _ => none
  | fuel + 1, q =>
      if q = L.trailer_ then some false
      else if q = p then some true
      else do
        let n ← s.node q
        IsValidLoop s L p fuel n.succ_

/-- `List::IsValid`. -/
def IsValid (fuel : Nat) (s : Store T) (L : LinkedList) (p : Option Nat) : Option Bool := do
  let h ← s.node L.header_
  IsValidLoop s L p fuel h.succ_

/-- `List::InsertAsFirst`. -/
def InsertAsFirst (s : Store T) (L : LinkedList) (e : T) :
    Option (Store T × LinkedList × Option Nat) := do
  let (s1, x) ← ListNode.InsertAsSucc s L.header_ e
  some (s1, ⟨L.size_ + 1, L.header_, L.trailer_⟩, x)

/-- `List::InsertAsLast`. -/
def InsertAsLast (s : Store T) (L : LinkedList) (e : T) :
    Option (Store T × LinkedList × Option Nat) := do
  let (s1, x) ← ListNode.InsertAsPred s L.trailer_ e
  some (s1, ⟨L.size_ + 1, L.header_, L.trailer_⟩, x)

/-- `List::InsertAfter`. -/
def InsertAfter (s : Store T) (L : LinkedList) (p : Option Nat) (e : T) :
    Option (Store T × LinkedList × Option Nat) := do
  let (s1, x) ← ListNode.InsertAsSucc s p e
  some (s1, ⟨L.size_ + 1, L.header_, L.trailer_⟩, x)

/-- `List::InsertBefore`. -/
def InsertBefore (s : Store T) (L : LinkedList) (p : Option Nat) (e : T) :
    Option (Store T × LinkedList × Option Nat) := do
  let (s1, x) ← ListNode.InsertAsPred s p e
  some (s1, ⟨L.size_ + 1, L.header_, L.trailer_⟩, x)

/-- `List::Remove(ListNode<T>*)`: the new store, the new fields and the returned data. -/
def Remove (fuel : Nat) (s : Store T) (L : LinkedList) (p : Option Nat) :
    Option (Store T × LinkedList × T) := do
  let valid ← IsValid fuel s L p
  let n ← s.node p
  if valid = false then some (s, L, n.data_)
  else do
    let s1 ← s.setSucc n.pred_ n.succ_
    let n1 ← s1.node p
    let s2 ← s1.setPred n1.succ_ n1.pred_
    let s3 ← s2.free p
    some (s3, ⟨L.size_ - 1, L.header_, L.trailer_⟩, n.data_)

/-- The loop of `List::Traverse`, with a visitor that collects the data. -/
def TraverseLoop (s : Store T) (L : LinkedList) : Nat → Option Nat → Option (List T)
  | 0, _ => none
  | fuel + 1, p =>
      if p = L.trailer_ then some []
      else do
        let n ← s.node p
        let r ← TraverseLoop s L fuel n.succ_
        some (n.data_ :: r)

/-- `List::Traverse`: the data in the order of the visits. -/
def Traverse (fuel : Nat) (s : Store T) (L : LinkedList) : Option (List T) := do
  let h ← s.node L.header_
  TraverseLoop s L fuel h.succ_

/-- The statement `q = q->succ_`, `k` times. -/
def advance (s : Store T) : Nat → Option Nat → Option (Option Nat)
  | 0, q => some q
  | k + 1, q => do
      let n ← s.node q
      advance s k n.succ_

end LinkedList
end

section
variable {T : Type} [LinearOrder T]

namespace LinkedList

/-- The loop of `List::Search(e, n, p)`; the counter is `n + 1`, the number of rounds the
test `n >= 0` still lets through. -/
def SearchLoop (s : Store T) (e : T) : Nat → Option Nat → Option (Option Nat)
  | 0, p => some p
  | k + 1, p => do
      let n ← s.node p
      let m ← s.node n.pred_
      if m.data_ ≤ e then some n.pred_ else SearchLoop s e k n.pred_

/-- `List::Search(e, n, p)`. -/
def Search (s : Store T) (e : T) (n : Int) (p : Option Nat) : Option (Option Nat) :=
  SearchLoop s e (n + 1).toNat p

/-- The loop of `List::InsertionSort`: `r` rounds are left, `i` is the loop variable. -/
def InsertionLoop (fuel : Nat) :
    Nat → Nat → Store T → LinkedList → Option Nat → Option (Store T × LinkedList)
  | 0, _, s, L, _ => some (s, L)
  | r + 1, i, s, L, p => do
      let n ← s.node p
      let q ← Search s n.data_ (i : Int) p
      let (s1, L1, _) ← InsertAfter s L q n.data_
      let n1 ← s1.node p
      let n2 ← s1.node n1.succ_
      let (s2, L2, _) ← Remove fuel s1 L1 n2.pred_
      InsertionLoop fuel r (i + 1) s2 L2 n1.succ_

/-- `List::InsertionSort(p, n)`. -/
def InsertionSort (fuel : Nat) (s : Store T) (L : LinkedList) (p : Option Nat) (n : Int) :
    Option (Store T × LinkedList) :=
  InsertionLoop fuel n.toNat 0 s L p

/-- The loop of `List::SelectMax(p, n)`: `k` rounds are left. -/
def SelectMaxLoop (s : Store T) : Nat → Option Nat → Option Nat → Option (Option Nat)
  | 0, max, _ => some max
  | k + 1, max, q => do
      let nq ← s.node q
      let nm ← s.node max
      SelectMaxLoop s k (if nm.data_ ≤ nq.data_ then q else max) nq.succ_

/-- `List::SelectMax(p, n)`. -/
def SelectMax (s : Store T) (p : Option Nat) (n : Int) : Option (Option Nat) := do
  let np ← s.node p
  SelectMaxLoop s (n - 1).toNat p np.succ_

/-- The loop of `List::SelectionSort`: `k` rounds are left, so that `n` is `k + 1`. -/
def SelectionLoop (fuel : Nat) :
    Nat → Store T → LinkedList → Option Nat → Option Nat → Option (Store T × LinkedList)
  | 0, s, L, _, _ => some (s, L)
  | k + 1, s, L, head, tail => do
      let nh ← s.node head
      let max ← SelectMax s nh.succ_ ((k : Int) + 2)
      let (s1, L1, e) ← Remove fuel s L max
      let (s2, L2, _) ← InsertBefore s1 L1 tail e
      let nt ← s2.node tail
      SelectionLoop fuel k s2 L2 head nt.pred_

/-- `List::SelectionSort(p, n)`. -/
def SelectionSort (fuel : Nat) (s : Store T) (L : LinkedList) (p : Option Nat) (n : Int) :
    Option (Store T × LinkedList) := do
  let np ← s.node p
  let tail ← advance s n.toNat p
  SelectionLoop fuel (n - 1).toNat s L np.pred_ tail

end LinkedList

/-- What the reference `ListNode<T>*& p` of `List::Merge` is bound to: a local variable of
the caller, or the field `succ_` of the node at a pointer. -/
inductive PRef where
  | var : PRef
  | succOf : Option Nat → PRef
deriving DecidableEq

/-- The state of `List::Merge`: the store, the fields of `*this`, the fields of `lst` when
it is another list (`none` when `lst` is `*this`), and the caller's variable behind `p`. -/
structure MergeState (T : Type) where
  store : Store T
  self : LinkedList
  other : Option LinkedList
  pvar : Option Nat

namespace MergeState

/-- Read of the reference `p`. -/
def rdP (r : PRef) (st : MergeState T) : Option (Option Nat) :=
  match r with
  | PRef.var => some st.pvar
  | PRef.succOf a => (st.store.node a).map ListNode.succ_

/-- Assignment to the reference `p`. -/
def wrP (r : PRef) (st : MergeState T) (v : Option Nat) : Option (MergeState T) :=
  match r with
  | PRef.var => some ⟨st.store, st.self, st.other, v⟩
  | PRef.succOf a => (st.store.setSucc a v).map (fun s => ⟨s, st.self, st.other, st.pvar⟩)

/-- The call `lst.Remove(x)`. -/
def removeOther (fuel : Nat) (st : MergeState T) (x : Option Nat) :
    Option (MergeState T × T) :=
  match st.other with
  | none => do
      let (s1, L1, e) ← LinkedList.Remove fuel st.store st.self x
      some (⟨s1, L1, none, st.pvar⟩, e)
  | some B => do
      let (s1, B1, e) ← LinkedList.Remove fuel st.store B x
      some (⟨s1, st.self, some B1, st.pvar⟩, e)

/-- The call `InsertBefore(x, e)` on `*this`. -/
def insertSelf (st : MergeState T) (x : Option Nat) (e : T) : Option (MergeState T) := do
  let (s1, L1, _) ← LinkedList.InsertBefore st.store st.self x e
  some ⟨s1, L1, st.other, st.pvar⟩

end MergeState

namespace LinkedList

/-- The loop of `List::Merge(p, n, lst, q, m)`.  In `InsertBefore(p, lst.Remove(...))` the
argument `p` is read before `Remove` is called. -/
def MergeLoop (fuel : Nat) (r : PRef) :
    Nat → MergeState T → Nat → Option Nat → Nat → Option (MergeState T)
  | 0, _, _, _, _ => none
  | d + 1, st, n, q, m =>
      if 0 < m then do
        let p ← st.rdP r
        let take ← (if 0 < n then do
            let np ← st.store.node p
            let nq ← st.store.node q
            some (decide (np.data_ ≤ nq.data_))
          else some false)
        if take then do
          let np ← st.store.node p
          let st1 ← st.wrP r np.succ_
          let p1 ← st1.rdP r
          if p1 = q then some st1 else MergeLoop fuel r d st1 (n - 1) q m
        else do
          let nq ← st.store.node q
          let nq1 ← st.store.node nq.succ_
          let (st1, e) ← st.removeOther fuel nq1.pred_
          let st2 ← st1.insertSelf p e
          MergeLoop fuel r d st2 n nq.succ_ (m - 1)
      else some st

/-- `List::Merge(p, n, lst, q, m)`. -/
def MergeAt (fuel : Nat) (r : PRef) (st : MergeState T) (n : Int) (q : Option Nat) (m : Int) :
    Option (MergeState T) := do
  let p ← st.rdP r
  let np ← st.store.node p
  let st1 ← MergeLoop fuel r fuel st n.toNat q m.toNat
  let npp ← st1.store.node np.pred_
  st1.wrP r npp.succ_

/-- `List::MergeSort(p, n)`; the reference `p` is bound to a local variable of the caller,
so that its value goes in and comes out. -/
def MergeSortRec (fuel : Nat) :
    Nat → Store T → LinkedList → Option Nat → Nat → Option (Store T × LinkedList × Option Nat)
  | 0, _, _, _, _ => none
  | d + 1, s, L, p, n =>
      if n ≤ 1 then some (s, L, p)
      else do
        let q ← advance s (n / 2) p
        let (s1, L1, p1) ← MergeSortRec fuel d s L p (n / 2)
        let (s2, L2, q2) ← MergeSortRec fuel d s1 L1 q (n - n / 2)
        let st ← MergeAt fuel PRef.var ⟨s2, L2, none, p1⟩ ((n / 2 : Nat) : Int) q2
          ((n - n / 2 : Nat) : Int)
        some (st.store, st.self, st.pvar)

/-- `List::MergeSort(p, n)` for an `int n`. -/
def MergeSort (fuel : Nat) (s : Store T) (L : LinkedList) (p : Option Nat) (n : Int) :
    Option (Store T × LinkedList × Option Nat) :=
  MergeSortRec fuel fuel s L p n.toNat

/-- `List::Merge(lst)` with another list `lst`: the reference `p` is bound to
`header_->succ_`. -/
def Merge (fuel : Nat) (s : Store T) (A B : LinkedList) :
    Option (Store T × LinkedList × LinkedList) := do
  let hB ← s.node B.header_
  let st ← MergeAt fuel (PRef.succOf A.header_) ⟨s, A, some B, none⟩ A.GetSize hB.succ_
    B.GetSize
  let B1 ← st.other
  some (st.store, st.self, B1)

/-- `List::Sort` (`Sort` is a keyword of Lean); `choice` is the number drawn by `u(e)`. -/
def SortList (fuel : Nat) (choice : Fin 3) (s : Store T) (L : LinkedList) :
    Option (Store T × LinkedList) := do
  let h ← s.node L.header_
  match choice with
  | 0 => InsertionSort fuel s L h.succ_ L.GetSize
  | 1 => SelectionSort fuel s L h.succ_ L.GetSize
  | 2 => (MergeSort fuel s L h.succ_ L.GetSize).map (fun r => (r.1, r.2.1))

end LinkedList
end

section
variable {T : Type}

/-! ### Well-formed lists

A chain is the list of the cells `(address, data)` of the nodes from the header to the
trailer.  It lies in the store when the addresses are distinct and each node holds its data,
the address of the cell before it in `pred_` and the address of the cell after it in `succ_`;
the header has a null `pred_` and the trailer a null `succ_`, as `Init` sets them. -/

/-- Address of the first cell, or `next` when there is none. -/
def firstOr : List (Nat × T) → Option Nat → Option Nat
  | [], next => next
  | c :: _, _ => some c.1

/-- Address of the last cell, or `prev` when there is none. -/
def lastOr : List (Nat × T) → Option Nat → Option Nat
  | [], prev => prev
  | c :: cs, _ => lastOr cs (some c.1)

/-- The nodes a chain stands for, the first with `pred_ = prev`, the last with
`succ_ = next`. -/
def expect : Option Nat → List (Nat × T) → Option Nat → List (Nat × ListNode T)
  | _, [], _ => []
  | prev, c :: cs, next => (c.1, ⟨c.2, prev, firstOr cs next⟩) :: expect (some c.1) cs next

/-- The chain `cs` lies in the store `s`. -/
def Chain (s : Store T) (cs : List (Nat × T)) : Prop :=
  (cs.map Prod.fst).Nodup ∧ ∀ e ∈ expect none cs none, s.node (some e.1) = some e.2

/-- The list with the fields `L` holds the data `xs` in the store `s`, its links being
consistent from the header to the trailer and back, and `size_` being the number of data. -/
def LinkedList.Holds (s : Store T) (L : LinkedList) (xs : List T) : Prop :=
  ∃ (H : Nat × T) (B : List (Nat × T)) (E : Nat × T),
    B.map Prod.snd = xs ∧ Chain s (H :: B ++ [E]) ∧ L.header_ = some H.1 ∧
      L.trailer_ = some E.1 ∧ L.size_ = (xs.length : Int)

/-- A new list in the store `s`, filled by `InsertAsLast` with `xs` in turn. -/
def LinkedList.ofList (s : Store Int) (xs : List Int) : Option (Store Int × LinkedList) :=
  xs.foldl
    (fun acc x => acc.bind (fun r => (LinkedList.InsertAsLast r.1 r.2 x).map
      (fun r1 => (r1.1, r1.2.1))))
    (some (LinkedList.Init s 0))

end

end DSA

namespace DSA

/-! ## List: the states of the examples -/

/-- The store of `main` in `List/main.cpp` before `lst.Sort()`, with the eleven data that
`Deduplicate` has left, as `InsertAsLast` lays them out. -/
def listMainStore : Store Int :=
  [some ⟨0, none, some 2⟩, some ⟨0, some 12, none⟩, some ⟨6, some 0, some 3⟩,
    some ⟨5, some 2, some 4⟩, some ⟨4, some 3, some 5⟩, some ⟨3, some 4, some 6⟩,
    some ⟨2, some 5, some 7⟩, some ⟨1, some 6, some 8⟩, some ⟨7, some 7, some 9⟩,
    some ⟨11, some 8, some 10⟩, some ⟨10, some 9, some 11⟩, some ⟨9, some 10, some 12⟩,
    some ⟨8, some 11, some 1⟩]

/-- The fields of the list of `main` before `lst.Sort()`. -/
def listMain : LinkedList := ⟨11, some 0, some 1⟩

/-- The cells of the list of `main` between the header and the trailer. -/
def listMainCells : List (Nat × Int) :=
  [(2, 6), (3, 5), (4, 4), (5, 3), (6, 2), (7, 1), (8, 7), (9, 11), (10, 10), (11, 9), (12, 8)]

/-- The store with the two lists `A = [1]` and `B = [2]`. -/
def mergeStore : Store Int :=
  [some ⟨0, none, some 2⟩, some ⟨0, some 2, none⟩, some ⟨1, some 0, some 1⟩,
    some ⟨0, none, some 5⟩, some ⟨0, some 5, none⟩, some ⟨2, some 3, some 4⟩]

/-- The fields of the list `A = [1]`. -/
def mergeA : LinkedList := ⟨1, some 0, some 1⟩

/-- The fields of the list `B = [2]`. -/
def mergeB : LinkedList := ⟨1, some 3, some 4⟩

/-- The store after `A.Merge(B)`: the header of `A`, in cell 0, points to the trailer of
`A`, in cell 1, while the nodes with 1 and 2, in the cells 2 and 6, hang on the links
`pred_` from the trailer. -/
def mergeStoreAfter : Store Int :=
  [some ⟨0, none, some 1⟩, some ⟨0, some 6, none⟩, some ⟨1, some 0, some 6⟩,
    some ⟨0, none, some 4⟩, some ⟨0, some 3, none⟩, none, some ⟨2, some 2, some 1⟩]

end DSA

namespace DSA
open Node
variable {K V : Type}

/-! ## The rebalancing loops of `AVLTreeMap` with the unbalanced ancestors recorded -/

namespace AVLTreeMap

variable [LinearOrder K]

/-- The ancestors `g` that the `for` loop of `Insert` finds not AVL-balanced, each as a
pointer: the node with what hangs below it, and the chain of its ancestors. -/
def InsertLoopUnbalanced : Node K V → List (Frame K V) → List (Node K V × List (Frame K V))
  | _, [] => []
  | c, f :: up =>
      if IsAVLBalanced (f.attach c) = false then [(f.attach c, up)]
      else InsertLoopUnbalanced (UpdateHeight (f.attach c)) up

/-- The ancestors `g` that the `for` loop of `Remove` finds not AVL-balanced, the earliest
first.  When `RotateAt` would dereference a null pointer the loop stops there. -/
def RemoveLoopUnbalanced : Node K V → List (Frame K V) → List (Node K V × List (Frame K V))
  | _, [] => []
  | c, f :: up =>
      if IsAVLBalanced (f.attach c) = false then
        (f.attach c, up) ::
          (match rotateHigher (f.attach c) up with
            | none => []
            | some b => RemoveLoopUnbalanced (UpdateHeight b) up)
      else RemoveLoopUnbalanced (UpdateHeight (f.attach c)) up

/-- The unbalanced ancestors met by `Insert(k, v)`. -/
def InsertUnbalanced (m : AVLTreeMap K V) (k : K) (v : V) :
    List (Node K V × List (Frame K V)) :=
  match m.Search k with
  | (Node.mk _ _ _ _ _, _) => []
  | (Node.null, hot) => InsertLoopUnbalanced (Node.mk null k v 0 null) hot

/-- The unbalanced ancestors met by `Remove(k)`. -/
def RemoveUnbalanced (m : AVLTreeMap K V) (k : K) : List (Node K V × List (Frame K V)) :=
  match m.Search k with
  | (Node.null, _) => []
  | (Node.mk l key val h r, hot) =>
      match RemoveAt l key val h r hot with
      | (succ, hot') => RemoveLoopUnbalanced succ hot'

end AVLTreeMap

/-- The call `RotateAt(GetHigherChild(GetHigherChild(g)))` dereferences no null pointer:
`p = GetHigherChild(g)` and `v = GetHigherChild(p)` are nodes, `v` has the parent `p` and
the grandparent `g`, and `RotateAt(v)` returns. -/
def Node.RotationSafe (g : Node K V) (up : List (Frame K V)) : Prop :=
  ∃ pl pk pv ph pr pp vl vk vv vh vr fp fg b,
    GetHigherChild g up = some (Node.mk pl pk pv ph pr, pp) ∧
      GetHigherChild (Node.mk pl pk pv ph pr) pp = some (Node.mk vl vk vv vh vr, fp :: fg :: up) ∧
      fg.attach (fp.attach (Node.mk vl vk vv vh vr)) = g ∧
      RotateAt (Node.mk vl vk vv vh vr) (fp :: fg :: up) = some b

/-! ## HashMapDictionary: the calls of `Rehash` counted, and the states of the examples -/

namespace HashMapDictionary

variable [DecidableEq K]

/-- The `for` loop of `Rehash` with the calls of `Rehash` counted that its calls of `Put`
make. -/
def RehashLoopCount
    (put : HashMapDictionary K V → K → V → Option (HashMapDictionary K V × Bool × Nat)) :
    List (Option (K × V)) → HashMapDictionary K V → Option (HashMapDictionary K V × Nat)
  | [], m => some (m, 0)
  | none :: rest, m => RehashLoopCount put rest m
  | some e :: rest, m =>
      match put m e.1 e.2 with
      | none => none
      | some (m', _, n) =>
          match RehashLoopCount put rest m' with
          | none => none
          | some (m'', n') => some (m'', n + n')

/-- Embeds `Rehash` with the count of the calls of `Rehash` that its calls of `Put` make. -/
def RehashWithCount
    (put : HashMapDictionary K V → K → V → Option (HashMapDictionary K V × Bool × Nat))
    (fuel : Nat) (m : HashMapDictionary K V) : Option (HashMapDictionary K V × Nat) :=
  match GetPrime fuel (2 * m.capacity_) with
  | none => none
  | some p => RehashLoopCount put m.ht_ ⟨0, List.replicate p none, BitMap.Init p⟩

/-- Embeds `Put` with a count of the calls of `Rehash` made before it returns, the nested
ones included: the state, the flag returned, the count. -/
def PutCount (hc : K → Nat) : Nat → HashMapDictionary K V → K → V →
    Option (HashMapDictionary K V × Bool × Nat)
  | 0, _, _, _ => none
  | fuel + 1, m, k, v =>
      match ProbeForHit hc (fuel + 1) m k with
      | none => none
      | some r =>
          match m.ht_[r]? with
          | none => none
          | some (some _) => some (m, false, 0)
          | some none =>
              match ProbeForFree hc (fuel + 1) m k with
              | none => none
              | some r' =>
                  if r' < m.ht_.length then
                    if (m.size_ + 1) * 2 > (m.capacity_ : Int) then
                      match RehashWithCount (PutCount hc fuel) (fuel + 1)
                          ⟨m.size_ + 1, m.ht_.set r' (some (k, v)), m.lazy_removal_⟩ with
                      | none => none
                      | some (m', n) => some (m', true, n + 1)
                    else
                      some (⟨m.size_ + 1, m.ht_.set r' (some (k, v)), m.lazy_removal_⟩, true, 0)
                  else none

end HashMapDictionary

/-- States of a `HashMapDictionary` constructed with the capacity request `c` and reached by
calls of `Put` and `Remove` that return. -/
inductive HashMapDictionary.ReachableFrom {K V : Type} [DecidableEq K] (hc : K → Nat)
    (c : Nat) : HashMapDictionary K V → Prop
  | new (fuel : Nat) {m : HashMapDictionary K V} :
      HashMapDictionary.new fuel c = some m → HashMapDictionary.ReachableFrom hc c m
  | put (fuel : Nat) (k : K) (v : V) (b : Bool) {m m' : HashMapDictionary K V} :
      HashMapDictionary.ReachableFrom hc c m →
      HashMapDictionary.Put hc fuel m k v = some (m', b) →
      HashMapDictionary.ReachableFrom hc c m'
  | remove (fuel : Nat) (k : K) (b : Bool) {m m' : HashMapDictionary K V} :
      HashMapDictionary.ReachableFrom hc c m →
      HashMapDictionary.Remove hc fuel m k = some (m', b) →
      HashMapDictionary.ReachableFrom hc c m'

/-- The dictionary `HashMapDictionary<int, int> d(2)` after `d.Put(0, 0)`, `d.Remove(0)`,
`d.Put(1, 0)`, `d.Remove(1)`: both buckets are empty and marked as lazily removed. -/
def hashMarked : HashMapDictionary Int Int :=
  ⟨0, [none, none], ((BitMap.Init 2).Set 0).Set 1⟩

/-- The dictionary `HashMapDictionary<int, int> d` of the default capacity request 11 after
`d.Put(i, 0)`, `d.Remove(i)` for `i = 0, ..., j - 1`: no entry, and the first `j` buckets
marked as lazily removed. -/
def hashMarkedUpTo (j : Nat) : HashMapDictionary Int Int :=
  ⟨0, List.replicate 11 none, ⟨List.replicate j true ++ List.replicate (16 - j) false⟩⟩

/-- The dictionary of `hashMarkedUpTo j` after `d.Put(j, 0)`. -/
def hashMarkedPut (j : Nat) : HashMapDictionary Int Int :=
  ⟨1, (List.replicate 11 none).set j (some ((j : Int), 0)),
    ⟨List.replicate j true ++ List.replicate (16 - j) false⟩⟩

end DSA

namespace DSA

/-! ## BinNode: the postorder traversals

A tree of `BinNode<T>` is embedded by its shape and data; of the fields only `data_`, `lc_`,
`rc_` and `parent_` are read by the postorder traversals.  A pointer to a node is the path
from the root to it, and `nullptr` is `none`: the children of the node at `x` are at
`x ++ [Side.left]` and `x ++ [Side.right]`, its `parent_` is at the path without its last
step, and the `parent_` of the root is `nullptr`. -/

/-- Embeds a tree of `BinNode<T>`; `null` is `nullptr`. -/
inductive BinNode (T : Type) : Type
  | null : BinNode T
  | mk (lc_ : BinNode T) (data_ : T) (rc_ : BinNode T) : BinNode T
deriving DecidableEq

namespace BinNode

variable {T : Type}

/-- The subtree at the end of a path from the root; `null` when the path leaves the tree. -/
def sub : BinNode T → List Side → BinNode T
  | n, [] => n
  | null, _ :: _ => null
  | mk l _ _, Side.left :: p => sub l p
  | mk _ _ r, Side.right :: p => sub r p

/-- The number of nodes. -/
def size : BinNode T → Nat
  | null => 0
  | mk l _ r => size l + 1 + size r

/-- The number of nodes on the longest path from the root down. -/
def depth : BinNode T → Nat
  | null => 0
  | mk l _ r => max (depth l) (depth r) + 1

/-- A pointer to the root of a tree. -/
def ptr (n : BinNode T) (x : List Side) : Option (List Side) :=
  match n with
  | null => none
  | mk _ _ _ => some x

/-- The field `lc_` of the node at `x`. -/
def lcAt (t : BinNode T) (x : List Side) : Option (List Side) :=
  ptr (t.sub (x ++ [Side.left])) (x ++ [Side.left])

/-- The field `rc_` of the node at `x`. -/
def rcAt (t : BinNode T) (x : List Side) : Option (List Side) :=
  ptr (t.sub (x ++ [Side.right])) (x ++ [Side.right])

/-- The field `parent_` of the node at `x`. -/
def parentAt (x : List Side) : Option (List Side) :=
  match x with
  | [] => none
  | _ :: _ => some x.dropLast

/-- The field `data_` of the node at `x`; `none` when there is no node. -/
def dataAt (t : BinNode T) (x : List Side) : Option T :=
  match t.sub x with
  | null => none
  | mk _ d _ => some d

/-- Embeds `HasLChild` for the node at `x`. -/
def HasLChild (t : BinNode T) (x : List Side) : Bool := (t.lcAt x).isSome

/-- Embeds `HasRChild` for the node at `x`. -/
def HasRChild (t : BinNode T) (x : List Side) : Bool := (t.rcAt x).isSome

/-- Embeds `GotoHLVFL` on the stack `s`, the top first; `none` when the fuel runs out, or for
`top()` on an empty stack. -/
def GotoHLVFL (t : BinNode T) : Nat → List (Option (List Side)) → Option (List (Option (List Side)))
  | 0, _ => none
  | _ + 1, [] => none
  | _ + 1, none :: s => some s
  | fuel + 1, some x :: s =>
      if t.HasLChild x = true then
        if t.HasRChild x = true then
          GotoHLVFL t fuel (t.lcAt x :: t.rcAt x :: some x :: s)
        else GotoHLVFL t fuel (t.lcAt x :: some x :: s)
      else GotoHLVFL t fuel (t.rcAt x :: some x :: s)

/-- The end of an iteration of the loop of `TraversePostI`, from the stack `r` on:
`x = s.top(); s.pop(); visit(x->data_);`, then what the rest of the loop `rest` yields. -/
def visitTop (t : BinNode T) (r : Option (List (Option (List Side))))
    (out : List (List Side × T))
    (rest : Option (List Side) → List (Option (List Side)) → List (List Side × T) →
      Option (List (List Side × T))) : Option (List (List Side × T)) :=
  match r with
  | some (some x :: s) =>
      match t.dataAt x with
      | some d => rest (some x) s (out ++ [(x, d)])
      | none => none
  | _ => none

/-- The loop of `TraversePostI` from the node `x` and the stack `s` on; `out` lists the
nodes visited so far, each with the value passed to `visit`.  Every call of `GotoHLVFL` has the
fuel `G`. -/
def TraversePostILoop (t : BinNode T) (G : Nat) :
    Nat → Option (List Side) → List (Option (List Side)) → List (List Side × T) →
      Option (List (List Side × T))
  | 0, _, _, _ => none
  | _ + 1, _, [], out => some out
  | fuel + 1, x, top :: s, out =>
      match x with
      | none => none
      | some x =>
          if top ≠ parentAt x then
            visitTop t (GotoHLVFL t G (top :: s)) out (TraversePostILoop t G fuel)
          else visitTop t (some (top :: s)) out (TraversePostILoop t G fuel)

/-- Embeds `TraversePostI(x, visit)` for the root `x` of the tree `t`: the nodes visited,
each with the value passed to `visit`. -/
def TraversePostILog (t : BinNode T) (fuel : Nat) : Option (List (List Side × T)) :=
  TraversePostILoop t fuel fuel (ptr t [])
    (match ptr t [] with
     | none => []
     | some x => [some x]) []

/-- Embeds `TraversePostI(x, visit)` for the root `x` of the tree `t`: the values passed to
`visit`. -/
def TraversePostI (t : BinNode T) (fuel : Nat) : Option (List T) :=
  (TraversePostILog t fuel).map (List.map Prod.snd)

/-- Embeds `TraversePostR(x, visit)`: the values passed to `visit`. -/
def TraversePostR : BinNode T → List T
  | null => []
  | mk l d r => TraversePostR l ++ TraversePostR r ++ [d]

/-- The calls of `visit` made by `TraversePostR(x, visit)` for the node `x` at the path `y`:
the nodes visited, each with the value passed. -/
def TraversePostRLog (y : List Side) : BinNode T → List (List Side × T)
  | null => []
  | mk l d r =>
      TraversePostRLog (y ++ [Side.left]) l ++ TraversePostRLog (y ++ [Side.right]) r ++ [(y, d)]

end BinNode

/-- The tree with root 1, whose left child 2 has the children 4 and 5, and whose right child
3 has the right child 6. -/
def bin6 : BinNode Nat :=
  BinNode.mk (BinNode.mk (BinNode.mk BinNode.null 4 BinNode.null) 2
      (BinNode.mk BinNode.null 5 BinNode.null)) 1
    (BinNode.mk BinNode.null 3 (BinNode.mk BinNode.null 6 BinNode.null))

end DSA

namespace DSA
open Node
variable {K V : Type}

/-! ## Inorder sequence around a position: lemmas -/

theorem inorder_attach (f : Frame K V) (c : Node K V) :
    (f.attach c).inorder =
      (match f.side with
        | Side.left => c.inorder ++ (f.key_, f.value_) :: f.other.inorder
        | Side.right => f.other.inorder ++ (f.key_, f.value_) :: c.inorder) := by
  unfold Frame.attach
  cases f.side <;> simp [inorder]

theorem inorder_plug (c : Node K V) (path : List (Frame K V)) :
    (plug c path).inorder = ctxL path ++ c.inorder ++ ctxR path := by
  induction path generalizing c with
  | nil => simp [plug, ctxL, ctxR]
  | cons f up ih =>
      rw [plug, ih, inorder_attach]
      cases hs : f.side <;> simp [ctxL, ctxR, hs]

@[simp] theorem inorder_UpdateHeight (x : Node K V) : (UpdateHeight x).inorder = x.inorder := by
  cases x <;> simp [UpdateHeight, inorder]

theorem inorder_UpdateHeightAbove (x : Node K V) (path : List (Frame K V)) :
    (UpdateHeightAbove x path).inorder = (plug x path).inorder := by
  induction path generalizing x with
  | nil => cases x <;> simp [UpdateHeightAbove, plug, UpdateHeight, inorder]
  | cons f up ih =>
      cases x with
      | null => simp [UpdateHeightAbove]
      | mk l k v h r =>
          rw [UpdateHeightAbove, ih, plug, inorder_plug, inorder_plug, inorder_attach,
            inorder_attach, inorder_UpdateHeight]

theorem inorder_UpdateHeightAboveParent (c : Node K V) (path : List (Frame K V)) :
    (UpdateHeightAboveParent c path).inorder = (plug c path).inorder := by
  cases path with
  | nil => simp [UpdateHeightAboveParent, plug]
  | cons f up => simp [UpdateHeightAboveParent, plug, inorder_UpdateHeightAbove]

theorem GetSize_eq_length (t : Node K V) : t.GetSize = t.inorder.length := by
  induction t with
  | null => simp [GetSize, inorder]
  | mk l k v h r ihl ihr => simp [GetSize, inorder, ihl, ihr]; omega

end DSA

namespace DSA
open Node
variable {K V : Type}

/-! ## Ordered lists of pairs -/

theorem keysIncreasing_iff_sorted [LT K] (l : List (K × V)) :
    KeysIncreasing l ↔ (l.map Prod.fst).Sorted (· < ·) := by
  simp [KeysIncreasing, List.Sorted, List.pairwise_map]

theorem keysIncreasing_node [LT K] (l : Node K V) (k : K) (v : V) (h : Int) (r : Node K V) :
    KeysIncreasing (mk l k v h r).inorder ↔
      KeysIncreasing l.inorder ∧ KeysIncreasing r.inorder ∧
        (∀ p ∈ l.inorder, p.1 < k) ∧ (∀ p ∈ r.inorder, k < p.1) ∧
        (∀ p ∈ l.inorder, ∀ q ∈ r.inorder, p.1 < q.1) := by
  simp only [KeysIncreasing, inorder, List.pairwise_append, List.pairwise_cons, List.mem_cons]
  constructor
  · rintro ⟨h1, ⟨h2, h3⟩, h4⟩
    exact ⟨h1, h3, fun p hp => h4 p hp _ (Or.inl rfl), h2, fun p hp q hq => h4 p hp q (Or.inr hq)⟩
  · rintro ⟨h1, h2, h3, h4, h5⟩
    refine ⟨h1, ⟨h4, h2⟩, ?_⟩
    rintro p hp q (rfl | hq)
    · exact h3 p hp
    · exact h5 p hp q hq

theorem KeysIncreasing.unique [Preorder K] {l : List (K × V)} (hl : KeysIncreasing l)
    {k : K} {a b : V} (ha : (k, a) ∈ l) (hb : (k, b) ∈ l) : a = b := by
  have hpw : l.Pairwise (fun a b => a.1 < b.1) := hl
  have := List.Pairwise.forall_of_forall_of_flip (l := l)
    (R := fun a b => a.1 ≠ b.1 ∨ a = b) (fun x _ => Or.inr rfl)
    (hpw.imp (fun hab => Or.inl (ne_of_lt hab)))
    (hpw.imp (fun hab => Or.inl (ne_of_gt hab))) ha hb
  rcases this with h | h
  · exact absurd rfl h
  · simpa using congrArg Prod.snd h

variable [LinearOrder K]

/-! ## SearchIn -/

theorem SearchIn_plug (v : Node K V) (k : K) (hot : List (Frame K V)) :
    plug (SearchIn v k hot).1 (SearchIn v k hot).2 = plug v hot := by
  induction v generalizing hot with
  | null => simp [SearchIn]
  | mk l key val h r ihl ihr =>
      unfold SearchIn
      split_ifs with h1 h2
      · rfl
      · rw [ihl]; simp [plug, Frame.attach]
      · rw [ihr]; simp [plug, Frame.attach]

/-- The slot reached by `SearchIn` is empty or holds the key looked for, and the key looked
for lies between what is before and what is after the slot. -/
theorem SearchIn_spec (v : Node K V) (k : K) (hot : List (Frame K V))
    (hv : KeysIncreasing v.inorder) (hs : Splits k hot) :
    Splits k (SearchIn v k hot).2 ∧
      ((SearchIn v k hot).1 = null ∨
        ∃ l val h r, (SearchIn v k hot).1 = mk l k val h r ∧
          (∀ p ∈ l.inorder, p.1 < k) ∧ (∀ p ∈ r.inorder, k < p.1) ∧
          KeysIncreasing l.inorder ∧ KeysIncreasing r.inorder) := by
  induction v generalizing hot with
  | null => exact ⟨hs, Or.inl rfl⟩
  | mk l key val h r ihl ihr =>
      rw [keysIncreasing_node] at hv
      obtain ⟨hl, hr, hlk, hrk, -⟩ := hv
      unfold SearchIn
      split_ifs with h1 h2
      · subst h1
        exact ⟨hs, Or.inr ⟨l, val, h, r, rfl, hlk, hrk, hl, hr⟩⟩
      · apply ihl _ hl
        refine ⟨by simpa [ctxL] using hs.1, ?_⟩
        intro p hp
        simp only [ctxR, List.cons_append, List.mem_cons, List.mem_append] at hp
        rcases hp with rfl | hp | hp
        · exact h2
        · exact lt_trans h2 (hrk p hp)
        · exact hs.2 p hp
      · have h3 : key < k := lt_of_le_of_ne (not_lt.mp h2) h1
        apply ihr _ hr
        refine ⟨?_, by simpa [ctxR] using hs.2⟩
        intro p hp
        simp only [ctxL, List.mem_append, List.mem_singleton] at hp
        rcases hp with hp | hp | rfl
        · exact hs.1 p hp
        · exact lt_trans (hlk p hp) h3
        · exact h3

theorem splits_nil (k : K) : Splits k ([] : List (Frame K V)) := by
  simp [Splits, ctxL, ctxR]

/-- What a search from the root finds in an ordered tree. -/
theorem search_root (t : Node K V) (k : K) (ht : KeysIncreasing t.inorder) :
    plug (SearchIn t k []).1 (SearchIn t k []).2 = t ∧
    t.inorder = ctxL (SearchIn t k []).2 ++ (SearchIn t k []).1.inorder ++ ctxR (SearchIn t k []).2 ∧
    Splits k (SearchIn t k []).2 ∧
      ((SearchIn t k []).1 = null ∨
        ∃ l val h r, (SearchIn t k []).1 = mk l k val h r ∧
          (∀ p ∈ l.inorder, p.1 < k) ∧ (∀ p ∈ r.inorder, k < p.1) ∧
          KeysIncreasing l.inorder ∧ KeysIncreasing r.inorder) := by
  have h1 := SearchIn_plug t k []
  have h2 := SearchIn_spec t k [] ht (splits_nil k)
  simp only [plug] at h1
  refine ⟨h1, ?_, h2⟩
  rw [← inorder_plug, h1]

/-- A miss: the key is not among the keys. -/
theorem search_null_iff (t : Node K V) (k : K) (ht : KeysIncreasing t.inorder) :
    (SearchIn t k []).1 = null ↔ k ∉ t.keys := by
  obtain ⟨-, h2, h3, h4⟩ := search_root t k ht
  constructor
  · intro hn hk
    rw [hn] at h2
    simp only [keys, List.mem_map] at hk
    obtain ⟨p, hp, rfl⟩ := hk
    rw [h2] at hp
    simp only [inorder, List.append_nil, List.mem_append] at hp
    rcases hp with hp | hp
    · exact lt_irrefl _ (h3.1 p hp)
    · exact lt_irrefl _ (h3.2 p hp)
  · intro hk
    rcases h4 with h4 | ⟨l, val, h, r, h4, -⟩
    · exact h4
    · exfalso
      apply hk
      rw [h4] at h2
      simp only [keys, List.mem_map]
      exact ⟨(k, val), by rw [h2]; simp [inorder], rfl⟩

/-- A hit: the node found holds the key with the value the tree stores for it. -/
theorem search_hit_iff (t : Node K V) (k : K) (val : V) (ht : KeysIncreasing t.inorder) :
    (∃ l h r, (SearchIn t k []).1 = mk l k val h r) ↔ (k, val) ∈ t.inorder := by
  obtain ⟨-, h2, h3, h4⟩ := search_root t k ht
  constructor
  · rintro ⟨l, h, r, hx⟩
    rw [h2, hx]
    simp [inorder]
  · intro hk
    rcases h4 with h4 | ⟨l, val', h, r, h4, -⟩
    · exfalso
      rw [h4] at h2
      rw [h2] at hk
      simp only [inorder, List.append_nil, List.mem_append] at hk
      rcases hk with hp | hp
      · exact lt_irrefl _ (h3.1 _ hp)
      · exact lt_irrefl _ (h3.2 _ hp)
    · have hmem : (k, val') ∈ t.inorder := by rw [h2, h4]; simp [inorder]
      have : val = val' := ht.unique hk hmem
      subst this
      exact ⟨l, h, r, h4⟩

end DSA

namespace DSA
open Node
variable {K V : Type}

/-! ## Sequences with one pair put in or taken out -/

theorem InsertedInto.sorted_after [Preorder K] {k : K} {v : V} {a b : List (K × V)}
    (h : InsertedInto k v a b) (ha : KeysIncreasing a) : KeysIncreasing b := by
  obtain ⟨l1, l2, rfl, rfl, h1, h2⟩ := h
  simp only [KeysIncreasing, List.pairwise_append, List.pairwise_cons, List.mem_cons] at ha ⊢
  obtain ⟨p1, p2, p3⟩ := ha
  refine ⟨p1, ⟨h2, p2⟩, ?_⟩
  rintro p hp q (rfl | hq)
  · exact h1 p hp
  · exact p3 p hp q hq

theorem InsertedInto.length_after [LT K] {k : K} {v : V} {a b : List (K × V)}
    (h : InsertedInto k v a b) : b.length = a.length + 1 := by
  obtain ⟨l1, l2, rfl, rfl, -, -⟩ := h
  simp; omega

theorem InsertedInto.mem_after [LT K] {k : K} {v : V} {a b : List (K × V)}
    (h : InsertedInto k v a b) (p : K × V) : p ∈ b ↔ p = (k, v) ∨ p ∈ a := by
  obtain ⟨l1, l2, rfl, rfl, -, -⟩ := h
  simp only [List.mem_append, List.mem_cons]
  tauto

theorem DeletedFrom.sorted_rest [LT K] {k : K} {a b : List (K × V)}
    (h : DeletedFrom k a b) (ha : KeysIncreasing a) : KeysIncreasing b := by
  obtain ⟨l1, val, l2, rfl, rfl⟩ := h
  simp only [KeysIncreasing, List.pairwise_append, List.pairwise_cons, List.mem_cons] at ha ⊢
  obtain ⟨p1, p2, p3⟩ := ha
  exact ⟨p1, p2.2, fun p hp q hq => p3 p hp q (Or.inr hq)⟩

theorem DeletedFrom.length_rest {k : K} {a b : List (K × V)}
    (h : DeletedFrom k a b) : a.length = b.length + 1 := by
  obtain ⟨l1, val, l2, rfl, rfl⟩ := h
  simp; omega

theorem DeletedFrom.key_gone [Preorder K] {k : K} {a b : List (K × V)}
    (h : DeletedFrom k a b) (ha : KeysIncreasing a) : k ∉ b.map Prod.fst := by
  obtain ⟨l1, val, l2, rfl, rfl⟩ := h
  simp only [KeysIncreasing, List.pairwise_append, List.pairwise_cons, List.mem_cons] at ha
  obtain ⟨-, p2, p3⟩ := ha
  simp only [List.map_append, List.mem_append, List.mem_map, not_or]
  constructor
  · rintro ⟨p, hp, hpk⟩
    have := p3 p hp (k, val) (Or.inl rfl)
    rw [hpk] at this
    exact lt_irrefl _ this
  · rintro ⟨p, hp, hpk⟩
    have := p2.1 p hp
    rw [hpk] at this
    exact lt_irrefl _ this

theorem DeletedFrom.mem_rest [Preorder K] {k : K} {a b : List (K × V)}
    (h : DeletedFrom k a b) (ha : KeysIncreasing a) (p : K × V) :
    p ∈ b ↔ p ∈ a ∧ p.1 ≠ k := by
  obtain ⟨l1, val, l2, rfl, rfl⟩ := h
  simp only [KeysIncreasing, List.pairwise_append, List.pairwise_cons, List.mem_cons] at ha
  obtain ⟨-, p2, p3⟩ := ha
  simp only [List.mem_append, List.mem_cons]
  constructor
  · rintro (hp | hp)
    · exact ⟨Or.inl hp, ne_of_lt (p3 p hp _ (Or.inl rfl))⟩
    · exact ⟨Or.inr (Or.inr hp), ne_of_gt (p2.1 p hp)⟩
  · rintro ⟨hp | rfl | hp, hne⟩
    · exact Or.inl hp
    · exact absurd rfl hne
    · exact Or.inr hp

/-! ## RemoveAt -/

theorem ctxL_append (a b : List (Frame K V)) : ctxL (a ++ b) = ctxL b ++ ctxL a := by
  induction a with
  | nil => simp [ctxL]
  | cons f up ih =>
      simp only [List.cons_append, ctxL]
      cases f.side <;> simp [ih]

theorem ctxR_append (a b : List (Frame K V)) : ctxR (a ++ b) = ctxR a ++ ctxR b := by
  induction a with
  | nil => simp [ctxR]
  | cons f up ih =>
      simp only [List.cons_append, ctxR]
      cases f.side <;> simp [ih]

theorem leftmost_spec (l : Node K V) (k : K) (v : V) (h : Int) (r : Node K V)
    (path : List (Frame K V)) :
    ctxL (leftmost l k v h r path).2.2.2.2 = ctxL path ∧
    ((leftmost l k v h r path).1, (leftmost l k v h r path).2.1) ::
        (leftmost l k v h r path).2.2.2.1.inorder ++ ctxR (leftmost l k v h r path).2.2.2.2 =
      (mk l k v h r).inorder ++ ctxR path := by
  induction l generalizing k v h r path with
  | null => simp [leftmost, inorder]
  | mk ll lk lv lh lr ihl _ =>
      rw [leftmost]
      obtain ⟨h1, h2⟩ := ihl lk lv lh lr (⟨Side.left, k, v, h, r⟩ :: path)
      refine ⟨by rw [h1]; simp [ctxL], ?_⟩
      rw [h2]
      simp [inorder, ctxR]

theorem RemoveAt_inorder (xl : Node K V) (xk : K) (xv : V) (xh : Int) (xr : Node K V)
    (hot : List (Frame K V)) :
    ctxL (RemoveAt xl xk xv xh xr hot).2 ++ (RemoveAt xl xk xv xh xr hot).1.inorder ++
        ctxR (RemoveAt xl xk xv xh xr hot).2 =
      ctxL hot ++ (xl.inorder ++ xr.inorder) ++ ctxR hot := by
  cases xl with
  | null => simp [RemoveAt, inorder]
  | mk ll lk lv lh lr =>
      cases xr with
      | null => simp [RemoveAt, inorder]
      | mk rl rk rv rh rr =>
          obtain ⟨h1, h2⟩ := leftmost_spec rl rk rv rh rr ([] : List (Frame K V))
          simp only [RemoveAt, ctxL_append, ctxR_append, ctxL, ctxR, h1, List.append_nil,
            List.nil_append] at h2 ⊢
          simp only [List.append_assoc, List.singleton_append, List.cons_append, List.nil_append]
          rw [← h2]
          simp

end DSA

namespace DSA
open Node
variable {K V : Type} [LinearOrder K]

/-! ## BinarySearchTreeMap: what Insert and Remove do to the inorder sequence -/

namespace BinarySearchTreeMap

theorem bst_Insert_fresh (m : BinarySearchTreeMap K V) (k : K) (v : V)
    (ht : KeysIncreasing m.root_.inorder) (hk : k ∉ m.root_.keys) :
    (m.Insert k v).2 = (k, v) ∧ (m.Insert k v).1.size_ = m.size_ + 1 ∧
      InsertedInto k v m.root_.inorder (m.Insert k v).1.root_.inorder := by
  obtain ⟨-, h2, h3, -⟩ := search_root m.root_ k ht
  have hn := (search_null_iff m.root_ k ht).mpr hk
  have hx : SearchIn m.root_ k [] = (Node.null, (SearchIn m.root_ k []).2) := Prod.ext hn rfl
  rw [hn] at h2
  simp only [Insert, Search]
  rw [hx]
  refine ⟨rfl, rfl, _, _, ?_, ?_, h3.1, h3.2⟩
  · simpa [inorder] using h2
  · simp [inorder_UpdateHeightAbove, inorder_plug, inorder]

theorem bst_Insert_dup (m : BinarySearchTreeMap K V) (k : K) (v0 v1 : V)
    (ht : KeysIncreasing m.root_.inorder) (hk : (k, v0) ∈ m.root_.inorder) :
    m.Insert k v1 = (m, (k, v0)) := by
  obtain ⟨l, h, r, hx⟩ := (search_hit_iff m.root_ k v0 ht).mpr hk
  have hx' : SearchIn m.root_ k [] = (Node.mk l k v0 h r, (SearchIn m.root_ k []).2) := Prod.ext hx rfl
  simp only [Insert, Search]
  rw [hx']

theorem bst_Remove_miss (m : BinarySearchTreeMap K V) (k : K)
    (ht : KeysIncreasing m.root_.inorder) (hk : k ∉ m.root_.keys) :
    m.Remove k = (m, false) := by
  have hn := (search_null_iff m.root_ k ht).mpr hk
  have hx : SearchIn m.root_ k [] = (Node.null, (SearchIn m.root_ k []).2) := Prod.ext hn rfl
  simp only [Remove, Search]
  rw [hx]

theorem bst_Remove_hit (m : BinarySearchTreeMap K V) (k : K)
    (ht : KeysIncreasing m.root_.inorder) (hk : k ∈ m.root_.keys) :
    (m.Remove k).2 = true ∧ (m.Remove k).1.size_ = m.size_ - 1 ∧
      DeletedFrom k m.root_.inorder (m.Remove k).1.root_.inorder := by
  obtain ⟨-, h2, -, h4⟩ := search_root m.root_ k ht
  rcases h4 with h4 | ⟨l, val, h, r, h4, -⟩
  · exact absurd hk ((search_null_iff m.root_ k ht).mp h4)
  · have hx : SearchIn m.root_ k [] = (Node.mk l k val h r, (SearchIn m.root_ k []).2) :=
      Prod.ext h4 rfl
    rw [h4] at h2
    simp only [Remove, Search]
    rw [hx]
    refine ⟨rfl, rfl, ctxL (SearchIn m.root_ k []).2 ++ l.inorder, val,
      r.inorder ++ ctxR (SearchIn m.root_ k []).2, ?_, ?_⟩
    · rw [h2]; simp [inorder]
    · simp only [inorder_UpdateHeightAboveParent, inorder_plug]
      rw [RemoveAt_inorder]
      simp

/-- Every reachable state is ordered and counts its nodes. -/
theorem bst_reachable_inv {m : BinarySearchTreeMap K V} (h : Reachable m) :
    KeysIncreasing m.root_.inorder ∧ m.size_ = (m.root_.GetSize : Int) := by
  induction h with
  | empty => simp [empty, KeysIncreasing, inorder, Node.GetSize]
  | @insert m k v _ ih =>
      obtain ⟨ho, hs⟩ := ih
      by_cases hk : k ∈ m.root_.keys
      · simp only [keys, List.mem_map] at hk
        obtain ⟨⟨k', v0⟩, hp, rfl⟩ := hk
        rw [bst_Insert_dup m k' v0 v ho hp]
        exact ⟨ho, hs⟩
      · obtain ⟨-, h2, h3⟩ := bst_Insert_fresh m k v ho hk
        refine ⟨h3.sorted_after ho, ?_⟩
        rw [h2, hs, GetSize_eq_length, GetSize_eq_length, h3.length_after]
        simp
  | @remove m k _ ih =>
      obtain ⟨ho, hs⟩ := ih
      by_cases hk : k ∈ m.root_.keys
      · obtain ⟨-, h2, h3⟩ := bst_Remove_hit m k ho hk
        refine ⟨h3.sorted_rest ho, ?_⟩
        rw [h2, hs, GetSize_eq_length, GetSize_eq_length, h3.length_rest]
        simp
      · rw [bst_Remove_miss m k ho hk]
        exact ⟨ho, hs⟩

end BinarySearchTreeMap

end DSA

namespace DSA
open Node
variable {K V : Type}

/-! ## AVL: heights, contexts and the rotation -/

theorem height_ge (t : Node K V) : -1 ≤ t.height := by
  cases t with
  | null => simp [height]
  | mk l k v h r =>
      have hl : -1 ≤ l.height := height_ge l
      simp only [height]; omega

theorem Node.AVLInv.stature {t : Node K V} (h : t.AVLInv) : GetStature t = t.height := by
  cases t with
  | null => rfl
  | mk l k v h' r => simp only [AVLInv] at h; simp only [GetStature, height]; omega

theorem height_attach (f : Frame K V) (c : Node K V) :
    (f.attach c).height = 1 + max c.height f.other.height := by
  unfold Frame.attach
  cases f.side
  · simp only [height]
  · simp only [height]; omega

theorem AVLInv_plug (c : Node K V) (path : List (Frame K V)) :
    (plug c path).AVLInv ↔ c.AVLInv ∧ AVLCtx path c.height := by
  induction path generalizing c with
  | nil => simp [plug, AVLCtx]
  | cons f up ih =>
      rw [plug, ih, height_attach]
      simp only [AVLCtx]
      unfold Frame.attach
      cases f.side
      · simp only [AVLInv]
        constructor
        · rintro ⟨⟨h1, h2, h3, h4, h5⟩, h6⟩
          rw [← h3] at h6
          exact ⟨h1, h2, h4, h5, h3, h6⟩
        · rintro ⟨h1, h2, h4, h5, h3, h6⟩
          rw [h3] at h6
          exact ⟨⟨h1, h2, h3, h4, h5⟩, h6⟩
      · simp only [AVLInv]
        constructor
        · rintro ⟨⟨h1, h2, h3, h4, h5⟩, h6⟩
          rw [max_comm] at h3
          rw [← h3] at h6
          exact ⟨h2, h1, h5, h4, h3, h6⟩
        · rintro ⟨h1, h2, h4, h5, h3, h6⟩
          rw [h3] at h6
          rw [max_comm] at h3
          exact ⟨⟨h2, h1, h3, h5, h4⟩, h6⟩

/-! The rotation applied at an unbalanced node whose subtrees are AVL and differ by two. -/

theorem AVLInv_UpdateHeight_mk {l r : Node K V} (k : K) (v : V) (h : Int)
    (hl : l.AVLInv) (hr : r.AVLInv) (h1 : l.height - r.height ≤ 1)
    (h2 : r.height - l.height ≤ 1) : (UpdateHeight (mk l k v h r)).AVLInv := by
  simp only [UpdateHeight, AVLInv, hl.stature, hr.stature]
  refine ⟨hl, hr, ?_, h1, h2⟩
  split_ifs <;> omega

@[simp] theorem height_UpdateHeight (x : Node K V) : (UpdateHeight x).height = x.height := by
  cases x <;> simp [UpdateHeight, height]

theorem Node.AVLInv.updateHeight_eq {x : Node K V} (h : x.AVLInv) : UpdateHeight x = x := by
  cases x with
  | null => rfl
  | mk l k v h' r =>
      simp only [AVLInv] at h
      simp only [UpdateHeight, h.1.stature, h.2.1.stature, mk.injEq, true_and, and_true]
      split_ifs <;> omega

theorem GetStature_mk (l : Node K V) (k : K) (v : V) (h : Int) (r : Node K V) :
    GetStature (mk l k v h r) = h := rfl

theorem Connect34_spec (a b c : K × V × Int) (t0 t1 t2 t3 : Node K V)
    (h0 : t0.AVLInv) (h1 : t1.AVLInv) (h2 : t2.AVLInv) (h3 : t3.AVLInv)
    (d1 : t0.height - t1.height ≤ 1) (d2 : t1.height - t0.height ≤ 1)
    (d3 : t2.height - t3.height ≤ 1) (d4 : t3.height - t2.height ≤ 1)
    (d5 : max t0.height t1.height - max t2.height t3.height ≤ 1)
    (d6 : max t2.height t3.height - max t0.height t1.height ≤ 1) :
    (Connect34 a b c t0 t1 t2 t3).AVLInv ∧
      (Connect34 a b c t0 t1 t2 t3).height =
        2 + max (max t0.height t1.height) (max t2.height t3.height) ∧
      (Connect34 a b c t0 t1 t2 t3).inorder =
        t0.inorder ++ (a.1, a.2.1) :: t1.inorder ++ (b.1, b.2.1) :: t2.inorder ++
          (c.1, c.2.1) :: t3.inorder := by
  have ha := AVLInv_UpdateHeight_mk a.1 a.2.1 a.2.2 h0 h1 d1 d2
  have hc := AVLInv_UpdateHeight_mk c.1 c.2.1 c.2.2 h2 h3 d3 d4
  refine ⟨?_, ?_, ?_⟩
  · unfold Connect34
    apply AVLInv_UpdateHeight_mk _ _ _ ha hc
    · simp only [height_UpdateHeight, height]; omega
    · simp only [height_UpdateHeight, height]; omega
  · simp only [Connect34, height_UpdateHeight, height]; omega
  · simp [Connect34, inorder]

theorem rotateHigher_spec (gl : Node K V) (gk : K) (gv : V) (gh : Int) (gr : Node K V)
    (up : List (Frame K V)) (hl : gl.AVLInv) (hr : gr.AVLInv)
    (hd : gl.height - gr.height = 2 ∨ gr.height - gl.height = 2) :
    ∃ b, rotateHigher (mk gl gk gv gh gr) up = some b ∧ b.AVLInv ∧
      b.inorder = (mk gl gk gv gh gr).inorder ∧
      (b.height = max gl.height gr.height ∨
        (b.height = 1 + max gl.height gr.height ∧
          ((gl.height > gr.height ∧ ∃ pl pk pv ph pr, gl = mk pl pk pv ph pr ∧ pl.height = pr.height) ∨
           (gr.height > gl.height ∧ ∃ pl pk pv ph pr, gr = mk pl pk pv ph pr ∧ pl.height = pr.height)))) := by
  have hgl := height_ge gl
  have hgr := height_ge gr
  rcases hd with hd | hd
  · -- the left child is the taller one
    cases gl with
    | null => simp only [height] at hd; omega
    | mk pl pk pv ph pr =>
      have hp := hl
      simp only [AVLInv] at hp
      obtain ⟨hpl, hpr, hph, hb1, hb2⟩ := hp
      have hhl := height_ge pl
      have hhr := height_ge pr
      simp only [height] at hd hgl
      have sg : GetStature gr = gr.height := hr.stature
      have s1 : GetStature pl = pl.height := hpl.stature
      have s2 : GetStature pr = pr.height := hpr.stature
      by_cases hc : pr.height > pl.height
      · -- zig-zag: v is the right child of p
        cases pr with
        | null => simp only [height] at hc; omega
        | mk vl vk vv vh vr =>
          have hv := hpr
          simp only [AVLInv] at hv
          obtain ⟨hvl, hvr, hvh, hv1, hv2⟩ := hv
          simp only [height] at hc hd hb1 hb2 hph s2
          have e : rotateHigher (mk (mk pl pk pv ph (mk vl vk vv vh vr)) gk gv gh gr) up =
              some (Connect34 (pk, pv, ph) (vk, vv, vh) (gk, gv, gh) pl vl vr gr) := by
            have c1 : ph > gr.height := by omega
            have c2 : ¬ pl.height > vh := by omega
            have c3 : vh > pl.height := by omega
            simp only [rotateHigher, GetHigherChild, GetStature_mk, sg, s1, c1, c2, c3, if_true,
              if_false, RotateAt]
          obtain ⟨q1, q2, q3⟩ := Connect34_spec (pk, pv, ph) (vk, vv, vh) (gk, gv, gh) pl vl vr gr
            hpl hvl hvr hr (by omega) (by omega) (by omega) (by omega) (by omega) (by omega)
          refine ⟨_, e, q1, ?_, Or.inl ?_⟩
          · rw [q3]; simp [inorder]
          · rw [q2]; simp only [height]; omega
      · -- zig-zig: v is the left child of p
        cases pl with
        | null => simp only [height] at hc hd; omega
        | mk vl vk vv vh vr =>
          have hv := hpl
          simp only [AVLInv] at hv
          obtain ⟨hvl, hvr, hvh, hv1, hv2⟩ := hv
          simp only [height] at hc hd hb1 hb2 hph s1
          have e : rotateHigher (mk (mk (mk vl vk vv vh vr) pk pv ph pr) gk gv gh gr) up =
              some (Connect34 (vk, vv, vh) (pk, pv, ph) (gk, gv, gh) vl vr pr gr) := by
            have c1 : ph > gr.height := by omega
            by_cases c2 : vh > pr.height
            · simp only [rotateHigher, GetHigherChild, GetStature_mk, sg, s2, c1, c2, if_true,
                RotateAt]
            · have c3 : ¬ pr.height > vh := by omega
              simp [rotateHigher, GetHigherChild, GetStature_mk, sg, s2, c1, c2, c3,
                RotateAt, IsLChild]
          obtain ⟨q1, q2, q3⟩ := Connect34_spec (vk, vv, vh) (pk, pv, ph) (gk, gv, gh) vl vr pr gr
            hvl hvr hpr hr (by omega) (by omega) (by omega) (by omega) (by omega) (by omega)
          refine ⟨_, e, q1, ?_, ?_⟩
          · rw [q3]; simp [inorder]
          · rw [q2]
            by_cases heq : (mk vl vk vv vh vr).height = pr.height
            · right
              refine ⟨?_, Or.inl ⟨by simp only [height]; omega, _, _, _, _, _, rfl, heq⟩⟩
              simp only [height] at heq ⊢; omega
            · left
              simp only [height] at heq ⊢; omega
  · -- the right child is the taller one
    cases gr with
    | null => simp only [height] at hd; omega
    | mk pl pk pv ph pr =>
      have hp := hr
      simp only [AVLInv] at hp
      obtain ⟨hpl, hpr, hph, hb1, hb2⟩ := hp
      have hhl := height_ge pl
      have hhr := height_ge pr
      simp only [height] at hd hgr
      have sg : GetStature gl = gl.height := hl.stature
      have s1 : GetStature pl = pl.height := hpl.stature
      have s2 : GetStature pr = pr.height := hpr.stature
      by_cases hc : pl.height > pr.height
      · -- zag-zig: v is the left child of p
        cases pl with
        | null => simp only [height] at hc; omega
        | mk vl vk vv vh vr =>
          have hv := hpl
          simp only [AVLInv] at hv
          obtain ⟨hvl, hvr, hvh, hv1, hv2⟩ := hv
          simp only [height] at hc hd hb1 hb2 hph s1
          have e : rotateHigher (mk gl gk gv gh (mk (mk vl vk vv vh vr) pk pv ph pr)) up =
              some (Connect34 (gk, gv, gh) (vk, vv, vh) (pk, pv, ph) gl vl vr pr) := by
            have c1 : ¬ gl.height > ph := by omega
            have c2 : ph > gl.height := by omega
            have c3 : vh > pr.height := by omega
            simp only [rotateHigher, GetHigherChild, GetStature_mk, sg, s2, c1, c2, c3, if_true,
              if_false, RotateAt]
          obtain ⟨q1, q2, q3⟩ := Connect34_spec (gk, gv, gh) (vk, vv, vh) (pk, pv, ph) gl vl vr pr
            hl hvl hvr hpr (by omega) (by omega) (by omega) (by omega) (by omega) (by omega)
          refine ⟨_, e, q1, ?_, Or.inl ?_⟩
          · rw [q3]; simp [inorder]
          · rw [q2]; simp only [height]; omega
      · -- zag-zag: v is the right child of p
        cases pr with
        | null => simp only [height] at hc hd; omega
        | mk vl vk vv vh vr =>
          have hv := hpr
          simp only [AVLInv] at hv
          obtain ⟨hvl, hvr, hvh, hv1, hv2⟩ := hv
          simp only [height] at hc hd hb1 hb2 hph s2
          have e : rotateHigher (mk gl gk gv gh (mk pl pk pv ph (mk vl vk vv vh vr))) up =
              some (Connect34 (gk, gv, gh) (pk, pv, ph) (vk, vv, vh) gl pl vl vr) := by
            have c1 : ¬ gl.height > ph := by omega
            have c2 : ph > gl.height := by omega
            have c3 : ¬ pl.height > vh := by omega
            by_cases c4 : vh > pl.height
            · simp only [rotateHigher, GetHigherChild, GetStature_mk, sg, s1, c1, c2, c3, c4,
                if_true, if_false, RotateAt]
            · simp [rotateHigher, GetHigherChild, GetStature_mk, sg, s1, c1, c2, c3, c4,
                RotateAt, IsLChild]
          obtain ⟨q1, q2, q3⟩ := Connect34_spec (gk, gv, gh) (pk, pv, ph) (vk, vv, vh) gl pl vl vr
            hl hpl hvl hvr (by omega) (by omega) (by omega) (by omega) (by omega) (by omega)
          refine ⟨_, e, q1, ?_, ?_⟩
          · rw [q3]; simp [inorder]
          · rw [q2]
            by_cases heq : pl.height = (mk vl vk vv vh vr).height
            · right
              refine ⟨?_, Or.inr ⟨by simp only [height]; omega, _, _, _, _, _, rfl, heq⟩⟩
              simp only [height] at heq ⊢; omega
            · left
              simp only [height] at heq ⊢; omega

end DSA

namespace DSA
open Node
variable {K V : Type}

/-! ## AVL: the rebalancing loops -/

theorem attach_balanced_iff (f : Frame K V) (c : Node K V) (hc : c.AVLInv)
    (hs : f.other.AVLInv) :
    IsAVLBalanced (f.attach c) = true ↔
      c.height - f.other.height ≤ 1 ∧ f.other.height - c.height ≤ 1 := by
  unfold Frame.attach
  cases f.side <;>
    simp only [IsAVLBalanced, GetBalanceFactor, hc.stature, hs.stature, Bool.and_eq_true,
      decide_eq_true_eq] <;> omega

theorem AVLInv_update_attach (f : Frame K V) (c : Node K V) (hc : c.AVLInv)
    (hs : f.other.AVLInv) (h1 : c.height - f.other.height ≤ 1)
    (h2 : f.other.height - c.height ≤ 1) : (UpdateHeight (f.attach c)).AVLInv := by
  unfold Frame.attach
  cases f.side
  · exact AVLInv_UpdateHeight_mk _ _ _ hc hs h1 h2
  · exact AVLInv_UpdateHeight_mk _ _ _ hs hc h2 h1

theorem inorder_step (f : Frame K V) (up : List (Frame K V)) (c : Node K V) :
    ctxL up ++ (f.attach c).inorder ++ ctxR up =
      ctxL (f :: up) ++ c.inorder ++ ctxR (f :: up) := by
  rw [← inorder_plug, ← inorder_plug, plug]

/-- The rotation at an unbalanced ancestor `f.attach c`. -/
theorem rotate_attach (f : Frame K V) (up : List (Frame K V)) (c : Node K V) (hc : c.AVLInv)
    (hs : f.other.AVLInv)
    (hd : c.height - f.other.height = 2 ∨ f.other.height - c.height = 2) :
    ∃ b, rotateHigher (f.attach c) up = some b ∧ b.AVLInv ∧
      b.inorder = (f.attach c).inorder ∧
      (b.height = max c.height f.other.height ∨
        (b.height = 1 + max c.height f.other.height ∧
          ((c.height > f.other.height ∧
              ∃ pl pk pv ph pr, c = mk pl pk pv ph pr ∧ pl.height = pr.height) ∨
           (f.other.height > c.height ∧
              ∃ pl pk pv ph pr, f.other = mk pl pk pv ph pr ∧ pl.height = pr.height)))) := by
  unfold Frame.attach
  cases f.side
  · exact rotateHigher_spec c f.key_ f.value_ f.height_ f.other up hc hs hd
  · obtain ⟨b, h1, h2, h3, h4⟩ :=
      rotateHigher_spec f.other f.key_ f.value_ f.height_ c up hs hc hd.symm
    refine ⟨b, h1, h2, h3, ?_⟩
    rw [max_comm]
    rcases h4 with h4 | ⟨h4, h5 | h5⟩
    · exact Or.inl h4
    · exact Or.inr ⟨h4, Or.inr h5⟩
    · exact Or.inr ⟨h4, Or.inl h5⟩

theorem InsertLoop_spec (path : List (Frame K V)) :
    ∀ (c : Node K V) (n : Int), AVLCtx path n → c.AVLInv →
      (c.height = n ∨ (c.height = n + 1 ∧
        (n = -1 ∨ ∃ l k v h r, c = mk l k v h r ∧ l.height ≠ r.height))) →
      ∃ t, AVLTreeMap.InsertLoop c path = some t ∧ t.AVLInv ∧
        t.inorder = ctxL path ++ c.inorder ++ ctxR path := by
  induction path with
  | nil =>
      intro c n _ hc _
      exact ⟨c, rfl, hc, by simp [ctxL, ctxR]⟩
  | cons f up ih =>
      intro c n hctx hc hcase
      simp only [AVLCtx] at hctx
      obtain ⟨hs, d1, d2, hfh, hup⟩ := hctx
      have hge := height_ge f.other
      by_cases hb : c.height - f.other.height ≤ 1 ∧ f.other.height - c.height ≤ 1
      · -- balanced: update the height and go up
        have hbal := (attach_balanced_iff f c hc hs).mpr hb
        have hg := AVLInv_update_attach f c hc hs hb.1 hb.2
        have hh : (UpdateHeight (f.attach c)).height = 1 + max c.height f.other.height := by
          rw [height_UpdateHeight, height_attach]
        have hcase' : (UpdateHeight (f.attach c)).height = f.height_ ∨
            ((UpdateHeight (f.attach c)).height = f.height_ + 1 ∧
              (f.height_ = -1 ∨ ∃ l k v h r, UpdateHeight (f.attach c) = mk l k v h r ∧
                l.height ≠ r.height)) := by
          rcases hcase with h | ⟨h, -⟩
          · left; rw [hh, hfh, h]
          · by_cases hsn : f.other.height = n + 1
            · left; rw [hh, hfh]; omega
            · right
              refine ⟨by rw [hh, hfh]; omega, Or.inr ?_⟩
              unfold Frame.attach
              cases f.side
              · exact ⟨_, _, _, _, _, rfl, by omega⟩
              · exact ⟨_, _, _, _, _, rfl, by omega⟩
        obtain ⟨t, ht1, ht2, ht3⟩ := ih _ _ hup hg hcase'
        refine ⟨t, ?_, ht2, ?_⟩
        · rw [AVLTreeMap.InsertLoop]
          simp only [hbal, Bool.true_eq_false, if_false]
          exact ht1
        · rw [ht3, inorder_UpdateHeight, inorder_step]
      · -- unbalanced: one rotation, then stop
        have hbal : IsAVLBalanced (f.attach c) = false := by
          rw [← Bool.not_eq_true, attach_balanced_iff f c hc hs]; exact hb
        have hd : c.height = n + 1 ∧ f.other.height = n - 1 := by
          rcases hcase with h | ⟨h, -⟩ <;> omega
        obtain ⟨b, hb1, hb2, hb3, hb4⟩ := rotate_attach f up c hc hs (Or.inl (by omega))
        have hbh : b.height = f.height_ := by
          rcases hb4 with h | ⟨-, h | h⟩
          · rw [h, hfh]; omega
          · exfalso
            obtain ⟨-, pl, pk, pv, ph, pr, hceq, heq⟩ := h
            rcases hcase with h | ⟨-, h | ⟨l, k, v, h', r, hceq', hne⟩⟩
            · omega
            · omega
            · rw [hceq] at hceq'
              injection hceq' with e1 _ _ _ e5
              subst e1; subst e5
              exact hne heq
          · omega
        refine ⟨plug b up, ?_, ?_, ?_⟩
        · rw [AVLTreeMap.InsertLoop]
          simp only [hbal, if_true, hb1]
        · rw [AVLInv_plug]
          exact ⟨hb2, by rw [hbh]; exact hup⟩
        · rw [inorder_plug, hb3, inorder_step]

theorem RemoveLoop_spec (path : List (Frame K V)) :
    ∀ (c : Node K V) (n : Int), AVLCtx path n → c.AVLInv →
      (c.height = n ∨ c.height = n - 1) →
      ∃ t, AVLTreeMap.RemoveLoop c path = some t ∧ t.AVLInv ∧
        t.inorder = ctxL path ++ c.inorder ++ ctxR path := by
  induction path with
  | nil =>
      intro c n _ hc _
      exact ⟨c, rfl, hc, by simp [ctxL, ctxR]⟩
  | cons f up ih =>
      intro c n hctx hc hcase
      simp only [AVLCtx] at hctx
      obtain ⟨hs, d1, d2, hfh, hup⟩ := hctx
      by_cases hb : c.height - f.other.height ≤ 1 ∧ f.other.height - c.height ≤ 1
      · have hbal := (attach_balanced_iff f c hc hs).mpr hb
        have hg := AVLInv_update_attach f c hc hs hb.1 hb.2
        have hh : (UpdateHeight (f.attach c)).height = 1 + max c.height f.other.height := by
          rw [height_UpdateHeight, height_attach]
        obtain ⟨t, ht1, ht2, ht3⟩ := ih _ f.height_ hup hg (by rw [hh, hfh]; omega)
        refine ⟨t, ?_, ht2, ?_⟩
        · rw [AVLTreeMap.RemoveLoop]
          simp only [hbal, Bool.true_eq_false, if_false]
          exact ht1
        · rw [ht3, inorder_UpdateHeight, inorder_step]
      · have hbal : IsAVLBalanced (f.attach c) = false := by
          rw [← Bool.not_eq_true, attach_balanced_iff f c hc hs]; exact hb
        obtain ⟨b, hb1, hb2, hb3, hb4⟩ := rotate_attach f up c hc hs (Or.inr (by omega))
        have hbh : b.height = f.height_ ∨ b.height = f.height_ - 1 := by
          rcases hb4 with h | ⟨h, -⟩
          · right; rw [h, hfh]; omega
          · left; rw [h, hfh]; omega
        obtain ⟨t, ht1, ht2, ht3⟩ := ih (UpdateHeight b) f.height_ hup
          (by rw [hb2.updateHeight_eq]; exact hb2)
          (by rw [height_UpdateHeight]; exact hbh)
        refine ⟨t, ?_, ht2, ?_⟩
        · rw [AVLTreeMap.RemoveLoop]
          simp only [hbal, if_true, hb1]
          exact ht1
        · rw [ht3, inorder_UpdateHeight, hb3, inorder_step]

end DSA

namespace DSA
open Node
variable {K V : Type}

/-! ## AVL: RemoveAt keeps the chain an AVL context -/

theorem plug_append (c : Node K V) (a b : List (Frame K V)) :
    plug c (a ++ b) = plug (plug c a) b := by
  induction a generalizing c with
  | nil => rfl
  | cons f up ih => simp [plug, ih]

theorem AVLCtx_append (c : Node K V) (hc : c.AVLInv) (a b : List (Frame K V)) :
    AVLCtx (a ++ b) c.height ↔ AVLCtx a c.height ∧ AVLCtx b (plug c a).height := by
  have h1 := AVLInv_plug c (a ++ b)
  rw [plug_append, AVLInv_plug, AVLInv_plug] at h1
  constructor
  · intro h
    have := h1.mpr ⟨hc, h⟩
    exact ⟨this.1.2, this.2⟩
  · rintro ⟨h2, h3⟩
    exact (h1.mp ⟨⟨hc, h2⟩, h3⟩).2

theorem leftmost_plug (l : Node K V) (k : K) (v : V) (h : Int) (r : Node K V)
    (path : List (Frame K V)) :
    plug (mk null (leftmost l k v h r path).1 (leftmost l k v h r path).2.1
        (leftmost l k v h r path).2.2.1 (leftmost l k v h r path).2.2.2.1)
      (leftmost l k v h r path).2.2.2.2 = plug (mk l k v h r) path := by
  induction l generalizing k v h r path with
  | null => simp [leftmost]
  | mk ll lk lv lh lr ihl _ =>
      rw [leftmost, ihl]
      simp [plug, Frame.attach]

theorem RemoveAt_avl (xl : Node K V) (xk : K) (xv : V) (xh : Int) (xr : Node K V)
    (hot : List (Frame K V)) (h : (plug (mk xl xk xv xh xr) hot).AVLInv) :
    ∃ n, AVLCtx (RemoveAt xl xk xv xh xr hot).2 n ∧ (RemoveAt xl xk xv xh xr hot).1.AVLInv ∧
      (RemoveAt xl xk xv xh xr hot).1.height = n - 1 := by
  rw [AVLInv_plug] at h
  obtain ⟨hx, hctx⟩ := h
  simp only [AVLInv] at hx
  obtain ⟨hl, hr, hh, b1, b2⟩ := hx
  have gl := height_ge xl
  have gr := height_ge xr
  cases xl with
  | null =>
      refine ⟨_, hctx, hr, ?_⟩
      simp only [RemoveAt, height] at b2 ⊢
      omega
  | mk ll lk lv lh lr =>
      cases xr with
      | null =>
          refine ⟨_, hctx, hl, ?_⟩
          have e : (mk (mk ll lk lv lh lr) xk xv xh null).height =
              1 + max (mk ll lk lv lh lr).height (-1) := rfl
          have e' : (null : Node K V).height = -1 := rfl
          rw [e'] at b1
          simp only [RemoveAt]
          rw [e]
          omega
      | mk rl rk rv rh rr =>
          have hp := leftmost_plug rl rk rv rh rr ([] : List (Frame K V))
          simp only [plug] at hp
          have hw := hr
          rw [← hp, AVLInv_plug] at hw
          obtain ⟨hw1, hw2⟩ := hw
          have hw1' := hw1
          simp only [AVLInv] at hw1
          obtain ⟨-, hwr, -, -, c2⟩ := hw1
          have gw := height_ge (leftmost rl rk rv rh rr ([] : List (Frame K V))).2.2.2.1
          refine ⟨_, (AVLCtx_append _ hw1' _ _).mpr ⟨hw2, ?_⟩, hwr, ?_⟩
          · rw [hp]
            simp only [AVLCtx]
            refine ⟨hl, by omega, by omega, by rw [hh, max_comm], ?_⟩
            have e : (mk (mk ll lk lv lh lr) xk xv xh (mk rl rk rv rh rr)).height = xh := by
              rw [hh]; simp only [height]
            rw [e] at hctx
            exact hctx
          · have e' : (null : Node K V).height = -1 := rfl
            rw [e'] at c2
            simp only [RemoveAt]
            have e : ∀ (a : K) (b : V) (c : Int) (d : Node K V),
                (mk null a b c d).height = 1 + max (-1) d.height := fun _ _ _ _ => rfl
            rw [e]
            have key : ∀ z : Int, -1 ≤ z → z = 1 + max (-1) z - 1 := by
              intro z hz; omega
            exact key _ (height_ge _)

theorem Node.AVLInv.balanced {t : Node K V} (h : t.AVLInv) : t.Balanced := by
  induction t with
  | null => trivial
  | mk l k v h' r ihl ihr =>
      simp only [Node.AVLInv] at h
      exact ⟨ihl h.1, ihr h.2.1, h.2.2.2.1, h.2.2.2.2⟩

theorem Node.AVLInv.factors {t : Node K V} (h : t.AVLInv) : t.FactorsInRange := by
  induction t with
  | null => trivial
  | mk l k v h' r ihl ihr =>
      simp only [Node.AVLInv] at h
      refine ⟨ihl h.1, ihr h.2.1, ?_⟩
      simp only [GetBalanceFactor, h.1.stature, h.2.1.stature]
      omega

theorem Node.AVLInv.heightsExact {t : Node K V} (h : t.AVLInv) : t.HeightsExact := by
  induction t with
  | null => trivial
  | mk l k v h' r ihl ihr =>
      simp only [Node.AVLInv] at h
      exact ⟨ihl h.1, ihr h.2.1, h.2.2.1⟩

/-! ## AVLTreeMap: what Insert and Remove do -/

variable [LinearOrder K]

namespace AVLTreeMap

theorem avl_Insert_fresh (m : AVLTreeMap K V) (k : K) (v : V) (ha : m.root_.AVLInv)
    (ht : KeysIncreasing m.root_.inorder) (hk : k ∉ m.root_.keys) :
    ∃ m', m.Insert k v = some (m', (k, v)) ∧ m'.size_ = m.size_ + 1 ∧
      InsertedInto k v m.root_.inorder m'.root_.inorder ∧ m'.root_.AVLInv := by
  obtain ⟨h1, h2, h3, -⟩ := search_root m.root_ k ht
  have hn := (search_null_iff m.root_ k ht).mpr hk
  have hx : SearchIn m.root_ k [] = (Node.null, (SearchIn m.root_ k []).2) := Prod.ext hn rfl
  rw [hn] at h1 h2
  have hctx : AVLCtx (SearchIn m.root_ k []).2 (-1) := by
    have := ha
    rw [← h1, AVLInv_plug] at this
    simpa [height] using this.2
  obtain ⟨t, e1, e2, e3⟩ := InsertLoop_spec (SearchIn m.root_ k []).2 (Node.mk null k v 0 null)
    (-1) hctx (by simp [AVLInv, height]) (Or.inr ⟨by simp [height], Or.inl rfl⟩)
  refine ⟨⟨m.size_ + 1, t⟩, ?_, rfl, ⟨_, _, ?_, ?_, h3.1, h3.2⟩, e2⟩
  · simp only [Insert, Search]
    rw [hx]
    simp only [e1]
  · simpa [inorder] using h2
  · simpa [inorder] using e3

theorem avl_Insert_dup (m : AVLTreeMap K V) (k : K) (v0 v1 : V)
    (ht : KeysIncreasing m.root_.inorder) (hk : (k, v0) ∈ m.root_.inorder) :
    m.Insert k v1 = some (m, (k, v0)) := by
  obtain ⟨l, h, r, hx⟩ := (search_hit_iff m.root_ k v0 ht).mpr hk
  have hx' : SearchIn m.root_ k [] = (Node.mk l k v0 h r, (SearchIn m.root_ k []).2) :=
    Prod.ext hx rfl
  simp only [Insert, Search]
  rw [hx']

theorem avl_Remove_miss (m : AVLTreeMap K V) (k : K)
    (ht : KeysIncreasing m.root_.inorder) (hk : k ∉ m.root_.keys) :
    m.Remove k = some (m, false) := by
  have hn := (search_null_iff m.root_ k ht).mpr hk
  have hx : SearchIn m.root_ k [] = (Node.null, (SearchIn m.root_ k []).2) := Prod.ext hn rfl
  simp only [Remove, Search]
  rw [hx]

theorem avl_Remove_hit (m : AVLTreeMap K V) (k : K) (ha : m.root_.AVLInv)
    (ht : KeysIncreasing m.root_.inorder) (hk : k ∈ m.root_.keys) :
    ∃ m', m.Remove k = some (m', true) ∧ m'.size_ = m.size_ - 1 ∧
      DeletedFrom k m.root_.inorder m'.root_.inorder ∧ m'.root_.AVLInv := by
  obtain ⟨h1, h2, -, h4⟩ := search_root m.root_ k ht
  rcases h4 with h4 | ⟨l, val, h, r, h4, -⟩
  · exact absurd hk ((search_null_iff m.root_ k ht).mp h4)
  · have hx : SearchIn m.root_ k [] = (Node.mk l k val h r, (SearchIn m.root_ k []).2) :=
      Prod.ext h4 rfl
    rw [h4] at h1 h2
    have ha' := ha
    rw [← h1] at ha'
    obtain ⟨n, r1, r2, r3⟩ := RemoveAt_avl l k val h r _ ha'
    obtain ⟨t, e1, e2, e3⟩ := RemoveLoop_spec _ _ n r1 r2 (Or.inr r3)
    refine ⟨⟨m.size_ - 1, t⟩, ?_, rfl, ⟨ctxL (SearchIn m.root_ k []).2 ++ l.inorder, val,
      r.inorder ++ ctxR (SearchIn m.root_ k []).2, ?_, ?_⟩, e2⟩
    · simp only [Remove, Search]
      rw [hx]
      simp only [e1]
    · rw [h2]; simp [inorder]
    · show t.inorder = _
      rw [e3, RemoveAt_inorder]
      simp

/-- Every reachable state is an AVL tree with exact cached heights, ordered, and counts its
nodes. -/
theorem avl_reachable_inv {m : AVLTreeMap K V} (h : Reachable m) :
    m.root_.AVLInv ∧ KeysIncreasing m.root_.inorder ∧ m.size_ = (m.root_.GetSize : Int) := by
  induction h with
  | empty => simp [empty, KeysIncreasing, inorder, Node.GetSize, Node.AVLInv]
  | @insert m m' k v r _ he ih =>
      obtain ⟨ha, ho, hs⟩ := ih
      by_cases hk : k ∈ m.root_.keys
      · simp only [keys, List.mem_map] at hk
        obtain ⟨⟨k', v0⟩, hp, rfl⟩ := hk
        rw [avl_Insert_dup m k' v0 v ho hp] at he
        injection he with he
        injection he with he1 _
        subst he1
        exact ⟨ha, ho, hs⟩
      · obtain ⟨m2, h1, h2, h3, h4⟩ := avl_Insert_fresh m k v ha ho hk
        rw [h1] at he
        injection he with he
        injection he with he1 _
        subst he1
        refine ⟨h4, h3.sorted_after ho, ?_⟩
        rw [h2, hs, GetSize_eq_length, GetSize_eq_length, h3.length_after]
        simp
  | @remove m m' k b _ he ih =>
      obtain ⟨ha, ho, hs⟩ := ih
      by_cases hk : k ∈ m.root_.keys
      · obtain ⟨m2, h1, h2, h3, h4⟩ := avl_Remove_hit m k ha ho hk
        rw [h1] at he
        injection he with he
        injection he with he1 _
        subst he1
        refine ⟨h4, h3.sorted_rest ho, ?_⟩
        rw [h2, hs, GetSize_eq_length, GetSize_eq_length, h3.length_rest]
        simp
      · rw [avl_Remove_miss m k ho hk] at he
        injection he with he
        injection he with he1 _
        subst he1
        exact ⟨ha, ho, hs⟩

end AVLTreeMap

end DSA

namespace DSA
open Node
variable {K V : Type}

/-! ## Splay: the node splayed becomes the root and the inorder sequence is kept -/

theorem splayStep_spec (vl : Node K V) (vk : K) (vv : V) (vh : Int) (vr : Node K V)
    (p g : Frame K V) (up : List (Frame K V)) :
    ∃ L h' R, splayStep vl vk vv vh vr p g = mk L vk vv h' R ∧
      ctxL up ++ L.inorder = ctxL (p :: g :: up) ++ vl.inorder ∧
      R.inorder ++ ctxR up = vr.inorder ++ ctxR (p :: g :: up) := by
  unfold splayStep
  cases hp : p.side <;> cases hg : g.side <;>
    exact ⟨_, _, _, rfl, by simp [ctxL, hp, hg, inorder], by simp [ctxR, hp, hg, inorder]⟩

theorem splayLast_spec (vl : Node K V) (vk : K) (vv : V) (vh : Int) (vr : Node K V)
    (p : Frame K V) :
    ∃ L h' R, splayLast vl vk vv vh vr p = mk L vk vv h' R ∧
      L.inorder = ctxL [p] ++ vl.inorder ∧ R.inorder = vr.inorder ++ ctxR [p] := by
  unfold splayLast
  cases hp : p.side <;>
    exact ⟨_, _, _, rfl, by simp [ctxL, hp, inorder], by simp [ctxR, hp, inorder]⟩

theorem Splay_spec_aux (n : Nat) :
    ∀ (path : List (Frame K V)), path.length ≤ n →
      ∀ (vl : Node K V) (vk : K) (vv : V) (vh : Int) (vr : Node K V),
        ∃ L h' R, Splay (mk vl vk vv vh vr) path = mk L vk vv h' R ∧
          L.inorder = ctxL path ++ vl.inorder ∧ R.inorder = vr.inorder ++ ctxR path := by
  induction n with
  | zero =>
      intro path hlen vl vk vv vh vr
      have : path = [] := List.length_eq_zero.mp (Nat.le_zero.mp hlen)
      subst this
      exact ⟨vl, vh, vr, rfl, by simp [ctxL], by simp [ctxR]⟩
  | succ n ih =>
      intro path hlen vl vk vv vh vr
      match path, hlen with
      | [], _ => exact ⟨vl, vh, vr, rfl, by simp [ctxL], by simp [ctxR]⟩
      | [p], _ =>
          obtain ⟨L, h', R, e, h1, h2⟩ := splayLast_spec vl vk vv vh vr p
          exact ⟨L, h', R, by rw [Splay, e], h1, h2⟩
      | p :: g :: up, hlen =>
          obtain ⟨L, h', R, e, h1, h2⟩ := splayStep_spec vl vk vv vh vr p g up
          have hup : up.length ≤ n := by simp at hlen; omega
          obtain ⟨L', hh, R', e', h1', h2'⟩ := ih up hup L vk vv h' R
          refine ⟨L', hh, R', ?_, ?_, ?_⟩
          · rw [Splay, e]; exact e'
          · rw [h1', h1]
          · rw [h2', h2]

theorem Splay_spec (vl : Node K V) (vk : K) (vv : V) (vh : Int) (vr : Node K V)
    (path : List (Frame K V)) :
    ∃ L h' R, Splay (mk vl vk vv vh vr) path = mk L vk vv h' R ∧
      L.inorder = ctxL path ++ vl.inorder ∧ R.inorder = vr.inorder ++ ctxR path :=
  Splay_spec_aux path.length path le_rfl vl vk vv vh vr

variable [LinearOrder K]

namespace SplayTreeMap

theorem splay_Search_size (m : SplayTreeMap K V) (k : K) : (m.Search k).size_ = m.size_ := by
  unfold Search
  split <;> rfl

theorem splay_Search_null (m : SplayTreeMap K V) (k : K) (h : m.root_ = Node.null) :
    m.Search k = m := by
  cases m with
  | mk s t =>
      simp only at h
      subst h
      simp [Search, SearchIn, Splay]

/-- What `Search` leaves at the root of a non-empty ordered tree. -/
theorem splay_Search_spec (m : SplayTreeMap K V) (k : K) (ht : KeysIncreasing m.root_.inorder)
    (hne : m.root_ ≠ Node.null) :
    ∃ L tk tv h R, (m.Search k).root_ = Node.mk L tk tv h R ∧
      m.root_.inorder = L.inorder ++ (tk, tv) :: R.inorder ∧
      (tk < k → ∀ p ∈ R.inorder, k < p.1) ∧ (k < tk → ∀ p ∈ L.inorder, p.1 < k) ∧
      (k ∈ m.root_.keys → tk = k) := by
  obtain ⟨h1, h2, h3, h4⟩ := search_root m.root_ k ht
  rcases h4 with h4 | ⟨l, val, h, r, h4, -⟩
  · -- a miss: the last node on the search path is splayed
    have hk : k ∉ m.root_.keys := (search_null_iff m.root_ k ht).mp h4
    rw [h4] at h1 h2
    cases hhot : (SearchIn m.root_ k []).2 with
    | nil =>
        rw [hhot] at h1
        exact absurd h1.symm hne
    | cons f up =>
        have hx : SearchIn m.root_ k [] = (Node.null, f :: up) := Prod.ext h4 hhot
        rw [hhot] at h2 h3
        have hs : (m.Search k).root_ = Splay (f.attach null) up := by
          simp only [Search]; rw [hx]
        rw [hs]
        unfold Frame.attach
        cases hf : f.side
        · obtain ⟨L, h', R, e, e1, e2⟩ := Splay_spec null f.key_ f.value_ f.height_ f.other up
          have hkf : k < f.key_ := h3.2 (f.key_, f.value_) (by simp [ctxR, hf])
          refine ⟨L, f.key_, f.value_, h', R, e, ?_, ?_, ?_, fun hk' => absurd hk' hk⟩
          · rw [h2, e1, e2]; simp [ctxL, ctxR, hf, inorder]
          · intro hlt; exact absurd hlt (not_lt.mpr (le_of_lt hkf))
          · intro _ p hp
            rw [e1] at hp
            exact h3.1 p (by simpa [ctxL, hf, inorder] using hp)
        · obtain ⟨L, h', R, e, e1, e2⟩ := Splay_spec f.other f.key_ f.value_ f.height_ null up
          have hkf : f.key_ < k := h3.1 (f.key_, f.value_) (by simp [ctxL, hf])
          refine ⟨L, f.key_, f.value_, h', R, e, ?_, ?_, ?_, fun hk' => absurd hk' hk⟩
          · rw [h2, e1, e2]; simp [ctxL, ctxR, hf, inorder]
          · intro _ p hp
            rw [e2] at hp
            exact h3.2 p (by simpa [ctxR, hf, inorder] using hp)
          · intro hlt; exact absurd hlt (not_lt.mpr (le_of_lt hkf))
  · -- a hit: the node found is splayed
    have hx : SearchIn m.root_ k [] = (Node.mk l k val h r, (SearchIn m.root_ k []).2) :=
      Prod.ext h4 rfl
    have hs : (m.Search k).root_ = Splay (Node.mk l k val h r) (SearchIn m.root_ k []).2 := by
      simp only [Search]; rw [hx]
    obtain ⟨L, h', R, e, e1, e2⟩ := Splay_spec l k val h r (SearchIn m.root_ k []).2
    rw [h4] at h2
    refine ⟨L, k, val, h', R, by rw [hs, e], ?_, ?_, ?_, fun _ => rfl⟩
    · rw [h2, e1, e2]; simp [inorder]
    · intro hlt; exact absurd hlt (lt_irrefl _)
    · intro hlt; exact absurd hlt (lt_irrefl _)

theorem splay_Search_inorder (m : SplayTreeMap K V) (k : K) (ht : KeysIncreasing m.root_.inorder) :
    (m.Search k).root_.inorder = m.root_.inorder := by
  by_cases hne : m.root_ = Node.null
  · rw [splay_Search_null m k hne]
  · obtain ⟨L, tk, tv, h, R, e, e1, -⟩ := splay_Search_spec m k ht hne
    rw [e, e1]; rfl

end SplayTreeMap

end DSA

namespace DSA
open Node
variable {K V : Type}

variable [LinearOrder K]

namespace SplayTreeMap

/-! ## SplayTreeMap: what Insert and Remove do to the inorder sequence -/

theorem splay_Insert_fresh (m : SplayTreeMap K V) (k : K) (v : V)
    (ht : KeysIncreasing m.root_.inorder) (hk : k ∉ m.root_.keys) :
    ∃ m', m.Insert k v = some (m', (k, v)) ∧ m'.size_ = m.size_ + 1 ∧
      InsertedInto k v m.root_.inorder m'.root_.inorder := by
  cases hr : m.root_ with
  | null =>
      refine ⟨⟨m.size_ + 1, Node.mk null k v 0 null⟩, ?_, rfl, [], [], ?_, ?_, ?_, ?_⟩
      · simp only [Insert, hr]
      · simp [inorder]
      · simp [inorder]
      · simp
      · simp
  | mk l0 k0 v0 h0 r0 =>
      have hne : m.root_ ≠ Node.null := by rw [hr]; exact fun h => Node.noConfusion h
      obtain ⟨L, tk, tv, h, R, e, e1, e2, e3, -⟩ := splay_Search_spec m k ht hne
      have hmem : tk ∈ m.root_.keys := by
        simp only [keys, List.mem_map]
        exact ⟨(tk, tv), by rw [e1]; simp, rfl⟩
      have hne' : tk ≠ k := fun h => hk (h ▸ hmem)
      have hsorted := ht
      rw [e1] at hsorted
      simp only [KeysIncreasing, List.pairwise_append, List.pairwise_cons, List.mem_cons] at hsorted
      obtain ⟨-, ⟨hR, -⟩, hLR⟩ := hsorted
      rw [← hr]
      by_cases hlt : tk < k
      · refine ⟨⟨(m.Search k).size_ + 1,
          UpdateHeightAbove (Node.mk L tk tv h null) [⟨Side.left, k, v, 0, R⟩]⟩, ?_,
          by simp [splay_Search_size], L.inorder ++ [(tk, tv)], R.inorder, ?_, ?_, ?_, e2 hlt⟩
        · simp only [Insert, hr, e, hne', hlt, if_true, if_false]
        · rw [e1]; simp
        · simp [inorder_UpdateHeightAbove, inorder_plug, ctxL, ctxR, inorder]
        · intro p hp
          simp only [List.mem_append, List.mem_singleton] at hp
          rcases hp with hp | rfl
          · exact lt_trans (hLR p hp (tk, tv) (Or.inl rfl)) hlt
          · exact hlt
      · have hgt : k < tk := lt_of_le_of_ne (not_lt.mp hlt) (Ne.symm hne')
        refine ⟨⟨(m.Search k).size_ + 1,
          UpdateHeightAbove (Node.mk null tk tv h R) [⟨Side.right, k, v, 0, L⟩]⟩, ?_,
          by simp [splay_Search_size], L.inorder, (tk, tv) :: R.inorder, ?_, ?_, e3 hgt, ?_⟩
        · simp only [Insert, hr, e, hne', hlt, if_false]
        · rw [e1]
        · simp [inorder_UpdateHeightAbove, inorder_plug, ctxL, ctxR, inorder]
        · intro p hp
          simp only [List.mem_cons] at hp
          rcases hp with rfl | hp
          · exact hgt
          · exact lt_trans hgt (hR p hp)

theorem splay_Insert_dup (m : SplayTreeMap K V) (k : K) (v0 v1 : V)
    (ht : KeysIncreasing m.root_.inorder) (hk : (k, v0) ∈ m.root_.inorder) :
    ∃ m', m.Insert k v1 = some (m', (k, v0)) ∧ m'.size_ = m.size_ ∧
      m'.root_.inorder = m.root_.inorder ∧
      ∃ L h R, m'.root_ = Node.mk L k v0 h R := by
  cases hr : m.root_ with
  | null => rw [hr] at hk; simp [inorder] at hk
  | mk l0 k0 v0' h0 r0 =>
      have hne : m.root_ ≠ Node.null := by rw [hr]; exact fun h => Node.noConfusion h
      obtain ⟨L, tk, tv, h, R, e, e1, -, -, e4⟩ := splay_Search_spec m k ht hne
      have hkk : tk = k := e4 (by simp only [keys, List.mem_map]; exact ⟨_, hk, rfl⟩)
      subst hkk
      have hv : tv = v0 := ht.unique (by rw [e1]; simp) hk
      subst hv
      refine ⟨m.Search tk, ?_, splay_Search_size m tk, ?_, L, h, R, e⟩
      · simp only [Insert, hr, e, if_true]
      · rw [← hr]; exact splay_Search_inorder m tk ht

theorem splay_Remove_miss (m : SplayTreeMap K V) (k : K)
    (ht : KeysIncreasing m.root_.inorder) (hk : k ∉ m.root_.keys) :
    ∃ m', m.Remove k = some (m', false) ∧ m'.size_ = m.size_ ∧
      m'.root_.inorder = m.root_.inorder := by
  cases hr : m.root_ with
  | null =>
      refine ⟨m, ?_, rfl, by rw [hr]⟩
      simp only [Remove, hr]
  | mk l0 k0 v0 h0 r0 =>
      have hne : m.root_ ≠ Node.null := by rw [hr]; exact fun h => Node.noConfusion h
      obtain ⟨L, tk, tv, h, R, e, e1, -, -, -⟩ := splay_Search_spec m k ht hne
      have hmem : tk ∈ m.root_.keys := by
        simp only [keys, List.mem_map]
        exact ⟨(tk, tv), by rw [e1]; simp, rfl⟩
      have hne' : tk ≠ k := fun h => hk (h ▸ hmem)
      refine ⟨m.Search k, ?_, splay_Search_size m k, ?_⟩
      · simp only [Remove, hr, e, ne_eq, hne', not_false_eq_true, if_true]
      · rw [← hr]; exact splay_Search_inorder m k ht

theorem splay_Remove_hit (m : SplayTreeMap K V) (k : K)
    (ht : KeysIncreasing m.root_.inorder) (hk : k ∈ m.root_.keys) :
    ∃ m', m.Remove k = some (m', true) ∧ m'.size_ = m.size_ - 1 ∧
      DeletedFrom k m.root_.inorder m'.root_.inorder := by
  cases hr : m.root_ with
  | null => rw [hr] at hk; simp [keys, inorder] at hk
  | mk l0 k0 v0 h0 r0 =>
      have hne : m.root_ ≠ Node.null := by rw [hr]; exact fun h => Node.noConfusion h
      obtain ⟨wl, tk, wv, wh, wr, e, e1, -, -, e4⟩ := splay_Search_spec m k ht hne
      have hkk : tk = k := e4 hk
      subst hkk
      have hsorted := ht
      rw [e1] at hsorted
      simp only [KeysIncreasing, List.pairwise_append, List.pairwise_cons, List.mem_cons] at hsorted
      obtain ⟨-, ⟨hR, hRs⟩, -⟩ := hsorted
      rw [← hr]
      cases hwl : wl with
      | null =>
          subst hwl
          refine ⟨⟨(m.Search tk).size_ - 1, UpdateHeight wr⟩, ?_, by simp [splay_Search_size],
            [], wv, wr.inorder, ?_, ?_⟩
          · simp only [Remove, hr, e, ne_eq, not_true_eq_false, if_false]
          · rw [e1]; simp [inorder]
          · simp
      | mk a1 a2 a3 a4 a5 =>
          cases hwr : wr with
          | null =>
              subst hwl; subst hwr
              refine ⟨⟨(m.Search tk).size_ - 1, UpdateHeight (Node.mk a1 a2 a3 a4 a5)⟩, ?_,
                by simp [splay_Search_size], (Node.mk a1 a2 a3 a4 a5).inorder, wv, [], ?_, ?_⟩
              · simp only [Remove, hr, e, ne_eq, not_true_eq_false, if_false]
              · rw [e1]; simp [inorder]
              · simp
          | mk b1 b2 b3 b4 b5 =>
              have hne2 : (⟨(m.Search tk).size_, wr⟩ : SplayTreeMap K V).root_ ≠ Node.null := by
                rw [hwr]; exact fun h => Node.noConfusion h
              obtain ⟨L', tk', tv', h', R', f, f1, -, f3, -⟩ :=
                splay_Search_spec (⟨(m.Search tk).size_, wr⟩ : SplayTreeMap K V) tk hRs hne2
              simp only at f1
              have hgt : tk < tk' := hR (tk', tv') (by rw [f1]; simp)
              have hL : L'.inorder = [] := by
                rw [List.eq_nil_iff_forall_not_mem]
                intro p hp
                have h1 := f3 hgt p hp
                have h2 := hR p (by rw [f1]; simp [hp])
                exact lt_irrefl _ (lt_trans h1 h2)
              subst hwl
              rw [hwr] at f
              refine ⟨⟨(m.Search tk).size_ - 1, UpdateHeight (Node.mk (Node.mk a1 a2 a3 a4 a5) tk' tv' h' R')⟩,
                ?_, by simp [splay_Search_size], (Node.mk a1 a2 a3 a4 a5).inorder, wv,
                wr.inorder, ?_, ?_⟩
              · simp only [Remove, hr, e, hwr, ne_eq, not_true_eq_false, if_false, f]
              · rw [e1]
              · rw [f1, hL]; simp [inorder]

/-- Every reachable state is ordered and counts its nodes. -/
theorem splay_reachable_inv {m : SplayTreeMap K V} (h : Reachable m) :
    KeysIncreasing m.root_.inorder ∧ m.size_ = (m.root_.GetSize : Int) := by
  induction h with
  | empty => simp [empty, KeysIncreasing, inorder, Node.GetSize]
  | @search m k _ ih =>
      obtain ⟨ho, hs⟩ := ih
      rw [splay_Search_size, GetSize_eq_length, splay_Search_inorder m k ho, ← GetSize_eq_length]
      exact ⟨ho, hs⟩
  | @insert m m' k v r _ he ih =>
      obtain ⟨ho, hs⟩ := ih
      by_cases hk : k ∈ m.root_.keys
      · simp only [keys, List.mem_map] at hk
        obtain ⟨⟨k', v0⟩, hp, rfl⟩ := hk
        obtain ⟨m2, h1, h2, h3, -⟩ := splay_Insert_dup m k' v0 v ho hp
        rw [h1] at he
        injection he with he
        injection he with he1 _
        subst he1
        rw [h2, GetSize_eq_length, h3, ← GetSize_eq_length]
        exact ⟨ho, hs⟩
      · obtain ⟨m2, h1, h2, h3⟩ := splay_Insert_fresh m k v ho hk
        rw [h1] at he
        injection he with he
        injection he with he1 _
        subst he1
        refine ⟨h3.sorted_after ho, ?_⟩
        rw [h2, hs, GetSize_eq_length, GetSize_eq_length, h3.length_after]
        simp
  | @remove m m' k b _ he ih =>
      obtain ⟨ho, hs⟩ := ih
      by_cases hk : k ∈ m.root_.keys
      · obtain ⟨m2, h1, h2, h3⟩ := splay_Remove_hit m k ho hk
        rw [h1] at he
        injection he with he
        injection he with he1 _
        subst he1
        refine ⟨h3.sorted_rest ho, ?_⟩
        rw [h2, hs, GetSize_eq_length, GetSize_eq_length, h3.length_rest]
        simp
      · obtain ⟨m2, h1, h2, h3⟩ := splay_Remove_miss m k ho hk
        rw [h1] at he
        injection he with he
        injection he with he1 _
        subst he1
        rw [h2, GetSize_eq_length, h3, ← GetSize_eq_length]
        exact ⟨ho, hs⟩

end SplayTreeMap

end DSA

namespace DSA
open Node
variable {K V : Type}

/-! ## Rotations keep the inorder sequence -/

theorem RotateAt_inorder (v : Node K V) (path : List (Frame K V)) (b : Node K V)
    (h : RotateAt v path = some b) :
    (plug b (path.drop 2)).inorder = (plug v path).inorder := by
  cases v with
  | null => simp [RotateAt] at h
  | mk vl vk vv vh vr =>
      match path, h with
      | [], h => simp [RotateAt] at h
      | [_], h => simp [RotateAt] at h
      | p :: g :: up, h =>
          simp only [RotateAt] at h
          simp only [List.drop_succ_cons, List.drop_zero, inorder_plug]
          cases hg : g.side <;> cases hp : p.side <;> simp only [hg, hp] at h <;>
            injection h with h <;> subst h <;>
            simp [Connect34, inorder, ctxL, ctxR, hg, hp]

theorem GetSize_eq_zero_iff (t : Node K V) : t.GetSize = 0 ↔ t = null := by
  cases t with
  | null => simp [Node.GetSize]
  | mk l k v h r => simp [Node.GetSize]

variable [LinearOrder K]

/-! ## The scenario maps are reachable -/

theorem avl1_step : AVLTreeMap.empty.Insert 1 1 = some (avl1, (1, 1)) := by decide
theorem avl2_step : avl1.Insert 2 2 = some (avl2, (2, 2)) := by decide
theorem avl3_step : avl2.Insert 3 3 = some (avl3, (3, 3)) := by decide
theorem avl4_step : avl3.Insert 4 4 = some (avl4, (4, 4)) := by decide
theorem avl5_step : avl4.Insert 5 5 = some (avl5, (5, 5)) := by decide
theorem avl6_step : avl5.Insert 6 6 = some (avl6, (6, 6)) := by decide
theorem avl7_step : avl6.Insert 7 7 = some (avl7, (7, 7)) := by decide

theorem avl1_reachable : AVLTreeMap.Reachable avl1 :=
  AVLTreeMap.Reachable.insert 1 1 (1, 1) AVLTreeMap.Reachable.empty avl1_step
theorem avl2_reachable : AVLTreeMap.Reachable avl2 :=
  AVLTreeMap.Reachable.insert 2 2 (2, 2) avl1_reachable avl2_step
theorem avl3_reachable : AVLTreeMap.Reachable avl3 :=
  AVLTreeMap.Reachable.insert 3 3 (3, 3) avl2_reachable avl3_step
theorem avl4_reachable : AVLTreeMap.Reachable avl4 :=
  AVLTreeMap.Reachable.insert 4 4 (4, 4) avl3_reachable avl4_step
theorem avl5_reachable : AVLTreeMap.Reachable avl5 :=
  AVLTreeMap.Reachable.insert 5 5 (5, 5) avl4_reachable avl5_step
theorem avl6_reachable : AVLTreeMap.Reachable avl6 :=
  AVLTreeMap.Reachable.insert 6 6 (6, 6) avl5_reachable avl6_step
theorem avl7_reachable : AVLTreeMap.Reachable avl7 :=
  AVLTreeMap.Reachable.insert 7 7 (7, 7) avl6_reachable avl7_step

theorem bst3_eq :
    bst3 = (((BinarySearchTreeMap.empty.Insert 1 1).1.Insert 2 2).1.Insert 3 3).1 := by decide

theorem bst3_reachable : BinarySearchTreeMap.Reachable bst3 := by
  rw [bst3_eq]
  exact BinarySearchTreeMap.Reachable.insert 3 3 (BinarySearchTreeMap.Reachable.insert 2 2
    (BinarySearchTreeMap.Reachable.insert 1 1 BinarySearchTreeMap.Reachable.empty))

theorem splay1_step : SplayTreeMap.empty.Insert 1 1 = some (splay1, (1, 1)) := by decide
theorem splay2_step : splay1.Insert 2 2 = some (splay2, (2, 2)) := by decide
theorem splay3_step : splay2.Insert 3 3 = some (splay3, (3, 3)) := by decide

theorem splay3_reachable : SplayTreeMap.Reachable splay3 :=
  SplayTreeMap.Reachable.insert 3 3 (3, 3)
    (SplayTreeMap.Reachable.insert 2 2 (2, 2)
      (SplayTreeMap.Reachable.insert 1 1 (1, 1) SplayTreeMap.Reachable.empty splay1_step)
      splay2_step) splay3_step

/-! ## Searching after a change of the inorder sequence -/

theorem found_of_mem (t : Node K V) (k : K) (v : V) (ht : KeysIncreasing t.inorder)
    (h : (k, v) ∈ t.inorder) : ∃ l h r, (SearchIn t k []).1 = mk l k v h r :=
  (search_hit_iff t k v ht).mpr h

theorem AVLTreeMap.avl_Insert_isSome (m : AVLTreeMap K V) (h : AVLTreeMap.Reachable m) (k : K)
    (v : V) : ∃ r, m.Insert k v = some r := by
  obtain ⟨ha, ho, -⟩ := AVLTreeMap.avl_reachable_inv h
  by_cases hk : k ∈ m.root_.keys
  · simp only [keys, List.mem_map] at hk
    obtain ⟨⟨k', v0⟩, hp, rfl⟩ := hk
    exact ⟨_, AVLTreeMap.avl_Insert_dup m k' v0 v ho hp⟩
  · obtain ⟨m', h1, -⟩ := AVLTreeMap.avl_Insert_fresh m k v ha ho hk
    exact ⟨_, h1⟩

theorem AVLTreeMap.avl_Remove_isSome (m : AVLTreeMap K V) (h : AVLTreeMap.Reachable m) (k : K) :
    ∃ r, m.Remove k = some r := by
  obtain ⟨ha, ho, -⟩ := AVLTreeMap.avl_reachable_inv h
  by_cases hk : k ∈ m.root_.keys
  · obtain ⟨m', h1, -⟩ := AVLTreeMap.avl_Remove_hit m k ha ho hk
    exact ⟨_, h1⟩
  · exact ⟨_, AVLTreeMap.avl_Remove_miss m k ho hk⟩

end DSA

namespace DSA
open Node
variable {K V : Type} [LinearOrder K]

/-! ## The claims -/

/-- C1: in every state of an `AVLTreeMap` reachable from the empty map by `Insert` and
`Remove`, the two subtrees of every node differ in true height by at most one, and every
balance factor (computed from the cached heights) is -1, 0 or 1.  From such a state every
further `Insert` and `Remove` returns. -/
theorem C1_avl_balance (m : AVLTreeMap K V) (h : AVLTreeMap.Reachable m) :
    m.root_.Balanced ∧ m.root_.FactorsInRange ∧
      (∀ k v, ∃ r, m.Insert k v = some r) ∧ (∀ k, ∃ r, m.Remove k = some r) :=
  ⟨(AVLTreeMap.avl_reachable_inv h).1.balanced, (AVLTreeMap.avl_reachable_inv h).1.factors,
    AVLTreeMap.avl_Insert_isSome m h, AVLTreeMap.avl_Remove_isSome m h⟩

/-- C1, scenario 2: inserting 1 to 7 in increasing order gives a balanced tree after each
insert, and after 1, 2, 3 the root is 2. -/
theorem C1_avl_balance_witness :
    (AVLTreeMap.empty.Insert 1 1 = some (avl1, (1, 1)) ∧ avl1.Insert 2 2 = some (avl2, (2, 2)) ∧
      avl2.Insert 3 3 = some (avl3, (3, 3)) ∧ avl3.Insert 4 4 = some (avl4, (4, 4)) ∧
      avl4.Insert 5 5 = some (avl5, (5, 5)) ∧ avl5.Insert 6 6 = some (avl6, (6, 6)) ∧
      avl6.Insert 7 7 = some (avl7, (7, 7))) ∧
    (AVLTreeMap.Reachable avl1 ∧ avl1.root_.Balanced ∧ avl1.root_.FactorsInRange) ∧
    (AVLTreeMap.Reachable avl2 ∧ avl2.root_.Balanced ∧ avl2.root_.FactorsInRange) ∧
    (AVLTreeMap.Reachable avl3 ∧ avl3.root_.Balanced ∧ avl3.root_.FactorsInRange) ∧
    (AVLTreeMap.Reachable avl4 ∧ avl4.root_.Balanced ∧ avl4.root_.FactorsInRange) ∧
    (AVLTreeMap.Reachable avl5 ∧ avl5.root_.Balanced ∧ avl5.root_.FactorsInRange) ∧
    (AVLTreeMap.Reachable avl6 ∧ avl6.root_.Balanced ∧ avl6.root_.FactorsInRange) ∧
    (AVLTreeMap.Reachable avl7 ∧ avl7.root_.Balanced ∧ avl7.root_.FactorsInRange) ∧
    avl3.root_ = Node.mk (leaf 1) 2 2 1 (leaf 3) :=
  ⟨⟨avl1_step, avl2_step, avl3_step, avl4_step, avl5_step, avl6_step, avl7_step⟩,
    ⟨avl1_reachable, (C1_avl_balance avl1 avl1_reachable).1, (C1_avl_balance avl1 avl1_reachable).2.1⟩,
    ⟨avl2_reachable, (C1_avl_balance avl2 avl2_reachable).1, (C1_avl_balance avl2 avl2_reachable).2.1⟩,
    ⟨avl3_reachable, (C1_avl_balance avl3 avl3_reachable).1, (C1_avl_balance avl3 avl3_reachable).2.1⟩,
    ⟨avl4_reachable, (C1_avl_balance avl4 avl4_reachable).1, (C1_avl_balance avl4 avl4_reachable).2.1⟩,
    ⟨avl5_reachable, (C1_avl_balance avl5 avl5_reachable).1, (C1_avl_balance avl5 avl5_reachable).2.1⟩,
    ⟨avl6_reachable, (C1_avl_balance avl6 avl6_reachable).1, (C1_avl_balance avl6 avl6_reachable).2.1⟩,
    ⟨avl7_reachable, (C1_avl_balance avl7 avl7_reachable).1, (C1_avl_balance avl7 avl7_reachable).2.1⟩,
    rfl⟩

/-- C2: in every state of an `AVLTreeMap` reachable from the empty map by `Insert` and
`Remove` the inorder sequence of keys is strictly increasing; and every rotation `RotateAt`
performs (through `Connect34`) leaves the inorder key sequence of the tree unchanged: the
new local root under the old grandparent's ancestors lists the same keys as before. -/
theorem C2_avl_ordered (m : AVLTreeMap K V) (h : AVLTreeMap.Reachable m) :
    m.root_.keys.Sorted (· < ·) ∧
      ∀ (v : Node K V) (path : List (Frame K V)) (b : Node K V), RotateAt v path = some b →
        (plug b (path.drop 2)).keys = (plug v path).keys :=
  ⟨(keysIncreasing_iff_sorted _).mp (AVLTreeMap.avl_reachable_inv h).2.1,
    fun v path b hb => congrArg (List.map Prod.fst) (RotateAt_inorder v path b hb)⟩

/-- C2 at the map holding 1 to 7, with the rotation done when 3 is inserted below 1, 2. -/
theorem C2_avl_ordered_witness :
    AVLTreeMap.Reachable avl7 ∧ avl7.root_.keys = [1, 2, 3, 4, 5, 6, 7] ∧
      avl7.root_.keys.Sorted (· < ·) ∧
      RotateAt (leaf 3) [⟨Side.right, 2, 2, 0, Node.null⟩, ⟨Side.right, 1, 1, 1, Node.null⟩] =
        some (Node.mk (leaf 1) 2 2 1 (leaf 3)) ∧
      (Node.mk (leaf 1) 2 2 1 (leaf 3)).keys =
        (plug (leaf 3)
          [⟨Side.right, 2, 2, 0, Node.null⟩, ⟨Side.right, 1, 1, 1, Node.null⟩]).keys :=
  ⟨avl7_reachable, by decide, (C2_avl_ordered avl7 avl7_reachable).1, by decide,
    (C2_avl_ordered avl7 avl7_reachable).2 (leaf 3)
      [⟨Side.right, 2, 2, 0, Node.null⟩, ⟨Side.right, 1, 1, 1, Node.null⟩] _ (by decide)⟩

/-- C3: in every state of a `BinarySearchTreeMap` reachable from the empty map by `Insert`
and `Remove` the inorder sequence of keys is strictly increasing (so it has no
duplicates). -/
theorem C3_bst_ordered (m : BinarySearchTreeMap K V) (h : BinarySearchTreeMap.Reachable m) :
    m.root_.keys.Sorted (· < ·) :=
  (keysIncreasing_iff_sorted _).mp (BinarySearchTreeMap.bst_reachable_inv h).1

/-- C3, scenario 1: inserting 1, 2, 3 in that order gives inorder `[1, 2, 3]`. -/
theorem C3_bst_ordered_witness :
    bst3 = (((BinarySearchTreeMap.empty.Insert 1 1).1.Insert 2 2).1.Insert 3 3).1 ∧
      BinarySearchTreeMap.Reachable bst3 ∧ bst3.root_.keys = [1, 2, 3] ∧
      bst3.root_.keys.Sorted (· < ·) :=
  ⟨bst3_eq, bst3_reachable, by decide, C3_bst_ordered bst3 bst3_reachable⟩

/-- C4: in every state of a `SplayTreeMap` reachable from the empty map by `Search`, `Insert`
and `Remove` the inorder sequence of keys is strictly increasing. -/
theorem C4_splay_ordered (m : SplayTreeMap K V) (h : SplayTreeMap.Reachable m) :
    m.root_.keys.Sorted (· < ·) :=
  (keysIncreasing_iff_sorted _).mp (SplayTreeMap.splay_reachable_inv h).1

/-- C4 after inserting 1, 2, 3 and then searching 1 (which splays 1 to the root). -/
theorem C4_splay_ordered_witness :
    SplayTreeMap.Reachable (splay3.Search 1) ∧
      (splay3.Search 1).root_ = Node.mk Node.null 1 1 2 (Node.mk Node.null 2 2 1 (leaf 3)) ∧
      (splay3.Search 1).root_.keys.Sorted (· < ·) :=
  ⟨SplayTreeMap.Reachable.search 1 splay3_reachable, by decide,
    C4_splay_ordered (splay3.Search 1) (SplayTreeMap.Reachable.search 1 splay3_reachable)⟩

/-- C5: for each of the three maps, in every reachable state `GetSize()` is the number of
nodes below the root and `IsEmpty()` holds exactly when the root is null. -/
theorem C5_size (b : BinarySearchTreeMap K V) (a : AVLTreeMap K V) (s : SplayTreeMap K V)
    (hb : BinarySearchTreeMap.Reachable b) (ha : AVLTreeMap.Reachable a)
    (hs : SplayTreeMap.Reachable s) :
    (b.GetSize = (b.root_.GetSize : Int) ∧ (b.IsEmpty = true ↔ b.root_ = Node.null)) ∧
    (a.GetSize = (a.root_.GetSize : Int) ∧ (a.IsEmpty = true ↔ a.root_ = Node.null)) ∧
    (s.GetSize = (s.root_.GetSize : Int) ∧ (s.IsEmpty = true ↔ s.root_ = Node.null)) := by
  have e1 := (BinarySearchTreeMap.bst_reachable_inv hb).2
  have e2 := (AVLTreeMap.avl_reachable_inv ha).2.2
  have e3 := (SplayTreeMap.splay_reachable_inv hs).2
  refine ⟨⟨e1, ?_⟩, ⟨e2, ?_⟩, ⟨e3, ?_⟩⟩
  · rw [← GetSize_eq_zero_iff]
    simp only [BinarySearchTreeMap.IsEmpty, BinarySearchTreeMap.GetSize, decide_eq_true_eq, e1]
    omega
  · rw [← GetSize_eq_zero_iff]
    simp only [AVLTreeMap.IsEmpty, AVLTreeMap.GetSize, decide_eq_true_eq, e2]
    omega
  · rw [← GetSize_eq_zero_iff]
    simp only [SplayTreeMap.IsEmpty, SplayTreeMap.GetSize, decide_eq_true_eq, e3]
    omega

/-- C5 at the three maps holding 1, 2, 3: each reports size 3 and is not empty. -/
theorem C5_size_witness :
    (BinarySearchTreeMap.Reachable bst3 ∧ AVLTreeMap.Reachable avl3 ∧
      SplayTreeMap.Reachable splay3) ∧
    (bst3.GetSize = 3 ∧ avl3.GetSize = 3 ∧ splay3.GetSize = 3) ∧
    ((bst3.GetSize = (bst3.root_.GetSize : Int) ∧ (bst3.IsEmpty = true ↔ bst3.root_ = Node.null)) ∧
     (avl3.GetSize = (avl3.root_.GetSize : Int) ∧ (avl3.IsEmpty = true ↔ avl3.root_ = Node.null)) ∧
     (splay3.GetSize = (splay3.root_.GetSize : Int) ∧
       (splay3.IsEmpty = true ↔ splay3.root_ = Node.null))) :=
  ⟨⟨bst3_reachable, avl3_reachable, splay3_reachable⟩, ⟨rfl, rfl, rfl⟩,
    C5_size bst3 avl3 splay3 bst3_reachable avl3_reachable splay3_reachable⟩

/-- C6: for a `BinarySearchTreeMap` and an `AVLTreeMap` in a reachable state and a key that
is not stored, `Insert(k, v)` returns a node holding `k` and `v`; afterwards `Search(k)`
finds a node with value `v`, `GetSize()` has grown by one, and every pair stored before is
still found with its value. -/
theorem C6_insert_fresh (b : BinarySearchTreeMap K V) (a : AVLTreeMap K V)
    (hb : BinarySearchTreeMap.Reachable b) (ha : AVLTreeMap.Reachable a)
    (kb : K) (vb : V) (ka : K) (va : V)
    (hkb : kb ∉ b.root_.keys) (hka : ka ∉ a.root_.keys) :
    ((b.Insert kb vb).2 = (kb, vb) ∧
      (∃ l h r, ((b.Insert kb vb).1.Search kb).1 = Node.mk l kb vb h r) ∧
      (b.Insert kb vb).1.GetSize = b.GetSize + 1 ∧
      ∀ k' v', (k', v') ∈ b.root_.inorder →
        ∃ l h r, ((b.Insert kb vb).1.Search k').1 = Node.mk l k' v' h r) ∧
    (∃ a', a.Insert ka va = some (a', (ka, va)) ∧
      (∃ l h r, (a'.Search ka).1 = Node.mk l ka va h r) ∧
      a'.GetSize = a.GetSize + 1 ∧
      ∀ k' v', (k', v') ∈ a.root_.inorder →
        ∃ l h r, (a'.Search k').1 = Node.mk l k' v' h r) := by
  constructor
  · obtain ⟨ho, -⟩ := BinarySearchTreeMap.bst_reachable_inv hb
    obtain ⟨h1, h2, h3⟩ := BinarySearchTreeMap.bst_Insert_fresh b kb vb ho hkb
    have ho' := h3.sorted_after ho
    refine ⟨h1, ?_, h2, ?_⟩
    · exact found_of_mem _ kb vb ho' ((h3.mem_after _).mpr (Or.inl rfl))
    · intro k' v' hm
      exact found_of_mem _ k' v' ho' ((h3.mem_after _).mpr (Or.inr hm))
  · obtain ⟨hav, ho, -⟩ := AVLTreeMap.avl_reachable_inv ha
    obtain ⟨a', h1, h2, h3, -⟩ := AVLTreeMap.avl_Insert_fresh a ka va hav ho hka
    have ho' := h3.sorted_after ho
    refine ⟨a', h1, ?_, h2, ?_⟩
    · exact found_of_mem _ ka va ho' ((h3.mem_after _).mpr (Or.inl rfl))
    · intro k' v' hm
      exact found_of_mem _ k' v' ho' ((h3.mem_after _).mpr (Or.inr hm))

/-- C6 at the maps holding 1, 2, 3 with the new pair `(4, 4)`. -/
theorem C6_insert_fresh_witness :
    (BinarySearchTreeMap.Reachable bst3 ∧ AVLTreeMap.Reachable avl3 ∧
      4 ∉ bst3.root_.keys ∧ 4 ∉ avl3.root_.keys) ∧
    ((bst3.Insert 4 4).2 = (4, 4) ∧
      (∃ l h r, ((bst3.Insert 4 4).1.Search 4).1 = Node.mk l 4 4 h r) ∧
      (bst3.Insert 4 4).1.GetSize = bst3.GetSize + 1 ∧
      ∀ k' v', (k', v') ∈ bst3.root_.inorder →
        ∃ l h r, ((bst3.Insert 4 4).1.Search k').1 = Node.mk l k' v' h r) ∧
    (∃ a', avl3.Insert 4 4 = some (a', (4, 4)) ∧
      (∃ l h r, (a'.Search 4).1 = Node.mk l 4 4 h r) ∧
      a'.GetSize = avl3.GetSize + 1 ∧
      ∀ k' v', (k', v') ∈ avl3.root_.inorder →
        ∃ l h r, (a'.Search k').1 = Node.mk l k' v' h r) :=
  ⟨⟨bst3_reachable, avl3_reachable, by decide, by decide⟩,
    C6_insert_fresh bst3 avl3 bst3_reachable avl3_reachable 4 4 4 4 (by decide) (by decide)⟩

/-- C7: for a `BinarySearchTreeMap` and an `AVLTreeMap` in a reachable state and a key `k`
stored with value `v0`, `Insert(k, v1)` returns the node of `k`, which still holds `v0`, and
leaves the whole state (shape, keys, values, cached heights, size) as it was. -/
theorem C7_insert_duplicate (b : BinarySearchTreeMap K V) (a : AVLTreeMap K V)
    (hb : BinarySearchTreeMap.Reachable b) (ha : AVLTreeMap.Reachable a)
    (kb : K) (vb0 vb1 : V) (ka : K) (va0 va1 : V)
    (hkb : (kb, vb0) ∈ b.root_.inorder) (hka : (ka, va0) ∈ a.root_.inorder) :
    b.Insert kb vb1 = (b, (kb, vb0)) ∧ a.Insert ka va1 = some (a, (ka, va0)) :=
  ⟨BinarySearchTreeMap.bst_Insert_dup b kb vb0 vb1 (BinarySearchTreeMap.bst_reachable_inv hb).1 hkb,
    AVLTreeMap.avl_Insert_dup a ka va0 va1 (AVLTreeMap.avl_reachable_inv ha).2.1 hka⟩

/-- C7 at the maps holding 1, 2, 3: inserting `(2, 9)` changes nothing and hands back the
node `(2, 2)`. -/
theorem C7_insert_duplicate_witness :
    (BinarySearchTreeMap.Reachable bst3 ∧ AVLTreeMap.Reachable avl3 ∧
      (2, 2) ∈ bst3.root_.inorder ∧ (2, 2) ∈ avl3.root_.inorder) ∧
    (bst3.Insert 2 9 = (bst3, (2, 2)) ∧ avl3.Insert 2 9 = some (avl3, (2, 2))) :=
  ⟨⟨bst3_reachable, avl3_reachable, by decide, by decide⟩,
    C7_insert_duplicate bst3 avl3 bst3_reachable avl3_reachable 2 2 9 2 2 9
      (by decide) (by decide)⟩

/-- C8: for a `BinarySearchTreeMap` and an `AVLTreeMap` in a reachable state and a stored
key `k`, `Remove(k)` returns true, `GetSize()` drops by one, `Search(k)` then finds nothing,
and the inorder sequence of pairs is the old one with the pair of `k` taken out. -/
theorem C8_remove_stored (b : BinarySearchTreeMap K V) (a : AVLTreeMap K V)
    (hb : BinarySearchTreeMap.Reachable b) (ha : AVLTreeMap.Reachable a)
    (kb ka : K) (hkb : kb ∈ b.root_.keys) (hka : ka ∈ a.root_.keys) :
    ((b.Remove kb).2 = true ∧ (b.Remove kb).1.GetSize = b.GetSize - 1 ∧
      ((b.Remove kb).1.Search kb).1 = Node.null ∧
      DeletedFrom kb b.root_.inorder (b.Remove kb).1.root_.inorder) ∧
    (∃ a', a.Remove ka = some (a', true) ∧ a'.GetSize = a.GetSize - 1 ∧
      (a'.Search ka).1 = Node.null ∧ DeletedFrom ka a.root_.inorder a'.root_.inorder) := by
  constructor
  · obtain ⟨ho, -⟩ := BinarySearchTreeMap.bst_reachable_inv hb
    obtain ⟨h1, h2, h3⟩ := BinarySearchTreeMap.bst_Remove_hit b kb ho hkb
    exact ⟨h1, h2, (search_null_iff _ kb (h3.sorted_rest ho)).mpr (h3.key_gone ho), h3⟩
  · obtain ⟨hav, ho, -⟩ := AVLTreeMap.avl_reachable_inv ha
    obtain ⟨a', h1, h2, h3, -⟩ := AVLTreeMap.avl_Remove_hit a ka hav ho hka
    exact ⟨a', h1, h2, (search_null_iff _ ka (h3.sorted_rest ho)).mpr (h3.key_gone ho), h3⟩

/-- C8, scenario 3: removing 3 from the maps holding 1, 2, 3 leaves size 2 and inorder
`[1, 2]`. -/
theorem C8_remove_stored_witness :
    (BinarySearchTreeMap.Reachable bst3 ∧ AVLTreeMap.Reachable avl3 ∧
      3 ∈ bst3.root_.keys ∧ 3 ∈ avl3.root_.keys) ∧
    ((bst3.Remove 3).1.GetSize = 2 ∧ (bst3.Remove 3).1.root_.keys = [1, 2] ∧
      (avl3.Remove 3).map (fun r => (r.1.GetSize, r.1.root_.keys, r.2)) =
        some (2, [1, 2], true)) ∧
    (((bst3.Remove 3).2 = true ∧ (bst3.Remove 3).1.GetSize = bst3.GetSize - 1 ∧
      ((bst3.Remove 3).1.Search 3).1 = Node.null ∧
      DeletedFrom 3 bst3.root_.inorder (bst3.Remove 3).1.root_.inorder) ∧
    (∃ a', avl3.Remove 3 = some (a', true) ∧ a'.GetSize = avl3.GetSize - 1 ∧
      (a'.Search 3).1 = Node.null ∧ DeletedFrom 3 avl3.root_.inorder a'.root_.inorder)) :=
  ⟨⟨bst3_reachable, avl3_reachable, by decide, by decide⟩, ⟨by decide, by decide, by decide⟩,
    C8_remove_stored bst3 avl3 bst3_reachable avl3_reachable 3 3 (by decide) (by decide)⟩

/-- C9: for each of the three maps in a reachable state and a key that is not stored,
`Remove(k)` returns false and leaves `GetSize()` and the inorder sequence of pairs as they
were, and so does a second `Remove(k)`.  For `BinarySearchTreeMap` and `AVLTreeMap` the
state is left exactly as it was. -/
theorem C9_remove_absent (b : BinarySearchTreeMap K V) (a : AVLTreeMap K V)
    (s : SplayTreeMap K V) (hb : BinarySearchTreeMap.Reachable b)
    (ha : AVLTreeMap.Reachable a) (hs : SplayTreeMap.Reachable s) (kb ka ks : K)
    (hkb : kb ∉ b.root_.keys) (hka : ka ∉ a.root_.keys) (hks : ks ∉ s.root_.keys) :
    (b.Remove kb = (b, false) ∧ (b.Remove kb).1.Remove kb = (b, false)) ∧
    a.Remove ka = some (a, false) ∧
    (∃ s', s.Remove ks = some (s', false) ∧ s'.GetSize = s.GetSize ∧
      s'.root_.inorder = s.root_.inorder ∧
      ∃ s2, s'.Remove ks = some (s2, false) ∧ s2.GetSize = s.GetSize ∧
        s2.root_.inorder = s.root_.inorder) := by
  have e1 := BinarySearchTreeMap.bst_Remove_miss b kb (BinarySearchTreeMap.bst_reachable_inv hb).1 hkb
  refine ⟨⟨e1, by rw [e1]; exact e1⟩,
    AVLTreeMap.avl_Remove_miss a ka (AVLTreeMap.avl_reachable_inv ha).2.1 hka, ?_⟩
  obtain ⟨ho, -⟩ := SplayTreeMap.splay_reachable_inv hs
  obtain ⟨s', h1, h2, h3⟩ := SplayTreeMap.splay_Remove_miss s ks ho hks
  have ho' : KeysIncreasing s'.root_.inorder := by rw [h3]; exact ho
  have hks' : ks ∉ s'.root_.keys := by simpa only [keys, h3] using hks
  obtain ⟨s2, g1, g2, g3⟩ := SplayTreeMap.splay_Remove_miss s' ks ho' hks'
  exact ⟨s', h1, h2, h3, s2, g1, g2.trans h2, g3.trans h3⟩

/-- C9, scenario 5: removing the absent key 99 from the maps holding 1, 2, 3. -/
theorem C9_remove_absent_witness :
    (BinarySearchTreeMap.Reachable bst3 ∧ AVLTreeMap.Reachable avl3 ∧
      SplayTreeMap.Reachable splay3 ∧
      99 ∉ bst3.root_.keys ∧ 99 ∉ avl3.root_.keys ∧ 99 ∉ splay3.root_.keys) ∧
    ((bst3.Remove 99 = (bst3, false) ∧ (bst3.Remove 99).1.Remove 99 = (bst3, false)) ∧
    avl3.Remove 99 = some (avl3, false) ∧
    (∃ s', splay3.Remove 99 = some (s', false) ∧ s'.GetSize = splay3.GetSize ∧
      s'.root_.inorder = splay3.root_.inorder ∧
      ∃ s2, s'.Remove 99 = some (s2, false) ∧ s2.GetSize = splay3.GetSize ∧
        s2.root_.inorder = splay3.root_.inorder)) :=
  ⟨⟨bst3_reachable, avl3_reachable, splay3_reachable, by decide, by decide, by decide⟩,
    C9_remove_absent bst3 avl3 splay3 bst3_reachable avl3_reachable splay3_reachable 99 99 99
      (by decide) (by decide) (by decide)⟩

/-- C10: for a `BinarySearchTreeMap` and an `AVLTreeMap` in a reachable state and every key
`k`, `Search(k)` returns a node with key `k` when `k` is stored and the null handle when it
is not; the slot it returns is a slot of the unchanged tree (putting the node found back
under `hot_` and its ancestors gives the tree that was searched). -/
theorem C10_search (b : BinarySearchTreeMap K V) (a : AVLTreeMap K V)
    (hb : BinarySearchTreeMap.Reachable b) (ha : AVLTreeMap.Reachable a) (kb ka : K) :
    ((kb ∈ b.root_.keys → ∃ l v h r, (b.Search kb).1 = Node.mk l kb v h r) ∧
      (kb ∉ b.root_.keys → (b.Search kb).1 = Node.null) ∧
      plug (b.Search kb).1 (b.Search kb).2 = b.root_) ∧
    ((ka ∈ a.root_.keys → ∃ l v h r, (a.Search ka).1 = Node.mk l ka v h r) ∧
      (ka ∉ a.root_.keys → (a.Search ka).1 = Node.null) ∧
      plug (a.Search ka).1 (a.Search ka).2 = a.root_) := by
  have key : ∀ (t : Node K V) (k : K), KeysIncreasing t.inorder →
      (k ∈ t.keys → ∃ l v h r, (SearchIn t k []).1 = Node.mk l k v h r) ∧
      (k ∉ t.keys → (SearchIn t k []).1 = Node.null) ∧
      plug (SearchIn t k []).1 (SearchIn t k []).2 = t := by
    intro t k ht
    refine ⟨?_, (search_null_iff t k ht).mpr, (search_root t k ht).1⟩
    intro hk
    simp only [keys, List.mem_map] at hk
    obtain ⟨⟨k', v⟩, hp, rfl⟩ := hk
    obtain ⟨l, h, r, e⟩ := found_of_mem t k' v ht hp
    exact ⟨l, v, h, r, e⟩
  exact ⟨key b.root_ kb (BinarySearchTreeMap.bst_reachable_inv hb).1,
    key a.root_ ka (AVLTreeMap.avl_reachable_inv ha).2.1⟩

/-- C10 at the maps holding 1, 2, 3: key 2 is found, key 5 is not. -/
theorem C10_search_witness :
    (BinarySearchTreeMap.Reachable bst3 ∧ AVLTreeMap.Reachable avl3) ∧
    ((bst3.Search 2).1 = Node.mk Node.null 2 2 1 (leaf 3) ∧ (avl3.Search 5).1 = Node.null) ∧
    (((2 ∈ bst3.root_.keys → ∃ l v h r, (bst3.Search 2).1 = Node.mk l 2 v h r) ∧
      (2 ∉ bst3.root_.keys → (bst3.Search 2).1 = Node.null) ∧
      plug (bst3.Search 2).1 (bst3.Search 2).2 = bst3.root_) ∧
    ((5 ∈ avl3.root_.keys → ∃ l v h r, (avl3.Search 5).1 = Node.mk l 5 v h r) ∧
      (5 ∉ avl3.root_.keys → (avl3.Search 5).1 = Node.null) ∧
      plug (avl3.Search 5).1 (avl3.Search 5).2 = avl3.root_)) :=
  ⟨⟨bst3_reachable, avl3_reachable⟩, ⟨by decide, by decide⟩,
    C10_search bst3 avl3 bst3_reachable avl3_reachable 2 5⟩

end DSA

namespace DSA
open Node
variable {K V : Type} [LinearOrder K]

/-! ## SplayTreeMap: the node at the root after Search and Insert -/

/-- Whatever `Insert` returns, the node handed back is the new root and holds the key
inserted. -/
theorem splay_Insert_root (m : SplayTreeMap K V) (k : K) (v : V) (m' : SplayTreeMap K V)
    (r : K × V) (he : m.Insert k v = some (m', r)) :
    r.1 = k ∧ ∃ L h R, m'.root_ = Node.mk L k r.2 h R := by
  unfold SplayTreeMap.Insert at he
  split at he
  · injection he with he
    injection he with h1 h2
    subst h1; subst h2
    exact ⟨rfl, _, _, _, rfl⟩
  · split at he
    · exact absurd he (by simp)
    · rename_i tl tk tv th tr hs
      split_ifs at he with c1 c2
      · injection he with he
        injection he with h1 h2
        subst h1; subst h2; subst c1
        exact ⟨rfl, _, _, _, hs⟩
      · injection he with he
        injection he with h1 h2
        subst h1; subst h2
        exact ⟨rfl, _, _, _, rfl⟩
      · injection he with he
        injection he with h1 h2
        subst h1; subst h2
        exact ⟨rfl, _, _, _, rfl⟩

theorem splay_Search_hit (m : SplayTreeMap K V) (k : K) (ht : KeysIncreasing m.root_.inorder)
    (hk : k ∈ m.root_.keys) :
    ∃ L v h R, (m.Search k).root_ = Node.mk L k v h R ∧ (k, v) ∈ m.root_.inorder := by
  have hne : m.root_ ≠ Node.null := by
    intro h
    rw [h] at hk
    simp [keys, inorder] at hk
  obtain ⟨L, tk, tv, h, R, e, e1, -, -, e4⟩ := SplayTreeMap.splay_Search_spec m k ht hne
  have hkk : tk = k := e4 hk
  subst hkk
  exact ⟨L, tv, h, R, e, by rw [e1]; simp⟩

theorem splay_Search_miss (m : SplayTreeMap K V) (k : K) (ht : KeysIncreasing m.root_.inorder)
    (hk : k ∉ m.root_.keys) :
    (m.root_ = Node.null → (m.Search k).root_ = Node.null) ∧
      (m.root_ ≠ Node.null →
        ∃ L tk tv h R, (m.Search k).root_ = Node.mk L tk tv h R ∧ tk ≠ k ∧
          (tk, tv) ∈ m.root_.inorder) := by
  constructor
  · intro h
    rw [SplayTreeMap.splay_Search_null m k h]; exact h
  · intro hne
    obtain ⟨L, tk, tv, h, R, e, e1, -, -, -⟩ := SplayTreeMap.splay_Search_spec m k ht hne
    have hmem : (tk, tv) ∈ m.root_.inorder := by rw [e1]; simp
    refine ⟨L, tk, tv, h, R, e, ?_, hmem⟩
    intro hkk
    apply hk
    simp only [keys, List.mem_map]
    exact ⟨(tk, tv), hmem, hkk⟩

end DSA

namespace DSA
open Node
variable {K V : Type}

/-! ## RemoveAt on a node with two children -/

theorem leftmost_append (l : Node K V) (k : K) (v : V) (h : Int) (r : Node K V)
    (path : List (Frame K V)) :
    leftmost l k v h r path =
      ((leftmost l k v h r []).1, (leftmost l k v h r []).2.1, (leftmost l k v h r []).2.2.1,
        (leftmost l k v h r []).2.2.2.1, (leftmost l k v h r []).2.2.2.2 ++ path) := by
  induction l generalizing k v h r path with
  | null => simp [leftmost]
  | mk ll lk lv lh lr ihl _ =>
      rw [leftmost, ihl, leftmost, ihl lk lv lh lr [⟨Side.left, k, v, h, r⟩]]
      simp

theorem plug_unlinkLeftmost (l : Node K V) (k : K) (v : V) (h : Int) (r : Node K V)
    (path : List (Frame K V)) :
    plug (leftmost l k v h r path).2.2.2.1 (leftmost l k v h r path).2.2.2.2 =
      plug (unlinkLeftmost (mk l k v h r)) path := by
  induction l generalizing k v h r path with
  | null => simp [leftmost, unlinkLeftmost]
  | mk ll lk lv lh lr ihl _ =>
      rw [leftmost, ihl]
      simp [plug, Frame.attach, unlinkLeftmost]

theorem inorder_unlinkLeftmost (l : Node K V) (k : K) (v : V) (h : Int) (r : Node K V) :
    (mk l k v h r).inorder =
      ((leftmost l k v h r []).1, (leftmost l k v h r []).2.1) ::
        (unlinkLeftmost (mk l k v h r)).inorder := by
  have h1 := leftmost_spec l k v h r ([] : List (Frame K V))
  have h2 := plug_unlinkLeftmost l k v h r ([] : List (Frame K V))
  have h3 := congrArg inorder h2
  rw [inorder_plug, h1.1] at h3
  simp only [plug, ctxL, List.nil_append] at h3
  rw [← h3]
  simpa [ctxR] using h1.2.symm

theorem shape_UpdateHeight (x : Node K V) : (UpdateHeight x).shape = x.shape := by
  cases x <;> simp [UpdateHeight, shape]

theorem shape_attach (f : Frame K V) (c d : Node K V) (h : c.shape = d.shape) :
    (f.attach c).shape = (f.attach d).shape := by
  unfold Frame.attach
  cases f.side <;> simp [shape, h]

theorem shape_plug (c d : Node K V) (path : List (Frame K V)) (h : c.shape = d.shape) :
    (plug c path).shape = (plug d path).shape := by
  induction path generalizing c d with
  | nil => exact h
  | cons f up ih => exact ih _ _ (shape_attach f c d h)

theorem shape_UpdateHeightAbove (x : Node K V) (path : List (Frame K V)) :
    (UpdateHeightAbove x path).shape = (plug x path).shape := by
  induction path generalizing x with
  | nil => cases x <;> simp [UpdateHeightAbove, plug, shape_UpdateHeight]
  | cons f up ih =>
      cases x with
      | null => simp [UpdateHeightAbove]
      | mk l k v h r =>
          rw [UpdateHeightAbove, ih, plug]
          exact shape_plug _ _ _ (shape_attach f _ _ (shape_UpdateHeight _))

theorem shape_UpdateHeightAboveParent (c : Node K V) (path : List (Frame K V)) :
    (UpdateHeightAboveParent c path).shape = (plug c path).shape := by
  cases path with
  | nil => simp [UpdateHeightAboveParent, plug]
  | cons f up => simp [UpdateHeightAboveParent, plug, shape_UpdateHeightAbove]

/-- What `RemoveAt` does to a node with two children. -/
theorem RemoveAt_two (xl : Node K V) (xk : K) (xv : V) (xh : Int) (xr : Node K V)
    (hot : List (Frame K V)) (hl : xl ≠ null) (hr : xr ≠ null) :
    ∃ wk wv wh wr sp, GetSucc xl xk xv xh xr hot = (mk null wk wv wh wr, sp) ∧
      plug (mk null wk wv wh wr) sp = plug (mk xl xk xv xh xr) hot ∧
      xr.inorder = (wk, wv) :: (unlinkLeftmost xr).inorder ∧
      (RemoveAt xl xk xv xh xr hot).1 = wr ∧
      plug (RemoveAt xl xk xv xh xr hot).1 (RemoveAt xl xk xv xh xr hot).2 =
        plug (mk xl wk wv xh (unlinkLeftmost xr)) hot := by
  cases xl with
  | null => exact absurd rfl hl
  | mk ll lk lv lh lr =>
      cases xr with
      | null => exact absurd rfl hr
      | mk rl rk rv rh rr =>
          have ha := leftmost_append rl rk rv rh rr
            (⟨Side.right, xk, xv, xh, mk ll lk lv lh lr⟩ :: hot)
          have hp := leftmost_plug rl rk rv rh rr
            (⟨Side.right, xk, xv, xh, mk ll lk lv lh lr⟩ :: hot)
          have hu := plug_unlinkLeftmost rl rk rv rh rr ([] : List (Frame K V))
          simp only [plug] at hu
          refine ⟨(leftmost rl rk rv rh rr []).1, (leftmost rl rk rv rh rr []).2.1,
            (leftmost rl rk rv rh rr []).2.2.1, (leftmost rl rk rv rh rr []).2.2.2.1,
            (leftmost rl rk rv rh rr []).2.2.2.2 ++
              ⟨Side.right, xk, xv, xh, mk ll lk lv lh lr⟩ :: hot, ?_, ?_, ?_, ?_, ?_⟩
          · simp only [GetSucc]
            rw [ha]
          · rw [ha] at hp
            simpa [plug, Frame.attach] using hp
          · exact inorder_unlinkLeftmost rl rk rv rh rr
          · simp [RemoveAt]
          · simp only [RemoveAt]
            rw [plug_append, hu]
            simp [plug, Frame.attach]

end DSA

namespace DSA
open Node
variable {K V : Type}

/-! ## Cached heights stay exact -/

theorem Node.HeightsExact.stature_eq {t : Node K V} (h : t.HeightsExact) :
    GetStature t = t.height := by
  cases t with
  | null => rfl
  | mk l k v h' r => simp only [HeightsExact] at h; simp only [GetStature, height]; exact h.2.2

theorem exact_UpdateHeight_mk {l r : Node K V} (k : K) (v : V) (h : Int)
    (hl : l.HeightsExact) (hr : r.HeightsExact) : (UpdateHeight (mk l k v h r)).HeightsExact := by
  simp only [UpdateHeight, HeightsExact, hl.stature_eq, hr.stature_eq]
  refine ⟨hl, hr, ?_⟩
  split_ifs <;> omega

theorem Node.HeightsExact.updateHeight_same {x : Node K V} (h : x.HeightsExact) :
    UpdateHeight x = x := by
  cases x with
  | null => rfl
  | mk l k v h' r =>
      simp only [HeightsExact] at h
      simp only [UpdateHeight, h.1.stature_eq, h.2.1.stature_eq, mk.injEq, true_and, and_true]
      split_ifs <;> omega

theorem exact_UpdateHeight_same (x : Node K V) (h : x.HeightsExact) :
    (UpdateHeight x).HeightsExact := by
  rw [h.updateHeight_same]; exact h

theorem exact_attach_children (f : Frame K V) (c : Node K V) (h : (f.attach c).HeightsExact) :
    c.HeightsExact ∧ f.other.HeightsExact := by
  unfold Frame.attach at h
  cases hs : f.side <;> simp only [hs, HeightsExact] at h
  · exact ⟨h.1, h.2.1⟩
  · exact ⟨h.2.1, h.1⟩

theorem exact_of_plug (c : Node K V) (path : List (Frame K V))
    (h : (plug c path).HeightsExact) :
    c.HeightsExact ∧ ∀ f ∈ path, f.other.HeightsExact := by
  induction path generalizing c with
  | nil => exact ⟨h, by simp⟩
  | cons f up ih =>
      obtain ⟨h1, h2⟩ := ih (f.attach c) h
      obtain ⟨h3, h4⟩ := exact_attach_children f c h1
      refine ⟨h3, ?_⟩
      intro g hg
      rcases List.mem_cons.mp hg with rfl | hg
      · exact h4
      · exact h2 g hg

theorem exact_UpdateHeightAbove (path : List (Frame K V)) :
    ∀ (l : Node K V) (k : K) (v : V) (h : Int) (r : Node K V), l.HeightsExact →
      r.HeightsExact → (∀ f ∈ path, f.other.HeightsExact) →
      (UpdateHeightAbove (mk l k v h r) path).HeightsExact := by
  induction path with
  | nil =>
      intro l k v h r hl hr _
      exact exact_UpdateHeight_mk k v h hl hr
  | cons f up ih =>
      intro l k v h r hl hr hp
      rw [UpdateHeightAbove]
      have hu := exact_UpdateHeight_mk k v h hl hr
      have hf := hp f (List.mem_cons_self _ _)
      have hup : ∀ g ∈ up, g.other.HeightsExact := fun g hg => hp g (List.mem_cons_of_mem _ hg)
      unfold Frame.attach
      cases f.side
      · exact ih _ _ _ _ _ hu hf hup
      · exact ih _ _ _ _ _ hf hu hup

theorem exact_UpdateHeightAboveParent (c : Node K V) (path : List (Frame K V))
    (hc : c.HeightsExact) (hp : ∀ f ∈ path, f.other.HeightsExact) :
    (UpdateHeightAboveParent c path).HeightsExact := by
  cases path with
  | nil => exact hc
  | cons f up =>
      have hf := hp f (List.mem_cons_self _ _)
      have hup : ∀ g ∈ up, g.other.HeightsExact := fun g hg => hp g (List.mem_cons_of_mem _ hg)
      simp only [UpdateHeightAboveParent]
      unfold Frame.attach
      cases f.side
      · exact exact_UpdateHeightAbove up _ _ _ _ _ hc hf hup
      · exact exact_UpdateHeightAbove up _ _ _ _ _ hf hc hup

theorem exact_RemoveAt (xl : Node K V) (xk : K) (xv : V) (xh : Int) (xr : Node K V)
    (hot : List (Frame K V)) (hl : xl.HeightsExact) (hr : xr.HeightsExact)
    (hp : ∀ f ∈ hot, f.other.HeightsExact) :
    (RemoveAt xl xk xv xh xr hot).1.HeightsExact ∧
      ∀ f ∈ (RemoveAt xl xk xv xh xr hot).2, f.other.HeightsExact := by
  cases xl with
  | null => exact ⟨hr, hp⟩
  | mk ll lk lv lh lr =>
      cases xr with
      | null => exact ⟨hl, hp⟩
      | mk rl rk rv rh rr =>
          have hq := leftmost_plug rl rk rv rh rr ([] : List (Frame K V))
          simp only [plug] at hq
          have hw := hr
          rw [← hq] at hw
          obtain ⟨h1, h2⟩ := exact_of_plug _ _ hw
          simp only [HeightsExact] at h1
          simp only [RemoveAt]
          refine ⟨h1.2.1, ?_⟩
          intro f hf
          rcases List.mem_append.mp hf with hf | hf
          · exact h2 f hf
          · rcases List.mem_cons.mp hf with rfl | hf
            · exact hl
            · exact hp f hf

/-! Splaying keeps the cached heights exact. -/

theorem exact_splayStep (vl : Node K V) (vk : K) (vv : V) (vh : Int) (vr : Node K V)
    (p g : Frame K V) (hl : vl.HeightsExact) (hr : vr.HeightsExact)
    (hp : p.other.HeightsExact) (hg : g.other.HeightsExact) :
    (splayStep vl vk vv vh vr p g).HeightsExact := by
  unfold splayStep
  cases p.side <;> cases g.side <;> simp only
  · exact exact_UpdateHeight_mk _ _ _ hl (exact_UpdateHeight_mk _ _ _ hr
      (exact_UpdateHeight_mk _ _ _ hp hg))
  · exact exact_UpdateHeight_mk _ _ _ (exact_UpdateHeight_mk _ _ _ hg hl)
      (exact_UpdateHeight_mk _ _ _ hr hp)
  · exact exact_UpdateHeight_mk _ _ _ (exact_UpdateHeight_mk _ _ _ hp hl)
      (exact_UpdateHeight_mk _ _ _ hr hg)
  · exact exact_UpdateHeight_mk _ _ _ (exact_UpdateHeight_mk _ _ _
      (exact_UpdateHeight_mk _ _ _ hg hp) hl) hr

theorem exact_splayLast (vl : Node K V) (vk : K) (vv : V) (vh : Int) (vr : Node K V)
    (p : Frame K V) (hl : vl.HeightsExact) (hr : vr.HeightsExact)
    (hp : p.other.HeightsExact) : (splayLast vl vk vv vh vr p).HeightsExact := by
  unfold splayLast
  cases p.side <;> simp only
  · exact exact_UpdateHeight_mk _ _ _ hl (exact_UpdateHeight_mk _ _ _ hr hp)
  · exact exact_UpdateHeight_mk _ _ _ (exact_UpdateHeight_mk _ _ _ hp hl) hr

theorem exact_Splay_aux (n : Nat) :
    ∀ (path : List (Frame K V)), path.length ≤ n → ∀ (x : Node K V), x.HeightsExact →
      (∀ f ∈ path, f.other.HeightsExact) → (Splay x path).HeightsExact := by
  induction n with
  | zero =>
      intro path hlen x hx _
      have : path = [] := List.length_eq_zero.mp (Nat.le_zero.mp hlen)
      subst this
      cases x with
      | null => simp [Splay, HeightsExact]
      | mk vl vk vv vh vr => simpa [Splay] using hx
  | succ n ih =>
      intro path hlen x hx hp
      cases x with
      | null => simp [Splay, HeightsExact]
      | mk vl vk vv vh vr =>
          have hx' := hx
          simp only [HeightsExact] at hx'
          match path, hlen, hp with
          | [], _, _ => simpa [Splay] using hx
          | [p], _, hp =>
              rw [Splay]
              exact exact_splayLast _ _ _ _ _ _ hx'.1 hx'.2.1 (hp p (by simp))
          | p :: g :: up, hlen, hp =>
              rw [Splay]
              have hup : up.length ≤ n := by simp at hlen; omega
              exact ih up hup _
                (exact_splayStep _ _ _ _ _ _ _ hx'.1 hx'.2.1 (hp p (by simp)) (hp g (by simp)))
                (fun f hf => hp f (by simp [hf]))

theorem exact_Splay (x : Node K V) (path : List (Frame K V)) (hx : x.HeightsExact)
    (hp : ∀ f ∈ path, f.other.HeightsExact) : (Splay x path).HeightsExact :=
  exact_Splay_aux path.length path le_rfl x hx hp

variable [LinearOrder K]

theorem exact_SearchIn (t : Node K V) (k : K) (ht : t.HeightsExact) :
    (SearchIn t k []).1.HeightsExact ∧ (∀ f ∈ (SearchIn t k []).2, f.other.HeightsExact) ∧
      (plug (SearchIn t k []).1 (SearchIn t k []).2).HeightsExact := by
  have h := SearchIn_plug t k []
  simp only [plug] at h
  have ht' := ht
  rw [← h] at ht'
  exact ⟨(exact_of_plug _ _ ht').1, (exact_of_plug _ _ ht').2, ht'⟩

theorem bst_Insert_exact (m : BinarySearchTreeMap K V) (k : K) (v : V)
    (ht : m.root_.HeightsExact) : (m.Insert k v).1.root_.HeightsExact := by
  obtain ⟨h1, h2, -⟩ := exact_SearchIn m.root_ k ht
  simp only [BinarySearchTreeMap.Insert, BinarySearchTreeMap.Search]
  cases hx : SearchIn m.root_ k [] with
  | mk x hot =>
      rw [hx] at h1 h2
      cases x with
      | null => exact exact_UpdateHeightAbove hot _ _ _ _ _ trivial trivial h2
      | mk l key val h r => exact ht

theorem bst_Remove_exact (m : BinarySearchTreeMap K V) (k : K)
    (ht : m.root_.HeightsExact) : (m.Remove k).1.root_.HeightsExact := by
  obtain ⟨h1, h2, -⟩ := exact_SearchIn m.root_ k ht
  simp only [BinarySearchTreeMap.Remove, BinarySearchTreeMap.Search]
  cases hx : SearchIn m.root_ k [] with
  | mk x hot =>
      rw [hx] at h1 h2
      cases x with
      | null => exact ht
      | mk l key val h r =>
          simp only [HeightsExact] at h1
          obtain ⟨e1, e2⟩ := exact_RemoveAt l key val h r hot h1.1 h1.2.1 h2
          exact exact_UpdateHeightAboveParent _ _ e1 e2

theorem bst_reachable_exact {m : BinarySearchTreeMap K V}
    (h : BinarySearchTreeMap.Reachable m) : m.root_.HeightsExact := by
  induction h with
  | empty => trivial
  | insert k v _ ih => exact bst_Insert_exact _ k v ih
  | remove k _ ih => exact bst_Remove_exact _ k ih

theorem splay_Search_exact (m : SplayTreeMap K V) (k : K) (ht : m.root_.HeightsExact) :
    (m.Search k).root_.HeightsExact := by
  obtain ⟨h1, h2, h3⟩ := exact_SearchIn m.root_ k ht
  simp only [SplayTreeMap.Search]
  cases hx : SearchIn m.root_ k [] with
  | mk x hot =>
      rw [hx] at h1 h2 h3
      cases x with
      | mk l key val h r => exact exact_Splay _ _ h1 h2
      | null =>
          cases hot with
          | nil => simp [Splay, HeightsExact]
          | cons f up =>
              simp only [plug] at h3
              obtain ⟨e1, e2⟩ := exact_of_plug _ _ h3
              exact exact_Splay _ _ e1 e2

theorem splay_Insert_exact (m m' : SplayTreeMap K V) (k : K) (v : V) (r : K × V)
    (ht : m.root_.HeightsExact) (he : m.Insert k v = some (m', r)) :
    m'.root_.HeightsExact := by
  have hs := splay_Search_exact m k ht
  unfold SplayTreeMap.Insert at he
  split at he
  · injection he with he
    injection he with h1 _
    subst h1
    simp [HeightsExact, height]
  · split at he
    · exact absurd he (by simp)
    · rename_i tl tk tv th tr hroot
      rw [hroot] at hs
      have hs' := hs
      simp only [HeightsExact] at hs'
      split_ifs at he with c1 c2
      · injection he with he
        injection he with h1 _
        subst h1
        rw [hroot]; exact hs
      · injection he with he
        injection he with h1 _
        subst h1
        exact exact_UpdateHeightAbove _ _ _ _ _ _ hs'.1 trivial (by simpa using hs'.2.1)
      · injection he with he
        injection he with h1 _
        subst h1
        exact exact_UpdateHeightAbove _ _ _ _ _ _ trivial hs'.2.1 (by simpa using hs'.1)

theorem splay_Remove_exact (m m' : SplayTreeMap K V) (k : K) (b : Bool)
    (ht : m.root_.HeightsExact) (he : m.Remove k = some (m', b)) :
    m'.root_.HeightsExact := by
  have hs := splay_Search_exact m k ht
  unfold SplayTreeMap.Remove at he
  split at he
  · injection he with he
    injection he with h1 _
    subst h1
    exact ht
  · split at he
    · exact absurd he (by simp)
    · rename_i wl wk wv wh wr hroot
      rw [hroot] at hs
      have hs' := hs
      simp only [HeightsExact] at hs'
      split_ifs at he with c1
      · injection he with he
        injection he with h1 _
        subst h1
        rw [hroot]; exact hs
      · split at he
        · injection he with he
          injection he with h1 _
          subst h1
          exact exact_UpdateHeight_same _ hs'.2.1
        · injection he with he
          injection he with h1 _
          subst h1
          exact exact_UpdateHeight_same _ hs'.1
        · rename_i a1 a2 a3 a4 a5 b1 b2 b3 b4 b5
          have hs2 := splay_Search_exact
            (⟨(m.Search k).size_, Node.mk b1 b2 b3 b4 b5⟩ : SplayTreeMap K V) wk hs'.2.1
          split at he
          · exact absurd he (by simp)
          · rename_i rl rk rv rh rr hroot2
            rw [hroot2] at hs2
            simp only [HeightsExact] at hs2
            injection he with he
            injection he with h1 _
            subst h1
            exact exact_UpdateHeight_mk rk rv rh hs'.1 hs2.2.1

theorem splay_reachable_exact {m : SplayTreeMap K V} (h : SplayTreeMap.Reachable m) :
    m.root_.HeightsExact := by
  induction h with
  | empty => trivial
  | search k _ ih => exact splay_Search_exact _ k ih
  | insert k v r _ he ih => exact splay_Insert_exact _ _ k v r ih he
  | remove k b _ he ih => exact splay_Remove_exact _ _ k b ih he

end DSA

namespace DSA
open Node
variable {K V : Type}

/-! ## GetSucc: the next node in inorder -/

theorem climb_spec (path : List (Frame K V)) :
    ∀ s : Node K V,
      (climb s path = (null, []) ∧ ctxR path = []) ∨
      ∃ sl sk sv sh sr, (climb s path).1 = mk sl sk sv sh sr ∧
        plug (climb s path).1 (climb s path).2 = plug s path ∧
        ctxR path = (sk, sv) :: sr.inorder ++ ctxR (climb s path).2 ∧
        roundsAbove path = 1 + rounds sr + roundsAbove (climb s path).2 := by
  induction path with
  | nil => intro s; exact Or.inl ⟨rfl, rfl⟩
  | cons f up ih =>
      intro s
      cases hs : f.side
      · right
        refine ⟨s, f.key_, f.value_, f.height_, f.other, ?_, ?_, ?_, ?_⟩
        · simp [climb, hs, Frame.attach]
        · simp [climb, hs, plug]
        · simp [climb, hs, ctxR]
        · simp [climb, hs, roundsAbove]
      · rcases ih (f.attach s) with ⟨h1, h2⟩ | ⟨sl, sk, sv, sh, sr, h1, h2, h3, h4⟩
        · left
          exact ⟨by simp [climb, hs, h1], by simp [ctxR, hs, h2]⟩
        · right
          refine ⟨sl, sk, sv, sh, sr, ?_, ?_, ?_, ?_⟩
          · simp only [climb, hs]; exact h1
          · simp only [climb, hs, plug]; exact h2
          · simp only [climb, hs, ctxR]; exact h3
          · simp only [climb, hs, roundsAbove]; exact h4

/-- The node `GetSucc` returns is the one visited right after `x` in inorder, and it is a
node of the same tree; there is none exactly when nothing is visited after `x`. -/
theorem GetSucc_spec (l : Node K V) (k : K) (v : V) (h : Int) (r : Node K V)
    (path : List (Frame K V)) :
    (GetSucc l k v h r path = (null, []) ∧ r.inorder ++ ctxR path = []) ∨
    ∃ sl sk sv sh sr, (GetSucc l k v h r path).1 = mk sl sk sv sh sr ∧
      plug (GetSucc l k v h r path).1 (GetSucc l k v h r path).2 = plug (mk l k v h r) path ∧
      r.inorder ++ ctxR path = (sk, sv) :: sr.inorder ++ ctxR (GetSucc l k v h r path).2 := by
  cases r with
  | null =>
      rcases climb_spec path (mk l k v h null) with ⟨h1, h2⟩ | ⟨sl, sk, sv, sh, sr, h1, h2, h3, -⟩
      · left
        exact ⟨by simp [GetSucc, h1], by simp [inorder, h2]⟩
      · right
        exact ⟨sl, sk, sv, sh, sr, by simpa [GetSucc] using h1, by simpa [GetSucc] using h2,
          by simpa [GetSucc, inorder] using h3⟩
  | mk rl rk rv rh rr =>
      right
      have h1 := leftmost_spec rl rk rv rh rr (⟨Side.right, k, v, h, l⟩ :: path)
      have h2 := leftmost_plug rl rk rv rh rr (⟨Side.right, k, v, h, l⟩ :: path)
      refine ⟨null, _, _, _, _, rfl, ?_, ?_⟩
      · simp only [GetSucc]
        rw [h2]
        simp [plug, Frame.attach]
      · simp only [GetSucc]
        rw [h1.2]
        simp [ctxR]

variable [LinearOrder K]

theorem GetSucc_ordered (l : Node K V) (k : K) (v : V) (h : Int) (r : Node K V)
    (path : List (Frame K V))
    (ho : KeysIncreasing (plug (mk l k v h r) path).inorder) :
    ((GetSucc l k v h r path).1 = null ↔
      ∀ p ∈ (plug (mk l k v h r) path).inorder, p.1 ≤ k) ∧
    (∀ sl sk sv sh sr, (GetSucc l k v h r path).1 = mk sl sk sv sh sr →
      plug (GetSucc l k v h r path).1 (GetSucc l k v h r path).2 = plug (mk l k v h r) path ∧
      k < sk ∧ (∀ p ∈ (plug (mk l k v h r) path).inorder, k < p.1 → sk ≤ p.1) ∧
      ∃ pre post, (plug (mk l k v h r) path).inorder = pre ++ (k, v) :: (sk, sv) :: post) := by
  have hin : (plug (mk l k v h r) path).inorder =
      (ctxL path ++ l.inorder) ++ (k, v) :: (r.inorder ++ ctxR path) := by
    rw [inorder_plug]; simp [inorder]
  rw [hin] at ho ⊢
  have hspec := GetSucc_spec l k v h r path
  generalize r.inorder ++ ctxR path = rest at ho hspec ⊢
  simp only [KeysIncreasing, List.pairwise_append, List.pairwise_cons] at ho
  obtain ⟨-, ⟨hafter, hrest⟩, hbefore⟩ := ho
  have hpre : ∀ p ∈ ctxL path ++ l.inorder, p.1 < k := fun p hp =>
    hbefore p hp (k, v) (List.mem_cons_self _ _)
  rcases hspec with ⟨h1, h2⟩ | ⟨sl, sk, sv, sh, sr, h1, h2, h3⟩
  · subst h2
    constructor
    · constructor
      · intro _ p hp
        simp only [List.mem_append, List.mem_cons, List.not_mem_nil, or_false] at hp
        rcases hp with hp | rfl
        · exact le_of_lt (hpre p (by simpa using hp))
        · exact le_rfl
      · intro _; rw [h1]
    · intro sl sk sv sh sr hs
      rw [h1] at hs
      exact absurd hs (by simp)
  · subst h3
    have hks : k < sk := hafter (sk, sv) (by simp)
    constructor
    · constructor
      · intro hn; rw [h1] at hn; exact absurd hn (by simp)
      · intro hall
        have := hall (sk, sv) (by simp)
        exact absurd hks (not_lt.mpr this)
    · intro sl' sk' sv' sh' sr' hs
      rw [h1] at hs
      injection hs with e1 e2 e3 e4 e5
      subst e2; subst e3
      refine ⟨h2, hks, ?_, ctxL path ++ l.inorder,
        sr.inorder ++ ctxR (GetSucc l k v h r path).2, by simp⟩
      intro p hp hkp
      rcases List.mem_append.mp hp with hp | hp
      · exact absurd (hpre p hp) (not_lt.mpr (le_of_lt hkp))
      · rcases List.mem_cons.mp hp with rfl | hp
        · exact absurd hkp (lt_irrefl _)
        · rw [List.cons_append] at hp hrest
          rcases List.mem_cons.mp hp with rfl | hp
          · exact le_rfl
          · exact le_of_lt ((List.pairwise_cons.mp hrest).1 p hp)

end DSA

namespace DSA
open Node
variable {K V : Type}

/-! ## The iterative inorder traversals -/

theorem TraverseInR_eq (t : Node K V) : TraverseInR t = t.inorder.map Prod.snd := by
  induction t with
  | null => rfl
  | mk l k v h r ihl ihr => simp [TraverseInR, inorder, ihl, ihr]

theorem GoAlongLeftBranch_values (x : Node K V) (s : List (Node K V)) :
    stackValues (GoAlongLeftBranch x s) = TraverseInR x ++ stackValues s := by
  induction x generalizing s with
  | null => simp [GoAlongLeftBranch, TraverseInR]
  | mk l k v h r ihl _ => simp [GoAlongLeftBranch, ihl, stackValues, TraverseInR]

theorem GoAlongLeftBranch_cost (x : Node K V) (s : List (Node K V)) :
    stackCost GetSize (GoAlongLeftBranch x s) = GetSize x + stackCost GetSize s := by
  induction x generalizing s with
  | null => simp [GoAlongLeftBranch, Node.GetSize]
  | mk l k v h r ihl _ => simp [GoAlongLeftBranch, ihl, stackCost, Node.GetSize]; omega

theorem GoAlongLeftBranch_nonnull (x : Node K V) (s : List (Node K V))
    (hs : ∀ n ∈ s, n ≠ null) : ∀ n ∈ GoAlongLeftBranch x s, n ≠ null := by
  induction x generalizing s with
  | null => simpa [GoAlongLeftBranch] using hs
  | mk l k v h r ihl _ =>
      rw [GoAlongLeftBranch]
      apply ihl
      intro n hn
      rcases List.mem_cons.mp hn with rfl | hn
      · simp
      · exact hs n hn

theorem TraverseInI1Loop_spec (fuel : Nat) :
    ∀ (x : Node K V) (s : List (Node K V)) (out : List V), (∀ n ∈ s, n ≠ null) →
      GetSize x + stackCost GetSize s < fuel →
      TraverseInI1Loop fuel x s out = some (out ++ TraverseInR x ++ stackValues s) := by
  induction fuel with
  | zero => intro x s out _ h; omega
  | succ fuel ih =>
      intro x s out hs hf
      have hv := GoAlongLeftBranch_values x s
      have hc := GoAlongLeftBranch_cost x s
      have hn := GoAlongLeftBranch_nonnull x s hs
      rw [TraverseInI1Loop]
      cases hg : GoAlongLeftBranch x s with
      | nil =>
          rw [hg] at hv
          simp only [stackValues] at hv
          simp only [List.append_assoc, ← hv, List.append_nil]
      | cons top s' =>
          rw [hg] at hv hc hn
          cases top with
          | null => exact absurd rfl (hn null (List.mem_cons_self _ _))
          | mk l k v h r =>
              simp only [stackValues, stackCost] at hv hc
              simp only
              rw [ih r s' (out ++ [v]) (fun n hn' => hn n (List.mem_cons_of_mem _ hn'))
                (by omega)]
              rw [List.append_assoc out (TraverseInR x), ← hv]
              simp

theorem TraverseInI2Loop_spec (fuel : Nat) :
    ∀ (x : Node K V) (s : List (Node K V)) (out : List V), (∀ n ∈ s, n ≠ null) →
      2 * GetSize x + stackCost (fun r => 2 * GetSize r) s < fuel →
      TraverseInI2Loop fuel x s out = some (out ++ TraverseInR x ++ stackValues s) := by
  induction fuel with
  | zero => intro x s out _ h; omega
  | succ fuel ih =>
      intro x s out hs hf
      cases x with
      | mk l k v h r =>
          rw [TraverseInI2Loop, ih]
          · simp [stackValues, TraverseInR]
          · intro n hn
            rcases List.mem_cons.mp hn with rfl | hn
            · simp
            · exact hs n hn
          · simp only [stackCost, Node.GetSize] at hf ⊢; omega
      | null =>
          cases s with
          | nil => simp [TraverseInI2Loop, TraverseInR, stackValues]
          | cons top s' =>
              cases top with
              | null => exact absurd rfl (hs null (List.mem_cons_self _ _))
              | mk l k v h r =>
                  rw [TraverseInI2Loop, ih]
                  · simp [stackValues, TraverseInR]
                  · exact fun n hn => hs n (List.mem_cons_of_mem _ hn)
                  · simp only [stackCost, Node.GetSize] at hf ⊢; omega

theorem rounds_le (t : Node K V) : rounds t ≤ 2 * GetSize t := by
  induction t with
  | null => simp [rounds]
  | mk l k v h r ihl ihr =>
      cases l with
      | null => simp only [rounds, Node.GetSize]; omega
      | mk ll lk lv lh lr => simp only [rounds, Node.GetSize] at ihl ⊢; omega

theorem rounds_pos (l : Node K V) (k : K) (v : V) (h : Int) (r : Node K V) :
    1 + rounds r ≤ rounds (mk l k v h r) := by
  cases l <;> simp only [rounds] <;> omega

/-- The rounds `TraverseInI3` still needs and the values it still visits, from the pointer
`x` below `path` with the flag `backtrack`. -/
theorem TraverseInI3Loop_spec (fuel : Nat) :
    ∀ (l : Node K V) (k : K) (v : V) (h : Int) (r : Node K V) (path : List (Frame K V))
      (backtrack : Bool) (out : List V),
      (if backtrack = true then 1 + rounds r else rounds (mk l k v h r)) + roundsAbove path
        ≤ fuel →
      TraverseInI3Loop fuel (mk l k v h r) path backtrack out =
        some (out ++ (if backtrack = true then v :: TraverseInR r else TraverseInR (mk l k v h r))
          ++ (ctxR path).map Prod.snd) := by
  induction fuel with
  | zero =>
      intro l k v h r path backtrack out hf
      have := rounds_pos l k v h r
      split_ifs at hf <;> omega
  | succ fuel ih =>
      intro l k v h r path backtrack out hf
      have visit : (backtrack = true ∨ l = null) →
          1 + rounds r + roundsAbove path ≤ fuel + 1 →
          (match r with
            | mk rl rk rv rh rr =>
                TraverseInI3Loop fuel (mk rl rk rv rh rr) (⟨Side.right, k, v, h, l⟩ :: path) false
                  (out ++ [v])
            | null =>
                match GetSucc l k v h null path with
                | (null, _) => some (out ++ [v])
                | (mk sl sk sv sh sr, sp) =>
                    TraverseInI3Loop fuel (mk sl sk sv sh sr) sp true (out ++ [v])) =
            some (out ++ v :: TraverseInR r ++ (ctxR path).map Prod.snd) := by
        intro _ hf'
        cases r with
        | mk rl rk rv rh rr =>
            simp only
            rw [ih rl rk rv rh rr _ false (out ++ [v])
              (by simp only [roundsAbove, Bool.false_eq_true, if_false]; omega)]
            simp [ctxR]
        | null =>
            simp only [GetSucc]
            rcases climb_spec path (mk l k v h null)
              with ⟨h1, h2⟩ | ⟨sl, sk, sv, sh, sr, h1, -, h3, h4⟩
            · rw [h1, h2]
              simp [TraverseInR]
            · cases hc : climb (mk l k v h null) path with
              | mk s sp =>
                  rw [hc] at h1 h3 h4
                  simp only at h1 h3 h4
                  subst h1
                  simp only
                  rw [ih sl sk sv sh sr sp true (out ++ [v])
                    (by simp only [if_true]; simp only [rounds] at hf'; omega)]
                  rw [h3]
                  simp [TraverseInR, TraverseInR_eq]
      cases backtrack with
      | true =>
          simp only [if_true] at hf ⊢
          have := visit (Or.inl rfl) hf
          cases l <;> cases r <;> simpa [TraverseInI3Loop] using this
      | false =>
          simp only [Bool.false_eq_true, if_false] at hf ⊢
          cases l with
          | null =>
              have := visit (Or.inr rfl) (by simp only [rounds] at hf; omega)
              cases r <;> simpa [TraverseInI3Loop, TraverseInR] using this
          | mk ll lk lv lh lr =>
              simp only [TraverseInI3Loop]
              rw [ih ll lk lv lh lr _ false out
                (by simp only [roundsAbove, Bool.false_eq_true, if_false, rounds] at hf ⊢; omega)]
              simp [ctxR, TraverseInR, TraverseInR_eq]

end DSA

namespace DSA
open Node
variable {K V : Type} [LinearOrder K]

/-! ## The claims C11 to C20 -/

/-- C11: for a `SplayTreeMap` in a reachable state and a stored key `k`, right after
`Search(k)` the root holds `k` (with the value stored for it); the handle `Search` returns is
that root, `root_` of the new state. -/
theorem C11_splay_search_root (m : SplayTreeMap K V) (h : SplayTreeMap.Reachable m) (k : K)
    (hk : k ∈ m.root_.keys) :
    ∃ L v hh R, (m.Search k).root_ = Node.mk L k v hh R ∧ (k, v) ∈ m.root_.inorder :=
  splay_Search_hit m k (SplayTreeMap.splay_reachable_inv h).1 hk

/-- C11, scenario 4: after inserting 1, 2, 3 the root is 3; after `Search(1)` the root
is 1. -/
theorem C11_splay_search_root_witness :
    (SplayTreeMap.Reachable splay3 ∧ 1 ∈ splay3.root_.keys) ∧
    splay3.root_ = Node.mk (Node.mk (leaf 1) 2 2 1 Node.null) 3 3 2 Node.null ∧
    (splay3.Search 1).root_ = Node.mk Node.null 1 1 2 (Node.mk Node.null 2 2 1 (leaf 3)) ∧
    ∃ L v hh R, (splay3.Search 1).root_ = Node.mk L 1 v hh R ∧ (1, v) ∈ splay3.root_.inorder :=
  ⟨⟨splay3_reachable, by decide⟩, rfl, by decide,
    C11_splay_search_root splay3 splay3_reachable 1 (by decide)⟩

/-- C12: for a `SplayTreeMap` in a reachable state, `Insert(k, v)` returns, the new root
holds `k` and is the node returned.  If `k` was not stored the size grows by one, the root
holds `v` and the pairs are the old ones with `(k, v)` put in; if `k` was stored with `v0`
the size, the value under `k` and all pairs are as before. -/
theorem C12_splay_insert (m : SplayTreeMap K V) (h : SplayTreeMap.Reachable m) (k : K)
    (v : V) :
    ∃ m' val L hh R, m.Insert k v = some (m', (k, val)) ∧ m'.root_ = Node.mk L k val hh R ∧
      (k ∉ m.root_.keys → m'.GetSize = m.GetSize + 1 ∧ val = v ∧
        InsertedInto k v m.root_.inorder m'.root_.inorder) ∧
      (∀ v0, (k, v0) ∈ m.root_.inorder → m'.GetSize = m.GetSize ∧ val = v0 ∧
        m'.root_.inorder = m.root_.inorder) := by
  obtain ⟨ho, -⟩ := SplayTreeMap.splay_reachable_inv h
  by_cases hk : k ∈ m.root_.keys
  · simp only [keys, List.mem_map] at hk
    obtain ⟨⟨k', v0⟩, hp, rfl⟩ := hk
    obtain ⟨m', h1, h2, h3, L, hh, R, h4⟩ := SplayTreeMap.splay_Insert_dup m k' v0 v ho hp
    refine ⟨m', v0, L, hh, R, h1, h4, ?_, ?_⟩
    · intro hn
      exact absurd (List.mem_map.mpr ⟨(k', v0), hp, rfl⟩) hn
    · intro v1 hv1
      exact ⟨h2, ho.unique hp hv1, h3⟩
  · obtain ⟨m', h1, h2, h3⟩ := SplayTreeMap.splay_Insert_fresh m k v ho hk
    obtain ⟨-, L, hh, R, h4⟩ := splay_Insert_root m k v m' (k, v) h1
    refine ⟨m', v, L, hh, R, h1, h4, fun _ => ⟨h2, rfl, h3⟩, ?_⟩
    intro v0 hv0
    exact absurd (List.mem_map.mpr ⟨(k, v0), hv0, rfl⟩) hk

/-- C12 at the map holding 1, 2, 3: inserting the new pair `(4, 4)` and the stored
key 2. -/
theorem C12_splay_insert_witness :
    SplayTreeMap.Reachable splay3 ∧
    splay3.Insert 4 4 = some (⟨4, Node.mk splay3.root_ 4 4 3 Node.null⟩, (4, 4)) ∧
    splay3.Insert 2 9 =
      some (⟨3, Node.mk (leaf 1) 2 2 1 (Node.mk Node.null 3 3 0 Node.null)⟩, (2, 2)) ∧
    ∃ m' val L hh R, splay3.Insert 4 4 = some (m', (4, val)) ∧
      m'.root_ = Node.mk L 4 val hh R ∧
      (4 ∉ splay3.root_.keys → m'.GetSize = splay3.GetSize + 1 ∧ val = 4 ∧
        InsertedInto 4 4 splay3.root_.inorder m'.root_.inorder) ∧
      (∀ v0, (4, v0) ∈ splay3.root_.inorder → m'.GetSize = splay3.GetSize ∧ val = v0 ∧
        m'.root_.inorder = splay3.root_.inorder) :=
  ⟨splay3_reachable, by decide, by decide, C12_splay_insert splay3 splay3_reachable 4 4⟩

/-- C13: for a `SplayTreeMap` in a reachable state and a stored key `k`, `Remove(k)` returns
true, `GetSize()` drops by one and the inorder sequence of pairs is the old one with the
pair of `k` taken out, in each of the three branches of `Remove`. -/
theorem C13_splay_remove_stored (m : SplayTreeMap K V) (h : SplayTreeMap.Reachable m) (k : K)
    (hk : k ∈ m.root_.keys) :
    ∃ m', m.Remove k = some (m', true) ∧ m'.GetSize = m.GetSize - 1 ∧
      DeletedFrom k m.root_.inorder m'.root_.inorder :=
  SplayTreeMap.splay_Remove_hit m k (SplayTreeMap.splay_reachable_inv h).1 hk

/-- C13, scenario 3, at the map holding 1, 2, 3: removing 3 (the root has no right child),
1 (no left child after the splay) and 2 (both children after the splay). -/
theorem C13_splay_remove_stored_witness :
    (SplayTreeMap.Reachable splay3 ∧ 3 ∈ splay3.root_.keys) ∧
    (splay3.Remove 3).map (fun r => (r.1.GetSize, r.1.root_.keys, r.2)) =
      some (2, [1, 2], true) ∧
    (splay3.Search 1).root_ = Node.mk Node.null 1 1 2 (Node.mk Node.null 2 2 1 (leaf 3)) ∧
    (splay3.Remove 1).map (fun r => (r.1.GetSize, r.1.root_.keys, r.2)) =
      some (2, [2, 3], true) ∧
    (splay3.Search 2).root_ = Node.mk (leaf 1) 2 2 1 (leaf 3) ∧
    (splay3.Remove 2).map (fun r => (r.1.GetSize, r.1.root_.keys, r.2)) =
      some (2, [1, 3], true) ∧
    ∃ m', splay3.Remove 3 = some (m', true) ∧ m'.GetSize = splay3.GetSize - 1 ∧
      DeletedFrom 3 splay3.root_.inorder m'.root_.inorder :=
  ⟨⟨splay3_reachable, by decide⟩, by decide, by decide, by decide, by decide, by decide,
    C13_splay_remove_stored splay3 splay3_reachable 3 (by decide)⟩

/-- C14 as stated fails: on the map holding 1, 2, 3 the absent key 99 is searched and
`Search` hands back the root (key 3), not the null handle. -/
theorem C14_splay_search_absent_counterexample :
    SplayTreeMap.Reachable splay3 ∧ 99 ∉ splay3.root_.keys ∧
      (splay3.Search 99).root_ = Node.mk (Node.mk (leaf 1) 2 2 1 Node.null) 3 3 2 Node.null ∧
      (splay3.Search 99).root_ ≠ Node.null :=
  ⟨splay3_reachable, by decide, by decide, by decide⟩

/-- C14, amended: for a `SplayTreeMap` in a reachable state and a key `k` that is not stored,
`Search(k)` returns the null handle only when the map is empty; on a non-empty map it
returns the new root, a stored node whose key differs from `k`. -/
theorem C14_splay_search_absent (m : SplayTreeMap K V) (h : SplayTreeMap.Reachable m) (k : K)
    (hk : k ∉ m.root_.keys) :
    (m.root_ = Node.null → (m.Search k).root_ = Node.null) ∧
      (m.root_ ≠ Node.null →
        ∃ L tk tv hh R, (m.Search k).root_ = Node.mk L tk tv hh R ∧ tk ≠ k ∧
          (tk, tv) ∈ m.root_.inorder) :=
  splay_Search_miss m k (SplayTreeMap.splay_reachable_inv h).1 hk

/-- C14, amended, at the map holding 1, 2, 3 and the absent key 99. -/
theorem C14_splay_search_absent_witness :
    (SplayTreeMap.Reachable splay3 ∧ 99 ∉ splay3.root_.keys) ∧
    ((splay3.root_ = Node.null → (splay3.Search 99).root_ = Node.null) ∧
      (splay3.root_ ≠ Node.null →
        ∃ L tk tv hh R, (splay3.Search 99).root_ = Node.mk L tk tv hh R ∧ tk ≠ 99 ∧
          (tk, tv) ∈ splay3.root_.inorder)) :=
  ⟨⟨splay3_reachable, by decide⟩,
    C14_splay_search_absent splay3 splay3_reachable 99 (by decide)⟩

/-- C15: `RemoveAt` on a node `x` with two children (the function is the same in
`BinarySearchTreeMap` and `AVLTreeMap`).  With `w = x->GetSucc()`, a node of the tree without
left child whose pair comes right after that of `x` in inorder: the slot of `w` receives the
right child of `w`, and the tree is the old one with `x` in its place holding the key and
value of `w` above its old left subtree and its right subtree with `w` unlinked.  In
`BinarySearchTreeMap::Remove` this is the shape of the new tree, and the size drops by
one. -/
theorem C15_remove_two_children (m : BinarySearchTreeMap K V) (k : K)
    (xl : Node K V) (xk : K) (xv : V) (xh : Int) (xr : Node K V) (hot : List (Frame K V))
    (hs : m.Search k = (Node.mk xl xk xv xh xr, hot)) (hl : xl ≠ Node.null)
    (hr : xr ≠ Node.null) :
    ∃ wk wv wh wr sp, GetSucc xl xk xv xh xr hot = (Node.mk Node.null wk wv wh wr, sp) ∧
      plug (Node.mk Node.null wk wv wh wr) sp = plug (Node.mk xl xk xv xh xr) hot ∧
      xr.inorder = (wk, wv) :: (unlinkLeftmost xr).inorder ∧
      (RemoveAt xl xk xv xh xr hot).1 = wr ∧
      plug (RemoveAt xl xk xv xh xr hot).1 (RemoveAt xl xk xv xh xr hot).2 =
        plug (Node.mk xl wk wv xh (unlinkLeftmost xr)) hot ∧
      (m.Remove k).1.root_.shape = (plug (Node.mk xl wk wv xh (unlinkLeftmost xr)) hot).shape ∧
      (m.Remove k).1.GetSize = m.GetSize - 1 ∧ (m.Remove k).2 = true := by
  obtain ⟨wk, wv, wh, wr, sp, h1, h2, h3, h4, h5⟩ := RemoveAt_two xl xk xv xh xr hot hl hr
  refine ⟨wk, wv, wh, wr, sp, h1, h2, h3, h4, h5, ?_, ?_, ?_⟩
  · simp only [BinarySearchTreeMap.Remove, hs]
    rw [shape_UpdateHeightAboveParent, h5]
  · simp only [BinarySearchTreeMap.Remove, hs]; rfl
  · simp only [BinarySearchTreeMap.Remove, hs]

/-- C15, scenario 6: removing the root 2 of the tree built by inserting 2, 1, 3 leaves a root
with key 3 whose left child is 1, and size 2. -/
theorem C15_remove_two_children_witness :
    (bst213 = (((BinarySearchTreeMap.empty.Insert 2 2).1.Insert 1 1).1.Insert 3 3).1 ∧
      bst213.Search 2 = (Node.mk (leaf 1) 2 2 1 (leaf 3), []) ∧
      leaf 1 ≠ Node.null ∧ leaf 3 ≠ Node.null) ∧
    bst213.Remove 2 = (⟨2, Node.mk (leaf 1) 3 3 1 Node.null⟩, true) ∧
    ∃ wk wv wh wr sp, GetSucc (leaf 1) 2 2 1 (leaf 3) [] = (Node.mk Node.null wk wv wh wr, sp) ∧
      plug (Node.mk Node.null wk wv wh wr) sp = plug (Node.mk (leaf 1) 2 2 1 (leaf 3)) [] ∧
      (leaf 3).inorder = (wk, wv) :: (unlinkLeftmost (leaf 3)).inorder ∧
      (RemoveAt (leaf 1) 2 2 1 (leaf 3) []).1 = wr ∧
      plug (RemoveAt (leaf 1) 2 2 1 (leaf 3) []).1 (RemoveAt (leaf 1) 2 2 1 (leaf 3) []).2 =
        plug (Node.mk (leaf 1) wk wv 1 (unlinkLeftmost (leaf 3))) [] ∧
      (bst213.Remove 2).1.root_.shape =
        (plug (Node.mk (leaf 1) wk wv 1 (unlinkLeftmost (leaf 3))) []).shape ∧
      (bst213.Remove 2).1.GetSize = bst213.GetSize - 1 ∧ (bst213.Remove 2).2 = true :=
  ⟨⟨by decide, by decide, by decide, by decide⟩, by decide,
    C15_remove_two_children bst213 2 (leaf 1) 2 2 1 (leaf 3) [] (by decide) (by decide)
      (by decide)⟩

/-- C16: for each of the three maps, in every reachable state every node's cached
`height_` is the true height of its subtree (`-1` for an empty subtree, so `0` for a leaf):
`height_ = 1 + max` of the heights of the two subtrees. -/
theorem C16_heights_exact (b : BinarySearchTreeMap K V) (a : AVLTreeMap K V)
    (s : SplayTreeMap K V) (hb : BinarySearchTreeMap.Reachable b)
    (ha : AVLTreeMap.Reachable a) (hs : SplayTreeMap.Reachable s) :
    b.root_.HeightsExact ∧ a.root_.HeightsExact ∧ s.root_.HeightsExact :=
  ⟨bst_reachable_exact hb, (AVLTreeMap.avl_reachable_inv ha).1.heightsExact,
    splay_reachable_exact hs⟩

/-- C16 at the maps holding 1, 2, 3 (for the AVL map 1 to 7). -/
theorem C16_heights_exact_witness :
    (BinarySearchTreeMap.Reachable bst3 ∧ AVLTreeMap.Reachable avl7 ∧
      SplayTreeMap.Reachable splay3) ∧
    (bst3.root_.GetStature = 2 ∧ bst3.root_.height = 2 ∧ avl7.root_.GetStature = 2 ∧
      avl7.root_.height = 2 ∧ splay3.root_.GetStature = 2 ∧ splay3.root_.height = 2) ∧
    (bst3.root_.HeightsExact ∧ avl7.root_.HeightsExact ∧ splay3.root_.HeightsExact) :=
  ⟨⟨bst3_reachable, avl7_reachable, splay3_reachable⟩,
    ⟨by decide, by decide, by decide, by decide, by decide, by decide⟩,
    C16_heights_exact bst3 avl7 splay3 bst3_reachable avl7_reachable splay3_reachable⟩

/-- C17: for a node `x` (fields `l k v h r`) below the chain `path` in a tree whose inorder
keys are strictly increasing, `GetSucc` returns null exactly when `x` holds the greatest
key; otherwise it returns a node of the same tree whose key is the smallest key greater
than that of `x`, the node visited right after `x` in inorder. -/
theorem C17_GetSucc (l : Node K V) (k : K) (v : V) (h : Int) (r : Node K V)
    (path : List (Frame K V))
    (ho : (plug (Node.mk l k v h r) path).keys.Sorted (· < ·)) :
    ((GetSucc l k v h r path).1 = Node.null ↔
      ∀ p ∈ (plug (Node.mk l k v h r) path).inorder, p.1 ≤ k) ∧
    (∀ sl sk sv sh sr, (GetSucc l k v h r path).1 = Node.mk sl sk sv sh sr →
      plug (GetSucc l k v h r path).1 (GetSucc l k v h r path).2 =
        plug (Node.mk l k v h r) path ∧
      k < sk ∧ (∀ p ∈ (plug (Node.mk l k v h r) path).inorder, k < p.1 → sk ≤ p.1) ∧
      ∃ pre post,
        (plug (Node.mk l k v h r) path).inorder = pre ++ (k, v) :: (sk, sv) :: post) :=
  GetSucc_ordered l k v h r path ((keysIncreasing_iff_sorted _).mpr ho)

/-- C17 in the tree holding 1 to 7: the successor of the leaf 3 is the root 4, that of the
root 4 is the leaf 5, and the leaf 7 has none. -/
theorem C17_GetSucc_witness :
    (plug (leaf 3) [⟨Side.right, 2, 2, 1, leaf 1⟩,
        ⟨Side.left, 4, 4, 2, Node.mk (leaf 5) 6 6 1 (leaf 7)⟩] = avl7.root_ ∧
      avl7.root_.keys.Sorted (· < ·)) ∧
    (GetSucc Node.null 3 3 0 Node.null [⟨Side.right, 2, 2, 1, leaf 1⟩,
        ⟨Side.left, 4, 4, 2, Node.mk (leaf 5) 6 6 1 (leaf 7)⟩] = (avl7.root_, []) ∧
      GetSucc (Node.mk (leaf 1) 2 2 1 (leaf 3)) 4 4 2 (Node.mk (leaf 5) 6 6 1 (leaf 7)) [] =
        (leaf 5, [⟨Side.left, 6, 6, 1, leaf 7⟩,
          ⟨Side.right, 4, 4, 2, Node.mk (leaf 1) 2 2 1 (leaf 3)⟩]) ∧
      GetSucc Node.null 7 7 0 Node.null [⟨Side.right, 6, 6, 1, leaf 5⟩,
        ⟨Side.right, 4, 4, 2, Node.mk (leaf 1) 2 2 1 (leaf 3)⟩] = (Node.null, [])) ∧
    ∀ sl sk sv sh sr,
      (GetSucc Node.null 3 3 0 Node.null [⟨Side.right, 2, 2, 1, leaf 1⟩,
        ⟨Side.left, 4, 4, 2, Node.mk (leaf 5) 6 6 1 (leaf 7)⟩]).1 = Node.mk sl sk sv sh sr →
      3 < sk :=
  ⟨⟨by decide, by decide⟩, ⟨by decide, by decide, by decide⟩,
    fun sl sk sv sh sr hs =>
      (((C17_GetSucc Node.null 3 3 0 Node.null [⟨Side.right, 2, 2, 1, leaf 1⟩,
        ⟨Side.left, 4, 4, 2, Node.mk (leaf 5) 6 6 1 (leaf 7)⟩] (by decide)).2
          sl sk sv sh sr hs).2).1⟩

end DSA

namespace DSA
open Node
variable {K V : Type}

/-! ## The claims C18 to C20: node functions that do not compare keys -/

/-- C18: for a node `x` (fields `l k v h r`) that has a parent, `GetHigherChild(x)` returns
the child of strictly greater stature when there is one; when both statures are equal it
returns the left child if `x` is a left child and the right child if `x` is a right
child. -/
theorem C18_GetHigherChild (l : Node K V) (k : K) (v : V) (h : Int) (r : Node K V)
    (path : List (Frame K V)) (hp : IsRoot path = false) :
    (GetStature l > GetStature r →
      GetHigherChild (Node.mk l k v h r) path = some (l, ⟨Side.left, k, v, h, r⟩ :: path)) ∧
    (GetStature r > GetStature l →
      GetHigherChild (Node.mk l k v h r) path = some (r, ⟨Side.right, k, v, h, l⟩ :: path)) ∧
    (GetStature l = GetStature r → IsLChild path = true →
      GetHigherChild (Node.mk l k v h r) path = some (l, ⟨Side.left, k, v, h, r⟩ :: path)) ∧
    (GetStature l = GetStature r → IsRChild path = true →
      GetHigherChild (Node.mk l k v h r) path = some (r, ⟨Side.right, k, v, h, l⟩ :: path)) := by
  cases path with
  | nil => simp [IsRoot] at hp
  | cons f up =>
      refine ⟨?_, ?_, ?_, ?_⟩
      · intro h1
        simp [GetHigherChild, h1]
      · intro h1
        have h2 : ¬ GetStature l > GetStature r := by omega
        simp [GetHigherChild, h1, h2]
      · intro h1 h2
        simp only [IsLChild, decide_eq_true_eq] at h2
        simp [GetHigherChild, h1, IsLChild, h2]
      · intro h1 h2
        simp only [IsRChild, decide_eq_true_eq] at h2
        simp [GetHigherChild, h1, IsLChild, h2]

/-- C18 at a node with two leaves as children: hanging on the left of its parent it yields
its left child, hanging on the right its right child; with a single child it yields that
child. -/
theorem C18_GetHigherChild_witness :
    IsRoot [(⟨Side.left, 4, 4, 2, Node.null⟩ : Frame Nat Nat)] = false ∧
    GetHigherChild (Node.mk (leaf 1) 2 2 1 (leaf 3)) [⟨Side.left, 4, 4, 2, Node.null⟩] =
      some (leaf 1, [⟨Side.left, 2, 2, 1, leaf 3⟩, ⟨Side.left, 4, 4, 2, Node.null⟩]) ∧
    GetHigherChild (Node.mk (leaf 1) 2 2 1 (leaf 3)) [⟨Side.right, 0, 0, 2, Node.null⟩] =
      some (leaf 3, [⟨Side.right, 2, 2, 1, leaf 1⟩, ⟨Side.right, 0, 0, 2, Node.null⟩]) ∧
    (GetStature (leaf 1) > GetStature (Node.null : Node Nat Nat) →
      GetHigherChild (Node.mk (leaf 1) 2 2 1 Node.null) [⟨Side.left, 4, 4, 2, Node.null⟩] =
        some (leaf 1, [⟨Side.left, 2, 2, 1, Node.null⟩, ⟨Side.left, 4, 4, 2, Node.null⟩])) :=
  ⟨by decide, by decide, by decide,
    (C18_GetHigherChild (leaf 1) 2 2 1 Node.null [⟨Side.left, 4, 4, 2, Node.null⟩]
      (by decide)).1⟩

/-- C19 as stated fails: the root 2 with the leaves 1 and 3 as children (equal statures)
gets its right child 3 from `GetHigherChild`, not its left child 1. -/
theorem C19_GetHigherChild_root_counterexample :
    IsRoot ([] : List (Frame Nat Nat)) = true ∧ GetStature (leaf 1) = GetStature (leaf 3) ∧
      GetHigherChild (Node.mk (leaf 1) 2 2 1 (leaf 3)) [] =
        some (leaf 3, [⟨Side.right, 2, 2, 1, leaf 1⟩]) ∧
      GetHigherChild (Node.mk (leaf 1) 2 2 1 (leaf 3)) [] ≠
        some (leaf 1, [⟨Side.left, 2, 2, 1, leaf 3⟩]) :=
  ⟨by decide, by decide, by decide, by decide⟩

/-- C19, amended: for a node `x` that is a root and whose two children have equal stature,
`GetHigherChild(x)` breaks the tie toward the right: it returns the right child of `x`. -/
theorem C19_GetHigherChild_root (l : Node K V) (k : K) (v : V) (h : Int) (r : Node K V)
    (path : List (Frame K V)) (hp : IsRoot path = true)
    (ht : GetStature l = GetStature r) :
    GetHigherChild (Node.mk l k v h r) path = some (r, ⟨Side.right, k, v, h, l⟩ :: path) := by
  cases path with
  | nil => simp [GetHigherChild, ht, IsLChild]
  | cons f up => simp [IsRoot] at hp

/-- C19, amended, at the root 2 with the leaves 1 and 3. -/
theorem C19_GetHigherChild_root_witness :
    (IsRoot ([] : List (Frame Nat Nat)) = true ∧ GetStature (leaf 1) = GetStature (leaf 3)) ∧
    GetHigherChild (Node.mk (leaf 1) 2 2 1 (leaf 3)) [] =
      some (leaf 3, [⟨Side.right, 2, 2, 1, leaf 1⟩]) :=
  ⟨⟨by decide, by decide⟩,
    C19_GetHigherChild_root (leaf 1) 2 2 1 (leaf 3) [] (by decide) (by decide)⟩

/-- C20: for a tree whose root `mk l k v h r` has no parent and enough rounds
(`2 * GetSize + 1`), each of `TraverseInI1`, `TraverseInI2` and `TraverseInI3` ends and
visits exactly the values `TraverseInR` visits, in the same order, one per node; so
`TraverseIn` gives this output whichever number is drawn. -/
theorem C20_traversals_agree (l : Node K V) (k : K) (v : V) (h : Int) (r : Node K V)
    (fuel : Nat) (hf : 2 * (Node.mk l k v h r).GetSize + 1 ≤ fuel) :
    TraverseInI1 fuel (Node.mk l k v h r) = some (TraverseInR (Node.mk l k v h r)) ∧
    TraverseInI2 fuel (Node.mk l k v h r) = some (TraverseInR (Node.mk l k v h r)) ∧
    TraverseInI3 fuel (Node.mk l k v h r) = some (TraverseInR (Node.mk l k v h r)) ∧
    (∀ choice : Fin 4,
      TraverseIn fuel choice (Node.mk l k v h r) = some (TraverseInR (Node.mk l k v h r))) ∧
    TraverseInR (Node.mk l k v h r) = (Node.mk l k v h r).inorder.map Prod.snd ∧
    (TraverseInR (Node.mk l k v h r)).length = (Node.mk l k v h r).GetSize := by
  have h1 : TraverseInI1 fuel (Node.mk l k v h r) = some (TraverseInR (Node.mk l k v h r)) := by
    rw [TraverseInI1, TraverseInI1Loop_spec fuel _ [] [] (by simp) (by simp [stackCost]; omega)]
    simp [stackValues]
  have h2 : TraverseInI2 fuel (Node.mk l k v h r) = some (TraverseInR (Node.mk l k v h r)) := by
    rw [TraverseInI2, TraverseInI2Loop_spec fuel _ [] [] (by simp) (by simp [stackCost]; omega)]
    simp [stackValues]
  have h3 : TraverseInI3 fuel (Node.mk l k v h r) = some (TraverseInR (Node.mk l k v h r)) := by
    have hr := rounds_le (Node.mk l k v h r)
    rw [TraverseInI3, TraverseInI3Loop_spec fuel l k v h r [] false []
      (by simp only [Bool.false_eq_true, if_false, roundsAbove]; omega)]
    simp [ctxR]
  refine ⟨h1, h2, h3, ?_, TraverseInR_eq _, ?_⟩
  · intro choice
    match choice with
    | 0 => exact h1
    | 1 => exact h2
    | 2 => exact h3
    | 3 => rfl
  · rw [TraverseInR_eq, List.length_map, GetSize_eq_length]

/-- C20 at the tree holding 1 to 7 with 15 rounds. -/
theorem C20_traversals_agree_witness :
    2 * avl7.root_.GetSize + 1 ≤ 15 ∧
    TraverseInR avl7.root_ = [1, 2, 3, 4, 5, 6, 7] ∧
    TraverseInI1 15 avl7.root_ = some [1, 2, 3, 4, 5, 6, 7] ∧
    TraverseInI2 15 avl7.root_ = some [1, 2, 3, 4, 5, 6, 7] ∧
    TraverseInI3 15 avl7.root_ = some [1, 2, 3, 4, 5, 6, 7] ∧
    (∀ choice : Fin 4, TraverseIn 15 choice avl7.root_ = some (TraverseInR avl7.root_)) :=
  ⟨by decide, by decide, by decide, by decide, by decide,
    (C20_traversals_agree (Node.mk (leaf 1) 2 2 1 (leaf 3)) 4 4 2
      (Node.mk (leaf 5) 6 6 1 (leaf 7)) 15 (by decide)).2.2.2.1⟩

end DSA

namespace DSA
open Node
variable {K V : Type}

/-! ## The rebalancing loops and their rotations -/

theorem InsertLoopLog_fst (path : List (Frame K V)) :
    ∀ c : Node K V, (AVLTreeMap.InsertLoopLog c path).map Prod.fst = AVLTreeMap.InsertLoop c path := by
  induction path with
  | nil => intro c; rfl
  | cons f up ih =>
      intro c
      rw [AVLTreeMap.InsertLoopLog, AVLTreeMap.InsertLoop]
      split_ifs with hb
      · cases rotateHigher (f.attach c) up <;> rfl
      · exact ih _

theorem RemoveLoopLog_fst (path : List (Frame K V)) :
    ∀ c : Node K V, (AVLTreeMap.RemoveLoopLog c path).map Prod.fst = AVLTreeMap.RemoveLoop c path := by
  induction path with
  | nil => intro c; rfl
  | cons f up ih =>
      intro c
      rw [AVLTreeMap.RemoveLoopLog, AVLTreeMap.RemoveLoop]
      split_ifs with hb
      · cases hr : rotateHigher (f.attach c) up with
        | none => rfl
        | some b =>
            simp only
            rw [← ih (UpdateHeight b)]
            cases AVLTreeMap.RemoveLoopLog (UpdateHeight b) up <;> rfl
      · exact ih _

theorem rootBalanced_attach (f : Frame K V) (c : Node K V) :
    (f.attach c).RootBalanced ↔
      c.height - f.other.height ≤ 1 ∧ f.other.height - c.height ≤ 1 := by
  unfold Frame.attach
  cases f.side
  · simp only [RootBalanced]
  · simp only [RootBalanced]; omega

theorem height_plug_congr (x y : Node K V) (p : List (Frame K V)) (h : x.height = y.height) :
    (plug x p).height = (plug y p).height := by
  induction p generalizing x y with
  | nil => exact h
  | cons f up ih =>
      rw [plug, plug]
      exact ih _ _ (by rw [height_attach, height_attach, h])

theorem rootBalanced_plug_congr (x y : Node K V) (q : List (Frame K V)) (f : Frame K V)
    (h : x.height = y.height) :
    (plug x (q ++ [f])).RootBalanced ↔ (plug y (q ++ [f])).RootBalanced := by
  rw [plug_append, plug_append]
  simp only [plug]
  rw [rootBalanced_attach, rootBalanced_attach, height_plug_congr x y q h]

/-- The insertion loop on a chain of ancestors of an AVL tree: it returns, rotates at most
once, and a rotation happens at the lowest ancestor that is unbalanced, where it puts a
subtree of the height cached there. -/
theorem InsertLoopLog_spec (path : List (Frame K V)) :
    ∀ (c : Node K V) (n : Int), AVLCtx path n → c.AVLInv →
      (c.height = n ∨ (c.height = n + 1 ∧
        (n = -1 ∨ ∃ l k v h r, c = mk l k v h r ∧ l.height ≠ r.height))) →
      ∃ t log, AVLTreeMap.InsertLoopLog c path = some (t, log) ∧ t.AVLInv ∧
        ((log = [] ∧ ∀ below f up, path = below ++ f :: up →
            (plug c (below ++ [f])).RootBalanced) ∨
          ∃ below f up b, path = below ++ f :: up ∧ log = [up.length] ∧
            ¬ (plug c (below ++ [f])).RootBalanced ∧
            (∀ b1 f1 b2, below = b1 ++ f1 :: b2 → (plug c (b1 ++ [f1])).RootBalanced) ∧
            t = plug b up ∧ b.AVLInv ∧ b.height = f.height_) := by
  induction path with
  | nil =>
      intro c n _ hc _
      refine ⟨c, [], rfl, hc, Or.inl ⟨rfl, ?_⟩⟩
      intro below f up h
      cases below <;> simp at h
  | cons f up ih =>
      intro c n hctx hc hcase
      simp only [AVLCtx] at hctx
      obtain ⟨hs, d1, d2, hfh, hup⟩ := hctx
      have hge := height_ge f.other
      by_cases hb : c.height - f.other.height ≤ 1 ∧ f.other.height - c.height ≤ 1
      · -- balanced: update the height and go up
        have hbal := (attach_balanced_iff f c hc hs).mpr hb
        have hg := AVLInv_update_attach f c hc hs hb.1 hb.2
        have hh : (UpdateHeight (f.attach c)).height = 1 + max c.height f.other.height := by
          rw [height_UpdateHeight, height_attach]
        have hcase' : (UpdateHeight (f.attach c)).height = f.height_ ∨
            ((UpdateHeight (f.attach c)).height = f.height_ + 1 ∧
              (f.height_ = -1 ∨ ∃ l k v h r, UpdateHeight (f.attach c) = mk l k v h r ∧
                l.height ≠ r.height)) := by
          rcases hcase with h | ⟨h, -⟩
          · left; rw [hh, hfh, h]
          · by_cases hsn : f.other.height = n + 1
            · left; rw [hh, hfh]; omega
            · right
              refine ⟨by rw [hh, hfh]; omega, Or.inr ?_⟩
              unfold Frame.attach
              cases f.side
              · exact ⟨_, _, _, _, _, rfl, by omega⟩
              · exact ⟨_, _, _, _, _, rfl, by omega⟩
        have hsame : (UpdateHeight (f.attach c)).height = (f.attach c).height :=
          height_UpdateHeight _
        obtain ⟨t, log, ht1, ht2, ht3⟩ := ih _ _ hup hg hcase'
        refine ⟨t, log, ?_, ht2, ?_⟩
        · rw [AVLTreeMap.InsertLoopLog]
          simp only [hbal, Bool.true_eq_false, if_false]
          exact ht1
        · rcases ht3 with ⟨hl, hall⟩ | ⟨below, f0, up0, b, e1, e2, e3, e4, e5, e6, e7⟩
          · refine Or.inl ⟨hl, ?_⟩
            intro below f0 up0 h
            cases below with
            | nil =>
                simp only [List.nil_append, List.cons.injEq] at h
                obtain ⟨rfl, -⟩ := h
                simp only [List.nil_append, plug]
                exact (rootBalanced_attach _ c).mpr hb
            | cons f1 rest =>
                simp only [List.cons_append, List.cons.injEq] at h
                obtain ⟨rfl, h⟩ := h
                have := hall rest f0 up0 h
                rw [rootBalanced_plug_congr _ _ rest f0 hsame] at this
                simpa [plug] using this
          · refine Or.inr ⟨f :: below, f0, up0, b, by rw [e1]; rfl, e2, ?_, ?_, e5, e6, e7⟩
            · rw [rootBalanced_plug_congr _ _ below f0 hsame] at e3
              simpa [plug] using e3
            · intro b1 f1 b2 h
              cases b1 with
              | nil =>
                  simp only [List.nil_append, List.cons.injEq] at h
                  obtain ⟨rfl, -⟩ := h
                  simp only [List.nil_append, plug]
                  exact (rootBalanced_attach _ c).mpr hb
              | cons f2 rest =>
                  simp only [List.cons_append, List.cons.injEq] at h
                  obtain ⟨rfl, h⟩ := h
                  have := e4 rest f1 b2 h
                  rw [rootBalanced_plug_congr _ _ rest f1 hsame] at this
                  simpa [plug] using this
      · -- unbalanced: one rotation, then stop
        have hbal : IsAVLBalanced (f.attach c) = false := by
          rw [← Bool.not_eq_true, attach_balanced_iff f c hc hs]; exact hb
        have hd : c.height = n + 1 ∧ f.other.height = n - 1 := by
          rcases hcase with h | ⟨h, -⟩ <;> omega
        obtain ⟨b, hb1, hb2, hb3, hb4⟩ := rotate_attach f up c hc hs (Or.inl (by omega))
        have hbh : b.height = f.height_ := by
          rcases hb4 with h | ⟨-, h | h⟩
          · rw [h, hfh]; omega
          · exfalso
            obtain ⟨-, pl, pk, pv, ph, pr, hceq, heq⟩ := h
            rcases hcase with h | ⟨-, h | ⟨l, k, v, h', r, hceq', hne⟩⟩
            · omega
            · omega
            · rw [hceq] at hceq'
              injection hceq' with e1 _ _ _ e5
              subst e1; subst e5
              exact hne heq
          · omega
        refine ⟨plug b up, [up.length], ?_, ?_, Or.inr ⟨[], f, up, b, rfl, rfl, ?_, ?_, rfl, hb2, hbh⟩⟩
        · rw [AVLTreeMap.InsertLoopLog]
          simp only [hbal, if_true, hb1]
        · rw [AVLInv_plug]
          exact ⟨hb2, by rw [hbh]; exact hup⟩
        · simp only [List.nil_append, plug]
          rw [rootBalanced_attach]; exact hb
        · intro b1 f1 b2 h
          cases b1 <;> simp at h

/-- In an AVL chain around an empty slot, the height cached at an ancestor is the true
height of its subtree. -/
theorem AVLCtx_cached (below : List (Frame K V)) (f : Frame K V) (up : List (Frame K V))
    (h : AVLCtx (below ++ f :: up) (-1)) :
    f.height_ = (plug (Node.null : Node K V) (below ++ [f])).height := by
  have h0 : AVLCtx (below ++ f :: up) (Node.null : Node K V).height := h
  rw [AVLCtx_append _ (by simp [AVLInv])] at h0
  have h1 := h0.2
  simp only [AVLCtx] at h1
  rw [plug_append]
  simp only [plug]
  rw [height_attach]
  exact h1.2.2.2.1


section
variable [LinearOrder K]

/-- The instrumented `Remove` computes what `Remove` computes. -/
theorem RemoveLog_fst (m : AVLTreeMap K V) (k : K) :
    (m.RemoveLog k).map (fun x => (x.1, x.2.1)) = m.Remove k := by
  unfold AVLTreeMap.RemoveLog AVLTreeMap.Remove
  cases hs : m.Search k with
  | mk x hot =>
      cases x with
      | null => rfl
      | mk l key val h r =>
          simp only
          rw [← RemoveLoopLog_fst]
          cases AVLTreeMap.RemoveLoopLog (RemoveAt l key val h r hot).1 (RemoveAt l key val h r hot).2 <;> rfl

theorem insertAll_reachable (ks : List K) :
    ∀ m m' : AVLTreeMap K K, AVLTreeMap.Reachable m → AVLTreeMap.insertAll ks m = some m' →
      AVLTreeMap.Reachable m' := by
  induction ks with
  | nil =>
      intro m m' hm h
      simp only [AVLTreeMap.insertAll, Option.some.injEq] at h
      exact h ▸ hm
  | cons k ks ih =>
      intro m m' hm h
      rw [AVLTreeMap.insertAll] at h
      cases hi : m.Insert k k with
      | none => rw [hi] at h; simp at h
      | some p =>
          rw [hi] at h
          exact ih p.1 m' (AVLTreeMap.Reachable.insert k k p.2 hm hi) h

theorem avl12_eq :
    AVLTreeMap.insertAll [5, 3, 8, 2, 4, 7, 10, 1, 6, 9, 11, 12] AVLTreeMap.empty = some avl12 := by
  decide

theorem avl12_remove : avl12.RemoveLog 4 =
    some (⟨11, Node.mk
      (Node.mk (Node.mk (leaf 1) 2 2 1 (leaf 3)) 5 5 2 (Node.mk (leaf 6) 7 7 1 Node.null)) 8 8 3
      (Node.mk (leaf 9) 10 10 2 (Node.mk Node.null 11 11 1 (leaf 12)))⟩, true, [1, 0]) := by
  decide

/-! ## The claims C29 and C30 -/

/-- C29: in a reachable state of an `AVLTreeMap`, `Insert(k, v)` of a key that is not stored
returns and calls `RotateAt` at most once.  When it calls it, the call is made for the lowest
ancestor `g` of the new leaf whose two subtrees differ in height by more than one after the
insertion, every ancestor below `g` being balanced; the subtree `b` put at the place of `g`
has the height, true and cached, that the subtree of `g` had before the insertion, and the
ancestors above `g` are left as they were, with all cached heights of the result exact.  When
it calls none, every ancestor of the new leaf is balanced. -/
theorem C29_insert_one_rotation (m : AVLTreeMap K V) (hm : AVLTreeMap.Reachable m) (k : K)
    (v : V) (hk : k ∉ m.root_.keys) :
    ∃ hot t log, m.Search k = (Node.null, hot) ∧ plug Node.null hot = m.root_ ∧
      AVLTreeMap.InsertLoopLog (Node.mk Node.null k v 0 Node.null) hot = some (t, log) ∧
      m.Insert k v = some (⟨m.size_ + 1, t⟩, (k, v)) ∧ log.length ≤ 1 ∧ t.HeightsExact ∧
      ((log = [] ∧ ∀ below f up, hot = below ++ f :: up →
          (plug (Node.mk Node.null k v 0 Node.null) (below ++ [f])).RootBalanced) ∨
        ∃ below f up b, hot = below ++ f :: up ∧ log = [up.length] ∧
          ¬ (plug (Node.mk Node.null k v 0 Node.null) (below ++ [f])).RootBalanced ∧
          (∀ b1 f1 b2, below = b1 ++ f1 :: b2 →
            (plug (Node.mk Node.null k v 0 Node.null) (b1 ++ [f1])).RootBalanced) ∧
          t = plug b up ∧
          b.height = (plug (Node.null : Node K V) (below ++ [f])).height ∧
          GetStature b = GetStature (plug (Node.null : Node K V) (below ++ [f]))) := by
  obtain ⟨ha, ht, -⟩ := AVLTreeMap.avl_reachable_inv hm
  obtain ⟨h1, -, -, -⟩ := search_root m.root_ k ht
  have hn := (search_null_iff m.root_ k ht).mpr hk
  have hx : SearchIn m.root_ k [] = (Node.null, (SearchIn m.root_ k []).2) := Prod.ext hn rfl
  rw [hn] at h1
  have hctx : AVLCtx (SearchIn m.root_ k []).2 (-1) := by
    have := ha
    rw [← h1, AVLInv_plug] at this
    simpa [height] using this.2
  obtain ⟨t, log, e1, e2, e3⟩ := InsertLoopLog_spec (SearchIn m.root_ k []).2
    (Node.mk null k v 0 null) (-1) hctx (by simp [AVLInv, height])
    (Or.inr ⟨by simp [height], Or.inl rfl⟩)
  have e0 := InsertLoopLog_fst (SearchIn m.root_ k []).2 (Node.mk null k v 0 null)
  rw [e1] at e0
  refine ⟨(SearchIn m.root_ k []).2, t, log, hx, h1, e1, ?_, ?_, e2.heightsExact, ?_⟩
  · simp only [AVLTreeMap.Insert, AVLTreeMap.Search]
    rw [hx]
    simp only [← e0, Option.map]
  · rcases e3 with ⟨hl, -⟩ | ⟨_, _, _, _, -, hl, -⟩ <;> simp [hl]
  · rcases e3 with h | ⟨below, f, up, b, p1, p2, p3, p4, p5, p6, p7⟩
    · exact Or.inl h
    · refine Or.inr ⟨below, f, up, b, p1, p2, p3, p4, p5, ?_, ?_⟩
      · rw [p7]
        exact AVLCtx_cached below f up (p1 ▸ hctx)
      · rw [p6.stature, p7, plug_append]
        simp only [plug]
        unfold Frame.attach
        cases f.side <;> rfl

/-- C29, on an example: inserting 3 into the map holding 1 and 2. -/
theorem C29_insert_one_rotation_witness :
    AVLTreeMap.Reachable avl2 ∧ 3 ∉ avl2.root_.keys ∧
    ∃ hot t log, avl2.Search 3 = (Node.null, hot) ∧ plug Node.null hot = avl2.root_ ∧
      AVLTreeMap.InsertLoopLog (Node.mk Node.null 3 3 0 Node.null) hot = some (t, log) ∧
      avl2.Insert 3 3 = some (⟨avl2.size_ + 1, t⟩, (3, 3)) ∧ log.length ≤ 1 ∧ t.HeightsExact ∧
      ((log = [] ∧ ∀ below f up, hot = below ++ f :: up →
          (plug (Node.mk Node.null 3 3 0 Node.null) (below ++ [f])).RootBalanced) ∨
        ∃ below f up b, hot = below ++ f :: up ∧ log = [up.length] ∧
          ¬ (plug (Node.mk Node.null 3 3 0 Node.null) (below ++ [f])).RootBalanced ∧
          (∀ b1 f1 b2, below = b1 ++ f1 :: b2 →
            (plug (Node.mk Node.null 3 3 0 Node.null) (b1 ++ [f1])).RootBalanced) ∧
          t = plug b up ∧
          b.height = (plug (Node.null : Node Nat Nat) (below ++ [f])).height ∧
          GetStature b = GetStature (plug (Node.null : Node Nat Nat) (below ++ [f]))) :=
  ⟨avl2_reachable, by decide, C29_insert_one_rotation avl2 avl2_reachable 3 3 (by decide)⟩

/-- C30: the `AVLTreeMap` reached by inserting 5, 3, 8, 2, 4, 7, 10, 1, 6, 9, 11, 12 stores
the key 4, and the single call `Remove(4)` calls `RotateAt` twice, for two different
ancestors: first for the node at depth 1, then for the root. -/
theorem C30_remove_two_rotations :
    ∃ (m : AVLTreeMap Nat Nat) (k : Nat) (m' : AVLTreeMap Nat Nat) (log : List Nat),
      (∃ ks, AVLTreeMap.insertAll ks AVLTreeMap.empty = some m) ∧ AVLTreeMap.Reachable m ∧
      k ∈ m.root_.keys ∧ m.RemoveLog k = some (m', true, log) ∧ m.Remove k = some (m', true) ∧
      2 ≤ log.length ∧ log.Nodup :=
  ⟨avl12, 4, _, [1, 0], ⟨_, avl12_eq⟩,
    insertAll_reachable _ _ _ AVLTreeMap.Reachable.empty avl12_eq, by decide, avl12_remove,
    by rw [← RemoveLog_fst, avl12_remove]; rfl, by decide, by decide⟩

end

end DSA

namespace DSA
variable {T : Type}

/-! ## Searching a sorted `Vector` -/

theorem segment_length (a : List T) (lo hi : Nat) (h : hi ≤ a.length) :
    (segment a lo hi).length = hi - lo := by
  simp [segment, Nat.min_eq_left h]

theorem segment_getElem? (a : List T) (lo hi i : Nat) (h : lo + i < hi) :
    (segment a lo hi)[i]? = a[lo + i]? := by
  simp [segment, List.getElem?_drop, List.getElem?_take, h]

/-- The constructor of `Fibonacci` succeeds for every size below 48. -/
theorem fibonacci_new_ok : ∀ n, n < 48 → Fibonacci.ok (Fibonacci.new ((n : Nat) : Int)) = true := by
  decide

/-- The loop `while (fib.Get() > d) fib.Prev();` stops at a position that is not 0, where
the series holds a number from 1 to `d`. -/
theorem PrevWhile_spec (size : Nat) (fib : List Int) (d : Int) (hd : 1 ≤ d)
    (h1 : fib[1]? = some 1)
    (hpos : (fib.drop 1).all (fun x => decide (1 ≤ x)) = true) :
    ∀ p, 1 ≤ p → p < fib.length →
      ∃ q g, Fibonacci.PrevWhile size fib d p = some ⟨size, fib, q⟩ ∧ 1 ≤ q ∧ q < fib.length ∧
        fib[q]? = some g ∧ 1 ≤ g ∧ g ≤ d := by
  intro p
  induction p with
  | zero => intro h; omega
  | succ p ih =>
      intro _ hp
      rw [Fibonacci.PrevWhile, List.getElem?_eq_getElem hp]
      simp only
      have hge : 1 ≤ fib[p + 1] := by
        rw [List.all_eq_true] at hpos
        have hm : fib[p + 1] ∈ fib.drop 1 := by
          rw [List.mem_iff_getElem]
          exact ⟨p, by simp; omega, by simp [Nat.add_comm]⟩
        simpa using hpos _ hm
      by_cases hx : fib[p + 1] > d
      · simp only [hx, if_true]
        rcases Nat.eq_zero_or_pos p with rfl | hp0
        · exfalso
          rw [List.getElem?_eq_getElem hp] at h1
          injection h1 with h1
          simp only [Nat.zero_add] at hx h1
          omega
        · exact ih hp0 (by omega)
      · simp only [hx, if_false]
        exact ⟨p + 1, _, rfl, by omega, hp, List.getElem?_eq_getElem hp, hge, not_lt.mp hx⟩

section
variable [LinearOrder T]

/-- The loop of `FibSearch` on a sorted range that holds `e`: with enough fuel it returns a
rank of the range where `e` is. -/
theorem FibSearchLoop_hit (a : List T) (e : T) (lo0 hi0 : Nat) (hlen : hi0 ≤ a.length)
    (hs : SortedOn a lo0 hi0) (size : Nat) (fib : List Int) (h1 : fib[1]? = some 1)
    (hpos : (fib.drop 1).all (fun x => decide (1 ≤ x)) = true) :
    ∀ fuel lo hi p, hi - lo < fuel → lo0 ≤ lo → hi ≤ hi0 → 1 ≤ p → p < fib.length →
      (∃ k, lo ≤ k ∧ k < hi ∧ a[k]? = some e) →
      ∃ r : Nat, Vector.FibSearchLoop a e fuel ⟨size, fib, p⟩ lo hi = some (some (r : Int)) ∧
        lo ≤ r ∧ r < hi ∧ a[r]? = some e := by
  intro fuel
  induction fuel with
  | zero => intro lo hi p h; omega
  | succ fuel ih =>
      intro lo hi p hf h0 h2 hp1 hp2 ⟨k, hk1, hk2, hk⟩
      rw [Vector.FibSearchLoop]
      have hlt : lo < hi := by omega
      simp only [hlt, if_true]
      obtain ⟨q, g, e1, hq1, hq2, hg, hg1, hg2⟩ :=
        PrevWhile_spec size fib ((hi : Int) - lo) (by omega) h1 hpos p hp1 hp2
      rw [e1]
      simp only [Fibonacci.Get, hg]
      have hm0 : ¬ ((lo : Int) + g - 1 < 0) := by omega
      simp only [hm0, if_false]
      obtain ⟨m, hm⟩ : ∃ m : Nat, (lo : Int) + g - 1 = m := ⟨((lo : Int) + g - 1).toNat, by omega⟩
      rw [hm]
      simp only [Int.toNat_ofNat]
      have hml : m < a.length := by omega
      have hmx : a[m]? = some a[m] := List.getElem?_eq_getElem hml
      rw [hmx]
      simp only
      by_cases he : e < a[m]
      · simp only [he, if_true]
        have hkm : k < m := by
          by_contra hc
          exact absurd (hs m k _ _ (by omega) (by omega) (by omega) hmx hk) (not_le.mpr he)
        obtain ⟨r, r1, r2, r3, r4⟩ := ih lo m q (by omega) h0 (by omega) hq1 hq2 ⟨k, hk1, hkm, hk⟩
        exact ⟨r, r1, r2, by omega, r4⟩
      · simp only [he, if_false]
        by_cases he2 : e > a[m]
        · simp only [he2, if_true]
          have hkm : m < k := by
            by_contra hc
            exact absurd (hs k m _ _ (by omega) (by omega) (by omega) hk hmx) (not_le.mpr he2)
          obtain ⟨r, r1, r2, r3, r4⟩ :=
            ih (m + 1) hi q (by omega) (by omega) h2 hq1 hq2 ⟨k, by omega, hk2, hk⟩
          exact ⟨r, r1, by omega, r3, r4⟩
        · simp only [he2, if_false]
          refine ⟨m, rfl, by omega, by omega, ?_⟩
          rw [hmx, le_antisymm (not_lt.mp he2) (not_lt.mp he)]

end

section
variable [LinearOrder T]

/-- The index form of sortedness is that of the segment. -/
theorem sortedOn_iff (a : List T) (lo hi : Nat) (h : hi ≤ a.length) :
    SortedOn a lo hi ↔ (segment a lo hi).Sorted (· ≤ ·) := by
  unfold List.Sorted
  rw [List.pairwise_iff_getElem]
  constructor
  · intro hs i j hi' hj' hij
    rw [segment_length a lo hi h] at hi' hj'
    have e1 : (segment a lo hi)[i]? = a[lo + i]? := segment_getElem? a lo hi i (by omega)
    have e2 : (segment a lo hi)[j]? = a[lo + j]? := segment_getElem? a lo hi j (by omega)
    rw [List.getElem?_eq_getElem (by rw [segment_length a lo hi h]; omega)] at e1 e2
    exact hs (lo + i) (lo + j) _ _ (by omega) (by omega) (by omega) e1.symm e2.symm
  · intro hs i j x y h1 h2 h3 hx hy
    rcases Nat.eq_or_lt_of_le h2 with rfl | hlt
    · rw [hx] at hy; injection hy with hy; exact le_of_eq hy
    · have hl := segment_length a lo hi h
      have := hs (i - lo) (j - lo) (by omega) (by omega) (by omega)
      have e1 : (segment a lo hi)[i - lo]? = a[lo + (i - lo)]? :=
        segment_getElem? a lo hi (i - lo) (by omega)
      have e2 : (segment a lo hi)[j - lo]? = a[lo + (j - lo)]? :=
        segment_getElem? a lo hi (j - lo) (by omega)
      rw [show lo + (i - lo) = i by omega, hx,
        List.getElem?_eq_getElem (by omega)] at e1
      rw [show lo + (j - lo) = j by omega, hy,
        List.getElem?_eq_getElem (by omega)] at e2
      injection e1 with e1; injection e2 with e2
      rw [← e1, ← e2]; exact this

/-- The loop of `BinSearch` on a sorted range: with enough fuel it yields `p - 1` for the
rank `p` that separates the elements not greater than `e` from those greater than `e`. -/
theorem BinSearchLoop_spec (a : List T) (e : T) (lo0 hi0 : Nat) (hlen : hi0 ≤ a.length)
    (hs : SortedOn a lo0 hi0) :
    ∀ fuel lo hi, hi - lo < fuel → lo0 ≤ lo → lo ≤ hi → hi ≤ hi0 →
      (∀ i x, lo0 ≤ i → i < lo → a[i]? = some x → x ≤ e) →
      (∀ i x, hi ≤ i → i < hi0 → a[i]? = some x → e < x) →
      ∃ p : Nat, Vector.BinSearchLoop a e fuel lo hi = some ((p : Int) - 1) ∧ lo0 ≤ p ∧ p ≤ hi0 ∧
        (∀ i x, lo0 ≤ i → i < p → a[i]? = some x → x ≤ e) ∧
        (∀ i x, p ≤ i → i < hi0 → a[i]? = some x → e < x) := by
  intro fuel
  induction fuel with
  | zero => intro lo hi h; omega
  | succ fuel ih =>
      intro lo hi hf h0 h1 h2 hL hR
      rw [Vector.BinSearchLoop]
      by_cases hlt : lo < hi
      · simp only [hlt, if_true]
        have hm : (lo + hi) / 2 < a.length := by omega
        rw [List.getElem?_eq_getElem hm]
        simp only
        have hmx : a[(lo + hi) / 2]? = some a[(lo + hi) / 2] := List.getElem?_eq_getElem hm
        by_cases he : e < a[(lo + hi) / 2]
        · simp only [he, if_true]
          refine ih lo ((lo + hi) / 2) (by omega) h0 (by omega) (by omega) hL ?_
          intro i x hi1 hi2 hx
          by_cases hih : hi ≤ i
          · exact hR i x hih hi2 hx
          · exact lt_of_lt_of_le he
              (hs _ i _ x (by omega) hi1 hi2 hmx hx)
        · simp only [he, if_false]
          refine ih ((lo + hi) / 2 + 1) hi (by omega) (by omega) (by omega) h2 ?_ hR
          intro i x hi1 hi2 hx
          by_cases hil : i < lo
          · exact hL i x hi1 hil hx
          · exact le_trans (hs i _ x _ hi1 (by omega) (by omega) hx hmx) (not_lt.mp he)
      · simp only [hlt, if_false]
        have : lo = hi := by omega
        subst this
        exact ⟨lo, rfl, h0, h2, hL, hR⟩

end

/-! ## The claims C25 and C26 -/

section
variable [LinearOrder T]

/-- The function `BinSearch(e, lo, hi)` on a `Vector` whose elements `[lo, hi)` are in
non-decreasing order returns `p - 1` where the elements of ranks `[lo, p)` are not greater
than `e` and those of ranks `[p, hi)` are greater: the greatest rank whose element is not
greater than `e`, or `lo - 1`.  The function `FibSearch(e, lo, hi)`, on a range of at most 47
elements that holds `e`, returns a rank of the range where `e` is; this is the rank
`BinSearch` returns when `e` is at one rank of the range only. -/
theorem vec_search_spec (v : Vector T) (e : T) (lo hi fuel : Nat)
    (hw : v.size_ ≤ v.element_.length) (hlo : lo ≤ hi) (hhi : hi ≤ v.size_)
    (hs : (segment v.element_ lo hi).Sorted (· ≤ ·)) (hf : hi - lo < fuel) :
    (∃ p : Nat, v.BinSearch fuel e lo hi = some ((p : Int) - 1) ∧ lo ≤ p ∧ p ≤ hi ∧
        (∀ i x, lo ≤ i → i < p → v.element_[i]? = some x → x ≤ e) ∧
        (∀ i x, p ≤ i → i < hi → v.element_[i]? = some x → e < x)) ∧
      (hi - lo ≤ 47 → e ∈ segment v.element_ lo hi →
        ∃ r : Nat, v.FibSearch fuel e lo hi = some (some (r : Int)) ∧ lo ≤ r ∧ r < hi ∧
          v.element_[r]? = some e ∧
          ((∀ i j, lo ≤ i → i < hi → lo ≤ j → j < hi → v.element_[i]? = some e →
              v.element_[j]? = some e → i = j) →
            v.BinSearch fuel e lo hi = some (r : Int))) := by
  have hlen : hi ≤ v.element_.length := le_trans hhi hw
  have hso := (sortedOn_iff v.element_ lo hi hlen).mpr hs
  have hg : ¬ (lo > v.GetSize ∨ hi > v.GetSize) := by
    simp only [Vector.GetSize]; omega
  obtain ⟨p, p1, p2, p3, p4, p5⟩ := BinSearchLoop_spec v.element_ e lo hi hlen hso fuel lo hi hf
    (le_refl _) hlo (le_refl _) (fun i x h1 h2 => by omega) (fun i x h1 h2 => by omega)
  have hbin : v.BinSearch fuel e lo hi = some ((p : Int) - 1) := by
    simp only [Vector.BinSearch, hg, if_false]; exact p1
  refine ⟨⟨p, hbin, p2, p3, p4, p5⟩, ?_⟩
  intro h47 hmem
  obtain ⟨i, hi1, hi2⟩ := List.mem_iff_getElem.mp hmem
  rw [segment_length _ _ _ hlen] at hi1
  have hk : v.element_[lo + i]? = some e := by
    rw [← segment_getElem? v.element_ lo hi i (by omega), List.getElem?_eq_getElem, hi2]
  have hn : ((hi : Int) - lo) = ((hi - lo : Nat) : Int) := by omega
  have hok := fibonacci_new_ok (hi - lo) (by omega)
  rw [← hn] at hok
  cases hfib : Fibonacci.new ((hi : Int) - lo) with
  | none => rw [hfib] at hok; simp [Fibonacci.ok] at hok
  | some f =>
      rw [hfib] at hok
      simp only [Fibonacci.ok, Bool.and_eq_true, decide_eq_true_eq] at hok
      obtain ⟨⟨⟨q1, q2⟩, q3⟩, q4⟩ := hok
      obtain ⟨r, r1, r2, r3, r4⟩ := FibSearchLoop_hit v.element_ e lo hi hlen hso f.size_
        f.fib_ q3 q4 fuel lo hi f.position_ hf (le_refl _) (le_refl _) q1 q2
        ⟨lo + i, by omega, by omega, hk⟩
      have hfs : v.FibSearch fuel e lo hi = some (some (r : Int)) := by
        simp only [Vector.FibSearch, hg, if_false, hfib]; exact r1
      refine ⟨r, hfs, r2, r3, r4, ?_⟩
      intro hu
      rw [hbin]
      have hrp : r < p := by
        by_contra hc
        exact absurd (p5 r e (by omega) r3 r4) (lt_irrefl e)
      have hp1 : p - 1 < v.element_.length := by omega
      have hx := p4 (p - 1) _ (by omega) (by omega) (List.getElem?_eq_getElem hp1)
      have hy := hso r (p - 1) _ _ r2 (by omega) (by omega) r4 (List.getElem?_eq_getElem hp1)
      have he : v.element_[p - 1]? = some e := by
        rw [List.getElem?_eq_getElem hp1, le_antisymm hx hy]
      have := hu r (p - 1) r2 r3 (by omega) (by omega) r4 he
      congr 1
      omega

end

/-- C25 (defect): in the sorted vector 1, 3, 5 the greatest rank whose element is not greater
than 2 is 0, which `BinSearch(2, 0, 3)` returns; `FibSearch(2, 0, 3)`, whatever the fuel from
3 on, leaves its loop with `lo >= hi` and ends without a `return` statement, so that it
yields no rank.  In the sorted vector 1, 1 searched for 1, `BinSearch` returns the greatest
rank 1 and `FibSearch` the rank 0.  For a range of 48 elements the constructor of `Fibonacci`
called by `FibSearch` exceeds `INT_MAX`. -/
theorem C25_FibSearch_miss (fuel : Nat) :
    (segment ([1, 3, 5] : List Int) 0 3).Sorted (· ≤ ·) ∧
      (Vector.mk 3 22 [1, 3, 5] : Vector Int).BinSearch (fuel + 3) 2 0 3 = some 0 ∧
      (Vector.mk 3 22 [1, 3, 5] : Vector Int).FibSearch (fuel + 3) 2 0 3 = some none ∧
      (segment ([1, 1] : List Int) 0 2).Sorted (· ≤ ·) ∧
      (Vector.mk 2 22 [1, 1] : Vector Int).BinSearch (fuel + 3) 1 0 2 = some 1 ∧
      (Vector.mk 2 22 [1, 1] : Vector Int).FibSearch (fuel + 3) 1 0 2 = some (some 0) ∧
      Fibonacci.new 48 = none := by
  refine ⟨by decide, ?_, ?_, by decide, ?_, ?_, by decide⟩
  · rfl
  · rfl
  · rfl
  · rfl

/-- C26 fails on the empty vector: `Uniquify()` on `Vector<int>()` sets `size_` to 1, with no
cell of the buffer written, and returns 0.  On the vector of the demo `main` it leaves
1, 2, 3, 4, 5, 6, 7, 11, 10, 9, 8 and returns 5. -/
theorem C26_Uniquify_empty :
    (Vector.new 11 0 (0 : Int)).Uniquify = some (⟨1, 11, []⟩, 0) ∧
      Vector.insertAll [1, 2, 3, 4, 5, 6, 7, 7, 7, 7, 7, 7, 11, 10, 9, 8] (Vector.new 11 0 (0 : Int)) =
        some ⟨16, 22, [1, 2, 3, 4, 5, 6, 7, 7, 7, 7, 7, 7, 11, 10, 9, 8]⟩ ∧
      (Vector.mk 16 22 [1, 2, 3, 4, 5, 6, 7, 7, 7, 7, 7, 7, 11, 10, 9, 8] : Vector Int).Uniquify =
        some (⟨11, 22, [1, 2, 3, 4, 5, 6, 7, 11, 10, 9, 8, 7, 11, 10, 9, 8]⟩, 5) := by
  decide

end DSA

namespace DSA
variable {T : Type}

/-! ## Arrays: exchanges, permutations and what stays outside a range -/

theorem getElem?_swap (a : List T) (i j c : Nat) (x y : T) (hi : i < a.length)
    (hj : j < a.length) (hne : i ≠ j) :
    ((a.set i y).set j x)[c]? =
      if c = j then some x else if c = i then some y else a[c]? := by
  by_cases h1 : c = j
  · subst h1
    simp [hj]
  · by_cases h2 : c = i
    · subst h2
      rw [List.getElem?_set_ne (fun h => h1 h.symm)]
      simp [hi, h1]
    · rw [List.getElem?_set_ne (fun h => h1 h.symm), List.getElem?_set_ne (fun h => h2 h.symm)]
      simp [h1, h2]

theorem set_perm_of_count [DecidableEq T] (a : List T) (i : Nat) (x y : T)
    (hx : a[i]? = some x) (b : T) :
    (a.set i y).count b + (if x = b then 1 else 0) = a.count b + (if y = b then 1 else 0) := by
  have hi : i < a.length := by
    by_contra h
    rw [List.getElem?_eq_none (by omega)] at hx
    exact absurd hx (by simp)
  rw [List.count_set _ _ _ _ hi]
  rw [List.getElem?_eq_getElem hi] at hx
  injection hx with hx
  rw [hx]
  have hpos : (if x = b then 1 else 0) ≤ a.count b := by
    split_ifs with h
    · subst h
      rw [← hx]
      exact List.count_pos_iff.mpr (List.getElem_mem _)
    · exact Nat.zero_le _
  simp only [beq_iff_eq]
  omega

/-- Exchanging two cells of an array gives a permutation of it. -/
theorem swap_perm [DecidableEq T] (a : List T) (i j : Nat) (x y : T) (hx : a[i]? = some x)
    (hy : a[j]? = some y) : List.Perm ((a.set i y).set j x) a := by
  rw [List.perm_iff_count]
  intro b
  by_cases hij : i = j
  · subst hij
    rw [hx] at hy
    injection hy with hy
    subst hy
    rw [List.set_set]
    have := set_perm_of_count a i x x hx b
    omega
  · have h1 := set_perm_of_count a i x y hx b
    have hy' : (a.set i y)[j]? = some y := by
      rw [List.getElem?_set_ne hij]; exact hy
    have h2 := set_perm_of_count (a.set i y) j y x hy' b
    omega

theorem SameOutside.refl (a : List T) (lo hi : Nat) : SameOutside a a lo hi :=
  ⟨rfl, fun _ _ => rfl⟩

theorem SameOutside.trans {a b c : List T} {lo hi : Nat} (h1 : SameOutside a b lo hi)
    (h2 : SameOutside b c lo hi) : SameOutside a c lo hi :=
  ⟨h1.1.trans h2.1, fun i hi => (h1.2 i hi).trans (h2.2 i hi)⟩

theorem SameOutside.mono {a b : List T} {lo hi lo' hi' : Nat} (h : SameOutside a b lo hi)
    (h1 : lo' ≤ lo) (h2 : hi ≤ hi') : SameOutside a b lo' hi' :=
  ⟨h.1, fun i hi => h.2 i (by omega)⟩

theorem SameOutside.set (a : List T) (i : Nat) (x : T) (lo hi : Nat) (h1 : lo ≤ i)
    (h2 : i < hi) : SameOutside (a.set i x) a lo hi :=
  ⟨List.length_set _ _ _, fun c hc => List.getElem?_set_ne (by omega)⟩

theorem SameOutside.take {a b : List T} {lo hi : Nat} (h : SameOutside a b lo hi) :
    a.take lo = b.take lo := by
  apply List.ext_getElem?
  intro i
  rw [List.getElem?_take, List.getElem?_take]
  split_ifs with hi
  · exact h.2 i (Or.inl hi)
  · rfl

theorem SameOutside.drop {a b : List T} {lo hi : Nat} (h : SameOutside a b lo hi) :
    a.drop hi = b.drop hi := by
  apply List.ext_getElem?
  intro i
  rw [List.getElem?_drop, List.getElem?_drop]
  exact h.2 _ (Or.inr (by omega))

theorem split_segment (a : List T) (lo hi : Nat) (h : lo ≤ hi) :
    a = a.take lo ++ segment a lo hi ++ a.drop hi := by
  unfold segment
  have e1 : a.take lo = (a.take hi).take lo := by
    rw [List.take_take, Nat.min_eq_left h]
  rw [e1, List.take_append_drop, List.take_append_drop]

/-- A permutation of the whole array that changes nothing outside `[lo, hi)` permutes the
elements of `[lo, hi)`. -/
theorem segment_perm {a b : List T} {lo hi : Nat} (hp : List.Perm a b)
    (hs : SameOutside a b lo hi) (h : lo ≤ hi) :
    List.Perm (segment a lo hi) (segment b lo hi) := by
  have ea := split_segment a lo hi h
  have eb := split_segment b lo hi h
  rw [ea, eb, hs.take, hs.drop] at hp
  exact (List.perm_append_left_iff _).mp ((List.perm_append_right_iff _).mp hp)

end DSA

namespace DSA
variable {T : Type} [LinearOrder T]

open PriorityQueueArrayHeap

/-! ## The array heap -/

theorem GetMaxOfThree_spec (a : List T) (n cap i : Nat) (hi : i < n) (hn : n ≤ a.length) :
    ∃ j, GetMaxOfThree ⟨n, cap, a⟩ i = some j ∧ i ≤ j ∧ j < n ∧
      (j = i ∨ (Parent j = i ∧ 0 < j)) ∧
      (∀ x y, a[i]? = some x → a[j]? = some y → x ≤ y) ∧
      (∀ c x y, 0 < c → c < n → Parent c = i → a[c]? = some x → a[j]? = some y → x ≤ y) := by
  have hil : i < a.length := by omega
  have ei : a[i]? = some a[i] := List.getElem?_eq_getElem hil
  unfold GetMaxOfThree
  simp only [InHeap, GetSize, RChild, LChild, decide_eq_true_eq]
  by_cases hr : 2 * i + 2 < n
  · have hrl : 2 * i + 2 < a.length := by omega
    have hll : 2 * i + 1 < a.length := by omega
    have er : a[2 * i + 2]? = some a[2 * i + 2] := List.getElem?_eq_getElem hrl
    have el : a[2 * i + 1]? = some a[2 * i + 1] := List.getElem?_eq_getElem hll
    simp only [hr, if_true, GetHigher, ei, el]
    by_cases h1 : a[i] < a[2 * i + 1]
    · simp only [h1, if_true, el, er]
      by_cases h2 : a[2 * i + 1] < a[2 * i + 2]
      · simp only [h2, if_true]
        refine ⟨_, rfl, by omega, hr, Or.inr ⟨by simp only [Parent]; omega, by omega⟩, ?_, ?_⟩
        · intro x y hx hy
          simp only [ei, er, Option.some.injEq] at hx hy
          rw [← hx, ← hy]; exact le_of_lt (lt_trans h1 h2)
        · intro c x y hc0 hcn hpc hx hy
          rw [er] at hy; injection hy with hy
          have hc : c = 2 * i + 1 ∨ c = 2 * i + 2 := by simp only [Parent] at hpc; omega
          rcases hc with rfl | rfl
          · rw [el] at hx; injection hx with hx
            rw [← hx, ← hy]; exact le_of_lt h2
          · rw [er] at hx; injection hx with hx
            rw [← hx, ← hy]
      · simp only [h2, if_false]
        refine ⟨_, rfl, by omega, by omega, Or.inr ⟨by simp only [Parent]; omega, by omega⟩, ?_, ?_⟩
        · intro x y hx hy
          simp only [ei, el, Option.some.injEq] at hx hy
          rw [← hx, ← hy]; exact le_of_lt h1
        · intro c x y hc0 hcn hpc hx hy
          rw [el] at hy; injection hy with hy
          have hc : c = 2 * i + 1 ∨ c = 2 * i + 2 := by simp only [Parent] at hpc; omega
          rcases hc with rfl | rfl
          · rw [el] at hx; injection hx with hx
            rw [← hx, ← hy]
          · rw [er] at hx; injection hx with hx
            rw [← hx, ← hy]; exact not_lt.mp h2
    · simp only [h1, if_false, ei, er]
      by_cases h2 : a[i] < a[2 * i + 2]
      · simp only [h2, if_true]
        refine ⟨_, rfl, by omega, hr, Or.inr ⟨by simp only [Parent]; omega, by omega⟩, ?_, ?_⟩
        · intro x y hx hy
          simp only [ei, er, Option.some.injEq] at hx hy
          rw [← hx, ← hy]; exact le_of_lt h2
        · intro c x y hc0 hcn hpc hx hy
          rw [er] at hy; injection hy with hy
          have hc : c = 2 * i + 1 ∨ c = 2 * i + 2 := by simp only [Parent] at hpc; omega
          rcases hc with rfl | rfl
          · rw [el] at hx; injection hx with hx
            rw [← hx, ← hy]; exact le_trans (not_lt.mp h1) (le_of_lt h2)
          · rw [er] at hx; injection hx with hx
            rw [← hx, ← hy]
      · simp only [h2, if_false]
        refine ⟨_, rfl, le_refl _, hi, Or.inl rfl, ?_, ?_⟩
        · intro x y hx hy
          simp only [ei, Option.some.injEq] at hx hy
          rw [← hx, ← hy]
        · intro c x y hc0 hcn hpc hx hy
          simp only [ei, Option.some.injEq] at hy
          have hc : c = 2 * i + 1 ∨ c = 2 * i + 2 := by simp only [Parent] at hpc; omega
          rcases hc with rfl | rfl
          · rw [el] at hx; injection hx with hx
            rw [← hx, ← hy]; exact not_lt.mp h1
          · rw [er] at hx; injection hx with hx
            rw [← hx, ← hy]; exact not_lt.mp h2
  · simp only [hr, if_false]
    by_cases hl : 2 * i + 1 < n
    · have hll : 2 * i + 1 < a.length := by omega
      have el : a[2 * i + 1]? = some a[2 * i + 1] := List.getElem?_eq_getElem hll
      simp only [hl, if_true, GetHigher, ei, el]
      by_cases h1 : a[i] < a[2 * i + 1]
      · simp only [h1, if_true]
        refine ⟨_, rfl, by omega, hl, Or.inr ⟨by simp only [Parent]; omega, by omega⟩, ?_, ?_⟩
        · intro x y hx hy
          simp only [ei, el, Option.some.injEq] at hx hy
          rw [← hx, ← hy]; exact le_of_lt h1
        · intro c x y hc0 hcn hpc hx hy
          have hc : c = 2 * i + 1 := by simp only [Parent] at hpc; omega
          subst hc
          rw [hx] at hy; injection hy with hy; exact le_of_eq hy
      · simp only [h1, if_false]
        refine ⟨_, rfl, le_refl _, hi, Or.inl rfl, ?_, ?_⟩
        · intro x y hx hy
          simp only [ei, Option.some.injEq] at hx hy
          rw [← hx, ← hy]
        · intro c x y hc0 hcn hpc hx hy
          simp only [ei, Option.some.injEq] at hy
          have hc : c = 2 * i + 1 := by simp only [Parent] at hpc; omega
          subst hc
          rw [el] at hx; injection hx with hx
          rw [← hx, ← hy]; exact not_lt.mp h1
    · simp only [hl, if_false]
      refine ⟨_, rfl, le_refl _, hi, Or.inl rfl, ?_, ?_⟩
      · intro x y hx hy
        rw [hx] at hy; injection hy with hy; exact le_of_eq hy
      · intro c x y hc0 hcn hpc hx hy
        exfalso
        simp only [Parent] at hpc; omega

omit [LinearOrder T] in
theorem sameOutside_swap (a : List T) (i j : Nat) (x y : T) (lo hi : Nat) (h1 : lo ≤ i)
    (h2 : i < hi) (h3 : lo ≤ j) (h4 : j < hi) :
    SameOutside ((a.set i y).set j x) a lo hi :=
  (SameOutside.set _ j x lo hi h3 h4).trans (SameOutside.set a i y lo hi h1 h2)

/-- The loop of `PercolateDown` from a node `i` below which (from `k` on) only `i` may be
smaller than a child: it returns, and the heap order then holds from `k` on. -/
theorem PercolateDownLoop_spec (n cap k : Nat) :
    ∀ fuel (a : List T) (i j : Nat), n - i < fuel → i < n → n ≤ a.length → k ≤ i →
      GetMaxOfThree ⟨n, cap, a⟩ i = some j →
      (∀ c x y, 0 < c → c < n → k ≤ Parent c → Parent c ≠ i → a[c]? = some x →
        a[Parent c]? = some y → x ≤ y) →
      (∀ c x y, 0 < c → c < n → Parent c = i → 0 < i → k ≤ Parent i → a[c]? = some x →
        a[Parent i]? = some y → x ≤ y) →
      ∃ a' r, PercolateDownLoop fuel ⟨n, cap, a⟩ i j = some (⟨n, cap, a'⟩, r) ∧
        HeapFrom a' n k ∧ List.Perm a' a ∧ SameOutside a' a 0 n := by
  intro fuel
  induction fuel with
  | zero => intro a i j h; omega
  | succ fuel ih =>
      intro a i j hf hi hn hk hj inv1 inv2
      obtain ⟨j0, e0, g1, g2, g3, g4, g5⟩ := GetMaxOfThree_spec a n cap i hi hn
      rw [hj] at e0
      injection e0 with e0
      subst e0
      rw [PercolateDownLoop]
      by_cases hij : i = j
      · subst hij
        simp only [ne_eq, not_true_eq_false, if_false]
        refine ⟨a, i, rfl, ?_, List.Perm.refl _, SameOutside.refl _ _ _⟩
        intro c x y hc0 hcn hkc hx hy
        by_cases hp : Parent c = i
        · rw [hp] at hy
          exact g5 c x y hc0 hcn hp hx hy
        · exact inv1 c x y hc0 hcn hkc hp hx hy
      · have hpj : Parent j = i ∧ 0 < j := by
          rcases g3 with h | h
          · exact absurd h.symm hij
          · exact h
        have hil : i < a.length := by omega
        have hjl : j < a.length := by omega
        have ei : a[i]? = some a[i] := List.getElem?_eq_getElem hil
        have ej : a[j]? = some a[j] := List.getElem?_eq_getElem hjl
        have hxy : a[i] ≤ a[j] := g4 _ _ ei ej
        have hlen : ((a.set i a[j]).set j a[i]).length = a.length := by simp
        obtain ⟨j', e1, -⟩ := GetMaxOfThree_spec ((a.set i a[j]).set j a[i]) n cap j g2
          (by rw [hlen]; exact hn)
        have hgt : i < j := by
          have := hpj.1; simp only [Parent] at this; omega
        obtain ⟨a', r, r1, r2, r3, r4⟩ := ih ((a.set i a[j]).set j a[i]) j j' (by omega) g2
          (by rw [hlen]; exact hn) (by omega) e1
          (by
            intro c x y hc0 hcn hkc hpc hx hy
            rw [getElem?_swap a i j _ _ _ hil hjl hij] at hx hy
            by_cases hp : Parent c = i
            · rw [hp] at hy
              rw [if_neg hij, if_pos rfl] at hy
              injection hy with hy
              by_cases hcj : c = j
              · rw [if_pos hcj] at hx
                injection hx with hx
                rw [← hx, ← hy]; exact hxy
              · have hci : c ≠ i := by
                  intro h; rw [h] at hp; simp only [Parent] at hp; omega
                rw [if_neg hcj, if_neg hci] at hx
                rw [← hy]
                exact g5 c x _ hc0 hcn hp hx ej
            · rw [if_neg hpc, if_neg hp] at hy
              by_cases hci : c = i
              · have hcj : c ≠ j := by omega
                rw [if_neg hcj, if_pos hci] at hx
                injection hx with hx
                rw [← hx]
                rw [hci] at hy hc0 hkc
                exact inv2 j _ y hpj.2 g2 hpj.1 hc0 hkc ej hy
              · have hcj : c ≠ j := by
                  intro h; rw [h] at hp; exact hp hpj.1
                rw [if_neg hcj, if_neg hci] at hx
                exact inv1 c x y hc0 hcn hkc hp hx hy)
          (by
            intro c x y hc0 hcn hpc _ _ hx hy
            rw [getElem?_swap a i j _ _ _ hil hjl hij] at hx hy
            rw [hpj.1] at hy
            rw [if_neg hij, if_pos rfl] at hy
            injection hy with hy
            have hcj : c ≠ j := by
              intro h; rw [h] at hpc; simp only [Parent] at hpc; omega
            have hci : c ≠ i := by
              intro h; rw [h] at hpc; simp only [Parent] at hpc; omega
            rw [if_neg hcj, if_neg hci] at hx
            rw [← hy]
            exact inv1 c x _ hc0 hcn (by rw [hpc]; omega) (by rw [hpc]; omega) hx
              (by rw [hpc]; exact ej))
        refine ⟨a', r, ?_, r2, r3.trans (swap_perm a i j _ _ ei ej),
          r4.trans (sameOutside_swap a i j _ _ 0 n (Nat.zero_le _) hi (Nat.zero_le _) g2)⟩
        simp only [ne_eq, hij, not_false_eq_true, if_true, ei, ej, e1]
        exact r1

/-- From a heap order that holds beyond `k`, `PercolateDown(k)` returns and makes it hold
from `k` on; the elements are permuted. -/
theorem PercolateDown_spec (n cap k : Nat) (a : List T) (fuel : Nat) (hf : n - k < fuel)
    (hk : k < n) (hn : n ≤ a.length) (hh : HeapFrom a n (k + 1)) :
    ∃ a' r, PercolateDown fuel ⟨n, cap, a⟩ k = some (⟨n, cap, a'⟩, r) ∧
      HeapFrom a' n k ∧ List.Perm a' a ∧ SameOutside a' a 0 n := by
  obtain ⟨j, e0, -⟩ := GetMaxOfThree_spec a n cap k hk hn
  obtain ⟨a', r, r1, r2⟩ := PercolateDownLoop_spec n cap k fuel a k j hf hk hn (le_refl _) e0
    (fun c x y hc0 hcn hkc hpc hx hy => hh c x y hc0 hcn (by omega) hx hy)
    (fun c x y hc0 hcn hpc hk0 hkp hx hy => by
      exfalso; simp only [Parent] at hkp; omega)
  exact ⟨a', r, by simp only [PercolateDown, e0]; exact r1, r2⟩

/-- The loop of `PercolateUp` from a node `i`, the only one that may be greater than its
parent: it returns, and the heap order then holds. -/
theorem PercolateUp_spec (n cap : Nat) :
    ∀ fuel (a : List T) (i : Nat), i < fuel → i < n → n ≤ a.length →
      (∀ c x y, 0 < c → c < n → c ≠ i → a[c]? = some x → a[Parent c]? = some y → x ≤ y) →
      (∀ c x y, 0 < c → c < n → Parent c = i → 0 < i → a[c]? = some x →
        a[Parent i]? = some y → x ≤ y) →
      ∃ a' r, PercolateUp fuel ⟨n, cap, a⟩ i = some (⟨n, cap, a'⟩, r) ∧
        HeapFrom a' n 0 ∧ List.Perm a' a ∧ SameOutside a' a 0 n := by
  intro fuel
  induction fuel with
  | zero => intro a i h; omega
  | succ fuel ih =>
      intro a i hf hi hn inv1 inv2
      rw [PercolateUp]
      by_cases h0 : i = 0
      · subst h0
        simp only [HasParent, gt_iff_lt, lt_self_iff_false, decide_False, Bool.false_eq_true,
          if_false]
        exact ⟨a, 0, rfl, fun c x y hc0 hcn _ hx hy => inv1 c x y hc0 hcn (by omega) hx hy,
          List.Perm.refl _, SameOutside.refl _ _ _⟩
      · have hpos : 0 < i := Nat.pos_of_ne_zero h0
        have hji : Parent i < i := by simp only [Parent]; omega
        have hil : i < a.length := by omega
        have hjl : Parent i < a.length := by omega
        have ei : a[i]? = some a[i] := List.getElem?_eq_getElem hil
        have ej : a[Parent i]? = some a[Parent i] := List.getElem?_eq_getElem hjl
        simp only [HasParent, gt_iff_lt, hpos, decide_True, if_true, ei, ej]
        by_cases hlt : a[i] < a[Parent i]
        · simp only [hlt, if_true]
          refine ⟨a, i, rfl, ?_, List.Perm.refl _, SameOutside.refl _ _ _⟩
          intro c x y hc0 hcn _ hx hy
          by_cases hci : c = i
          · subst hci
            rw [ei] at hx; rw [ej] at hy
            injection hx with hx; injection hy with hy
            rw [← hx, ← hy]; exact le_of_lt hlt
          · exact inv1 c x y hc0 hcn hci hx hy
        · simp only [hlt, if_false]
          have hyx : a[Parent i] ≤ a[i] := not_lt.mp hlt
          have hne : i ≠ Parent i := by omega
          have hlen : ((a.set i a[Parent i]).set (Parent i) a[i]).length = a.length := by simp
          obtain ⟨a', r, r1, r2, r3, r4⟩ := ih ((a.set i a[Parent i]).set (Parent i) a[i])
            (Parent i) (by omega) (by omega) (by rw [hlen]; exact hn)
            (by
              intro c x y hc0 hcn hcj hx hy
              rw [getElem?_swap a i (Parent i) _ _ _ hil hjl hne] at hx hy
              rw [if_neg hcj] at hx
              by_cases hci : c = i
              · rw [if_pos hci] at hx
                rw [hci, if_pos rfl] at hy
                injection hx with hx; injection hy with hy
                rw [← hx, ← hy]; exact hyx
              · rw [if_neg hci] at hx
                by_cases hp1 : Parent c = Parent i
                · rw [if_pos hp1] at hy
                  injection hy with hy
                  rw [← hy]
                  exact le_trans (inv1 c x _ hc0 hcn hci hx (by rw [hp1]; exact ej)) hyx
                · rw [if_neg hp1] at hy
                  by_cases hp2 : Parent c = i
                  · rw [if_pos hp2] at hy
                    injection hy with hy
                    rw [← hy]
                    exact inv2 c x _ hc0 hcn hp2 hpos hx ej
                  · rw [if_neg hp2] at hy
                    exact inv1 c x y hc0 hcn hci hx hy)
            (by
              intro c x y hc0 hcn hpc hj0 hx hy
              have hpp : Parent (Parent i) < Parent i := by
                generalize Parent i = j at hj0
                simp only [Parent]; omega
              rw [getElem?_swap a i (Parent i) _ _ _ hil hjl hne] at hx hy
              rw [if_neg (by omega), if_neg (by omega)] at hy
              have hcj : c ≠ Parent i := by
                intro h; rw [h] at hpc; omega
              rw [if_neg hcj] at hx
              have hjy : a[Parent i] ≤ y :=
                inv1 (Parent i) _ y hj0 (by omega) (by omega) ej hy
              by_cases hci : c = i
              · rw [if_pos hci] at hx
                injection hx with hx
                rw [← hx]; exact hjy
              · rw [if_neg hci] at hx
                exact le_trans (inv1 c x _ hc0 hcn hci hx (by rw [hpc]; exact ej)) hjy)
          exact ⟨a', r, r1, r2, r3.trans (swap_perm a i (Parent i) _ _ ei ej),
            r4.trans (sameOutside_swap a i (Parent i) _ _ 0 n (Nat.zero_le _) hi (Nat.zero_le _)
              (by omega))⟩

/-! ### More fuel changes no result -/

theorem PercolateDownLoop_mono :
    ∀ fuel (h : PriorityQueueArrayHeap T) (i j : Nat) r,
      PercolateDownLoop fuel h i j = some r → PercolateDownLoop (fuel + 1) h i j = some r := by
  intro fuel
  induction fuel with
  | zero => intro h i j r hr; simp [PercolateDownLoop] at hr
  | succ fuel ih =>
      intro h i j r hr
      rw [PercolateDownLoop] at hr ⊢
      split_ifs at hr ⊢ with hij
      · cases hx : h.element_[i]? with
        | none => simp [hx] at hr
        | some x =>
            cases hy : h.element_[j]? with
            | none => simp [hx, hy] at hr
            | some y =>
                simp only [hx, hy] at hr ⊢
                cases hg : GetMaxOfThree ⟨h.size_, h.capacity_, (h.element_.set i y).set j x⟩ j with
                | none => simp [hg] at hr
                | some j' =>
                    simp only [hg] at hr ⊢
                    exact ih _ _ _ _ hr
      · exact hr

theorem PercolateDownLoop_mono_le (fuel fuel' : Nat) (hle : fuel ≤ fuel')
    (h : PriorityQueueArrayHeap T) (i j : Nat) r (hr : PercolateDownLoop fuel h i j = some r) :
    PercolateDownLoop fuel' h i j = some r := by
  induction hle with
  | refl => exact hr
  | step _ ih => exact PercolateDownLoop_mono _ _ _ _ _ ih

theorem PercolateDown_mono_le (fuel fuel' : Nat) (hle : fuel ≤ fuel')
    (h : PriorityQueueArrayHeap T) (i : Nat) r (hr : PercolateDown fuel h i = some r) :
    PercolateDown fuel' h i = some r := by
  unfold PercolateDown at hr ⊢
  cases hg : h.GetMaxOfThree i with
  | none => simp [hg] at hr
  | some j =>
      simp only [hg] at hr ⊢
      exact PercolateDownLoop_mono_le fuel fuel' hle _ _ _ _ hr

theorem PercolateUp_mono :
    ∀ fuel (h : PriorityQueueArrayHeap T) (i : Nat) r,
      PercolateUp fuel h i = some r → PercolateUp (fuel + 1) h i = some r := by
  intro fuel
  induction fuel with
  | zero => intro h i r hr; simp [PercolateUp] at hr
  | succ fuel ih =>
      intro h i r hr
      rw [PercolateUp] at hr ⊢
      split_ifs at hr ⊢ with hp
      · cases hx : h.element_[i]? with
        | none => simp [hx] at hr
        | some x =>
            cases hy : h.element_[Parent i]? with
            | none => simp [hx, hy] at hr
            | some y =>
                simp only [hx, hy] at hr ⊢
                split_ifs at hr ⊢ with hlt
                · exact hr
                · exact ih _ _ _ hr
      · exact hr

theorem PercolateUp_mono_le (fuel fuel' : Nat) (hle : fuel ≤ fuel')
    (h : PriorityQueueArrayHeap T) (i : Nat) r (hr : PercolateUp fuel h i = some r) :
    PercolateUp fuel' h i = some r := by
  induction hle with
  | refl => exact hr
  | step _ ih => exact PercolateUp_mono _ _ _ _ ih

theorem HeapifyLoop_mono_le (fuel fuel' : Nat) (hle : fuel ≤ fuel') :
    ∀ (k : Nat) (h : PriorityQueueArrayHeap T) r,
      HeapifyLoop fuel h k = some r → HeapifyLoop fuel' h k = some r := by
  intro k
  induction k with
  | zero => intro h r hr; exact hr
  | succ k ih =>
      intro h r hr
      rw [HeapifyLoop] at hr ⊢
      split_ifs at hr ⊢ with hin
      · cases hp : h.PercolateDown fuel k with
        | none => simp [hp] at hr
        | some p =>
            rw [PercolateDown_mono_le fuel fuel' hle _ _ _ hp]
            simp only [hp] at hr ⊢
            exact ih _ _ hr
      · exact hr

theorem Heapify_mono_le (fuel fuel' : Nat) (hle : fuel ≤ fuel')
    (h : PriorityQueueArrayHeap T) r (hr : Heapify fuel h = some r) :
    Heapify fuel' h = some r := by
  unfold Heapify at hr ⊢
  cases hl : h.LastInternal with
  | ofNat i =>
      simp only [hl] at hr ⊢
      exact HeapifyLoop_mono_le fuel fuel' hle _ _ _ hr
  | negSucc i =>
      simp only [hl] at hr ⊢
      exact hr

theorem Insert_mono_le (fuel fuel' : Nat) (hle : fuel ≤ fuel')
    (h : PriorityQueueArrayHeap T) (e : T) r (hr : h.Insert fuel e = some r) :
    h.Insert fuel' e = some r := by
  unfold PriorityQueueArrayHeap.Insert at hr ⊢
  cases hw : h.Expand with
  | none => simp [hw] at hr
  | some w =>
      simp only [hw] at hr ⊢
      cases hs : storeAt w.element_ w.size_ e with
      | none => simp [hs] at hr
      | some a =>
          simp only [hs, Nat.add_sub_cancel] at hr ⊢
          cases hp : PercolateUp fuel ⟨w.size_ + 1, w.capacity_, a⟩ w.size_ with
          | none => simp [hp] at hr
          | some p =>
              rw [PercolateUp_mono_le fuel fuel' hle _ _ _ hp]
              simp only [hp] at hr ⊢
              exact hr

theorem DeleteMax_mono_le (fuel fuel' : Nat) (hle : fuel ≤ fuel')
    (h : PriorityQueueArrayHeap T) r (hr : h.DeleteMax fuel = some r) :
    h.DeleteMax fuel' = some r := by
  unfold DeleteMax at hr ⊢
  split_ifs at hr ⊢ with h0
  · exact hr
  · cases hx : h.element_[0]? with
    | none => simp [hx] at hr
    | some x =>
        cases hy : h.element_[h.size_ - 1]? with
        | none => simp [hx, hy] at hr
        | some y =>
            simp only [hx, hy] at hr ⊢
            cases hp : PercolateDown fuel ⟨h.size_ - 1, h.capacity_, h.element_.set 0 y⟩ 0 with
            | none => simp [hp] at hr
            | some p =>
                rw [PercolateDown_mono_le fuel fuel' hle _ _ _ hp]
                simp only [hp] at hr ⊢
                exact hr

/-! ### `Heapify`, `Insert` and `DeleteMax` keep the heap order -/

theorem HeapifyLoop_spec (n cap fuel : Nat) (hf : n < fuel) :
    ∀ (k : Nat) (a : List T), k ≤ n → n ≤ a.length → HeapFrom a n k →
      ∃ a', HeapifyLoop fuel ⟨n, cap, a⟩ k = some ⟨n, cap, a'⟩ ∧ HeapFrom a' n 0 ∧
        List.Perm a' a ∧ SameOutside a' a 0 n := by
  intro k
  induction k with
  | zero => intro a _ _ hh; exact ⟨a, rfl, hh, List.Perm.refl _, SameOutside.refl _ _ _⟩
  | succ k ih =>
      intro a hk hn hh
      obtain ⟨a1, r, e1, h1, p1, s1⟩ := PercolateDown_spec n cap k a fuel (by omega) (by omega)
        hn hh
      obtain ⟨a2, e2, h2, p2, s2⟩ := ih a1 (by omega) (by rw [s1.1]; exact hn) h1
      refine ⟨a2, ?_, h2, p2.trans p1, s2.trans s1⟩
      rw [HeapifyLoop]
      have : InHeap ⟨n, cap, a⟩ k = true := by simp [InHeap, GetSize]; omega
      simp only [this, if_true, e1]
      exact e2

omit [LinearOrder T] in
theorem LastInternal_eq (n cap : Nat) (a : List T) :
    LastInternal ⟨n + 2, cap, a⟩ = Int.ofNat (n / 2) := by
  simp only [LastInternal, GetSize]
  have : (((n + 2 : Nat) : Int) - 1 - 1) = Int.ofNat n := by
    simp only [Int.ofNat_eq_coe]; omega
  rw [this]
  rfl

theorem Heapify_spec (n cap fuel : Nat) (a : List T) (hf : n < fuel) (hn : n ≤ a.length) :
    ∃ a', Heapify fuel ⟨n, cap, a⟩ = some ⟨n, cap, a'⟩ ∧ HeapFrom a' n 0 ∧
      List.Perm a' a ∧ SameOutside a' a 0 n := by
  match n, hf, hn with
  | 0, _, _ =>
      refine ⟨a, rfl, ?_, List.Perm.refl _, SameOutside.refl _ _ _⟩
      intro c x y _ hc; omega
  | 1, hf, hn =>
      have hh : HeapFrom a 1 1 := by intro c x y h0 hc; omega
      obtain ⟨a', e, r⟩ := HeapifyLoop_spec 1 cap fuel hf 1 a (le_refl _) hn hh
      exact ⟨a', e, r⟩
  | n + 2, hf, hn =>
      have hh : HeapFrom a (n + 2) (n / 2 + 1) := by
        intro c x y h0 hc hp; simp only [Parent] at hp; omega
      obtain ⟨a', e, r⟩ := HeapifyLoop_spec (n + 2) cap fuel hf (n / 2 + 1) a (by omega) hn hh
      refine ⟨a', ?_, r⟩
      unfold Heapify
      rw [LastInternal_eq]
      exact e

/-- In a heap no element is greater than the one in the cell 0. -/
theorem heap_root_max (a : List T) (n : Nat) (hn : n ≤ a.length) (hh : HeapFrom a n 0) :
    ∀ i x y, i < n → a[i]? = some x → a[0]? = some y → x ≤ y := by
  intro i
  induction i using Nat.strong_induction_on with
  | _ i ih =>
      intro x y hi hx hy
      rcases Nat.eq_zero_or_pos i with rfl | hpos
      · rw [hx] at hy; injection hy with hy; exact le_of_eq hy
      · have hp : Parent i < i := by simp only [Parent]; omega
        have hpl : Parent i < a.length := by omega
        have ep : a[Parent i]? = some a[Parent i] := List.getElem?_eq_getElem hpl
        exact le_trans (hh i x _ hpos hi (Nat.zero_le _) hx ep)
          (ih (Parent i) hp _ y (by omega) ep hy)

omit [LinearOrder T] in
theorem take_congr (a b : List T) (n : Nat) (h : ∀ i, i < n → a[i]? = b[i]?) :
    a.take n = b.take n := by
  apply List.ext_getElem?
  intro i
  rw [List.getElem?_take, List.getElem?_take]
  split_ifs with hi
  · exact h i hi
  · rfl

omit [LinearOrder T] in
theorem segment_zero (a : List T) (n : Nat) : segment a 0 n = a.take n := by
  simp [segment]

theorem HeapFrom_congr (a b : List T) (n k : Nat) (h : ∀ i, i < n → a[i]? = b[i]?)
    (hb : HeapFrom b n k) : HeapFrom a n k := by
  intro c x y hc0 hcn hk hx hy
  have hp : Parent c < n := by simp only [Parent]; omega
  rw [h c hcn] at hx
  rw [h _ hp] at hy
  exact hb c x y hc0 hcn hk hx hy

theorem ofArray_spec (fuel : Nat) (A : List T) (n : Nat) (hn : n ≤ A.length) (hf : n < fuel) :
    ∃ a', ofArray fuel A n = some ⟨n, 2 * n, a'⟩ ∧ IsHeap ⟨n, 2 * n, a'⟩ ∧
      List.Perm (contents ⟨n, 2 * n, a'⟩) (A.take n) := by
  have hl : n ≤ (A.take n).length := by simp [Nat.min_eq_left hn]
  obtain ⟨a', e, hh, hp, hs⟩ := Heapify_spec n (2 * n) fuel (A.take n) hf hl
  refine ⟨a', ?_, ⟨by rw [hs.1]; exact hl, hh⟩, ?_⟩
  · simp only [ofArray, not_lt.mpr hn, if_false]; exact e
  · have := segment_perm hp hs (Nat.zero_le n)
    rw [segment_zero, segment_zero, List.take_take, Nat.min_self] at this
    exact this

theorem Insert_spec (fuel : Nat) (h : PriorityQueueArrayHeap T) (e : T) (hh : h.IsHeap)
    (hf : h.size_ < fuel) :
    ∃ h', h.Insert fuel e = some h' ∧ h'.IsHeap ∧ h'.size_ = h.size_ + 1 ∧
      List.Perm h'.contents (e :: h.contents) := by
  obtain ⟨hlen, hheap⟩ := hh
  -- `Expand`
  obtain ⟨w, hw, hws, hwl, hwe⟩ : ∃ w, h.Expand = some w ∧ w.size_ = h.size_ ∧
      h.size_ ≤ w.element_.length ∧ ∀ i, i < h.size_ → w.element_[i]? = h.element_[i]? := by
    unfold Expand
    simp only [GetSize]
    by_cases hc : h.size_ < h.capacity_
    · exact ⟨h, by simp only [hc, if_true], rfl, hlen, fun _ _ => rfl⟩
    · refine ⟨⟨h.size_, 2 * (if h.capacity_ < 11 then 11 else h.capacity_),
        h.element_.take h.size_⟩, by simp only [hc, if_false, not_lt.mpr hlen], rfl,
        by simp [Nat.min_eq_left hlen], ?_⟩
      intro i hi
      simp only [List.getElem?_take, hi, if_true]
  -- the new cell
  obtain ⟨a1, ha1, hl1, hn1, hb1⟩ : ∃ a1, storeAt w.element_ w.size_ e = some a1 ∧
      h.size_ + 1 ≤ a1.length ∧ a1[h.size_]? = some e ∧
      ∀ i, i < h.size_ → a1[i]? = h.element_[i]? := by
    unfold storeAt
    rw [hws]
    by_cases hc : h.size_ < w.element_.length
    · refine ⟨w.element_.set h.size_ e, by simp only [hc, if_true], by simp; omega,
        by simp [hc], ?_⟩
      intro i hi
      rw [List.getElem?_set_ne (by omega)]; exact hwe i hi
    · have : h.size_ = w.element_.length := by omega
      refine ⟨w.element_ ++ [e], by simp only [this, lt_self_iff_false, if_false, if_true],
        by simp; omega, ?_, ?_⟩
      · rw [this]; simp
      · intro i hi
        rw [List.getElem?_append_left (by omega)]; exact hwe i hi
  have hheap1 : HeapFrom a1 h.size_ 0 := HeapFrom_congr a1 h.element_ h.size_ 0 hb1 hheap
  obtain ⟨a', r, e1, h2, p2, s2⟩ := PercolateUp_spec (h.size_ + 1) w.capacity_ fuel a1 h.size_ hf
    (by omega) hl1
    (fun c x y hc0 hcn hci hx hy => hheap1 c x y hc0 (by omega) (Nat.zero_le _) hx hy)
    (fun c x y hc0 hcn hpc hi0 hx hy => by
      exfalso; simp only [Parent] at hpc; omega)
  refine ⟨⟨h.size_ + 1, w.capacity_, a'⟩, ?_, ⟨by rw [s2.1]; exact hl1, h2⟩, rfl, ?_⟩
  · rw [hws] at ha1
    simp only [PriorityQueueArrayHeap.Insert, hw, ha1, hws, Nat.add_sub_cancel, e1]
  · have hp := segment_perm p2 s2 (Nat.zero_le (h.size_ + 1))
    rw [segment_zero, segment_zero] at hp
    have ht : a1.take (h.size_ + 1) = h.element_.take h.size_ ++ [e] := by
      apply List.ext_getElem?
      intro i
      rw [List.getElem?_take]
      by_cases hi : i < h.size_
      · rw [if_pos (by omega), hb1 i hi, List.getElem?_append_left
          (by simp [Nat.min_eq_left hlen]; exact hi), List.getElem?_take, if_pos hi]
      · by_cases hi2 : i = h.size_
        · subst hi2
          rw [if_pos (by omega), hn1, List.getElem?_append_right
            (by simp [Nat.min_eq_left hlen])]
          simp [Nat.min_eq_left hlen]
        · rw [if_neg (by omega), List.getElem?_eq_none]
          simp [Nat.min_eq_left hlen]; omega
    simp only [contents]
    rw [ht] at hp
    exact hp.trans (List.perm_append_singleton _ _)

theorem contents_le_root (h : PriorityQueueArrayHeap T) (hh : h.IsHeap) (m : T)
    (hm : h.GetMax = some m) : ∀ x ∈ h.contents, x ≤ m := by
  intro x hx
  obtain ⟨i, hi⟩ := List.mem_iff_getElem?.mp hx
  simp only [contents, List.getElem?_take] at hi
  split_ifs at hi with hlt
  exact heap_root_max h.element_ h.size_ hh.1 hh.2 i x m hlt hi hm

theorem DeleteMax_spec (fuel : Nat) (h : PriorityQueueArrayHeap T) (hh : h.IsHeap)
    (hpos : 0 < h.size_) (hf : h.size_ < fuel) :
    ∃ m h', h.GetMax = some m ∧ h.DeleteMax fuel = some (h', m) ∧ h'.IsHeap ∧
      h'.size_ + 1 = h.size_ ∧ List.Perm (m :: h'.contents) h.contents := by
  obtain ⟨n, cap, a⟩ := h
  obtain ⟨hlen, hheap⟩ := hh
  simp only at hlen hheap hpos hf
  cases a with
  | nil => simp at hlen; omega
  | cons x0 rest =>
      match n, hpos, hlen, hheap, hf with
      | 1, _, hlen, hheap, hf =>
          obtain ⟨fuel, rfl⟩ : ∃ f, fuel = f + 1 := ⟨fuel - 1, by omega⟩
          refine ⟨x0, ⟨0, cap, (x0 :: rest).set 0 x0⟩, by simp [GetMax], ?_,
            ⟨Nat.zero_le _, ?_⟩, rfl, ?_⟩
          · simp [DeleteMax, GetSize, PercolateDown, GetMaxOfThree, InHeap, RChild, LChild,
              PercolateDownLoop]
          · intro c x y _ hc; exact absurd hc (Nat.not_lt_zero _)
          · simp [contents]
      | n + 2, _, hlen, hheap, hf =>
          have hrl : n < rest.length := by
            have := hlen
            simp at this
            omega
          have elast : (x0 :: rest)[n + 2 - 1]? = some rest[n] := by
            show (x0 :: rest)[n + 1]? = some rest[n]
            rw [List.getElem?_cons_succ]
            exact List.getElem?_eq_getElem hrl
          have hh1 : HeapFrom ((x0 :: rest).set 0 rest[n]) (n + 1) 1 := by
            intro c x y hc0 hcn hp hx hy
            have hp0 : Parent c ≠ 0 := by omega
            rw [List.getElem?_set_ne (by omega)] at hx
            rw [List.getElem?_set_ne (fun h => hp0 h.symm)] at hy
            exact hheap c x y hc0 (by omega) (Nat.zero_le _) hx hy
          obtain ⟨a', r, e1, h2, p2, s2⟩ := PercolateDown_spec (n + 1) cap 0
            ((x0 :: rest).set 0 rest[n]) fuel (by omega) (by omega)
            (by simp only [List.length_set, List.length_cons]; omega) hh1
          refine ⟨x0, ⟨n + 1, cap, a'⟩, by simp [GetMax], ?_, ⟨?_, h2⟩, rfl, ?_⟩
          · simp only [DeleteMax, GetSize, Nat.add_one_ne_zero, if_false, elast,
              List.getElem?_cons_zero]
            rw [show n + 2 - 1 = n + 1 from rfl, e1]
          · rw [s2.1]; simp only [List.length_set, List.length_cons]; omega
          · have hp := segment_perm p2 s2 (Nat.zero_le (n + 1))
            rw [segment_zero, segment_zero] at hp
            simp only [contents]
            refine (List.Perm.cons x0 hp).trans ?_
            simp only [List.set_cons_zero, List.take_succ_cons]
            refine List.Perm.cons x0 ?_
            rw [List.take_succ, List.getElem?_eq_getElem hrl]
            simp only [Option.toList]
            exact (List.perm_append_singleton _ _).symm

theorem ofArray_mono_le (fuel fuel' : Nat) (hle : fuel ≤ fuel') (A : List T) (n : Nat) r
    (hr : ofArray fuel A n = some r) : ofArray fuel' A n = some r := by
  unfold ofArray at hr ⊢
  split_ifs at hr ⊢ with hlt
  exact Heapify_mono_le fuel fuel' hle _ _ hr

/-- Every state of a `PriorityQueueArrayHeap` built by a constructor and calls of `Insert`
and `DeleteMax` is a heap. -/
theorem heap_reachable_inv {h : PriorityQueueArrayHeap T} (hr : Reachable h) : h.IsHeap := by
  induction hr with
  | new => exact ⟨Nat.zero_le _, fun c x y _ hc => absurd hc (Nat.not_lt_zero _)⟩
  | @ofArray fuel A n h he =>
      have hn : n ≤ A.length := by
        by_contra hc
        simp [ofArray, not_le.mp hc] at he
      obtain ⟨a', e1, e2, -⟩ := ofArray_spec (max fuel (n + 1)) A n hn (by omega)
      rw [ofArray_mono_le fuel _ (le_max_left _ _) A n h he] at e1
      injection e1 with e1
      rw [e1]; exact e2
  | @insert fuel e h h' _ he ih =>
      obtain ⟨h2, e1, e2, -⟩ := Insert_spec (max fuel (h.size_ + 1)) h e ih (by omega)
      rw [Insert_mono_le fuel _ (le_max_left _ _) h e h' he] at e1
      injection e1 with e1
      rw [e1]; exact e2
  | @deleteMax fuel m h h' _ he ih =>
      by_cases h0 : h.size_ = 0
      · have : h' = h := by
          unfold DeleteMax at he
          simp only [GetSize, h0, if_true] at he
          cases hx : h.element_[0]? with
          | none => simp [hx] at he
          | some x =>
              simp only [hx, Option.some.injEq, Prod.mk.injEq] at he
              exact he.1.symm
        rw [this]; exact ih
      · obtain ⟨m2, h2, -, e1, e2, -⟩ := DeleteMax_spec (max fuel (h.size_ + 1)) h ih
          (Nat.pos_of_ne_zero h0) (by omega)
        rw [DeleteMax_mono_le fuel _ (le_max_left _ _) h (h', m) he] at e1
        injection e1 with e1
        injection e1 with e1 e3
        rw [e1]; exact e2

theorem pq123_reachable : Reachable pq123 :=
  @Reachable.insert Int _ 3 3 ⟨2, 11, [2, 1]⟩ pq123
    (@Reachable.insert Int _ 2 2 ⟨1, 11, [1]⟩ ⟨2, 11, [2, 1]⟩
      (@Reachable.insert Int _ 1 1 PriorityQueueArrayHeap.new ⟨1, 11, [1]⟩ Reachable.new
        (by decide)) (by decide)) (by decide)

/-! ## The claim C23 -/

/-- C23: in every non-empty state of a `PriorityQueueArrayHeap` built by a constructor and
calls of `Insert` (and `DeleteMax`), `GetMax()` returns a stored element `m` that no stored
element exceeds; `DeleteMax()` returns, with the same `m`, makes the size one less and leaves
stored the former elements with one copy of `m` taken away. -/
theorem C23_heap_max (h : PriorityQueueArrayHeap T) (hr : Reachable h)
    (hne : h.IsEmpty = false) (fuel : Nat) (hf : h.GetSize < fuel) :
    ∃ m h', h.GetMax = some m ∧ m ∈ h.contents ∧ (∀ x ∈ h.contents, x ≤ m) ∧
      h.DeleteMax fuel = some (h', m) ∧ h'.GetSize + 1 = h.GetSize ∧
      List.Perm h'.contents (h.contents.erase m) ∧ Reachable h' := by
  have hh := heap_reachable_inv hr
  have hpos : 0 < h.size_ := by
    simp only [PriorityQueueArrayHeap.IsEmpty, GetSize, decide_eq_false_iff_not] at hne
    omega
  obtain ⟨m, h', e1, e2, e3, e4, e5⟩ := DeleteMax_spec fuel h hh hpos hf
  refine ⟨m, h', e1, ?_, contents_le_root h hh m e1, e2, e4, ?_, Reachable.deleteMax fuel m hr e2⟩
  · exact e5.subset (List.mem_cons_self _ _)
  · have := e5.erase m
    rw [List.erase_cons_head] at this
    exact this

/-- C23, scenario of the demo `main`: after inserting 1, 2, 3 the queue is in the state
`pq123`, and three calls of `DeleteMax` return 3, 2, 1. -/
theorem C23_heap_max_witness :
    (Reachable pq123 ∧ pq123.IsEmpty = false ∧ pq123.GetSize < 4) ∧
    (∃ m h', pq123.GetMax = some m ∧ m ∈ pq123.contents ∧ (∀ x ∈ pq123.contents, x ≤ m) ∧
      pq123.DeleteMax 4 = some (h', m) ∧ h'.GetSize + 1 = pq123.GetSize ∧
      List.Perm h'.contents (pq123.contents.erase m) ∧ Reachable h') ∧
    (PriorityQueueArrayHeap.new.Insert 1 (1 : Int) = some ⟨1, 11, [1]⟩ ∧
      PriorityQueueArrayHeap.Insert 2 ⟨1, 11, [1]⟩ (2 : Int) = some ⟨2, 11, [2, 1]⟩ ∧
      PriorityQueueArrayHeap.Insert 3 ⟨2, 11, [2, 1]⟩ (3 : Int) = some pq123 ∧
      pq123.DeleteMax 4 = some (⟨2, 11, [2, 1, 2]⟩, 3) ∧
      DeleteMax 4 ⟨2, 11, [2, 1, 2]⟩ = some (⟨1, 11, [1, 1, 2]⟩, (2 : Int)) ∧
      DeleteMax 4 ⟨1, 11, [1, 1, 2]⟩ = some (⟨0, 11, [1, 1, 2]⟩, (1 : Int))) :=
  ⟨⟨pq123_reachable, by decide, by decide⟩,
    C23_heap_max pq123 pq123_reachable (by decide) 4 (by decide), by decide⟩

end DSA

namespace DSA
variable {T : Type}

/-! ## Sorting a `Vector`: what the proofs share -/

theorem mem_segment_iff (a : List T) (lo hi : Nat) (h : hi ≤ a.length) (x : T) :
    x ∈ segment a lo hi ↔ ∃ i, lo ≤ i ∧ i < hi ∧ a[i]? = some x := by
  rw [List.mem_iff_getElem?]
  constructor
  · rintro ⟨i, hi'⟩
    have hlt : i < (segment a lo hi).length := by
      by_contra hc
      rw [List.getElem?_eq_none (by omega)] at hi'
      exact absurd hi' (by simp)
    rw [segment_length a lo hi h] at hlt
    rw [segment_getElem? a lo hi i (by omega)] at hi'
    exact ⟨lo + i, by omega, by omega, hi'⟩
  · rintro ⟨i, h1, h2, h3⟩
    refine ⟨i - lo, ?_⟩
    rw [segment_getElem? a lo hi (i - lo) (by omega), show lo + (i - lo) = i by omega]
    exact h3

/-- A property of all elements of a range is kept when the range is permuted. -/
theorem perm_range_forall {a b : List T} {lo hi : Nat} (hp : List.Perm a b)
    (hs : SameOutside a b lo hi) (hlo : lo ≤ hi) (hlen : hi ≤ b.length) (P : T → Prop)
    (h : ∀ i x, lo ≤ i → i < hi → b[i]? = some x → P x) :
    ∀ i x, lo ≤ i → i < hi → a[i]? = some x → P x := by
  intro i x h1 h2 h3
  have hm : x ∈ segment a lo hi :=
    (mem_segment_iff a lo hi (by rw [hs.1]; exact hlen) x).mpr ⟨i, h1, h2, h3⟩
  obtain ⟨k, k1, k2, k3⟩ :=
    (mem_segment_iff b lo hi hlen x).mp ((segment_perm hp hs hlo).subset hm)
  exact h k x k1 k2 k3

section
variable [LinearOrder T]

theorem SortedOn.of_le {a : List T} {lo hi : Nat} (h : hi ≤ lo + 1) : SortedOn a lo hi := by
  intro i j x y h1 h2 h3 hx hy
  have : i = j := by omega
  subst this
  rw [hx] at hy; injection hy with hy; exact le_of_eq hy

theorem SortedOn.glue {a : List T} {lo mid hi : Nat} (h1 : SortedOn a lo mid)
    (h2 : SortedOn a mid hi) (h3 : AllLe a lo mid hi) : SortedOn a lo hi := by
  intro i j x y hi1 hij hj hx hy
  by_cases hjm : j < mid
  · exact h1 i j x y hi1 hij hjm hx hy
  · by_cases him : i < mid
    · exact h3 i j x y hi1 him (by omega) hj hx hy
    · exact h2 i j x y (by omega) hij hj hx hy

theorem SortedOn.congr {a b : List T} {lo hi : Nat} (h : SortedOn b lo hi)
    (he : ∀ i, lo ≤ i → i < hi → a[i]? = b[i]?) : SortedOn a lo hi := by
  intro i j x y h1 h2 h3 hx hy
  rw [he i h1 (by omega)] at hx
  rw [he j (by omega) h3] at hy
  exact h i j x y h1 h2 h3 hx hy

end

end DSA

namespace DSA
variable {T : Type} [LinearOrder T]

/-! ## `SelectionSort` -/

theorem SelectionMax_spec (a : List T) (lo : Nat) :
    ∀ n i max, lo ≤ max → max < i → i + n ≤ a.length →
      (∀ k x y, lo ≤ k → k < i → a[k]? = some x → a[max]? = some y → x ≤ y) →
      ∃ m, Vector.SelectionMax a i n max = some m ∧ lo ≤ m ∧ m < i + n ∧
        ∀ k x y, lo ≤ k → k < i + n → a[k]? = some x → a[m]? = some y → x ≤ y := by
  intro n
  induction n with
  | zero =>
      intro i max h1 h2 _ h4
      exact ⟨max, rfl, h1, by omega, h4⟩
  | succ n ih =>
      intro i max h1 h2 h3 h4
      have hil : i < a.length := by omega
      have hml : max < a.length := by omega
      have ei : a[i]? = some a[i] := List.getElem?_eq_getElem hil
      have em : a[max]? = some a[max] := List.getElem?_eq_getElem hml
      rw [Vector.SelectionMax]
      simp only [ei, em]
      by_cases hge : a[i] ≥ a[max]
      · simp only [hge, if_true]
        obtain ⟨m, e, m1, m2, m3⟩ := ih (i + 1) i (by omega) (by omega) (by omega)
          (by
            intro k x y k1 k2 hx hy
            rw [ei] at hy; injection hy with hy
            rw [← hy]
            by_cases hk : k = i
            · subst hk; rw [ei] at hx; injection hx with hx; rw [← hx]
            · exact le_trans (h4 k x _ k1 (by omega) hx em) hge)
        exact ⟨m, e, m1, by omega, fun k x y k1 k2 => m3 k x y k1 (by omega)⟩
      · simp only [hge, if_false]
        obtain ⟨m, e, m1, m2, m3⟩ := ih (i + 1) max h1 (by omega) (by omega)
          (by
            intro k x y k1 k2 hx hy
            by_cases hk : k = i
            · subst hk
              rw [ei] at hx; injection hx with hx
              rw [em] at hy; injection hy with hy
              rw [← hx, ← hy]; exact le_of_lt (not_le.mp hge)
            · exact h4 k x y k1 (by omega) hx hy)
        exact ⟨m, e, m1, by omega, fun k x y k1 k2 => m3 k x y k1 (by omega)⟩

/-- One round of `SelectionSort` extends the sorted part by the cell `ub`, which has received
a greatest element of `[lo, ub]`. -/
theorem selection_round (a b : List T) (lo ub hi : Nat) (M : T) (hub : ub < hi)
    (hlen : hi ≤ a.length) (hlo : lo ≤ ub) (hp : List.Perm b a)
    (hs : SameOutside b a lo (ub + 1)) (hM : b[ub]? = some M)
    (hmax : ∀ k x, lo ≤ k → k < ub + 1 → a[k]? = some x → x ≤ M)
    (h1 : SortedOn a (ub + 1) hi) (h2 : AllLe a lo (ub + 1) hi) :
    SortedOn b ub hi ∧ AllLe b lo ub hi := by
  have hlen' : ub + 1 ≤ a.length := by omega
  have hmax' := perm_range_forall hp hs (by omega) hlen' (fun x => x ≤ M) hmax
  have hsb : SortedOn b (ub + 1) hi :=
    h1.congr (fun i hi1 hi2 => hs.2 i (Or.inr hi1))
  have hab : AllLe b lo (ub + 1) hi := by
    intro i j x y i1 i2 j1 j2 hx hy
    rw [hs.2 j (Or.inr j1)] at hy
    exact perm_range_forall hp hs (by omega) hlen' (fun x => x ≤ y)
      (fun k z k1 k2 hz => h2 k j z y k1 k2 j1 j2 hz hy) i x i1 i2 hx
  constructor
  · refine SortedOn.glue (SortedOn.of_le (le_refl _)) hsb ?_
    intro i j x y i1 i2 j1 j2 hx hy
    exact hab i j x y (by omega) i2 j1 j2 hx hy
  · intro i j x y i1 i2 j1 j2 hx hy
    by_cases hj : j = ub
    · subst hj
      rw [hM] at hy; injection hy with hy
      rw [← hy]; exact hmax' i x i1 (by omega) hx
    · exact hab i j x y i1 (by omega) (by omega) j2 hx hy

theorem SelectionLoop_spec (lo hi : Nat) :
    ∀ n (a : List T), lo + n < hi → hi ≤ a.length → SortedOn a (lo + n + 1) hi →
      AllLe a lo (lo + n + 1) hi →
      ∃ a', Vector.SelectionLoop a lo n = some a' ∧ SortedOn a' lo hi ∧ List.Perm a' a ∧
        SameOutside a' a lo hi := by
  intro n
  induction n with
  | zero =>
      intro a _ _ h1 h2
      exact ⟨a, rfl, SortedOn.glue (SortedOn.of_le (le_refl _)) h1 h2, List.Perm.refl _,
        SameOutside.refl _ _ _⟩
  | succ n ih =>
      intro a hn hlen h1 h2
      obtain ⟨m, e, m1, m2, m3⟩ := SelectionMax_spec a lo (n + 1) (lo + 1) lo (le_refl _)
        (by omega) (by omega)
        (by
          intro k x y k1 k2 hx hy
          have : k = lo := by omega
          subst this
          rw [hx] at hy; injection hy with hy; exact le_of_eq hy)
      have hml : m < a.length := by omega
      have hul : lo + (n + 1) < a.length := by omega
      have em : a[m]? = some a[m] := List.getElem?_eq_getElem hml
      have eu : a[lo + (n + 1)]? = some a[lo + (n + 1)] := List.getElem?_eq_getElem hul
      have hmax : ∀ k x, lo ≤ k → k < lo + (n + 1) + 1 → a[k]? = some x → x ≤ a[m] :=
        fun k x k1 k2 hx => m3 k x _ k1 (by omega) hx em
      rw [Vector.SelectionLoop]
      simp only [Nat.add_sub_cancel_left, e]
      by_cases hmu : m = lo + (n + 1)
      · simp only [hmu, if_true]
        obtain ⟨g1, g2⟩ := selection_round a a lo (lo + (n + 1)) hi a[m] hn hlen (by omega)
          (List.Perm.refl _) (SameOutside.refl _ _ _) (by rw [← hmu]; exact em) hmax h1 h2
        exact ih a (by omega) hlen g1 g2
      · simp only [hmu, if_false, eu, em]
        have hp := swap_perm a (lo + (n + 1)) m _ _ eu em
        have hs := sameOutside_swap a (lo + (n + 1)) m a[lo + (n + 1)] a[m] lo
          (lo + (n + 1) + 1) (by omega) (by omega) m1 (by omega)
        have hM : ((a.set (lo + (n + 1)) a[m]).set m a[lo + (n + 1)])[lo + (n + 1)]? =
            some a[m] := by
          rw [getElem?_swap a _ m _ _ _ hul hml (fun h => hmu h.symm), if_neg (fun h => hmu h.symm),
            if_pos rfl]
        obtain ⟨g1, g2⟩ := selection_round a _ lo (lo + (n + 1)) hi a[m] hn hlen (by omega)
          hp hs hM hmax h1 h2
        obtain ⟨a', r1, r2, r3, r4⟩ := ih _ (by omega)
          (by rw [hs.1]; exact hlen) g1 g2
        exact ⟨a', r1, r2, r3.trans hp, r4.trans (hs.mono (le_refl _) (by omega))⟩

/-- `SelectionSort(lo, hi)` on a buffer whose cells `[0, hi)` hold values. -/
theorem SelectionSort_spec (v : Vector T) (lo hi : Nat) (hw : v.size_ ≤ v.element_.length)
    (hlo : lo ≤ hi) (hhi : hi ≤ v.size_) :
    ∃ a', v.SelectionSort lo hi = some ⟨v.size_, v.capacity_, a'⟩ ∧ SortedOn a' lo hi ∧
      List.Perm a' v.element_ ∧ SameOutside a' v.element_ lo hi := by
  have hg : ¬ (lo > v.GetSize ∨ hi > v.GetSize) := by simp only [Vector.GetSize]; omega
  by_cases hlt : lo < hi
  · obtain ⟨a', r1, r2, r3, r4⟩ := SelectionLoop_spec lo hi (hi - 1 - lo) v.element_
      (by omega) (by omega)
      (SortedOn.of_le (by omega))
      (fun i j x y _ _ _ _ => by omega)
    exact ⟨a', by simp only [Vector.SelectionSort, hg, if_false, r1], r2, r3, r4⟩
  · have : hi - 1 - lo = 0 := by omega
    refine ⟨v.element_, ?_, SortedOn.of_le (by omega), List.Perm.refl _, SameOutside.refl _ _ _⟩
    simp only [Vector.SelectionSort, hg, if_false, this, Vector.SelectionLoop]

end DSA

namespace DSA
variable {T : Type} [LinearOrder T]

/-! ## `BubbleSort` -/

/-- One pass of `BubbleSort` from `i` on: the cells after the last exchange `u` are sorted
and hold elements not smaller than all that precede them. -/
theorem BubblePass_spec (lo : Nat) :
    ∀ n (a : List T) (i u : Nat), lo ≤ i → u ≤ i → i + n < a.length →
      (∀ k x y, lo ≤ k → k ≤ i → a[k]? = some x → a[i]? = some y → x ≤ y) →
      SortedOn a (max (u + 1) lo) (i + 1) → AllLe a lo (max (u + 1) lo) (i + 1) →
      ∃ a' u', Vector.BubblePass a i n u = some (a', u') ∧ u' ≤ max u (i + n - 1) ∧
        SortedOn a' (max (u' + 1) lo) (i + n + 1) ∧
        AllLe a' lo (max (u' + 1) lo) (i + n + 1) ∧ List.Perm a' a ∧
        SameOutside a' a lo (i + n + 1) := by
  intro n
  induction n with
  | zero =>
      intro a i u _ _ _ _ h5 h6
      exact ⟨a, u, rfl, le_max_left _ _, h5, h6, List.Perm.refl _, SameOutside.refl _ _ _⟩
  | succ n ih =>
      intro a i u h1 h2 h3 h4 h5 h6
      have hil : i < a.length := by omega
      have hjl : i + 1 < a.length := by omega
      have ei : a[i]? = some a[i] := List.getElem?_eq_getElem hil
      have ej : a[i + 1]? = some a[i + 1] := List.getElem?_eq_getElem hjl
      rw [Vector.BubblePass]
      simp only [ei, ej]
      by_cases hgt : a[i] > a[i + 1]
      · simp only [hgt, if_true]
        have hne : i ≠ i + 1 := by omega
        have hget := fun c => getElem?_swap a i (i + 1) c a[i] a[i + 1] hil hjl hne
        have hp := swap_perm a i (i + 1) _ _ ei ej
        have hs := sameOutside_swap a i (i + 1) a[i] a[i + 1] lo (i + 1 + n + 1) h1 (by omega)
          (by omega) (by omega)
        have hP1 : ∀ k x y, lo ≤ k → k ≤ i + 1 →
            ((a.set i a[i + 1]).set (i + 1) a[i])[k]? = some x →
            ((a.set i a[i + 1]).set (i + 1) a[i])[i + 1]? = some y → x ≤ y := by
          intro k x y k1 k2 hx hy
          rw [hget] at hx hy
          rw [if_pos rfl] at hy
          injection hy with hy
          rw [← hy]
          by_cases hk1 : k = i + 1
          · rw [if_pos hk1] at hx; injection hx with hx; rw [← hx]
          · rw [if_neg hk1] at hx
            by_cases hk2 : k = i
            · rw [if_pos hk2] at hx; injection hx with hx; rw [← hx]; exact le_of_lt hgt
            · rw [if_neg hk2] at hx
              exact h4 k x _ k1 (by omega) hx ei
        have hm : max (i + 1) lo = i + 1 := max_eq_left (by omega)
        obtain ⟨a', u', r1, r2, r3, r4, r5, r6⟩ := ih ((a.set i a[i + 1]).set (i + 1) a[i])
          (i + 1) i (by omega) (by omega) (by simp only [List.length_set]; omega) hP1
          (by rw [hm]; exact SortedOn.of_le (by omega))
          (by
            rw [hm]
            intro k j x y k1 k2 j1 j2 hx hy
            have : j = i + 1 := by omega
            subst this
            exact hP1 k x y k1 (by omega) hx hy)
        refine ⟨a', u', r1, ?_, ?_, ?_, r5.trans hp, ?_⟩
        · have : max i (i + 1 + n - 1) ≤ max u (i + (n + 1) - 1) := by
            rw [show i + (n + 1) - 1 = i + n by omega, show i + 1 + n - 1 = i + n by omega]
            exact max_le (le_trans (by omega) (le_max_right _ _)) (le_max_right _ _)
          exact le_trans r2 this
        · rw [show i + (n + 1) + 1 = i + 1 + n + 1 by omega]; exact r3
        · rw [show i + (n + 1) + 1 = i + 1 + n + 1 by omega]; exact r4
        · rw [show i + (n + 1) + 1 = i + 1 + n + 1 by omega]; exact r6.trans hs
      · simp only [hgt, if_false]
        have hle : a[i] ≤ a[i + 1] := not_lt.mp hgt
        have hP1 : ∀ k x y, lo ≤ k → k ≤ i + 1 → a[k]? = some x → a[i + 1]? = some y →
            x ≤ y := by
          intro k x y k1 k2 hx hy
          rw [ej] at hy; injection hy with hy
          rw [← hy]
          by_cases hk1 : k = i + 1
          · subst hk1; rw [ej] at hx; injection hx with hx; rw [← hx]
          · exact le_trans (h4 k x _ k1 (by omega) hx ei) hle
        have hb : max (u + 1) lo ≤ i + 1 := max_le (by omega) (by omega)
        have hlb : lo ≤ max (u + 1) lo := le_max_right _ _
        obtain ⟨a', u', r1, r2, r3, r4, r5, r6⟩ := ih a (i + 1) u (by omega) (by omega)
          (by omega) hP1
          (by
            refine SortedOn.glue h5 (SortedOn.of_le (by omega)) ?_
            intro k j x y k1 k2 j1 j2 hx hy
            have : j = i + 1 := by omega
            subst this
            exact hP1 k x y (by omega) (by omega) hx hy)
          (by
            intro k j x y k1 k2 j1 j2 hx hy
            by_cases hj : j = i + 1
            · subst hj
              exact hP1 k x y k1 (by omega) hx hy
            · exact h6 k j x y k1 k2 j1 (by omega) hx hy)
        refine ⟨a', u', r1, ?_, ?_, ?_, r5, ?_⟩
        · rw [show i + (n + 1) - 1 = i + 1 + n - 1 by omega]; exact r2
        · rw [show i + (n + 1) + 1 = i + 1 + n + 1 by omega]; exact r3
        · rw [show i + (n + 1) + 1 = i + 1 + n + 1 by omega]; exact r4
        · rw [show i + (n + 1) + 1 = i + 1 + n + 1 by omega]; exact r6

theorem AllLe.of_perm {a b : List T} {lo mid hi : Nat} (hp : List.Perm b a)
    (hs : SameOutside b a lo mid) (hlo : lo ≤ mid) (hlen : mid ≤ a.length)
    (h : AllLe a lo mid hi) : AllLe b lo mid hi := by
  intro i j x y i1 i2 j1 j2 hx hy
  rw [hs.2 j (Or.inr j1)] at hy
  exact perm_range_forall hp hs hlo hlen (fun x => x ≤ y)
    (fun k z k1 k2 hz => h k j z y k1 k2 j1 j2 hz hy) i x i1 i2 hx

theorem BubbleLoop_spec (lo hi : Nat) :
    ∀ fuel (a : List T) (ub : Nat), ub - lo < fuel → ub < hi → hi ≤ a.length →
      SortedOn a (max (ub + 1) lo) hi → AllLe a lo (max (ub + 1) lo) hi →
      ∃ a', Vector.BubbleLoop fuel a lo ub = some a' ∧ SortedOn a' lo hi ∧ List.Perm a' a ∧
        SameOutside a' a lo hi := by
  intro fuel
  induction fuel with
  | zero => intro a ub h; omega
  | succ fuel ih =>
      intro a ub hf hub hlen h1 h2
      rw [Vector.BubbleLoop]
      by_cases hlt : lo < ub
      · simp only [hlt, if_true]
        have hm : max (ub + 1) lo = ub + 1 := max_eq_left (by omega)
        rw [hm] at h1 h2
        obtain ⟨a1, u, r1, r2, r3, r4, r5, r6⟩ := BubblePass_spec lo (ub - lo) a lo 0 (le_refl _)
          (Nat.zero_le _) (by omega)
          (by
            intro k x y k1 k2 hx hy
            have : k = lo := by omega
            subst this
            rw [hx] at hy; injection hy with hy; exact le_of_eq hy)
          (SortedOn.of_le (by have := le_max_right (0 + 1) lo; omega))
          (by
            intro i j x y i1 i2 j1 j2
            have := le_max_right (0 + 1) lo
            omega)
        rw [show lo + (ub - lo) + 1 = ub + 1 by omega] at r3 r4 r6
        have hu : u < ub := by
          have : max 0 (lo + (ub - lo) - 1) = ub - 1 := by
            rw [show lo + (ub - lo) - 1 = ub - 1 by omega]; exact max_eq_right (Nat.zero_le _)
          rw [this] at r2; omega
        have hb1 : max (u + 1) lo ≤ ub + 1 := max_le (by omega) (by omega)
        have hb2 : lo ≤ max (u + 1) lo := le_max_right _ _
        have g1 : SortedOn a1 (ub + 1) hi :=
          h1.congr (fun i i1 i2 => r6.2 i (Or.inr i1))
        have g2 : AllLe a1 lo (ub + 1) hi := h2.of_perm r5 r6 (by omega) (by omega)
        obtain ⟨a', e, s1, s2, s3⟩ := ih a1 u (by omega) (by omega) (by rw [r6.1]; exact hlen)
          (SortedOn.glue r3 g1
            (fun i j x y i1 i2 j1 j2 hx hy => g2 i j x y (by omega) i2 j1 j2 hx hy))
          (by
            intro i j x y i1 i2 j1 j2 hx hy
            by_cases hj : j < ub + 1
            · exact r4 i j x y i1 i2 j1 hj hx hy
            · exact g2 i j x y i1 (by omega) (by omega) j2 hx hy)
        refine ⟨a', ?_, s1, s2.trans r5, s3.trans (r6.mono (le_refl _) (by omega))⟩
        simp only [r1]; exact e
      · simp only [hlt, if_false]
        have hb : max (ub + 1) lo ≤ lo + 1 := max_le (by omega) (by omega)
        exact ⟨a, rfl, SortedOn.glue (SortedOn.of_le hb) h1 h2, List.Perm.refl _,
          SameOutside.refl _ _ _⟩

/-- `BubbleSort(lo, hi)` on a buffer whose cells `[0, hi)` hold values. -/
theorem BubbleSort_spec (fuel : Nat) (v : Vector T) (lo hi : Nat)
    (hw : v.size_ ≤ v.element_.length) (hlo : lo ≤ hi) (hhi : hi ≤ v.size_)
    (hf : hi - lo < fuel) :
    ∃ a', v.BubbleSort fuel lo hi = some ⟨v.size_, v.capacity_, a'⟩ ∧ SortedOn a' lo hi ∧
      List.Perm a' v.element_ ∧ SameOutside a' v.element_ lo hi := by
  have hg : ¬ (lo > v.GetSize ∨ hi > v.GetSize) := by simp only [Vector.GetSize]; omega
  by_cases hlt : lo + 1 < hi
  · have hm : max (hi - 1 + 1) lo = hi := by
      rw [show hi - 1 + 1 = hi by omega]; exact max_eq_left hlo
    obtain ⟨a', r1, r2, r3, r4⟩ := BubbleLoop_spec lo hi fuel v.element_ (hi - 1) (by omega)
      (by omega) (by omega)
      (by rw [hm]; exact SortedOn.of_le (by omega))
      (by rw [hm]; intro i j x y _ _ _ _; omega)
    exact ⟨a', by simp only [Vector.BubbleSort, hg, if_false, r1], r2, r3, r4⟩
  · obtain ⟨f, rfl⟩ : ∃ f, fuel = f + 1 := ⟨fuel - 1, by omega⟩
    refine ⟨v.element_, ?_, SortedOn.of_le (by omega), List.Perm.refl _, SameOutside.refl _ _ _⟩
    have : ¬ lo < hi - 1 := by omega
    simp only [Vector.BubbleSort, hg, if_false, Vector.BubbleLoop, this]

end DSA

namespace DSA
variable {T : Type}

/-! ## `MergeSort` -/

theorem writeAt_append (p rest : List T) (g b : T) :
    writeAt (p ++ g :: rest) p.length b = some (p ++ b :: rest) := by
  simp [writeAt]

theorem writeAt_append_add (p rest : List T) (g b : T) (n m : Nat) (h : p.length = n + m) :
    writeAt (p ++ g :: rest) (n + m) b = some (p ++ b :: rest) := by
  rw [← h]; exact writeAt_append p rest g b

theorem segment_append (a : List T) (lo mi hi : Nat) (h1 : lo ≤ mi) (h2 : mi ≤ hi)
    (hlen : hi ≤ a.length) : segment a lo mi ++ segment a mi hi = segment a lo hi := by
  unfold segment
  have e1 : a.take mi = (a.take hi).take mi := by rw [List.take_take, Nat.min_eq_left h2]
  have hl : (a.take hi).length = hi := by simp [Nat.min_eq_left hlen]
  rw [e1]
  generalize a.take hi = l at hl
  rw [← List.drop_append_of_le_length (by simp; omega : lo ≤ (l.take mi).length),
    List.take_append_drop]

/-- Replacing the elements of `[lo, hi)` by a list of the same length. -/
theorem splice_spec (a s : List T) (lo hi : Nat) (h1 : lo ≤ hi) (hlen : hi ≤ a.length)
    (hs : s.length = hi - lo) :
    segment (a.take lo ++ s ++ a.drop hi) lo hi = s ∧
      SameOutside (a.take lo ++ s ++ a.drop hi) a lo hi := by
  have hl1 : (a.take lo).length = lo := by simp; omega
  refine ⟨?_, ?_, ?_⟩
  · unfold segment
    rw [List.append_assoc, List.take_append_eq_append_take, hl1,
      List.take_of_length_le (by omega : (a.take lo).length ≤ hi),
      List.drop_append_eq_append_drop, hl1, Nat.sub_self, List.drop_zero,
      List.drop_of_length_le (by omega : (a.take lo).length ≤ lo), List.nil_append,
      List.take_append_eq_append_take, hs, Nat.sub_self, List.take_zero, List.append_nil,
      List.take_of_length_le (by omega)]
  · simp only [List.length_append, hl1, hs, List.length_drop]; omega
  · intro i hi'
    rcases hi' with h | h
    · rw [List.append_assoc, List.getElem?_append_left (by omega), List.getElem?_take,
        if_pos h]
    · rw [List.getElem?_append_right (by simp only [List.length_append, hl1, hs]; omega),
        List.getElem?_drop]
      congr 1
      simp only [List.length_append, hl1, hs]; omega

theorem splice_perm (a s : List T) (lo hi : Nat) (h1 : lo ≤ hi)
    (hp : List.Perm s (segment a lo hi)) :
    List.Perm (a.take lo ++ s ++ a.drop hi) a := by
  have := split_segment a lo hi h1
  conv_rhs => rw [this]
  exact List.Perm.append_right _ (List.Perm.append_left _ hp)

section
variable [LinearOrder T]

/-- The loop of `Merge` computes the merge of what is left of the two runs: `p` is what lies
before the cell to write, `gap` the cells between it and the second run. -/
theorem MergeLoop_spec (B post : List T) (lo : Nat) :
    ∀ fuel (Bp Bd Cd p gap : List T) (i k : Nat), B = Bp ++ Bd → gap.length = Bd.length →
      p.length = lo + i → i = Bp.length + k → Bd.length + Cd.length < fuel →
      Vector.MergeLoop B lo (lo + B.length) (k + Cd.length) fuel (p ++ (gap ++ (Cd ++ post))) i
        Bp.length k = some (p ++ (List.merge Bd Cd (fun x y => decide (x ≤ y)) ++ post)) := by
  intro fuel
  induction fuel with
  | zero => intro Bp Bd Cd p gap i k _ _ _ _ h; omega
  | succ fuel ih =>
      intro Bp Bd Cd p gap i k hB hg hp hi hf
      rw [Vector.MergeLoop]
      cases Bd with
      | nil =>
          have : gap = [] := List.length_eq_zero.mp hg
          subst this
          have : ¬ Bp.length < B.length := by rw [hB]; simp
          simp only [this, if_false, List.nil_append, List.nil_merge]
      | cons b Bd' =>
          cases gap with
          | nil => simp at hg
          | cons g gap' =>
              simp only [List.length_cons, Nat.add_right_cancel_iff] at hg
              have hj : Bp.length < B.length := by rw [hB]; simp
              have hbj : B[Bp.length]? = some b := by
                rw [hB, List.getElem?_append_right (le_refl _), Nat.sub_self]
                simp
              have hB' : B = (Bp ++ [b]) ++ Bd' := by rw [hB]; simp
              have hw : ∀ x rest, writeAt (p ++ g :: rest) (lo + i) x = some (p ++ x :: rest) :=
                fun x rest => writeAt_append_add p rest g x lo i hp
              simp only [hj, if_true, hbj, List.cons_append]
              cases Cd with
              | nil =>
                  simp only [List.length_nil, Nat.add_zero, ge_iff_le, le_refl, if_true, hw]
                  have := ih (Bp ++ [b]) Bd' [] (p ++ [b]) gap' (i + 1) k hB' hg
                    (by simp; omega) (by simp; omega) (by simp at hf ⊢; omega)
                  simp only [List.length_nil, Nat.add_zero, List.length_append,
                    List.length_singleton, List.append_assoc, List.singleton_append,
                    List.merge_right, List.nil_append] at this ⊢
                  exact this
              | cons c Cd' =>
                  have hk : ¬ (k ≥ k + (c :: Cd').length) := by simp
                  have hc : (p ++ g :: (gap' ++ (c :: (Cd' ++ post))))[lo + B.length + k]? =
                      some c := by
                    have e1 : lo + B.length + k = p.length + (gap'.length + 1) := by
                      rw [hB]; simp; omega
                    rw [e1, List.getElem?_append_right (by omega),
                      show p.length + (gap'.length + 1) - p.length = gap'.length + 1 by omega,
                      List.getElem?_cons_succ, List.getElem?_append_right (le_refl _),
                      Nat.sub_self]
                    simp
                  simp only [List.cons_append, hk, if_false, hc]
                  by_cases hle : b ≤ c
                  · simp only [hle, if_true, hw]
                    have := ih (Bp ++ [b]) Bd' (c :: Cd') (p ++ [b]) gap' (i + 1) k hB' hg
                      (by simp; omega) (by simp; omega) (by simp at hf ⊢; omega)
                    rw [List.cons_merge_cons_pos _ _ _ (by simpa using hle)]
                    simp only [List.length_append, List.length_singleton, List.append_assoc,
                      List.singleton_append, List.cons_append, List.nil_append] at this ⊢
                    exact this
                  · simp only [hle, if_false, hw]
                    have := ih Bp (b :: Bd') Cd' (p ++ [c]) (gap' ++ [c]) (i + 1) (k + 1) hB
                      (by simp; omega) (by simp; omega) (by omega) (by simp at hf ⊢; omega)
                    rw [List.cons_merge_cons_neg _ _ _ (by simpa using hle)]
                    simp only [List.length_cons, List.append_assoc, List.singleton_append,
                      List.cons_append, List.nil_append] at this ⊢
                    rw [show k + (Cd'.length + 1) = k + 1 + Cd'.length by omega]
                    exact this

theorem Merge_spec (fuel : Nat) (a : List T) (lo mi hi : Nat) (h1 : lo ≤ mi) (h2 : mi ≤ hi)
    (hlen : hi ≤ a.length) (hf : hi - lo < fuel) :
    Vector.Merge fuel a lo mi hi =
      some (a.take lo ++ List.merge (segment a lo mi) (segment a mi hi)
        (fun x y => decide (x ≤ y)) ++ a.drop hi) := by
  have hB : (segment a lo mi).length = mi - lo := segment_length a lo mi (by omega)
  have hC : (segment a mi hi).length = hi - mi := segment_length a mi hi hlen
  have ha : a = a.take lo ++ (segment a lo mi ++ (segment a mi hi ++ a.drop hi)) := by
    have := split_segment a lo hi (by omega)
    rw [← segment_append a lo mi hi h1 h2 hlen] at this
    simpa [List.append_assoc] using this
  have := MergeLoop_spec (segment a lo mi) (a.drop hi) lo fuel [] (segment a lo mi)
    (segment a mi hi) (a.take lo) (segment a lo mi) 0 0 rfl rfl (by simp; omega) rfl
    (by rw [hB, hC]; omega)
  rw [← ha, hB, hC, show lo + (mi - lo) = mi by omega, Nat.zero_add] at this
  simp only [Vector.Merge, not_lt.mpr (by omega : mi ≤ a.length), if_false, segment,
    List.append_assoc] at this ⊢
  exact this

theorem pairwise_decide_le (l : List T) :
    l.Pairwise (fun x y => decide (x ≤ y) = true) ↔ l.Sorted (· ≤ ·) := by
  unfold List.Sorted
  constructor <;> intro h <;> exact h.imp (by intro a b hab; simpa using hab)

theorem MergeSortRec_spec (size : Nat) :
    ∀ fuel (a : List T) (lo hi : Nat), hi - lo < fuel → lo ≤ hi → hi ≤ size →
      size ≤ a.length →
      ∃ a', Vector.MergeSortRec size fuel a lo hi = some a' ∧ SortedOn a' lo hi ∧
        List.Perm a' a ∧ SameOutside a' a lo hi := by
  intro fuel
  induction fuel with
  | zero => intro a lo hi h; omega
  | succ fuel ih =>
      intro a lo hi hf hlo hhi hlen
      rw [Vector.MergeSortRec]
      have hg : ¬ (lo > size ∨ hi > size) := by omega
      simp only [hg, if_false]
      by_cases hsm : hi - lo ≤ 1
      · simp only [hsm, if_true]
        exact ⟨a, rfl, SortedOn.of_le (by omega), List.Perm.refl _, SameOutside.refl _ _ _⟩
      · simp only [hsm, if_false]
        obtain ⟨a1, e1, s1, p1, o1⟩ := ih a lo ((lo + hi) / 2) (by omega) (by omega) (by omega)
          hlen
        obtain ⟨a2, e2, s2, p2, o2⟩ := ih a1 ((lo + hi) / 2) hi (by omega) (by omega) hhi
          (by rw [o1.1]; exact hlen)
        have hl2 : hi ≤ a2.length := by rw [o2.1, o1.1]; omega
        have s1' : SortedOn a2 lo ((lo + hi) / 2) :=
          s1.congr (fun i i1 i2 => o2.2 i (Or.inl i2))
        have q1 := (pairwise_decide_le _).mpr
          ((sortedOn_iff a2 lo ((lo + hi) / 2) (by omega)).mp s1')
        have q2 := (pairwise_decide_le _).mpr ((sortedOn_iff a2 ((lo + hi) / 2) hi hl2).mp s2)
        have hsorted := (pairwise_decide_le _).mp
          (@List.sorted_merge T (fun x y => decide (x ≤ y))
            (fun x y z hxy hyz => by
              simp only [decide_eq_true_eq] at hxy hyz ⊢; exact le_trans hxy hyz)
            (fun x y => by
              simp only [Bool.or_eq_true, decide_eq_true_eq]; exact le_total x y)
            _ _ q1 q2)
        have hperm : List.Perm (List.merge (segment a2 lo ((lo + hi) / 2))
            (segment a2 ((lo + hi) / 2) hi) (fun x y => decide (x ≤ y))) (segment a2 lo hi) := by
          have := @List.merge_perm_append T (fun x y => decide (x ≤ y))
            (segment a2 lo ((lo + hi) / 2)) (segment a2 ((lo + hi) / 2) hi)
          rw [segment_append a2 lo _ hi (by omega) (by omega) hl2] at this
          exact this
        have hlm := hperm.length_eq
        rw [segment_length a2 lo hi hl2] at hlm
        obtain ⟨g1, g2⟩ := splice_spec a2 _ lo hi hlo hl2 hlm
        have g3 := splice_perm a2 _ lo hi hlo hperm
        refine ⟨_, ?_, ?_, g3.trans (p2.trans p1),
          g2.trans ((o2.mono (by omega) (le_refl _)).trans (o1.mono (le_refl _) (by omega)))⟩
        · simp only [e1, e2]
          exact Merge_spec (fuel + 1) a2 lo ((lo + hi) / 2) hi (by omega) (by omega) hl2 hf
        · rw [sortedOn_iff _ lo hi (by rw [g2.1]; exact hl2), g1]
          exact hsorted

/-- `MergeSort(lo, hi)` on a buffer whose cells `[0, hi)` hold values. -/
theorem MergeSort_spec (fuel : Nat) (v : Vector T) (lo hi : Nat)
    (hw : v.size_ ≤ v.element_.length) (hlo : lo ≤ hi) (hhi : hi ≤ v.size_)
    (hf : hi - lo < fuel) :
    ∃ a', v.MergeSort fuel lo hi = some ⟨v.size_, v.capacity_, a'⟩ ∧ SortedOn a' lo hi ∧
      List.Perm a' v.element_ ∧ SameOutside a' v.element_ lo hi := by
  obtain ⟨a', r1, r2⟩ := MergeSortRec_spec v.size_ fuel v.element_ lo hi hf hlo hhi hw
  exact ⟨a', by simp only [Vector.MergeSort, Vector.GetSize, r1], r2⟩

end

end DSA

namespace DSA
variable {T : Type} [LinearOrder T]

/-! ## `QuickSort` -/

theorem PartitionDown_spec (a : List T) (p : T) (lo : Nat) :
    ∀ hi, hi < a.length → lo ≤ hi →
      ∃ h, Vector.PartitionDown a p lo hi = some h ∧ lo ≤ h ∧ h ≤ hi ∧
        (∀ k x, h < k → k ≤ hi → a[k]? = some x → p ≤ x) ∧
        (h = lo ∨ ∃ x, a[h]? = some x ∧ x < p) := by
  intro hi
  induction hi with
  | zero =>
      intro _ h0
      exact ⟨0, rfl, h0, le_refl _, fun k x h1 h2 => by omega, Or.inl (by omega)⟩
  | succ hi ih =>
      intro hl hlo
      rw [Vector.PartitionDown]
      have e : a[hi + 1]? = some a[hi + 1] := List.getElem?_eq_getElem hl
      by_cases hlt : lo < hi + 1
      · simp only [hlt, if_true, e]
        by_cases hp : p ≤ a[hi + 1]
        · simp only [hp, if_true]
          obtain ⟨h, r1, r2, r3, r4, r5⟩ := ih (by omega) (by omega)
          refine ⟨h, r1, r2, by omega, ?_, r5⟩
          intro k x k1 k2 hx
          by_cases hk : k = hi + 1
          · subst hk; rw [e] at hx; injection hx with hx; rw [← hx]; exact hp
          · exact r4 k x k1 (by omega) hx
        · simp only [hp, if_false]
          exact ⟨hi + 1, rfl, hlo, le_refl _, fun k x h1 h2 => by omega,
            Or.inr ⟨_, e, not_le.mp hp⟩⟩
      · simp only [hlt, if_false]
        exact ⟨hi + 1, rfl, hlo, le_refl _, fun k x h1 h2 => by omega, Or.inl (by omega)⟩

theorem PartitionUp_spec (a : List T) (p : T) (hi : Nat) (hl : hi < a.length) :
    ∀ fuel lo, hi - lo < fuel → lo ≤ hi →
      ∃ l, Vector.PartitionUp a p hi fuel lo = some l ∧ lo ≤ l ∧ l ≤ hi ∧
        (∀ k x, lo ≤ k → k < l → a[k]? = some x → x ≤ p) ∧
        (l = hi ∨ ∃ x, a[l]? = some x ∧ p < x) := by
  intro fuel
  induction fuel with
  | zero => intro lo h; omega
  | succ fuel ih =>
      intro lo hf hlo
      rw [Vector.PartitionUp]
      by_cases hlt : lo < hi
      · have e : a[lo]? = some a[lo] := List.getElem?_eq_getElem (by omega)
        simp only [hlt, if_true, e]
        by_cases hp : p ≥ a[lo]
        · simp only [hp, if_true]
          obtain ⟨l, r1, r2, r3, r4, r5⟩ := ih (lo + 1) (by omega) (by omega)
          refine ⟨l, r1, by omega, r3, ?_, r5⟩
          intro k x k1 k2 hx
          by_cases hk : k = lo
          · subst hk; rw [e] at hx; injection hx with hx; rw [← hx]; exact hp
          · exact r4 k x (by omega) k2 hx
        · simp only [hp, if_false]
          exact ⟨lo, rfl, le_refl _, hlo, fun k x h1 h2 => by omega,
            Or.inr ⟨_, e, not_le.mp hp⟩⟩
      · simp only [hlt, if_false]
        exact ⟨lo, rfl, le_refl _, hlo, fun k x h1 h2 => by omega, Or.inl (by omega)⟩

/-- Moving the hole of the partition from `h` to `h'`: the arrays with the pivot put into the
hole are permutations of each other. -/
theorem move_hole (a : List T) (h h' : Nat) (p x : T) (hh : h < a.length)
    (hx : a[h']? = some x) :
    List.Perm ((a.set h x).set h' p) (a.set h p) := by
  by_cases he : h = h'
  · subst he
    rw [List.set_set]
  · have e1 : (a.set h p)[h]? = some p := by simp [hh]
    have e2 : (a.set h p)[h']? = some x := by
      rw [List.getElem?_set_ne he]; exact hx
    have := swap_perm (a.set h p) h h' p x e1 e2
    rw [List.set_set] at this
    exact this

/-- The outer loop of `GetPartition`, the hole being at `lo`. -/
theorem PartitionLoop_spec (p : T) (L H : Nat) :
    ∀ fuel (a : List T) (lo hi : Nat), hi - lo < fuel → L ≤ lo → lo ≤ hi → hi < H →
      H ≤ a.length →
      (∀ k x, L ≤ k → k < lo → a[k]? = some x → x ≤ p) →
      (∀ k x, hi < k → k < H → a[k]? = some x → p ≤ x) →
      ∃ a' m, Vector.PartitionLoop p fuel a lo hi = some (a', m) ∧ lo ≤ m ∧ m ≤ hi ∧
        (∀ k x, L ≤ k → k < m → a'[k]? = some x → x ≤ p) ∧
        (∀ k x, m < k → k < H → a'[k]? = some x → p ≤ x) ∧
        List.Perm (a'.set m p) (a.set lo p) ∧ SameOutside a' a L H := by
  intro fuel
  induction fuel with
  | zero => intro a lo hi h; omega
  | succ fuel ih =>
      intro a lo hi hf hL hlo hhi hlen inv1 inv2
      rw [Vector.PartitionLoop]
      by_cases hlt : lo < hi
      · simp only [hlt, if_true]
        obtain ⟨h, d1, d2, d3, d4, d5⟩ := PartitionDown_spec a p lo hi (by omega) hlo
        have eh : a[h]? = some a[h] := List.getElem?_eq_getElem (by omega)
        have hw1 : writeAt a lo a[h] = some (a.set lo a[h]) := by
          simp only [writeAt, show lo < a.length by omega, if_true]
        have hl1 : h < (a.set lo a[h]).length := by simp only [List.length_set]; omega
        obtain ⟨l, u1, u2, u3, u4, u5⟩ := PartitionUp_spec (a.set lo a[h]) p h hl1 (fuel + 1) lo
          (by omega) d2
        have el : (a.set lo a[h])[l]? = some (a.set lo a[h])[l] :=
          List.getElem?_eq_getElem (by omega)
        generalize hy : (a.set lo a[h])[l] = y at el
        have hw2 : writeAt (a.set lo a[h]) h y = some ((a.set lo a[h]).set h y) := by
          simp only [writeAt, hl1, if_true]
        have hprog : h - l < fuel := by
          by_cases hhl : h = lo
          · omega
          · rcases d5 with d5 | ⟨x, hx1, hx2⟩
            · exact absurd d5 hhl
            · have : lo < l := by
                by_contra hc
                have hll : l = lo := by omega
                rcases u5 with u5 | ⟨z, hz1, hz2⟩
                · omega
                · rw [hll] at hz1
                  rw [eh] at hx1; injection hx1 with hx1
                  simp only [List.getElem?_set_self (show lo < a.length by omega),
                    Option.some.injEq] at hz1
                  rw [← hz1, hx1] at hz2
                  exact absurd hx2 (not_lt.mpr (le_of_lt hz2))
              omega
        obtain ⟨a', m, r1, r2, r3, r4, r5, r6, r7⟩ := ih ((a.set lo a[h]).set h y) l h hprog
          (by omega) u3 (by omega) (by simp only [List.length_set]; exact hlen)
          (by
            intro k x k1 k2 hx
            rw [List.getElem?_set_ne (by omega)] at hx
            by_cases hk : k < lo
            · rw [List.getElem?_set_ne (by omega)] at hx
              exact inv1 k x k1 hk hx
            · exact u4 k x (by omega) k2 hx)
          (by
            intro k x k1 k2 hx
            rw [List.getElem?_set_ne (by omega), List.getElem?_set_ne (by omega)] at hx
            by_cases hk : k ≤ hi
            · exact d4 k x k1 hk hx
            · exact inv2 k x (by omega) k2 hx)
        refine ⟨a', m, ?_, by omega, by omega, r4, r5, ?_, ?_⟩
        · simp only [d1, eh, hw1, u1, el, hw2]; exact r1
        · exact r6.trans ((move_hole (a.set lo a[h]) h l p y hl1 el).trans
            (move_hole a lo h p a[h] (by omega) eh))
        · exact r7.trans ((SameOutside.set _ h y L H (by omega) (by omega)).trans
            (SameOutside.set a lo a[h] L H hL (by omega)))
      · simp only [hlt, if_false]
        have : lo = hi := by omega
        subst this
        refine ⟨a, lo, rfl, le_refl _, le_refl _, inv1, inv2, List.Perm.refl _,
          SameOutside.refl _ _ _⟩

omit [LinearOrder T] in
theorem set_eq_self (a : List T) (i : Nat) (v : T) (h : a[i]? = some v) : a.set i v = a := by
  apply List.ext_getElem?
  intro k
  by_cases hk : i = k
  · subst hk
    have hi : i < a.length := by
      by_contra hc
      rw [List.getElem?_eq_none (by omega)] at h
      exact absurd h (by simp)
    rw [List.getElem?_set_self hi, h]
  · rw [List.getElem?_set_ne hk]

/-- The selected pivot ends at a rank `m` of `[lo, hi)`, after elements not greater and
before elements not smaller than it. -/
theorem GetPartition_spec (fuel rd : Nat) (a : List T) (lo hi : Nat) (hlt : lo < hi)
    (hlen : hi ≤ a.length) (hrd : rd < hi - lo) (hf : hi - lo ≤ fuel) :
    ∃ a2 m p, Vector.GetPartition fuel rd a lo hi = some (a2, m) ∧ lo ≤ m ∧ m < hi ∧
      a2[m]? = some p ∧ (∀ k x, lo ≤ k → k < m → a2[k]? = some x → x ≤ p) ∧
      (∀ k x, m < k → k < hi → a2[k]? = some x → p ≤ x) ∧ List.Perm a2 a ∧
      SameOutside a2 a lo hi := by
  have hl1 : lo < a.length := by omega
  have hl2 : lo + rd < a.length := by omega
  have e1 : a[lo]? = some a[lo] := List.getElem?_eq_getElem hl1
  have e2 : a[lo + rd]? = some a[lo + rd] := List.getElem?_eq_getElem hl2
  generalize hx : a[lo] = x at e1
  generalize hp : a[lo + rd] = p at e2
  have hlen0 : ((a.set lo p).set (lo + rd) x).length = a.length := by simp
  obtain ⟨a', m, r1, r2, r3, r4, r5, r6, r7⟩ := PartitionLoop_spec p lo hi fuel
    ((a.set lo p).set (lo + rd) x) lo (hi - 1) (by omega) (le_refl _) (by omega) (by omega)
    (by rw [hlen0]; exact hlen) (fun k x h1 h2 => by omega) (fun k x h1 h2 => by omega)
  have h0 : ((a.set lo p).set (lo + rd) x)[lo]? = some p := by
    by_cases hr : rd = 0
    · subst hr
      simp only [Nat.add_zero] at e2 ⊢
      rw [e1] at e2; injection e2 with e2
      rw [List.set_set, List.getElem?_set_self hl1, e2]
    · rw [List.getElem?_set_ne (by omega), List.getElem?_set_self hl1]
  rw [set_eq_self _ lo p h0] at r6
  have hml : m < a'.length := by rw [r7.1, hlen0]; omega
  refine ⟨a'.set m p, m, p, ?_, r2, by omega, List.getElem?_set_self hml, ?_, ?_,
    r6.trans (swap_perm a lo (lo + rd) x p e1 e2), ?_⟩
  · simp only [Vector.GetPartition, e1, e2, r1, writeAt, hml, if_true]
  · intro k y k1 k2 hy
    rw [List.getElem?_set_ne (by omega)] at hy
    exact r4 k y k1 k2 hy
  · intro k y k1 k2 hy
    rw [List.getElem?_set_ne (by omega)] at hy
    exact r5 k y k1 k2 hy
  · exact (SameOutside.set a' m p lo hi r2 (by omega)).trans
      (r7.trans (sameOutside_swap a lo (lo + rd) x p lo hi (le_refl _) hlt (by omega) (by omega)))

theorem QuickSortRec_spec (pick : Nat → Nat → Nat) (size : Nat) :
    ∀ fuel (a : List T) (lo hi : Nat), hi - lo < fuel → lo ≤ hi → hi ≤ size →
      size ≤ a.length →
      ∃ a', Vector.QuickSortRec pick size fuel a lo hi = some a' ∧ SortedOn a' lo hi ∧
        List.Perm a' a ∧ SameOutside a' a lo hi := by
  intro fuel
  induction fuel with
  | zero => intro a lo hi h; omega
  | succ fuel ih =>
      intro a lo hi hf hlo hhi hlen
      rw [Vector.QuickSortRec]
      have hg : ¬ (lo > size ∨ hi > size) := by omega
      simp only [hg, if_false]
      by_cases hsm : hi - lo ≤ 1
      · simp only [hsm, if_true]
        exact ⟨a, rfl, SortedOn.of_le (by omega), List.Perm.refl _, SameOutside.refl _ _ _⟩
      · simp only [hsm, if_false]
        obtain ⟨a1, m, p, e1, m1, m2, m3, m4, m5, p1, o1⟩ := GetPartition_spec (fuel + 1)
          (pick lo hi % (hi - lo)) a lo hi (by omega) (by omega)
          (Nat.mod_lt _ (by omega)) (by omega)
        have hl1 : a1.length = a.length := o1.1
        obtain ⟨a2, e2, s2, p2, o2⟩ := ih a1 lo m (by omega) m1 (by omega) (by omega)
        have hl2 : a2.length = a1.length := o2.1
        obtain ⟨a3, e3, s3, p3, o3⟩ := ih a2 (m + 1) hi (by omega) (by omega) hhi (by omega)
        -- the three parts of the final array
        have hm3 : a3[m]? = some p := by
          rw [o3.2 m (Or.inl (by omega)), o2.2 m (Or.inr (le_refl _))]; exact m3
        have hlow : ∀ k x, lo ≤ k → k < m → a3[k]? = some x → x ≤ p := by
          intro k x k1 k2 hx
          rw [o3.2 k (Or.inl (by omega))] at hx
          exact perm_range_forall p2 o2 m1 (by omega) (fun x => x ≤ p) m4 k x k1 k2 hx
        have hhigh : ∀ k x, m + 1 ≤ k → k < hi → a3[k]? = some x → p ≤ x := by
          intro k x k1 k2 hx
          refine perm_range_forall p3 o3 (by omega) (by omega) (fun x => p ≤ x) ?_ k x k1 k2 hx
          intro j y j1 j2 hy
          rw [o2.2 j (Or.inr (by omega))] at hy
          exact m5 j y (by omega) j2 hy
        have hs1 : SortedOn a3 lo m := s2.congr (fun i i1 i2 => o3.2 i (Or.inl (by omega)))
        have hs2 : SortedOn a3 m hi := by
          refine SortedOn.glue (SortedOn.of_le (le_refl _)) s3 ?_
          intro i j x y i1 i2 j1 j2 hx hy
          have : i = m := by omega
          subst this
          rw [hm3] at hx; injection hx with hx
          rw [← hx]; exact hhigh j y j1 j2 hy
        refine ⟨a3, by simp only [e1, e2, e3], SortedOn.glue hs1 hs2 ?_,
          p3.trans (p2.trans p1),
          (o3.mono (by omega) (le_refl _)).trans ((o2.mono (le_refl _) (by omega)).trans o1)⟩
        intro i j x y i1 i2 j1 j2 hx hy
        have hxp := hlow i x i1 i2 hx
        by_cases hj : j = m
        · subst hj
          rw [hm3] at hy; injection hy with hy
          rw [← hy]; exact hxp
        · exact le_trans hxp (hhigh j y (by omega) j2 hy)

/-- `QuickSort(lo, hi)` on a buffer whose cells `[0, hi)` hold values. -/
theorem QuickSort_spec (fuel : Nat) (pick : Nat → Nat → Nat) (v : Vector T) (lo hi : Nat)
    (hw : v.size_ ≤ v.element_.length) (hlo : lo ≤ hi) (hhi : hi ≤ v.size_)
    (hf : hi - lo < fuel) :
    ∃ a', v.QuickSort fuel pick lo hi = some ⟨v.size_, v.capacity_, a'⟩ ∧ SortedOn a' lo hi ∧
      List.Perm a' v.element_ ∧ SameOutside a' v.element_ lo hi := by
  obtain ⟨a', r1, r2⟩ := QuickSortRec_spec pick v.size_ fuel v.element_ lo hi hf hlo hhi hw
  exact ⟨a', by simp only [Vector.QuickSort, Vector.GetSize, r1], r2⟩


end DSA

namespace DSA
variable {T : Type}

/-! ## `HeapSort` -/

theorem segment_single (a : List T) (i : Nat) (x : T) (h : a[i]? = some x) :
    segment a i (i + 1) = [x] := by
  have hi : i < a.length := by
    by_contra hc
    rw [List.getElem?_eq_none (by omega)] at h
    exact absurd h (by simp)
  apply List.ext_getElem?
  intro k
  by_cases hk : k = 0
  · subst hk
    rw [segment_getElem? a i (i + 1) 0 (by omega)]
    simpa using h
  · rw [List.getElem?_eq_none (by rw [segment_length a i (i + 1) (by omega)]; omega),
      List.getElem?_eq_none (by simp; omega)]

theorem segment_congr (a b : List T) (lo hi : Nat) (h : ∀ i, lo ≤ i → i < hi → a[i]? = b[i]?) :
    segment a lo hi = segment b lo hi := by
  apply List.ext_getElem?
  intro k
  simp only [segment, List.getElem?_drop, List.getElem?_take]
  split_ifs with hk
  · exact h _ (by omega) hk
  · rfl

theorem perm_of_segment_perm {a b : List T} {lo hi : Nat} (hs : SameOutside a b lo hi)
    (hlo : lo ≤ hi) (hp : List.Perm (segment a lo hi) (segment b lo hi)) : List.Perm a b := by
  have ea := split_segment a lo hi hlo
  have eb := split_segment b lo hi hlo
  rw [ea, eb, hs.take, hs.drop]
  exact List.Perm.append_right _ (List.Perm.append_left _ hp)

theorem segment_drop_take (a : List T) (lo hi : Nat) :
    (a.drop lo).take (hi - lo) = segment a lo hi := by
  unfold segment
  rw [List.drop_take]

section
variable [LinearOrder T]

open PriorityQueueArrayHeap

theorem HeapSortLoop_spec (lo hi : Nat) (a0 : List T) :
    ∀ fuel (h : PriorityQueueArrayHeap T) (a : List T) (k : Nat), h.size_ < fuel → h.IsHeap →
      k = lo + h.size_ → k ≤ hi → hi ≤ a.length → SortedOn a k hi →
      (∀ x ∈ h.contents, ∀ j y, k ≤ j → j < hi → a[j]? = some y → x ≤ y) →
      List.Perm (h.contents ++ segment a k hi) (segment a0 lo hi) →
      SameOutside a a0 lo hi →
      ∃ a', Vector.HeapSortLoop fuel h a k = some a' ∧ SortedOn a' lo hi ∧
        List.Perm (segment a' lo hi) (segment a0 lo hi) ∧ SameOutside a' a0 lo hi := by
  intro fuel
  induction fuel with
  | zero => intro h a k hf; omega
  | succ fuel ih =>
      intro h a k hf hh hk hkhi hlen hs hle hp ho
      rw [Vector.HeapSortLoop]
      by_cases he : h.size_ = 0
      · have hemp : PriorityQueueArrayHeap.IsEmpty h = true := by
          simp [PriorityQueueArrayHeap.IsEmpty, GetSize, he]
        have hc : h.contents = [] := by simp [contents, he]
        simp only [hemp, Bool.true_eq_false, if_false]
        have : k = lo := by omega
        subst this
        rw [hc, List.nil_append] at hp
        exact ⟨a, rfl, hs, hp, ho⟩
      · have hemp : PriorityQueueArrayHeap.IsEmpty h = false := by
          simp [PriorityQueueArrayHeap.IsEmpty, GetSize, he]
        simp only [hemp, if_true]
        obtain ⟨m, h', g1, g2, g3, g4, g5⟩ := DeleteMax_spec (fuel + 1) h hh
          (Nat.pos_of_ne_zero he) hf
        have hmax := contents_le_root h hh m g1
        have hk0 : k ≠ 0 := by omega
        have hkl : k - 1 < a.length := by omega
        have hsub : ∀ x ∈ h'.contents, x ∈ h.contents :=
          fun x hx => g5.subset (List.mem_cons_of_mem _ hx)
        have hmem : m ∈ h.contents := g5.subset (List.mem_cons_self _ _)
        have hget : (a.set (k - 1) m)[k - 1]? = some m := List.getElem?_set_self hkl
        obtain ⟨a', r1, r2, r3, r4⟩ := ih h' (a.set (k - 1) m) (k - 1) (by omega) g3 (by omega)
          (by omega) (by simp only [List.length_set]; exact hlen)
          (by
            refine SortedOn.glue (SortedOn.of_le (by omega))
              (hs.congr (fun i i1 i2 => List.getElem?_set_ne (by omega))) ?_
            intro i j x y i1 i2 j1 j2 hx hy
            have : i = k - 1 := by omega
            subst this
            rw [hget] at hx; injection hx with hx
            rw [List.getElem?_set_ne (by omega)] at hy
            rw [← hx]
            exact hle m hmem j y (by omega) j2 hy)
          (by
            intro x hx j y j1 j2 hy
            by_cases hj : j = k - 1
            · subst hj
              rw [hget] at hy; injection hy with hy
              rw [← hy]; exact hmax x (hsub x hx)
            · rw [List.getElem?_set_ne (fun h => hj h.symm)] at hy
              exact hle x (hsub x hx) j y (by omega) j2 hy)
          (by
            have e1 : segment (a.set (k - 1) m) (k - 1) hi =
                m :: segment a k hi := by
              rw [← segment_append _ (k - 1) k hi (by omega) hkhi
                (by simp only [List.length_set]; exact hlen)]
              have := segment_single (a.set (k - 1) m) (k - 1) m hget
              rw [show k - 1 + 1 = k by omega] at this
              rw [this, segment_congr (a.set (k - 1) m) a k hi
                (fun i i1 i2 => List.getElem?_set_ne (by omega))]
              rfl
            rw [e1]
            refine List.Perm.trans ?_ hp
            refine List.Perm.trans List.perm_middle ?_
            exact List.Perm.append_right _ g5)
          ((SameOutside.set a (k - 1) m lo hi (by omega) (by omega)).trans ho)
        refine ⟨a', ?_, r2, r3, r4⟩
        simp only [g2, hk0, if_false, writeAt, hkl, if_true]
        exact r1

/-- `HeapSort(lo, hi)` on a buffer whose cells `[0, hi)` hold values. -/
theorem HeapSort_spec (fuel : Nat) (v : Vector T) (lo hi : Nat)
    (hw : v.size_ ≤ v.element_.length) (hlo : lo ≤ hi) (hhi : hi ≤ v.size_)
    (hf : hi - lo < fuel) :
    ∃ a', v.HeapSort fuel lo hi = some ⟨v.size_, v.capacity_, a'⟩ ∧ SortedOn a' lo hi ∧
      List.Perm a' v.element_ ∧ SameOutside a' v.element_ lo hi := by
  have hg : ¬ (lo > v.GetSize ∨ hi > v.GetSize) := by simp only [Vector.GetSize]; omega
  have hlen : hi ≤ v.element_.length := by omega
  obtain ⟨h0, e0, i0, p0⟩ := ofArray_spec fuel (v.element_.drop lo) (hi - lo)
    (by simp only [List.length_drop]; omega) hf
  rw [segment_drop_take] at p0
  obtain ⟨a', r1, r2, r3, r4⟩ := HeapSortLoop_spec lo hi v.element_ fuel _ v.element_ hi hf i0
    (by simp only []; omega) (le_refl _) hlen (SortedOn.of_le (by omega))
    (fun x _ j y j1 j2 => by omega)
    (by
      have : segment v.element_ hi hi = [] := by simp [segment]
      rw [this, List.append_nil]; exact p0)
    (SameOutside.refl _ _ _)
  refine ⟨a', ?_, r2, perm_of_segment_perm r4 hlo r3, r4⟩
  simp only [Vector.HeapSort, hg, if_false, not_lt.mpr hlo, e0, r1]

end

end DSA

namespace DSA
variable {T : Type} [LinearOrder T]

/-! ## The claim C24 -/

/-- C24: on a `Vector` whose cells `[0, size)` hold values and for ranks `lo <= hi <= size`,
`Sort(lo, hi)` returns, whichever of `BubbleSort`, `SelectionSort`, `MergeSort`, `HeapSort`
and `QuickSort` is drawn and whichever offsets `GetPartition` draws; the elements `[lo, hi)`
are then in non-decreasing order and a permutation of the former ones, and the elements
before `lo` and from `hi` on, the size and the capacity are unchanged. -/
theorem C24_sort (v : Vector T) (lo hi fuel : Nat) (choice : Fin 5) (pick : Nat → Nat → Nat)
    (hw : v.size_ ≤ v.element_.length) (hlo : lo ≤ hi) (hhi : hi ≤ v.size_)
    (hf : hi - lo < fuel) :
    ∃ w, v.SortRange fuel choice pick lo hi = some w ∧ w.size_ = v.size_ ∧
      w.capacity_ = v.capacity_ ∧ (segment w.element_ lo hi).Sorted (· ≤ ·) ∧
      List.Perm (segment w.element_ lo hi) (segment v.element_ lo hi) ∧
      w.element_.take lo = v.element_.take lo ∧ w.element_.drop hi = v.element_.drop hi := by
  have hg : ¬ (lo > v.GetSize ∨ hi > v.GetSize) := by simp only [Vector.GetSize]; omega
  have key : ∃ a', v.SortRange fuel choice pick lo hi = some ⟨v.size_, v.capacity_, a'⟩ ∧
      SortedOn a' lo hi ∧ List.Perm a' v.element_ ∧ SameOutside a' v.element_ lo hi := by
    unfold Vector.SortRange
    simp only [hg, if_false]
    match choice with
    | 0 => exact BubbleSort_spec fuel v lo hi hw hlo hhi hf
    | 1 => exact SelectionSort_spec v lo hi hw hlo hhi
    | 2 => exact MergeSort_spec fuel v lo hi hw hlo hhi hf
    | 3 => exact HeapSort_spec fuel v lo hi hw hlo hhi hf
    | 4 => exact QuickSort_spec fuel pick v lo hi hw hlo hhi hf
  obtain ⟨a', e, h1, h2, h3⟩ := key
  refine ⟨_, e, rfl, rfl, ?_, segment_perm h2 h3 hlo, h3.take, h3.drop⟩
  exact (sortedOn_iff a' lo hi (by rw [h3.1]; omega)).mp h1

/-- C24, scenario of the demo `main`: `Sort()`, that is `Sort(0, 11)`, on 1, 2, 3, 4, 5, 6, 7,
11, 10, 9, 8 gives 1, ..., 11 with each of the five algorithms. -/
theorem C24_sort_witness :
    (vecMain.size_ ≤ vecMain.element_.length ∧ 0 ≤ 11 ∧ 11 ≤ vecMain.size_ ∧ 11 - 0 < 12) ∧
    (∃ w, vecMain.SortRange 12 4 (fun _ _ => 0) 0 11 = some w ∧ w.size_ = vecMain.size_ ∧
      w.capacity_ = vecMain.capacity_ ∧ (segment w.element_ 0 11).Sorted (· ≤ ·) ∧
      List.Perm (segment w.element_ 0 11) (segment vecMain.element_ 0 11) ∧
      w.element_.take 0 = vecMain.element_.take 0 ∧
      w.element_.drop 11 = vecMain.element_.drop 11) ∧
    (∀ choice : Fin 5, vecMain.SortRange 12 choice (fun _ _ => 0) 0 11 =
      some ⟨11, 22, [1, 2, 3, 4, 5, 6, 7, 8, 9, 10, 11, 12, 11, 10, 9, 8]⟩) :=
  ⟨by decide, C24_sort vecMain 0 11 12 4 (fun _ _ => 0) (by decide) (by decide) (by decide)
    (by decide), by decide⟩

end DSA

namespace DSA
variable {K V : Type} [DecidableEq K]

open HashMapDictionary

/-! ## HashMapDictionary: the probe loops -/

theorem succ_mod_step (h t cap : Nat) : ((h + t) % cap + 1) % cap = (h + (t + 1)) % cap := by
  rw [Nat.mod_add_mod, Nat.add_assoc]

/-- What `ProbeForHit` has met when it returns: after `t` steps a bucket that holds the key or
is empty and unmarked, and before it only buckets with other keys or marked empty ones. -/
theorem ProbeForHitLoop_steps (m : HashMapDictionary K V) (k : K) (h : Nat) :
    ∀ fuel s r, ProbeForHitLoop m k fuel ((h + s) % m.capacity_) = some r →
      ∃ t, s ≤ t ∧ r = (h + t) % m.capacity_ ∧
        ((∃ v, m.ht_[r]? = some (some (k, v))) ∨ m.Vacant r) ∧
        ∀ t', s ≤ t' → t' < t →
          (∃ e, m.ht_[(h + t') % m.capacity_]? = some (some e) ∧ e.1 ≠ k) ∨
          (m.ht_[(h + t') % m.capacity_]? = some none ∧
            m.IsLazilyRemoved ((h + t') % m.capacity_) = true) := by
  intro fuel
  induction fuel with
  | zero => intro s r hr; simp [ProbeForHitLoop] at hr
  | succ fuel ih =>
      intro s r hr
      rw [ProbeForHitLoop] at hr
      cases hb : m.ht_[(h + s) % m.capacity_]? with
      | none => simp [hb] at hr
      | some b =>
          cases b with
          | some e =>
              simp only [hb] at hr
              by_cases hk : e.1 = k
              · simp only [hk, ne_eq, not_true_eq_false, if_false, Option.some.injEq] at hr
                subst hr
                refine ⟨s, le_refl _, rfl, Or.inl ⟨e.2, ?_⟩, fun t' h1 h2 => by omega⟩
                rw [hb, ← hk]
              · simp only [ne_eq, hk, not_false_eq_true, if_true] at hr
                rw [succ_mod_step] at hr
                obtain ⟨t, t1, t2, t3, t4⟩ := ih (s + 1) r hr
                refine ⟨t, by omega, t2, t3, ?_⟩
                intro t' h1 h2
                by_cases ht : t' = s
                · subst ht; exact Or.inl ⟨e, hb, hk⟩
                · exact t4 t' (by omega) h2
          | none =>
              simp only [hb] at hr
              by_cases hl : m.IsLazilyRemoved ((h + s) % m.capacity_) = true
              · simp only [hl, if_true] at hr
                rw [succ_mod_step] at hr
                obtain ⟨t, t1, t2, t3, t4⟩ := ih (s + 1) r hr
                refine ⟨t, by omega, t2, t3, ?_⟩
                intro t' h1 h2
                by_cases ht : t' = s
                · subst ht; exact Or.inr ⟨hb, hl⟩
                · exact t4 t' (by omega) h2
              · simp only [hl, Bool.false_eq_true, if_false, Option.some.injEq] at hr
                subst hr
                exact ⟨s, le_refl _, rfl, Or.inr ⟨hb, by simpa using hl⟩,
                  fun t' h1 h2 => by omega⟩

omit [DecidableEq K] in
/-- What `ProbeForFree` has met when it returns: after `t` steps an empty bucket, and before
it only buckets that hold an entry. -/
theorem ProbeForFreeLoop_steps (m : HashMapDictionary K V) (h : Nat) :
    ∀ fuel s r, ProbeForFreeLoop m fuel ((h + s) % m.capacity_) = some r →
      ∃ t, s ≤ t ∧ r = (h + t) % m.capacity_ ∧ m.ht_[r]? = some none ∧
        ∀ t', s ≤ t' → t' < t → ∃ e, m.ht_[(h + t') % m.capacity_]? = some (some e) := by
  intro fuel
  induction fuel with
  | zero => intro s r hr; simp [ProbeForFreeLoop] at hr
  | succ fuel ih =>
      intro s r hr
      rw [ProbeForFreeLoop] at hr
      cases hb : m.ht_[(h + s) % m.capacity_]? with
      | none => simp [hb] at hr
      | some b =>
          cases b with
          | some e =>
              simp only [hb] at hr
              rw [succ_mod_step] at hr
              obtain ⟨t, t1, t2, t3, t4⟩ := ih (s + 1) r hr
              refine ⟨t, by omega, t2, t3, ?_⟩
              intro t' h1 h2
              by_cases ht : t' = s
              · subst ht; exact ⟨e, hb⟩
              · exact t4 t' (by omega) h2
          | none =>
              simp only [hb, Option.some.injEq] at hr
              subst hr
              exact ⟨s, le_refl _, rfl, hb, fun t' h1 h2 => by omega⟩

/-- The search for a key reaches the bucket that holds it when no bucket before is empty and
unmarked and no other bucket holds the key. -/
theorem ProbeForHitLoop_reach (m : HashMapDictionary K V) (k : K) (v : V) (h i : Nat)
    (hi : m.ht_[i]? = some (some (k, v)))
    (hd : ∀ j v', m.ht_[j]? = some (some (k, v')) → j = i) :
    ∀ d s fuel, d < fuel → (h + (s + d)) % m.capacity_ = i →
      (∀ d', d' < d → ¬ m.Vacant ((h + (s + d')) % m.capacity_)) →
      ProbeForHitLoop m k fuel ((h + s) % m.capacity_) = some i := by
  have hcap : 0 < m.capacity_ := by
    have : i < m.ht_.length := by
      by_contra hc
      rw [List.getElem?_eq_none (by omega)] at hi
      exact absurd hi (by simp)
    simp only [capacity_]; omega
  intro d
  induction d with
  | zero =>
      intro s fuel hf hp _
      obtain ⟨fuel, rfl⟩ : ∃ f, fuel = f + 1 := ⟨fuel - 1, by omega⟩
      rw [ProbeForHitLoop]
      simp only [Nat.add_zero] at hp
      rw [hp, hi]
      simp
  | succ d ih =>
      intro s fuel hf hp hv
      obtain ⟨fuel, rfl⟩ : ∃ f, fuel = f + 1 := ⟨fuel - 1, by omega⟩
      rw [ProbeForHitLoop]
      have hlt : (h + s) % m.capacity_ < m.ht_.length := Nat.mod_lt _ hcap
      have hnv := hv 0 (by omega)
      simp only [Nat.add_zero] at hnv
      rw [List.getElem?_eq_getElem hlt]
      have hrec : ProbeForHitLoop m k fuel (((h + s) % m.capacity_ + 1) % m.capacity_) =
          some i := by
        rw [succ_mod_step]
        refine ih (s + 1) fuel (by omega) (by rw [← hp]; congr 2; omega) ?_
        intro d' hd'
        have := hv (d' + 1) (by omega)
        rw [show s + (d' + 1) = s + 1 + d' by omega] at this
        exact this
      cases hb : m.ht_[(h + s) % m.capacity_] with
      | some e =>
          simp only
          by_cases hk : e.1 = k
          · have : (h + s) % m.capacity_ = i := by
              refine hd _ e.2 ?_
              rw [List.getElem?_eq_getElem hlt, hb, ← hk]
            simp only [hk, ne_eq, not_true_eq_false, if_false, this]
          · simp only [ne_eq, hk, not_false_eq_true, if_true]
            exact hrec
      | none =>
          simp only
          have hl : m.IsLazilyRemoved ((h + s) % m.capacity_) = true := by
            by_contra hc
            exact hnv ⟨by rw [List.getElem?_eq_getElem hlt, hb], by simpa using hc⟩
          simp only [hl, if_true]
          exact hrec

/-! ## HashMapDictionary: searching under the invariant -/

omit [DecidableEq K] in
theorem stored_iff (m : HashMapDictionary K V) (k : K) (v : V) :
    m.Stored k v ↔ ∃ i : Nat, m.ht_[i]? = some (some (k, v)) := by
  simp only [Stored, List.mem_iff_getElem?]

theorem ProbeForHit_steps (hc : K → Nat) (fuel : Nat) (m : HashMapDictionary K V) (k : K)
    (r : Nat) (hr : ProbeForHit hc fuel m k = some r) :
    ∃ t, r = (hc k + t) % m.capacity_ ∧
      ((∃ v, m.ht_[r]? = some (some (k, v))) ∨ m.Vacant r) ∧
      ∀ t', t' < t →
        (∃ e, m.ht_[(hc k + t') % m.capacity_]? = some (some e) ∧ e.1 ≠ k) ∨
        (m.ht_[(hc k + t') % m.capacity_]? = some none ∧
          m.IsLazilyRemoved ((hc k + t') % m.capacity_) = true) := by
  unfold ProbeForHit at hr
  split_ifs at hr with h0
  obtain ⟨t, -, t2, t3, t4⟩ := ProbeForHitLoop_steps m k (hc k) fuel 0 r hr
  exact ⟨t, t2, t3, fun t' h => t4 t' (Nat.zero_le _) h⟩

/-- A search for a stored key that returns has found the bucket of the key. -/
theorem probe_stored (hc : K → Nat) (m : HashMapDictionary K V) (hinv : Inv hc m) (fuel : Nat)
    (k : K) (v : V) (i r : Nat) (hi : m.ht_[i]? = some (some (k, v)))
    (hr : ProbeForHit hc fuel m k = some r) : r = i := by
  obtain ⟨t, t1, t2, t3⟩ := ProbeForHit_steps hc fuel m k r hr
  obtain ⟨-, -, hdist, hchain⟩ := hinv
  obtain ⟨d, d1, d2⟩ := hchain i k v hi
  rcases t2 with ⟨v', hv'⟩ | hvac
  · exact hdist r i k v' v hv' hi
  · exfalso
    rcases Nat.lt_trichotomy t d with h | h | h
    · rw [t1] at hvac; exact d2 t h hvac
    · rw [t1, h, d1] at hvac
      rw [hvac.1] at hi
      exact absurd hi (by simp)
    · rcases t3 d h with ⟨e, he1, he2⟩ | ⟨he1, -⟩
      · rw [d1, hi] at he1
        injection he1 with he1; injection he1 with he1
        rw [← he1] at he2
        exact he2 rfl
      · rw [d1, hi] at he1
        exact absurd he1 (by simp)

/-- With enough fuel a search for a stored key returns the bucket of the key. -/
theorem probe_stored_total (hc : K → Nat) (m : HashMapDictionary K V) (hinv : Inv hc m) (k : K)
    (v : V) (i : Nat) (hi : m.ht_[i]? = some (some (k, v))) :
    ∃ f0, ∀ fuel, f0 ≤ fuel → ProbeForHit hc fuel m k = some i := by
  obtain ⟨-, -, hdist, hchain⟩ := hinv
  obtain ⟨d, d1, d2⟩ := hchain i k v hi
  refine ⟨d + 1, fun fuel hf => ?_⟩
  have hcap : m.capacity_ ≠ 0 := by
    intro h0
    have : i < m.ht_.length := by
      by_contra hc'
      rw [List.getElem?_eq_none (by omega)] at hi
      exact absurd hi (by simp)
    simp only [capacity_] at h0; omega
  unfold ProbeForHit
  simp only [hcap, if_false]
  have := ProbeForHitLoop_reach m k v (hc k) i hi (fun j v' hj => hdist j i k v' v hj hi) d 0
    fuel (by omega) (by simpa using d1) (fun d' hd' => by simpa using d2 d' hd')
  simpa using this

/-- A search for a key that is not stored, when it returns, has found an empty bucket. -/
theorem probe_absent (hc : K → Nat) (fuel : Nat) (m : HashMapDictionary K V) (k : K) (r : Nat)
    (hr : ProbeForHit hc fuel m k = some r) (hk : ∀ v, ¬ m.Stored k v) :
    m.ht_[r]? = some none := by
  obtain ⟨t, -, t2, -⟩ := ProbeForHit_steps hc fuel m k r hr
  rcases t2 with ⟨v, hv⟩ | hvac
  · exact absurd ((stored_iff m k v).mpr ⟨r, hv⟩) (hk v)
  · exact hvac.1

/-- What `Get` returns, when it returns, is the value stored with the key, or null when the
key is not stored. -/
theorem hash_Get_spec (hc : K → Nat) (m : HashMapDictionary K V) (hinv : Inv hc m) (fuel : Nat)
    (k : K) (res : Option V) (hg : Get hc fuel m k = some res) :
    ∀ v, res = some v ↔ m.Stored k v := by
  unfold Get at hg
  cases hr : ProbeForHit hc fuel m k with
  | none => simp [hr] at hg
  | some r =>
      simp only [hr] at hg
      intro v
      cases hb : m.ht_[r]? with
      | none => simp [hb] at hg
      | some b =>
          cases b with
          | none =>
              simp only [hb, Option.some.injEq] at hg
              subst hg
              constructor
              · intro h; exact absurd h (by simp)
              · intro hs
                obtain ⟨i, hi⟩ := (stored_iff m k v).mp hs
                have := probe_stored hc m hinv fuel k v i r hi hr
                rw [this, hi] at hb
                exact absurd hb (by simp)
          | some e =>
              simp only [hb, Option.some.injEq] at hg
              subst hg
              obtain ⟨t, -, t2, -⟩ := ProbeForHit_steps hc fuel m k r hr
              have hek : e.1 = k := by
                rcases t2 with ⟨v', hv'⟩ | hvac
                · rw [hb] at hv'
                  injection hv' with hv'; injection hv' with hv'
                  rw [hv']
                · rw [hvac.1] at hb
                  exact absurd hb (by simp)
              constructor
              · intro h
                injection h with h
                exact (stored_iff m k v).mpr ⟨r, by rw [hb, ← hek, ← h]⟩
              · intro hs
                obtain ⟨i, hi⟩ := (stored_iff m k v).mp hs
                have := probe_stored hc m hinv fuel k v i r hi hr
                rw [this, hi] at hb
                injection hb with hb; injection hb with hb
                rw [← hb]

/-- With enough fuel `Get` returns the value stored with a key. -/
theorem hash_Get_total (hc : K → Nat) (m : HashMapDictionary K V) (hinv : Inv hc m) (k : K)
    (v : V) (hs : m.Stored k v) : ∃ f0, ∀ fuel, f0 ≤ fuel → Get hc fuel m k = some (some v) := by
  obtain ⟨i, hi⟩ := (stored_iff m k v).mp hs
  obtain ⟨f0, hf0⟩ := probe_stored_total hc m hinv k v i hi
  refine ⟨f0, fun fuel hf => ?_⟩
  simp only [Get, hf0 fuel hf, hi]

end DSA

namespace DSA
variable {K V : Type}

open HashMapDictionary

/-! ## HashMapDictionary: the invariant is kept -/

theorem BitMap.Test_eq (b : BitMap) (p : Nat) : b.Test p = b.bits.getD p false := by
  unfold BitMap.Test BitMap.Expand
  split_ifs with h
  · rfl
  · simp only [List.getD_eq_getElem?_getD]
    have e1 : b.bits[p]? = none := List.getElem?_eq_none (by omega)
    rw [e1, List.getElem?_append_right (by omega)]
    by_cases h2 : p - b.bits.length < 8 * ((2 * p + 7) / 8) - b.bits.length
    · rw [List.getElem?_replicate, if_pos h2]; rfl
    · have e2 : (List.replicate (8 * ((2 * p + 7) / 8) - b.bits.length) false)[
          p - b.bits.length]? = none := List.getElem?_eq_none (by simp; omega)
      rw [e2]

theorem BitMap.Test_Set (b : BitMap) (r p : Nat) (hr : r < b.bits.length) :
    (b.Set r).Test p = if p = r then true else b.Test p := by
  rw [BitMap.Test_eq, BitMap.Test_eq]
  have : b.Set r = ⟨b.bits.set r true⟩ := by
    simp only [BitMap.Set, BitMap.Expand, hr, if_true]
  rw [this]
  simp only [List.getD_eq_getElem?_getD]
  by_cases h : p = r
  · subst h; simp [hr]
  · rw [List.getElem?_set_ne (fun h' => h h'.symm)]; simp [h]

theorem BitMap.length_Set (b : BitMap) (r : Nat) (hr : r < b.bits.length) :
    (b.Set r).bits.length = b.bits.length := by
  simp only [BitMap.Set, BitMap.Expand, hr, if_true, List.length_set]

theorem countP_set_some (l : List (Option (K × V))) (i : Nat) (e : K × V)
    (h : l[i]? = some none) :
    ((l.set i (some e)).countP Option.isSome : Int) = (l.countP Option.isSome : Int) + 1 := by
  have hi : i < l.length := by
    by_contra hc
    rw [List.getElem?_eq_none (by omega)] at h
    exact absurd h (by simp)
  rw [List.countP_set _ _ _ _ hi]
  rw [List.getElem?_eq_getElem hi] at h
  injection h with h
  simp [h]

theorem countP_set_none (l : List (Option (K × V))) (i : Nat) (e : K × V)
    (h : l[i]? = some (some e)) :
    ((l.set i none).countP Option.isSome : Int) = (l.countP Option.isSome : Int) - 1 := by
  have hi : i < l.length := by
    by_contra hc
    rw [List.getElem?_eq_none (by omega)] at h
    exact absurd h (by simp)
  rw [List.countP_set _ _ _ _ hi]
  have hpos : 0 < l.countP Option.isSome := by
    rw [List.countP_pos_iff]
    exact ⟨l[i], List.getElem_mem _, by
      rw [List.getElem?_eq_getElem hi] at h
      injection h with h
      rw [h]; rfl⟩
  rw [List.getElem?_eq_getElem hi] at h
  injection h with h
  simp only [h, Option.isSome_some, if_true, Option.isSome_none, Bool.false_eq_true, if_false,
    Nat.add_zero]
  omega

section
variable [DecidableEq K]

omit [DecidableEq K] in
theorem ProbeForFree_steps (hc : K → Nat) (fuel : Nat) (m : HashMapDictionary K V) (k : K)
    (r : Nat) (hr : ProbeForFree hc fuel m k = some r) :
    ∃ t, r = (hc k + t) % m.capacity_ ∧ m.ht_[r]? = some none ∧
      ∀ t', t' < t → ∃ e, m.ht_[(hc k + t') % m.capacity_]? = some (some e) := by
  unfold ProbeForFree at hr
  split_ifs at hr with h0
  obtain ⟨t, -, t2, t3, t4⟩ := ProbeForFreeLoop_steps m (hc k) fuel 0 r hr
  exact ⟨t, t2, t3, fun t' h => t4 t' (Nat.zero_le _) h⟩

omit [DecidableEq K] in
theorem lt_length_of_getElem? {α : Type} (l : List α) (i : Nat) (x : α) (h : l[i]? = some x) :
    i < l.length := by
  by_contra hc
  rw [List.getElem?_eq_none (by omega)] at h
  exact absurd h (by simp)

omit [DecidableEq K] in
/-- Writing a new key into the bucket found by `ProbeForFree` keeps the invariant and adds
the entry to what is stored. -/
theorem Inv_insert (hc : K → Nat) (m : HashMapDictionary K V) (hinv : Inv hc m) (k : K) (v : V)
    (hk : ∀ v0, ¬ m.Stored k v0) (fuel r : Nat) (hf : ProbeForFree hc fuel m k = some r) :
    r < m.ht_.length ∧
      Inv hc ⟨m.size_ + 1, m.ht_.set r (some (k, v)), m.lazy_removal_⟩ ∧
      ∀ k' v', Stored ⟨m.size_ + 1, m.ht_.set r (some (k, v)), m.lazy_removal_⟩ k' v' ↔
        (m.Stored k' v' ∨ (k' = k ∧ v' = v)) := by
  obtain ⟨t, t1, t2, t3⟩ := ProbeForFree_steps hc fuel m k r hf
  obtain ⟨hsize, hbits, hdist, hchain⟩ := hinv
  have hr : r < m.ht_.length := lt_length_of_getElem? _ _ _ t2
  have hget : ∀ i x, (m.ht_.set r (some (k, v)))[i]? = some (some x) →
      (i = r ∧ x = (k, v)) ∨ (i ≠ r ∧ m.ht_[i]? = some (some x)) := by
    intro i x hx
    by_cases hir : i = r
    · subst hir
      rw [List.getElem?_set_self hr] at hx
      injection hx with hx; injection hx with hx
      exact Or.inl ⟨rfl, hx.symm⟩
    · rw [List.getElem?_set_ne (fun h => hir h.symm)] at hx
      exact Or.inr ⟨hir, hx⟩
  have hvac : ∀ p, Vacant ⟨m.size_ + 1, m.ht_.set r (some (k, v)), m.lazy_removal_⟩ p →
      m.Vacant p := by
    intro p hp
    obtain ⟨hp1, hp2⟩ := hp
    simp only at hp1
    by_cases hpr : p = r
    · subst hpr
      rw [List.getElem?_set_self hr] at hp1
      exact absurd hp1 (by simp)
    · rw [List.getElem?_set_ne (fun h => hpr h.symm)] at hp1
      exact ⟨hp1, hp2⟩
  refine ⟨hr, ⟨?_, ?_, ?_, ?_⟩, ?_⟩
  · simp only
    rw [countP_set_some _ _ _ t2, hsize]
  · simpa [capacity_] using hbits
  · intro i j k0 v1 v2 h1 h2
    rcases hget i _ h1 with ⟨e1, e2⟩ | ⟨e1, e2⟩ <;> rcases hget j _ h2 with ⟨f1, f2⟩ | ⟨f1, f2⟩
    · rw [e1, f1]
    · injection e2 with e3 e4
      rw [e3] at f2
      exact absurd ((stored_iff m k v2).mpr ⟨j, f2⟩) (hk v2)
    · injection f2 with f3 f4
      rw [f3] at e2
      exact absurd ((stored_iff m k v1).mpr ⟨i, e2⟩) (hk v1)
    · exact hdist i j k0 v1 v2 e2 f2
  · intro i k0 v0 h1
    simp only [capacity_, List.length_set]
    rcases hget i _ h1 with ⟨e1, e2⟩ | ⟨e1, e2⟩
    · injection e2 with e3 e4
      refine ⟨t, by rw [e1, t1, e3]; rfl, ?_⟩
      intro d' hd' hv
      have hv' := hvac _ hv
      obtain ⟨e, he⟩ := t3 d' hd'
      rw [e3] at hv'
      have := hv'.1
      simp only [capacity_] at he
      rw [he] at this
      exact absurd this (by simp)
    · obtain ⟨d, d1, d2⟩ := hchain i k0 v0 e2
      exact ⟨d, d1, fun d' hd' hv => d2 d' hd' (hvac _ hv)⟩
  · intro k' v'
    rw [stored_iff, stored_iff]
    constructor
    · rintro ⟨i, hi⟩
      rcases hget i _ hi with ⟨e1, e2⟩ | ⟨e1, e2⟩
      · injection e2 with e3 e4
        exact Or.inr ⟨e3, e4⟩
      · exact Or.inl ⟨i, e2⟩
    · rintro (⟨i, hi⟩ | ⟨e1, e2⟩)
      · refine ⟨i, ?_⟩
        have hir : i ≠ r := by
          intro h; rw [h, t2] at hi; exact absurd hi (by simp)
        simp only
        rw [List.getElem?_set_ne (fun h => hir h.symm)]; exact hi
      · refine ⟨r, ?_⟩
        simp only
        rw [List.getElem?_set_self hr, e1, e2]

omit [DecidableEq K] in
/-- Emptying and marking the bucket of a stored key keeps the invariant and takes the key
away from what is stored. -/
theorem Inv_remove (hc : K → Nat) (m : HashMapDictionary K V) (hinv : Inv hc m) (k : K) (v : V)
    (r : Nat) (hr : m.ht_[r]? = some (some (k, v))) :
    Inv hc ⟨m.size_ - 1, m.ht_.set r none, m.lazy_removal_.Set r⟩ ∧
      ∀ k' v', Stored ⟨m.size_ - 1, m.ht_.set r none, m.lazy_removal_.Set r⟩ k' v' ↔
        (m.Stored k' v' ∧ k' ≠ k) := by
  obtain ⟨hsize, hbits, hdist, hchain⟩ := hinv
  have hrl : r < m.ht_.length := lt_length_of_getElem? _ _ _ hr
  have hrb : r < m.lazy_removal_.bits.length := by simp only [capacity_] at hbits; omega
  have hget : ∀ i x, (m.ht_.set r none)[i]? = some (some x) →
      i ≠ r ∧ m.ht_[i]? = some (some x) := by
    intro i x hx
    by_cases hir : i = r
    · subst hir
      rw [List.getElem?_set_self hrl] at hx
      exact absurd hx (by simp)
    · rw [List.getElem?_set_ne (fun h => hir h.symm)] at hx
      exact ⟨hir, hx⟩
  have hvac : ∀ p, Vacant ⟨m.size_ - 1, m.ht_.set r none, m.lazy_removal_.Set r⟩ p →
      m.Vacant p := by
    intro p hp
    obtain ⟨hp1, hp2⟩ := hp
    simp only [IsLazilyRemoved] at hp1 hp2
    rw [BitMap.Test_Set _ _ _ hrb] at hp2
    by_cases hpr : p = r
    · rw [if_pos hpr] at hp2
      exact absurd hp2 (by simp)
    · rw [if_neg hpr] at hp2
      rw [List.getElem?_set_ne (fun h => hpr h.symm)] at hp1
      exact ⟨hp1, hp2⟩
  refine ⟨⟨?_, ?_, ?_, ?_⟩, ?_⟩
  · simp only
    rw [countP_set_none _ _ _ hr, hsize]
  · simp only [capacity_, List.length_set]
    rw [BitMap.length_Set _ _ hrb]
    exact hbits
  · intro i j k0 v1 v2 h1 h2
    exact hdist i j k0 v1 v2 (hget i _ h1).2 (hget j _ h2).2
  · intro i k0 v0 h1
    simp only [capacity_, List.length_set]
    obtain ⟨d, d1, d2⟩ := hchain i k0 v0 (hget i _ h1).2
    exact ⟨d, d1, fun d' hd' hv => d2 d' hd' (hvac _ hv)⟩
  · intro k' v'
    rw [stored_iff, stored_iff]
    constructor
    · rintro ⟨i, hi⟩
      obtain ⟨e1, e2⟩ := hget i _ hi
      refine ⟨⟨i, e2⟩, ?_⟩
      intro hkk
      rw [hkk] at e2
      exact e1 (hdist i r k v' v e2 hr)
    · rintro ⟨⟨i, hi⟩, hne⟩
      refine ⟨i, ?_⟩
      have hir : i ≠ r := by
        intro h
        rw [h, hr] at hi
        injection hi with hi; injection hi with hi; injection hi with h1 h2
        exact hne h1.symm
      simp only
      rw [List.getElem?_set_ne (fun h => hir h.symm)]; exact hi

end

end DSA

namespace DSA
variable {K V : Type}

open HashMapDictionary

/-! ## HashMapDictionary: `Put`, `Rehash` and `Remove` -/

theorem replicate_none_getElem? (p i : Nat) (x : K × V) :
    ¬ ((List.replicate p (none : Option (K × V)))[i]? = some (some x)) := by
  rw [List.getElem?_replicate]
  split_ifs <;> simp

/-- The state the constructor and `Rehash` start from satisfies the invariant and stores
nothing. -/
theorem Inv_fresh (hc : K → Nat) (p : Nat) :
    Inv hc (⟨0, List.replicate p none, BitMap.Init p⟩ : HashMapDictionary K V) ∧
      ∀ k v, ¬ Stored (⟨0, List.replicate p none, BitMap.Init p⟩ : HashMapDictionary K V) k v := by
  refine ⟨⟨?_, ?_, ?_, ?_⟩, ?_⟩
  · simp [List.countP_replicate]
  · simp only [capacity_, BitMap.Init, List.length_replicate]; omega
  · intro i j k v v' h1
    exact absurd h1 (replicate_none_getElem? p i _)
  · intro i k v h1
    exact absurd h1 (replicate_none_getElem? p i _)
  · intro k v hs
    obtain ⟨i, hi⟩ := (stored_iff _ k v).mp hs
    exact replicate_none_getElem? p i _ hi

/-- The loop of `Rehash`, for a `put` that behaves as `Put` does: it stores every entry of
the old buckets, once. -/
theorem RehashLoop_spec (hc : K → Nat)
    (put : HashMapDictionary K V → K → V → Option (HashMapDictionary K V × Bool))
    (hput : ∀ m k v m' b, Inv hc m → put m k v = some (m', b) → Inv hc m' ∧
      ((∀ v0, ¬ m.Stored k v0) → b = true ∧ m'.size_ = m.size_ + 1 ∧
        ∀ k' v', m'.Stored k' v' ↔ (m.Stored k' v' ∨ (k' = k ∧ v' = v))) ∧
      (∀ v0, m.Stored k v0 → b = false ∧ m' = m)) :
    ∀ (l : List (Option (K × V))) (m0 m2 : HashMapDictionary K V), Inv hc m0 →
      (∀ (i j : Nat) (k : K) (v v' : V), l[i]? = some (some (k, v)) →
        l[j]? = some (some (k, v')) → i = j) →
      (∀ k v, some (k, v) ∈ l → ∀ v0, ¬ m0.Stored k v0) →
      RehashLoop put l m0 = some m2 →
      Inv hc m2 ∧ m2.size_ = m0.size_ + (l.countP Option.isSome : Int) ∧
        ∀ k' v', m2.Stored k' v' ↔ (m0.Stored k' v' ∨ some (k', v') ∈ l) := by
  intro l
  induction l with
  | nil =>
      intro m0 m2 hinv _ _ hr
      simp only [RehashLoop, Option.some.injEq] at hr
      subst hr
      exact ⟨hinv, by simp, fun k' v' => by simp⟩
  | cons x rest ih =>
      intro m0 m2 hinv hkd hns hr
      have hkd' : ∀ (i j : Nat) (k : K) (v v' : V), rest[i]? = some (some (k, v)) →
          rest[j]? = some (some (k, v')) → i = j := by
        intro i j k v v' h1 h2
        have := hkd (i + 1) (j + 1) k v v' (by simpa using h1) (by simpa using h2)
        omega
      cases x with
      | none =>
          rw [RehashLoop] at hr
          obtain ⟨r1, r2, r3⟩ := ih m0 m2 hinv hkd'
            (fun k v hm => hns k v (List.mem_cons_of_mem _ hm)) hr
          refine ⟨r1, by simpa using r2, fun k' v' => ?_⟩
          rw [r3]; simp
      | some e =>
          rw [RehashLoop] at hr
          cases hp : put m0 e.1 e.2 with
          | none => simp [hp] at hr
          | some res =>
              obtain ⟨m', b⟩ := res
              simp only [hp] at hr
              obtain ⟨p1, p2, -⟩ := hput m0 e.1 e.2 m' b hinv hp
              obtain ⟨-, p3, p4⟩ := p2 (hns e.1 e.2 (List.mem_cons_self _ _))
              obtain ⟨r1, r2, r3⟩ := ih m' m2 p1 hkd'
                (by
                  intro k v hm v0 hs
                  rcases (p4 k v0).mp hs with h | ⟨h1, -⟩
                  · exact hns k v (List.mem_cons_of_mem _ hm) v0 h
                  · obtain ⟨j, hj⟩ := List.mem_iff_getElem?.mp hm
                    have := hkd 0 (j + 1) e.1 e.2 v (by simp) (by simpa [h1] using hj)
                    omega)
                hr
              refine ⟨r1, ?_, fun k' v' => ?_⟩
              · rw [r2, p3]; simp; omega
              · rw [r3, p4]
                constructor
                · rintro ((h | ⟨h1, h2⟩) | h)
                  · exact Or.inl h
                  · exact Or.inr (by rw [h1, h2]; exact List.mem_cons_self _ _)
                  · exact Or.inr (List.mem_cons_of_mem _ h)
                · rintro (h | h)
                  · exact Or.inl (Or.inl h)
                  · rcases List.mem_cons.mp h with h | h
                    · injection h with h
                      exact Or.inl (Or.inr ⟨by rw [← h], by rw [← h]⟩)
                    · exact Or.inr h

section
variable [DecidableEq K]

/-- `Put`, when it returns: a key that is not stored is added with its value and the size
grows by 1, also through `Rehash`; for a stored key nothing changes. -/
theorem hash_Put_spec (hc : K → Nat) :
    ∀ fuel (m : HashMapDictionary K V) (k : K) (v : V) (m' : HashMapDictionary K V) (b : Bool),
      Inv hc m → Put hc fuel m k v = some (m', b) → Inv hc m' ∧
      ((∀ v0, ¬ m.Stored k v0) → b = true ∧ m'.size_ = m.size_ + 1 ∧
        ∀ k' v', m'.Stored k' v' ↔ (m.Stored k' v' ∨ (k' = k ∧ v' = v))) ∧
      (∀ v0, m.Stored k v0 → b = false ∧ m' = m) := by
  intro fuel
  induction fuel with
  | zero => intro m k v m' b _ h; simp [Put] at h
  | succ fuel ih =>
      intro m k v m' b hinv h
      rw [Put] at h
      cases hr : ProbeForHit hc (fuel + 1) m k with
      | none => simp [hr] at h
      | some r =>
          simp only [hr] at h
          obtain ⟨t, -, t2, -⟩ := ProbeForHit_steps hc (fuel + 1) m k r hr
          cases hb : m.ht_[r]? with
          | none => simp [hb] at h
          | some bucket =>
              cases bucket with
              | some e =>
                  simp only [hb, Option.some.injEq, Prod.mk.injEq] at h
                  obtain ⟨h1, h2⟩ := h
                  subst h1; subst h2
                  refine ⟨hinv, ?_, fun v0 _ => ⟨rfl, rfl⟩⟩
                  intro habs
                  exfalso
                  rcases t2 with ⟨v', hv'⟩ | hvac
                  · exact habs v' ((stored_iff m k v').mpr ⟨r, hv'⟩)
                  · rw [hvac.1] at hb; exact absurd hb (by simp)
              | none =>
                  simp only [hb] at h
                  have habs : ∀ v0, ¬ m.Stored k v0 := by
                    intro v0 hs
                    obtain ⟨i, hi⟩ := (stored_iff m k v0).mp hs
                    have := probe_stored hc m hinv (fuel + 1) k v0 i r hi hr
                    rw [this, hi] at hb
                    exact absurd hb (by simp)
                  cases hf : ProbeForFree hc (fuel + 1) m k with
                  | none => simp [hf] at h
                  | some r' =>
                      simp only [hf] at h
                      obtain ⟨q1, q2, q3⟩ := Inv_insert hc m hinv k v habs (fuel + 1) r' hf
                      simp only [q1, if_true] at h
                      by_cases hload : (m.size_ + 1) * 2 > (m.capacity_ : Int)
                      · simp only [hload, if_true] at h
                        cases hre : RehashWith (Put hc fuel) (fuel + 1)
                            ⟨m.size_ + 1, m.ht_.set r' (some (k, v)), m.lazy_removal_⟩ with
                        | none => simp [hre] at h
                        | some m2 =>
                            simp only [hre, Option.some.injEq, Prod.mk.injEq] at h
                            obtain ⟨h1, h2⟩ := h
                            subst h1; subst h2
                            unfold RehashWith at hre
                            cases hp : GetPrime (fuel + 1) (2 * capacity_
                                ⟨m.size_ + 1, m.ht_.set r' (some (k, v)), m.lazy_removal_⟩) with
                            | none => simp [hp] at hre
                            | some p =>
                                simp only [hp] at hre
                                obtain ⟨f1, f2⟩ := Inv_fresh (K := K) (V := V) hc p
                                obtain ⟨s1, s2, s3⟩ := RehashLoop_spec hc (Put hc fuel)
                                  (fun m k v m' b => ih m k v m' b) _ _ m2 f1 q2.2.2.1
                                  (fun k v _ v0 => f2 k v0) hre
                                refine ⟨s1, fun _ => ⟨rfl, ?_, fun k' v' => ?_⟩,
                                  fun v0 hs => absurd hs (habs v0)⟩
                                · rw [s2, ← q2.1]; simp
                                · rw [s3, ← q3 k' v']
                                  constructor
                                  · rintro (h | h)
                                    · exact absurd h (f2 k' v')
                                    · exact h
                                  · intro h; exact Or.inr h
                      · simp only [hload, if_false, Option.some.injEq, Prod.mk.injEq] at h
                        obtain ⟨h1, h2⟩ := h
                        subst h1; subst h2
                        exact ⟨q2, fun _ => ⟨rfl, rfl, q3⟩, fun v0 hs => absurd hs (habs v0)⟩

/-- `Remove`, when it returns: it returns true exactly for a stored key, which it takes away,
the size dropping by 1; for a key not stored nothing changes. -/
theorem hash_Remove_spec (hc : K → Nat) (fuel : Nat) (m : HashMapDictionary K V) (k : K)
    (m' : HashMapDictionary K V) (b : Bool) (hinv : Inv hc m)
    (h : Remove hc fuel m k = some (m', b)) :
    Inv hc m' ∧ (b = true ↔ ∃ v, m.Stored k v) ∧
      (b = true → m'.size_ = m.size_ - 1 ∧
        ∀ k' v', m'.Stored k' v' ↔ (m.Stored k' v' ∧ k' ≠ k)) ∧
      (b = false → m' = m) := by
  unfold Remove at h
  cases hr : ProbeForHit hc fuel m k with
  | none => simp [hr] at h
  | some r =>
      simp only [hr] at h
      obtain ⟨t, -, t2, -⟩ := ProbeForHit_steps hc fuel m k r hr
      cases hb : m.ht_[r]? with
      | none => simp [hb] at h
      | some bucket =>
          cases bucket with
          | none =>
              simp only [hb, Option.some.injEq, Prod.mk.injEq] at h
              obtain ⟨h1, h2⟩ := h
              subst h1; subst h2
              refine ⟨hinv, ⟨fun h => absurd h (by simp), ?_⟩, fun h => absurd h (by simp),
                fun _ => rfl⟩
              rintro ⟨v, hs⟩
              exfalso
              obtain ⟨i, hi⟩ := (stored_iff m k v).mp hs
              have := probe_stored hc m hinv fuel k v i r hi hr
              rw [this, hi] at hb
              exact absurd hb (by simp)
          | some e =>
              simp only [hb, Option.some.injEq, Prod.mk.injEq] at h
              obtain ⟨h1, h2⟩ := h
              subst h1; subst h2
              have hek : m.ht_[r]? = some (some (k, e.2)) := by
                rcases t2 with ⟨v', hv'⟩ | hvac
                · rw [hb] at hv'
                  injection hv' with hv'; injection hv' with hv'
                  rw [hb, hv']
                · rw [hvac.1] at hb; exact absurd hb (by simp)
              obtain ⟨q1, q2⟩ := Inv_remove hc m hinv k e.2 r hek
              exact ⟨q1, ⟨fun _ => ⟨e.2, (stored_iff m k e.2).mpr ⟨r, hek⟩⟩, fun _ => rfl⟩,
                fun _ => ⟨rfl, q2⟩, fun h => absurd h (by simp)⟩

/-- Every state reachable from the constructor by `Put` and `Remove` satisfies the
invariant. -/
theorem hash_reachable_inv (hc : K → Nat) {m : HashMapDictionary K V}
    (h : HashMapDictionary.Reachable hc m) : Inv hc m := by
  induction h with
  | @new fuel c m he =>
      unfold HashMapDictionary.new at he
      cases hp : GetPrime fuel c with
      | none => simp [hp] at he
      | some p =>
          simp only [hp, Option.some.injEq] at he
          subst he
          exact (Inv_fresh hc p).1
  | @put fuel k v b m m' _ he ih => exact (hash_Put_spec hc fuel m k v m' b ih he).1
  | @remove fuel k b m m' _ he ih => exact (hash_Remove_spec hc fuel m k m' b ih he).1

end

end DSA

namespace DSA
variable {K V : Type} [DecidableEq K]

open HashMapDictionary

/-! ## The claims C21 and C22 -/

theorem yields_of_stored (hc : K → Nat) (m : HashMapDictionary K V) (hinv : Inv hc m) (k : K)
    (v : V) (hs : m.Stored k v) : Yields hc m k v :=
  ⟨hash_Get_total hc m hinv k v hs,
    fun fuel res hg => ((hash_Get_spec hc m hinv fuel k res hg) v).mpr hs⟩

theorem hashAfter_reachable :
    ∀ (ks : List Int) (m : HashMapDictionary Int Int), hashAfter ks = some m →
      HashMapDictionary.Reachable hcInt m := by
  intro ks
  induction ks with
  | nil => intro m h; exact Reachable.new 1 11 h
  | cons k ks ih =>
      intro m h
      rw [hashAfter] at h
      cases h1 : hashAfter ks with
      | none => simp [h1] at h
      | some m1 =>
          simp only [h1] at h
          cases h2 : Put hcInt 3 m1 k (10 * k) with
          | none => simp [h2] at h
          | some res =>
              simp only [h2, Option.some.injEq] at h
              subst h
              exact Reachable.put 3 k (10 * k) res.2 (ih m1 h1) h2

theorem hash5_reachable : HashMapDictionary.Reachable hcInt hash5 :=
  hashAfter_reachable [5, 4, 3, 2, 1] hash5 (by decide)

theorem hash3_reachable : HashMapDictionary.Reachable hcInt hash3 :=
  hashAfter_reachable [23, 12, 1] hash3 (by decide)

/-- C21: in a state of a `HashMapDictionary` reachable from the constructor by `Put` and
`Remove`, whenever `Put(k, v)` returns: if `k` is not stored, it returns true, `GetSize()` has
grown by 1 and `Get(k)` yields `v`; if `k` is stored with `v0`, it returns false, `GetSize()`
is unchanged and `Get(k)` still yields `v0`.  In both cases every other stored key yields
through `Get` the value it had, whether `Put` has called `Rehash` or not. -/
theorem C21_put (hc : K → Nat) (m : HashMapDictionary K V)
    (hr : HashMapDictionary.Reachable hc m) (fuel : Nat) (k : K) (v : V)
    (m' : HashMapDictionary K V) (b : Bool) (hp : Put hc fuel m k v = some (m', b)) :
    ((∀ v0, ¬ m.Stored k v0) → b = true ∧ m'.GetSize = m.GetSize + 1 ∧ Yields hc m' k v) ∧
      (∀ v0, m.Stored k v0 → b = false ∧ m'.GetSize = m.GetSize ∧ Yields hc m' k v0) ∧
      (∀ k' v', k' ≠ k → m.Stored k' v' → Yields hc m k' v' ∧ Yields hc m' k' v') := by
  have hinv := hash_reachable_inv hc hr
  obtain ⟨hinv', h1, h2⟩ := hash_Put_spec hc fuel m k v m' b hinv hp
  refine ⟨?_, ?_, ?_⟩
  · intro habs
    obtain ⟨e1, e2, e3⟩ := h1 habs
    exact ⟨e1, e2, yields_of_stored hc m' hinv' k v ((e3 k v).mpr (Or.inr ⟨rfl, rfl⟩))⟩
  · intro v0 hs
    obtain ⟨e1, e2⟩ := h2 v0 hs
    subst e2
    exact ⟨e1, rfl, yields_of_stored hc m' hinv k v0 hs⟩
  · intro k' v' hne hs
    refine ⟨yields_of_stored hc m hinv k' v' hs, yields_of_stored hc m' hinv' k' v' ?_⟩
    by_cases habs : ∀ v0, ¬ m.Stored k v0
    · exact ((h1 habs).2.2 k' v').mpr (Or.inl hs)
    · simp only [not_forall, not_not] at habs
      obtain ⟨v0, hv0⟩ := habs
      rw [(h2 v0 hv0).2]; exact hs

/-- C21, on an example: with five entries in eleven buckets, `Put(6, 60)` calls `Rehash`,
which makes 23 buckets; `Get` then yields 60 for 6 and 30 for 3. -/
theorem C21_put_witness :
    (HashMapDictionary.Reachable hcInt hash5 ∧
      Put hcInt 3 hash5 6 60 = some (hash6, true) ∧ hash6.capacity_ = 23 ∧
      Get hcInt 2 hash6 6 = some (some 60) ∧ Get hcInt 2 hash6 3 = some (some 30)) ∧
      ((∀ v0, ¬ hash5.Stored 6 v0) →
          true = true ∧ hash6.GetSize = hash5.GetSize + 1 ∧ Yields hcInt hash6 6 60) ∧
        (∀ v0, hash5.Stored 6 v0 →
          true = false ∧ hash6.GetSize = hash5.GetSize ∧ Yields hcInt hash6 6 v0) ∧
        (∀ k' v', k' ≠ 6 → hash5.Stored k' v' →
          Yields hcInt hash5 k' v' ∧ Yields hcInt hash6 k' v') :=
  ⟨⟨hash5_reachable, by decide, by decide, by decide, by decide⟩,
    C21_put hcInt hash5 hash5_reachable 3 6 60 hash6 true (by decide)⟩

/-- C22: in a state of a `HashMapDictionary` reachable from the constructor by `Put` and
`Remove`, whenever `Remove(k)` returns, it returns true exactly when `k` is stored; after a
`Remove(k)` that returned true, `Get(k)` returns null whenever it returns, `GetSize()` has
dropped by 1, and every other stored key, wherever its bucket lies in a probe sequence,
yields through `Get` the value it had. -/
theorem C22_remove (hc : K → Nat) (m : HashMapDictionary K V)
    (hr : HashMapDictionary.Reachable hc m) (fuel : Nat) (k : K)
    (m' : HashMapDictionary K V) (b : Bool) (hp : Remove hc fuel m k = some (m', b)) :
    (b = true ↔ ∃ v, m.Stored k v) ∧
      (b = true → (∀ f res, Get hc f m' k = some res → res = none) ∧
        m'.GetSize = m.GetSize - 1 ∧
        ∀ k' v', k' ≠ k → m.Stored k' v' → Yields hc m k' v' ∧ Yields hc m' k' v') := by
  have hinv := hash_reachable_inv hc hr
  obtain ⟨hinv', h1, h2, -⟩ := hash_Remove_spec hc fuel m k m' b hinv hp
  refine ⟨h1, fun hb => ?_⟩
  obtain ⟨e1, e2⟩ := h2 hb
  refine ⟨?_, e1, ?_⟩
  · intro f res hg
    cases res with
    | none => rfl
    | some v =>
        have := ((hash_Get_spec hc m' hinv' f k (some v) hg) v).mp rfl
        exact absurd rfl ((e2 k v).mp this).2
  · intro k' v' hne hs
    exact ⟨yields_of_stored hc m hinv k' v' hs,
      yields_of_stored hc m' hinv' k' v' ((e2 k' v').mpr ⟨hs, hne⟩)⟩

/-- C22, on an example: 1, 12 and 23 lie in the buckets 1, 2, 3 of one probe sequence; after
`Remove(12)`, `Get(12)` returns null and `Get(23)` still finds 230 past the emptied bucket. -/
theorem C22_remove_witness :
    (HashMapDictionary.Reachable hcInt hash3 ∧
      Remove hcInt 3 hash3 12 = some (hash2, true) ∧
      Get hcInt 4 hash2 12 = some none ∧ Get hcInt 4 hash2 23 = some (some 230)) ∧
      ((true = true ↔ ∃ v, hash3.Stored 12 v) ∧
        (true = true → (∀ f res, Get hcInt f hash2 12 = some res → res = none) ∧
          hash2.GetSize = hash3.GetSize - 1 ∧
          ∀ k' v', k' ≠ 12 → hash3.Stored k' v' →
            Yields hcInt hash3 k' v' ∧ Yields hcInt hash2 k' v')) :=
  ⟨⟨hash3_reachable, by decide, by decide, by decide⟩,
    C22_remove hcInt hash3 hash3_reachable 3 12 hash2 true (by decide)⟩

end DSA

namespace DSA

/-! ## List: the store and the chains -/

section
variable {T : Type}

theorem Store.node_some (s : Store T) (a : Nat) : s.node (some a) = (s[a]?).join := rfl

theorem Store.node_lt {s : Store T} {a : Nat} {n : ListNode T} (h : s.node (some a) = some n) :
    a < s.length := by
  rw [Store.node_some] at h
  by_contra hc
  rw [List.getElem?_eq_none (Nat.le_of_not_lt hc)] at h
  simp at h

theorem Store.node_set_ne (s : Store T) (a c : Nat) (v : Option (ListNode T)) (h : a ≠ c) :
    Store.node (s.set a v) (some c) = s.node (some c) := by
  rw [Store.node_some, Store.node_some, List.getElem?_set_ne h]

theorem Store.node_set_eq (s : Store T) (a : Nat) (v : Option (ListNode T))
    (h : a < s.length) : Store.node (s.set a v) (some a) = v := by
  rw [Store.node_some, List.getElem?_set_self h]; rfl

theorem Store.node_append_left (s t : Store T) (c : Nat) (h : c < s.length) :
    Store.node (s ++ t) (some c) = s.node (some c) := by
  rw [Store.node_some, Store.node_some, List.getElem?_append_left h]

theorem Store.node_append_new (s : Store T) (v : ListNode T) :
    Store.node (s ++ [some v]) (some s.length) = some v := by
  rw [Store.node_some, List.getElem?_append_right (Nat.le_refl _)]
  simp

theorem Store.setSucc_eq {s : Store T} {a : Nat} {n : ListNode T}
    (h : s.node (some a) = some n) (v : Option Nat) :
    s.setSucc (some a) v = some (s.set a (some ⟨n.data_, n.pred_, v⟩)) := by
  simp only [Store.setSucc, h]

theorem Store.setPred_eq {s : Store T} {a : Nat} {n : ListNode T}
    (h : s.node (some a) = some n) (v : Option Nat) :
    s.setPred (some a) v = some (s.set a (some ⟨n.data_, v, n.succ_⟩)) := by
  simp only [Store.setPred, h]

theorem Store.free_eq {s : Store T} {a : Nat} {n : ListNode T}
    (h : s.node (some a) = some n) : s.free (some a) = some (s.set a none) := by
  simp only [Store.free, h]

theorem firstOr_append (xs ys : List (Nat × T)) (next : Option Nat) :
    firstOr (xs ++ ys) next = firstOr xs (firstOr ys next) := by
  cases xs <;> rfl

theorem lastOr_append (xs ys : List (Nat × T)) (prev : Option Nat) :
    lastOr (xs ++ ys) prev = lastOr ys (lastOr xs prev) := by
  induction xs generalizing prev with
  | nil => rfl
  | cons c xs ih => exact ih _

theorem expect_append (xs ys : List (Nat × T)) (prev next : Option Nat) :
    expect prev (xs ++ ys) next
      = expect prev xs (firstOr ys next) ++ expect (lastOr xs prev) ys next := by
  induction xs generalizing prev with
  | nil => rfl
  | cons c xs ih =>
      show (c.1, (⟨c.2, prev, firstOr (xs ++ ys) next⟩ : ListNode T))
            :: expect (some c.1) (xs ++ ys) next = _
      rw [ih, firstOr_append]; rfl

theorem expect_fst (cs : List (Nat × T)) (prev next : Option Nat) :
    (expect prev cs next).map Prod.fst = cs.map Prod.fst := by
  induction cs generalizing prev with
  | nil => rfl
  | cons c cs ih => simp only [expect, List.map_cons, ih]

theorem mem_expect_fst {cs : List (Nat × T)} {prev next : Option Nat}
    {e : Nat × ListNode T} (h : e ∈ expect prev cs next) : e.1 ∈ cs.map Prod.fst := by
  rw [← expect_fst cs prev next]
  exact List.mem_map_of_mem _ h

/-- The node at a cell of a chain. -/
theorem Chain.node_at {s : Store T} {pre post : List (Nat × T)} {c : Nat × T}
    (h : Chain s (pre ++ c :: post)) :
    s.node (some c.1) = some ⟨c.2, lastOr pre none, firstOr post none⟩ := by
  apply h.2 (c.1, ⟨c.2, lastOr pre none, firstOr post none⟩)
  rw [expect_append]
  exact List.mem_append_right _ (List.mem_cons_self _ _)

theorem Chain.lt_length {s : Store T} {cs : List (Nat × T)} (h : Chain s cs) {a : Nat}
    (ha : a ∈ cs.map Prod.fst) : a < s.length := by
  rw [← expect_fst cs none none] at ha
  obtain ⟨e, he, rfl⟩ := List.mem_map.mp ha
  exact Store.node_lt (h.2 e he)

end

section
variable {T : Type}

theorem expect_two (prev next : Option Nat) (pre post : List (Nat × T)) (a b : Nat × T) :
    expect prev (pre ++ a :: b :: post) next
      = expect prev pre (some a.1) ++ (a.1, ⟨a.2, lastOr pre prev, some b.1⟩)
          :: (b.1, ⟨b.2, some a.1, firstOr post next⟩) :: expect (some b.1) post next := by
  rw [expect_append]; rfl

theorem expect_three (prev next : Option Nat) (pre post : List (Nat × T)) (a b c : Nat × T) :
    expect prev (pre ++ a :: b :: c :: post) next
      = expect prev pre (some a.1) ++ (a.1, ⟨a.2, lastOr pre prev, some b.1⟩)
          :: (b.1, ⟨b.2, some a.1, some c.1⟩)
          :: (c.1, ⟨c.2, some b.1, firstOr post next⟩) :: expect (some c.1) post next := by
  rw [expect_append]; rfl

/-- A new node linked in between two neighbours. -/
theorem Chain.insert_between {s s' : Store T} {pre post : List (Nat × T)} {a b : Nat × T}
    (e : T) (h : Chain s (pre ++ a :: b :: post))
    (ha : s'.node (some a.1) = some ⟨a.2, lastOr pre none, some s.length⟩)
    (hn : s'.node (some s.length) = some ⟨e, some a.1, some b.1⟩)
    (hb : s'.node (some b.1) = some ⟨b.2, some s.length, firstOr post none⟩)
    (hf : ∀ c, c ≠ a.1 → c ≠ b.1 → c < s.length → s'.node (some c) = s.node (some c)) :
    Chain s' (pre ++ a :: (s.length, e) :: b :: post) := by
  have hlt : ∀ c ∈ (pre ++ a :: b :: post).map Prod.fst, c < s.length :=
    fun c hc => h.lt_length hc
  have hnd := h.1
  simp only [List.map_append, List.map_cons, List.nodup_append, List.nodup_cons,
    List.mem_cons, List.mem_append, not_or] at hnd hlt
  obtain ⟨hnd1, ⟨⟨hab, hapost⟩, hbpost, hnd2⟩, hdis⟩ := hnd
  have hold := h.2
  rw [expect_two] at hold
  refine ⟨?_, ?_⟩
  · simp only [List.map_append, List.map_cons, List.nodup_append, List.nodup_cons,
      List.mem_cons, List.mem_append, not_or]
    refine ⟨hnd1, ⟨⟨?_, hab, hapost⟩, ⟨?_, ?_⟩, hbpost, hnd2⟩, ?_⟩
    · exact fun hc => absurd (hlt a.1 (Or.inr (Or.inl rfl))) (by rw [hc]; exact lt_irrefl _)
    · exact fun hc => absurd (hlt b.1 (Or.inr (Or.inr (Or.inl rfl))))
        (by rw [← hc]; exact lt_irrefl _)
    · exact fun hc => absurd (hlt _ (Or.inr (Or.inr (Or.inr hc)))) (lt_irrefl _)
    · intro x hx hy
      simp only [List.mem_cons] at hy
      rcases hy with rfl | rfl | hy
      · exact hdis hx (List.mem_cons_self _ _)
      · exact absurd (hlt _ (Or.inl hx)) (lt_irrefl _)
      · exact hdis hx (List.mem_cons_of_mem _ (List.mem_cons.mpr hy))
  · intro x hx
    rw [expect_three] at hx
    simp only [List.mem_append, List.mem_cons] at hx hold
    rcases hx with hx | rfl | rfl | rfl | hx
    · have hm := mem_expect_fst hx
      rw [hf x.1 ?_ ?_ (hlt _ (Or.inl hm))]
      · exact hold x (Or.inl hx)
      · exact fun hc => hdis hm (hc ▸ List.mem_cons_self _ _)
      · exact fun hc => hdis hm (hc ▸ List.mem_cons_of_mem _ (List.mem_cons_self _ _))
    · exact ha
    · exact hn
    · exact hb
    · have hm := mem_expect_fst hx
      rw [hf x.1 ?_ ?_ (hlt _ (Or.inr (Or.inr (Or.inr hm))))]
      · exact hold x (Or.inr (Or.inr (Or.inr hx)))
      · exact fun hc => hapost (hc ▸ hm)
      · exact fun hc => hbpost (hc ▸ hm)

end

section
variable {T : Type}

theorem Chain.node_left {s : Store T} {pre post : List (Nat × T)} {a b : Nat × T}
    (h : Chain s (pre ++ a :: b :: post)) :
    s.node (some a.1) = some ⟨a.2, lastOr pre none, some b.1⟩ :=
  h.node_at

theorem Chain.node_right {s : Store T} {pre post : List (Nat × T)} {a b : Nat × T}
    (h : Chain s (pre ++ a :: b :: post)) :
    s.node (some b.1) = some ⟨b.2, some a.1, firstOr post none⟩ := by
  apply h.2 (b.1, ⟨b.2, some a.1, firstOr post none⟩)
  rw [expect_two]
  exact List.mem_append_right _ (List.mem_cons_of_mem _ (List.mem_cons_self _ _))

theorem Chain.ne_adjacent {s : Store T} {pre post : List (Nat × T)} {a b : Nat × T}
    (h : Chain s (pre ++ a :: b :: post)) : a.1 ≠ b.1 := by
  have hnd := h.1
  simp only [List.map_append, List.map_cons, List.nodup_append, List.nodup_cons,
    List.mem_cons, not_or] at hnd
  exact hnd.2.1.1.1

/-- A node unlinked from between its two neighbours. -/
theorem Chain.remove_between {s s' : Store T} {pre post : List (Nat × T)} {a b c : Nat × T}
    (h : Chain s (pre ++ a :: b :: c :: post))
    (ha : s'.node (some a.1) = some ⟨a.2, lastOr pre none, some c.1⟩)
    (hc : s'.node (some c.1) = some ⟨c.2, some a.1, firstOr post none⟩)
    (hf : ∀ d, d ≠ a.1 → d ≠ b.1 → d ≠ c.1 → s'.node (some d) = s.node (some d)) :
    Chain s' (pre ++ a :: c :: post) := by
  have hnd := h.1
  simp only [List.map_append, List.map_cons, List.nodup_append, List.nodup_cons,
    List.mem_cons, List.mem_append, not_or] at hnd
  obtain ⟨hnd1, ⟨⟨hab, hac, hapost⟩, ⟨hbc, hbpost⟩, hcpost, hnd2⟩, hdis⟩ := hnd
  have hold := h.2
  rw [expect_three] at hold
  refine ⟨?_, ?_⟩
  · simp only [List.map_append, List.map_cons, List.nodup_append, List.nodup_cons,
      List.mem_cons, List.mem_append, not_or]
    refine ⟨hnd1, ⟨⟨hac, hapost⟩, hcpost, hnd2⟩, ?_⟩
    intro x hx hy
    simp only [List.mem_cons] at hy
    rcases hy with rfl | rfl | hy
    · exact hdis hx (List.mem_cons_self _ _)
    · exact hdis hx (List.mem_cons_of_mem _ (List.mem_cons_of_mem _ (List.mem_cons_self _ _)))
    · exact hdis hx (List.mem_cons_of_mem _ (List.mem_cons_of_mem _
        (List.mem_cons_of_mem _ hy)))
  · intro x hx
    rw [expect_two] at hx
    simp only [List.mem_append, List.mem_cons] at hx hold
    rcases hx with hx | rfl | rfl | hx
    · have hm := mem_expect_fst hx
      rw [hf x.1 ?_ ?_ ?_]
      · exact hold x (Or.inl hx)
      · exact fun hc => hdis hm (hc ▸ List.mem_cons_self _ _)
      · exact fun hc => hdis hm (hc ▸ List.mem_cons_of_mem _ (List.mem_cons_self _ _))
      · exact fun hc => hdis hm (hc ▸ List.mem_cons_of_mem _
          (List.mem_cons_of_mem _ (List.mem_cons_self _ _)))
    · exact ha
    · exact hc
    · have hm := mem_expect_fst hx
      rw [hf x.1 ?_ ?_ ?_]
      · exact hold x (Or.inr (Or.inr (Or.inr (Or.inr hx))))
      · exact fun hc => hapost (hc ▸ hm)
      · exact fun hc => hbpost (hc ▸ hm)
      · exact fun hc => hcpost (hc ▸ hm)

end

section
variable {T : Type}

theorem ListNode.InsertAsPred_spec {s : Store T} {pre post : List (Nat × T)} {a b : Nat × T}
    (e : T) (h : Chain s (pre ++ a :: b :: post)) :
    ∃ s', ListNode.InsertAsPred s (some b.1) e = some (s', some s.length) ∧
      Chain s' (pre ++ a :: (s.length, e) :: b :: post) ∧ s'.length = s.length + 1 := by
  have hna := h.node_left
  have hnb := h.node_right
  have hab := h.ne_adjacent
  have hal := Store.node_lt hna
  have hbl := Store.node_lt hnb
  have h1a : Store.node (s ++ [some (ListNode.mk e (some a.1) (some b.1))]) (some a.1)
      = some ⟨a.2, lastOr pre none, some b.1⟩ := by
    rw [Store.node_append_left _ _ _ hal]; exact hna
  have h1b : Store.node (s ++ [some (ListNode.mk e (some a.1) (some b.1))]) (some b.1)
      = some ⟨b.2, some a.1, firstOr post none⟩ := by
    rw [Store.node_append_left _ _ _ hbl]; exact hnb
  have h2b : Store.node ((s ++ [some (ListNode.mk e (some a.1) (some b.1))]).set a.1
      (some (ListNode.mk a.2 (lastOr pre none) (some s.length)))) (some b.1)
      = some ⟨b.2, some a.1, firstOr post none⟩ := by
    rw [Store.node_set_ne _ _ _ _ hab]; exact h1b
  refine ⟨((s ++ [some (ListNode.mk e (some a.1) (some b.1))]).set a.1
      (some (ListNode.mk a.2 (lastOr pre none) (some s.length)))).set b.1
      (some (ListNode.mk b.2 (some s.length) (firstOr post none))), ?_, ?_, ?_⟩
  · simp only [ListNode.InsertAsPred, hnb, Store.alloc, Option.bind_eq_bind, Option.some_bind,
      Store.setSucc_eq h1a, Store.setPred_eq h2b]
  · apply Chain.insert_between e h
    · rw [Store.node_set_ne _ _ _ _ (Ne.symm hab), Store.node_set_eq]
      simp only [List.length_append, List.length_singleton]; omega
    · rw [Store.node_set_ne _ _ _ _ (Nat.ne_of_lt hbl), Store.node_set_ne _ _ _ _
        (Nat.ne_of_lt hal), Store.node_append_new]
    · rw [Store.node_set_eq]
      simp only [List.length_set, List.length_append, List.length_singleton]; omega
    · intro c hca hcb hcl
      rw [Store.node_set_ne _ _ _ _ (Ne.symm hcb), Store.node_set_ne _ _ _ _ (Ne.symm hca),
        Store.node_append_left _ _ _ hcl]
  · simp only [List.length_set, List.length_append, List.length_singleton]

theorem ListNode.InsertAsSucc_spec {s : Store T} {pre post : List (Nat × T)} {a b : Nat × T}
    (e : T) (h : Chain s (pre ++ a :: b :: post)) :
    ∃ s', ListNode.InsertAsSucc s (some a.1) e = some (s', some s.length) ∧
      Chain s' (pre ++ a :: (s.length, e) :: b :: post) ∧ s'.length = s.length + 1 := by
  have hna := h.node_left
  have hnb := h.node_right
  have hab := h.ne_adjacent
  have hal := Store.node_lt hna
  have hbl := Store.node_lt hnb
  have h1a : Store.node (s ++ [some (ListNode.mk e (some a.1) (some b.1))]) (some a.1)
      = some ⟨a.2, lastOr pre none, some b.1⟩ := by
    rw [Store.node_append_left _ _ _ hal]; exact hna
  have h1b : Store.node (s ++ [some (ListNode.mk e (some a.1) (some b.1))]) (some b.1)
      = some ⟨b.2, some a.1, firstOr post none⟩ := by
    rw [Store.node_append_left _ _ _ hbl]; exact hnb
  have h2a : Store.node ((s ++ [some (ListNode.mk e (some a.1) (some b.1))]).set b.1
      (some (ListNode.mk b.2 (some s.length) (firstOr post none)))) (some a.1)
      = some ⟨a.2, lastOr pre none, some b.1⟩ := by
    rw [Store.node_set_ne _ _ _ _ (Ne.symm hab)]; exact h1a
  refine ⟨((s ++ [some (ListNode.mk e (some a.1) (some b.1))]).set b.1
      (some (ListNode.mk b.2 (some s.length) (firstOr post none)))).set a.1
      (some (ListNode.mk a.2 (lastOr pre none) (some s.length))), ?_, ?_, ?_⟩
  · simp only [ListNode.InsertAsSucc, hna, Store.alloc, Option.bind_eq_bind, Option.some_bind,
      Store.setPred_eq h1b, Store.setSucc_eq h2a]
  · apply Chain.insert_between e h
    · rw [Store.node_set_eq]
      simp only [List.length_set, List.length_append, List.length_singleton]; omega
    · rw [Store.node_set_ne _ _ _ _ (Nat.ne_of_lt hal), Store.node_set_ne _ _ _ _
        (Nat.ne_of_lt hbl), Store.node_append_new]
    · rw [Store.node_set_ne _ _ _ _ hab, Store.node_set_eq]
      simp only [List.length_append, List.length_singleton]; omega
    · intro c hca hcb hcl
      rw [Store.node_set_ne _ _ _ _ (Ne.symm hca), Store.node_set_ne _ _ _ _ (Ne.symm hcb),
        Store.node_append_left _ _ _ hcl]
  · simp only [List.length_set, List.length_append, List.length_singleton]

end

section
variable {T : Type}

theorem Chain.not_mem_tail {s : Store T} {pre rest : List (Nat × T)} {c : Nat × T}
    (h : Chain s (pre ++ c :: rest)) : c.1 ∉ rest.map Prod.fst := by
  have hnd := h.1
  simp only [List.map_append, List.map_cons, List.nodup_append, List.nodup_cons] at hnd
  exact hnd.2.1.1

theorem Chain.not_mem_init {s : Store T} {pre rest : List (Nat × T)} {c : Nat × T}
    (h : Chain s (pre ++ c :: rest)) : c.1 ∉ pre.map Prod.fst := by
  have hnd := h.1
  simp only [List.map_append, List.map_cons, List.nodup_append, List.nodup_cons] at hnd
  exact fun hc => hnd.2.2 hc (List.mem_cons_self _ _)

theorem exists_snoc (x : Nat × T) (l : List (Nat × T)) : ∃ pre a, x :: l = pre ++ [a] := by
  induction l generalizing x with
  | nil => exact ⟨[], x, rfl⟩
  | cons y l ih =>
      obtain ⟨pre, a, h⟩ := ih y
      exact ⟨x :: pre, a, by rw [h]; rfl⟩

theorem lastOr_snoc (pre : List (Nat × T)) (a : Nat × T) (prev : Option Nat) :
    lastOr (pre ++ [a]) prev = some a.1 := by
  rw [lastOr_append]; rfl

namespace LinkedList

theorem InsertBefore_spec {s : Store T} (L : LinkedList) {P Q : List (Nat × T)}
    {c : Nat × T} (e : T) (hP : P ≠ []) (h : Chain s (P ++ c :: Q)) :
    ∃ s', InsertBefore s L (some c.1) e
        = some (s', ⟨L.size_ + 1, L.header_, L.trailer_⟩, some s.length) ∧
      Chain s' (P ++ (s.length, e) :: c :: Q) ∧ s'.length = s.length + 1 := by
  cases P with
  | nil => exact absurd rfl hP
  | cons x l =>
      obtain ⟨pre, a, hpa⟩ := exists_snoc x l
      rw [hpa, List.append_assoc] at h ⊢
      obtain ⟨s', h1, h2, h3⟩ := ListNode.InsertAsPred_spec e h
      exact ⟨s', by simp only [InsertBefore, h1, Option.bind_eq_bind, Option.some_bind],
        h2, h3⟩

theorem InsertAfter_spec {s : Store T} (L : LinkedList) {pre post : List (Nat × T)}
    {a : Nat × T} (e : T) (hQ : post ≠ []) (h : Chain s (pre ++ a :: post)) :
    ∃ s', InsertAfter s L (some a.1) e
        = some (s', ⟨L.size_ + 1, L.header_, L.trailer_⟩, some s.length) ∧
      Chain s' (pre ++ a :: (s.length, e) :: post) ∧ s'.length = s.length + 1 := by
  cases post with
  | nil => exact absurd rfl hQ
  | cons b post =>
      obtain ⟨s', h1, h2, h3⟩ := ListNode.InsertAsSucc_spec e h
      exact ⟨s', by simp only [InsertAfter, h1, Option.bind_eq_bind, Option.some_bind],
        h2, h3⟩

theorem IsValidLoop_true {s : Store T} (L : LinkedList) {b : Nat × T} {post : List (Nat × T)}
    {t : Nat} (ht : L.trailer_ = some t) (htm : t ∈ post.map Prod.fst) :
    ∀ (mid pre : List (Nat × T)) (fuel : Nat), Chain s (pre ++ mid ++ b :: post) →
      mid.length < fuel →
      IsValidLoop s L (some b.1) fuel (firstOr (mid ++ b :: post) none) = some true := by
  intro mid
  induction mid with
  | nil =>
      intro pre fuel h hf
      cases fuel with
      | zero => exact absurd hf (Nat.not_lt_zero _)
      | succ fuel =>
          have hne : b.1 ≠ t := fun hc => h.not_mem_tail (hc ▸ htm)
          simp only [List.nil_append, firstOr, IsValidLoop, ht, Option.some.injEq, hne,
            if_false, if_true]
  | cons c mid ih =>
      intro pre fuel h hf
      cases fuel with
      | zero => exact absurd hf (Nat.not_lt_zero _)
      | succ fuel =>
          have h0 : Chain s (pre ++ c :: (mid ++ b :: post)) := by
            simpa only [List.append_assoc, List.cons_append] using h
          have hnm := h0.not_mem_tail
          simp only [List.map_append, List.map_cons, List.mem_append, List.mem_cons,
            not_or] at hnm
          have hct : c.1 ≠ t := fun hc => hnm.2.2 (hc ▸ htm)
          have hcb : c.1 ≠ b.1 := hnm.2.1
          have h' : Chain s ((pre ++ [c]) ++ mid ++ b :: post) := by
            simpa only [List.append_assoc, List.singleton_append, List.cons_append] using h
          have hn : s.node (some c.1)
              = some ⟨c.2, lastOr pre none, firstOr (mid ++ b :: post) none⟩ := h0.node_at
          simp only [List.cons_append, firstOr, IsValidLoop, ht, Option.some.injEq, hct, hcb,
            if_false, hn, Option.bind_eq_bind, Option.some_bind]
          exact ih (pre ++ [c]) fuel h' (Nat.lt_of_succ_lt_succ hf)

end LinkedList
end

section
variable {T : Type}

namespace LinkedList

theorem IsValid_true {s : Store T} (L : LinkedList) {H b : Nat × T}
    {mid post : List (Nat × T)} {t : Nat} (fuel : Nat) (hh : L.header_ = some H.1)
    (ht : L.trailer_ = some t) (htm : t ∈ post.map Prod.fst)
    (h : Chain s (H :: mid ++ b :: post)) (hf : mid.length < fuel) :
    IsValid fuel s L (some b.1) = some true := by
  have hn : s.node (some H.1) = some ⟨H.2, none, firstOr (mid ++ b :: post) none⟩ :=
    @Chain.node_at T s [] (mid ++ b :: post) H (by simpa using h)
  simp only [IsValid, hh, hn, Option.bind_eq_bind, Option.some_bind]
  exact IsValidLoop_true L ht htm mid [H] fuel (by simpa using h) hf

theorem Remove_core {s : Store T} (L : LinkedList) {pre post : List (Nat × T)}
    {a b c : Nat × T} (fuel : Nat) (hv : IsValid fuel s L (some b.1) = some true)
    (h : Chain s (pre ++ a :: b :: c :: post)) :
    ∃ s', Remove fuel s L (some b.1) = some (s', ⟨L.size_ - 1, L.header_, L.trailer_⟩, b.2) ∧
      Chain s' (pre ++ a :: c :: post) ∧ s'.length = s.length := by
  have hna : s.node (some a.1) = some ⟨a.2, lastOr pre none, some b.1⟩ := h.node_left
  have hnb : s.node (some b.1) = some ⟨b.2, some a.1, some c.1⟩ := h.node_right
  have h2 : Chain s ((pre ++ [a]) ++ b :: c :: post) := by
    simpa only [List.append_assoc, List.singleton_append] using h
  have hnc : s.node (some c.1) = some ⟨c.2, some b.1, firstOr post none⟩ := h2.node_right
  have hab : a.1 ≠ b.1 := h.ne_adjacent
  have hbc : b.1 ≠ c.1 := h2.ne_adjacent
  have hac : a.1 ≠ c.1 := by
    have := h.not_mem_tail
    simp only [List.map_cons, List.mem_cons, not_or] at this
    exact this.2.1
  have hal := Store.node_lt hna
  have hbl := Store.node_lt hnb
  have hcl := Store.node_lt hnc
  have h1b : Store.node (s.set a.1 (some (ListNode.mk a.2 (lastOr pre none) (some c.1))))
      (some b.1) = some ⟨b.2, some a.1, some c.1⟩ := by
    rw [Store.node_set_ne _ _ _ _ hab]; exact hnb
  have h1c : Store.node (s.set a.1 (some (ListNode.mk a.2 (lastOr pre none) (some c.1))))
      (some c.1) = some ⟨c.2, some b.1, firstOr post none⟩ := by
    rw [Store.node_set_ne _ _ _ _ hac]; exact hnc
  have h2b : Store.node ((s.set a.1 (some (ListNode.mk a.2 (lastOr pre none) (some c.1)))).set
      c.1 (some (ListNode.mk c.2 (some a.1) (firstOr post none))))
      (some b.1) = some ⟨b.2, some a.1, some c.1⟩ := by
    rw [Store.node_set_ne _ _ _ _ (Ne.symm hbc)]; exact h1b
  refine ⟨(((s.set a.1 (some (ListNode.mk a.2 (lastOr pre none) (some c.1)))).set
      c.1 (some (ListNode.mk c.2 (some a.1) (firstOr post none)))).set b.1 none), ?_, ?_, ?_⟩
  · simp only [Remove, hv, hnb, Option.bind_eq_bind, Option.some_bind, Store.setSucc_eq hna,
      h1b, Store.setPred_eq h1c, Store.free_eq h2b, Bool.true_eq_false, if_false]
  · apply Chain.remove_between h
    · rw [Store.node_set_ne _ _ _ _ (Ne.symm hab), Store.node_set_ne _ _ _ _ (Ne.symm hac),
        Store.node_set_eq _ _ _ hal]
    · rw [Store.node_set_ne _ _ _ _ hbc, Store.node_set_eq]
      simp only [List.length_set]; exact hcl
    · intro d hda hdb hdc
      rw [Store.node_set_ne _ _ _ _ (Ne.symm hdb), Store.node_set_ne _ _ _ _ (Ne.symm hdc),
        Store.node_set_ne _ _ _ _ (Ne.symm hda)]
  · simp only [List.length_set]

theorem Remove_spec {s : Store T} (L : LinkedList) {H b : Nat × T}
    {M Q : List (Nat × T)} {t : Nat} (fuel : Nat) (hh : L.header_ = some H.1)
    (ht : L.trailer_ = some t) (htm : t ∈ Q.map Prod.fst)
    (h : Chain s (H :: M ++ b :: Q)) (hf : M.length < fuel) :
    ∃ s', Remove fuel s L (some b.1) = some (s', ⟨L.size_ - 1, L.header_, L.trailer_⟩, b.2) ∧
      Chain s' (H :: M ++ Q) ∧ s'.length = s.length := by
  have hv := IsValid_true L fuel hh ht htm h hf
  cases Q with
  | nil => simp at htm
  | cons c Q =>
      obtain ⟨pre, a, hpa⟩ := exists_snoc H M
      have e1 : H :: M ++ b :: c :: Q = pre ++ a :: b :: c :: Q := by
        rw [hpa, List.append_assoc]; rfl
      have e2 : H :: M ++ c :: Q = pre ++ a :: c :: Q := by
        rw [hpa, List.append_assoc]; rfl
      rw [e1] at h
      rw [e2]
      exact Remove_core L fuel hv h

end LinkedList
end

end DSA

namespace DSA

/-! ## List: InsertionSort -/

section
variable {T : Type}

theorem eq_nil_or_snoc (l : List (Nat × T)) : l = [] ∨ ∃ pre a, l = pre ++ [a] := by
  cases l with
  | nil => exact Or.inl rfl
  | cons x l => exact Or.inr (exists_snoc x l)

/-- The node at the first cell of the second part of a chain. -/
theorem Chain.node_first {s : Store T} {P Q : List (Nat × T)} {c : Nat × T}
    (h : Chain s (P ++ c :: Q)) :
    s.node (firstOr (c :: Q) none) = some ⟨c.2, lastOr P none, firstOr Q none⟩ :=
  h.node_at

namespace LinkedList

theorem InsertAfter_last {s : Store T} (L : LinkedList) {P Q : List (Nat × T)} (e : T)
    (hP : P ≠ []) (hQ : Q ≠ []) (h : Chain s (P ++ Q)) :
    ∃ s', InsertAfter s L (lastOr P none) e
        = some (s', ⟨L.size_ + 1, L.header_, L.trailer_⟩, some s.length) ∧
      Chain s' (P ++ (s.length, e) :: Q) ∧ s'.length = s.length + 1 := by
  cases P with
  | nil => exact absurd rfl hP
  | cons x l =>
      obtain ⟨pre, a, hpa⟩ := exists_snoc x l
      rw [hpa, List.append_assoc] at h ⊢
      rw [lastOr_snoc]
      exact InsertAfter_spec L e hQ h

end LinkedList
end

section
variable {T : Type} [LinearOrder T]

namespace LinkedList

theorem SearchLoop_succ (s : Store T) (e : T) (k : Nat) (p : Option Nat) :
    SearchLoop s e (k + 1) p = (s.node p).bind (fun n => (s.node n.pred_).bind (fun m =>
      if m.data_ ≤ e then some n.pred_ else SearchLoop s e k n.pred_)) := rfl

theorem SearchLoop_spec {s : Store T} (e : T) :
    ∀ (S pre : List (Nat × T)) (h0 c : Nat × T) (post : List (Nat × T)),
      Chain s (pre ++ h0 :: (S ++ c :: post)) →
      ∃ S1 S2, S = S1 ++ S2 ∧ (∀ y ∈ S2, ¬ y.2 ≤ e) ∧
        SearchLoop s e (S.length + 1) (some c.1) = some (lastOr S1 (some h0.1)) ∧
        ∀ S1' a, S1 = S1' ++ [a] → a.2 ≤ e := by
  intro S
  induction S using List.reverseRecOn with
  | nil =>
      intro pre h0 c post h
      have hc : s.node (some c.1) = some ⟨c.2, some h0.1, firstOr post none⟩ :=
        Chain.node_right (by simpa using h)
      have hh : s.node (some h0.1) = some ⟨h0.2, lastOr pre none, some c.1⟩ :=
        Chain.node_left (by simpa using h)
      refine ⟨[], [], rfl, by simp, ?_, ?_⟩
      · simp only [List.length_nil, Nat.zero_add, SearchLoop, hc, hh, Option.bind_eq_bind,
          Option.some_bind, lastOr, ite_self]
      · intro S1' a h1
        simp at h1
  | append_singleton S a ih =>
      intro pre h0 c post h
      have h1 : Chain s ((pre ++ h0 :: S) ++ a :: c :: post) := by
        simpa only [List.append_assoc, List.cons_append, List.nil_append] using h
      have hc : s.node (some c.1) = some ⟨c.2, some a.1, firstOr post none⟩ := h1.node_right
      have ha : s.node (some a.1) = some ⟨a.2, lastOr (pre ++ h0 :: S) none, some c.1⟩ :=
        h1.node_left
      by_cases hle : a.2 ≤ e
      · refine ⟨S ++ [a], [], by simp, by simp, ?_, ?_⟩
        · rw [SearchLoop_succ]
          simp only [hc, ha, Option.some_bind, hle, if_true, lastOr_snoc]
        · intro S1' a' h2
          obtain ⟨-, h3⟩ := List.append_inj' h2 rfl
          rw [← List.singleton_inj.mp h3]; exact hle
      · obtain ⟨S1, S2, hS, h2, h3, h4⟩ := ih pre h0 a (c :: post)
          (by simpa only [List.append_assoc, List.cons_append, List.nil_append] using h)
        refine ⟨S1, S2 ++ [a], by rw [hS, List.append_assoc], ?_, ?_, h4⟩
        · intro y hy
          rcases List.mem_append.mp hy with hy | hy
          · exact h2 y hy
          · rw [List.mem_singleton.mp hy]; exact hle
        · rw [SearchLoop_succ]
          simp only [hc, ha, Option.some_bind, hle, if_false, List.length_append,
            List.length_singleton]
          exact h3

end LinkedList
end

section
variable {T : Type} [LinearOrder T]

namespace LinkedList

theorem InsertionLoop_succ (fuel r i : Nat) (s : Store T) (L : LinkedList) (p : Option Nat) :
    InsertionLoop fuel (r + 1) i s L p
      = (s.node p).bind (fun n => (Search s n.data_ (i : Int) p).bind (fun q =>
          (InsertAfter s L q n.data_).bind (fun r1 => (r1.1.node p).bind (fun n1 =>
            (r1.1.node n1.succ_).bind (fun n2 => (Remove fuel r1.1 r1.2.1 n2.pred_).bind
              (fun r2 => InsertionLoop fuel r (i + 1) r2.1 r2.2.1 n1.succ_)))))) := rfl

theorem sorted_insert_mid {S1 S2 : List (Nat × T)} {e : T} (n : Nat)
    (hS : ((S1 ++ S2).map Prod.snd).Sorted (· ≤ ·)) (h2 : ∀ y ∈ S2, ¬ y.2 ≤ e)
    (h4 : ∀ S1' a, S1 = S1' ++ [a] → a.2 ≤ e) :
    ((S1 ++ (n, e) :: S2).map Prod.snd).Sorted (· ≤ ·) := by
  simp only [List.Sorted, List.pairwise_map, List.pairwise_append, List.pairwise_cons,
    List.mem_cons] at hS ⊢
  obtain ⟨hS1, hS2, hS12⟩ := hS
  have hle : ∀ x ∈ S1, x.2 ≤ e := by
    intro x hx
    rcases eq_nil_or_snoc S1 with h | ⟨S1', l, h⟩
    · rw [h] at hx; simp at hx
    · have hl := h4 S1' l h
      rw [h] at hx hS1
      rcases List.mem_append.mp hx with hx | hx
      · simp only [List.pairwise_append, List.mem_singleton] at hS1
        exact le_trans (hS1.2.2 x hx l rfl) hl
      · rw [List.mem_singleton.mp hx]; exact hl
  refine ⟨hS1, ⟨?_, hS2⟩, ?_⟩
  · intro y hy
    exact le_of_lt (lt_of_not_le (h2 y hy))
  · intro x hx y hy
    rcases hy with rfl | hy
    · exact hle x hx
    · exact hS12 x hx y hy

end LinkedList
end

section
variable {T : Type} [LinearOrder T]

namespace LinkedList

theorem InsertionLoop_spec (fuel : Nat) :
    ∀ (r i : Nat) (s : Store T) (L : LinkedList) (H E : Nat × T) (S U : List (Nat × T)),
      Chain s (H :: (S ++ (U ++ [E]))) → L.header_ = some H.1 → L.trailer_ = some E.1 →
      S.length = i → U.length = r → (S.map Prod.snd).Sorted (· ≤ ·) →
      S.length + U.length < fuel →
      ∃ s' L' S', InsertionLoop fuel r i s L (firstOr (U ++ [E]) none) = some (s', L') ∧
        Chain s' (H :: (S' ++ [E])) ∧ L'.size_ = L.size_ ∧ L'.header_ = L.header_ ∧
        L'.trailer_ = L.trailer_ ∧ (S'.map Prod.snd).Sorted (· ≤ ·) ∧
        (S'.map Prod.snd).Perm ((S ++ U).map Prod.snd) := by
  intro r
  induction r with
  | zero =>
      intro i s L H E S U h hh ht hi hr hS hf
      have hU : U = [] := List.length_eq_zero.mp hr
      subst hU
      exact ⟨s, L, S, rfl, by simpa using h, rfl, rfl, rfl, hS, by simp⟩
  | succ r ih =>
      intro i s L H E S U h hh ht hi hr hS hf
      cases U with
      | nil => simp at hr
      | cons u U =>
      have hlen : U.length = r := by simpa using hr
      have hu : s.node (some u.1)
          = some ⟨u.2, lastOr (H :: S) none, firstOr (U ++ [E]) none⟩ :=
        @Chain.node_at T s (H :: S) (U ++ [E]) u (by simpa using h)
      obtain ⟨S1, S2, hS12, h2, h3, h4⟩ := SearchLoop_spec u.2 S [] H u (U ++ [E])
        (by simpa using h)
      have hsearch : Search s u.2 (i : Int) (some u.1) = some (lastOr (H :: S1) none) := by
        have e1 : ((i : Int) + 1).toNat = S.length + 1 := by omega
        rw [Search, e1, h3]; rfl
      obtain ⟨s1, hins, hc1, hl1⟩ := InsertAfter_last L (P := H :: S1)
        (Q := S2 ++ u :: (U ++ [E])) u.2 (by simp) (by simp)
        (by rw [hS12] at h; simpa using h)
      have hu1 : s1.node (some u.1) = some ⟨u.2,
          lastOr ((H :: S1) ++ (s.length, u.2) :: S2) none, firstOr (U ++ [E]) none⟩ :=
        @Chain.node_at T s1 ((H :: S1) ++ (s.length, u.2) :: S2) (U ++ [E]) u
          (by simpa using hc1)
      obtain ⟨c, Q, hcQ⟩ : ∃ c Q, U ++ [E] = c :: Q := by
        cases U with
        | nil => exact ⟨E, [], rfl⟩
        | cons c U => exact ⟨c, U ++ [E], rfl⟩
      have hn2 : s1.node (firstOr (U ++ [E]) none) = some ⟨c.2, some u.1, firstOr Q none⟩ := by
        have := @Chain.node_first T s1 ((H :: S1) ++ (s.length, u.2) :: S2 ++ [u]) Q c
          (by rw [← hcQ]; simpa using hc1)
        rw [hcQ, this, lastOr_snoc]
      obtain ⟨s2, hrem, hc2, -⟩ := Remove_spec (⟨L.size_ + 1, L.header_, L.trailer_⟩)
        (H := H) (b := u) (M := S1 ++ (s.length, u.2) :: S2) (Q := U ++ [E]) (t := E.1)
        fuel hh ht (by simp) (by simpa using hc1)
        (by rw [hS12] at hf; simp at hf ⊢; omega)
      obtain ⟨s', L', S', hloop, hc', hsz, hhd, htl, hsort, hperm⟩ :=
        ih (i + 1) s2 ⟨L.size_ + 1 - 1, L.header_, L.trailer_⟩ H E
          (S1 ++ (s.length, u.2) :: S2) U (by simpa using hc2) hh ht
          (by rw [hS12] at hi; simp at hi ⊢; omega) hlen
          (sorted_insert_mid s.length (hS12 ▸ hS) h2 h4)
          (by rw [hS12] at hf; simp at hf ⊢; omega)
      refine ⟨s', L', S', ?_, hc', ?_, hhd, htl, hsort, ?_⟩
      · show InsertionLoop fuel (r + 1) i s L (some u.1) = _
        rw [InsertionLoop_succ]
        simp only [hu, Option.some_bind, hsearch, hins, hu1, hn2, hrem]
        exact hloop
      · rw [hsz]; show L.size_ + 1 - 1 = L.size_; omega
      · refine hperm.trans ?_
        rw [hS12]
        simp only [List.map_append, List.map_cons, List.append_assoc]
        refine List.Perm.append_left _ ?_
        exact List.perm_middle.symm

end LinkedList
end

section
variable {T : Type} [LinearOrder T]

namespace LinkedList

theorem InsertionSort_spec (fuel : Nat) (s : Store T) (L : LinkedList) (H E : Nat × T)
    (B : List (Nat × T)) (h : Chain s (H :: (B ++ [E]))) (hh : L.header_ = some H.1)
    (ht : L.trailer_ = some E.1) (hs : L.size_ = (B.length : Int)) (hf : B.length < fuel) :
    ∃ s' L' B', InsertionSort fuel s L (firstOr (B ++ [E]) none) L.GetSize = some (s', L') ∧
      Chain s' (H :: (B' ++ [E])) ∧ L'.size_ = L.size_ ∧ L'.header_ = L.header_ ∧
      L'.trailer_ = L.trailer_ ∧ (B'.map Prod.snd).Sorted (· ≤ ·) ∧
      (B'.map Prod.snd).Perm (B.map Prod.snd) := by
  obtain ⟨s', L', B', h1, h2, h3, h4, h5, h6, h7⟩ :=
    InsertionLoop_spec fuel B.length 0 s L H E [] B (by simpa using h) hh ht rfl rfl
      (by simp) (by simpa using hf)
  refine ⟨s', L', B', ?_, h2, h3, h4, h5, h6, by simpa using h7⟩
  rw [InsertionSort, GetSize, hs, Int.toNat_ofNat]
  exact h1

end LinkedList
end

end DSA

namespace DSA

/-! ## List: SelectionSort -/

section
variable {T : Type}

namespace LinkedList

theorem advance_spec {s : Store T} :
    ∀ (W pre post : List (Nat × T)), Chain s (pre ++ (W ++ post)) →
      advance s W.length (firstOr (W ++ post) none) = some (firstOr post none) := by
  intro W
  induction W with
  | nil => intro pre post _; rfl
  | cons w W ih =>
      intro pre post h
      have hw : s.node (some w.1) = some ⟨w.2, lastOr pre none, firstOr (W ++ post) none⟩ :=
        @Chain.node_at T s pre (W ++ post) w (by simpa using h)
      simp only [List.cons_append, firstOr, List.length_cons, advance, hw,
        Option.bind_eq_bind, Option.some_bind]
      exact ih (pre ++ [w]) post (by simpa using h)

end LinkedList
end

section
variable {T : Type} [LinearOrder T]

namespace LinkedList

theorem SelectMaxLoop_succ (s : Store T) (k : Nat) (max q : Option Nat) :
    SelectMaxLoop s (k + 1) max q
      = (s.node q).bind (fun nq => (s.node max).bind (fun nm =>
          SelectMaxLoop s k (if nm.data_ ≤ nq.data_ then q else max) nq.succ_)) := rfl

theorem SelectMaxLoop_spec {s : Store T} :
    ∀ (W pre U1 : List (Nat × T)) (mx : Nat × T) (M post : List (Nat × T)),
      Chain s (pre ++ (U1 ++ mx :: (M ++ (W ++ post)))) →
      (∀ y ∈ U1, y.2 ≤ mx.2) → (∀ y ∈ M, y.2 ≤ mx.2) →
      ∃ U1' mx' U2', U1 ++ mx :: (M ++ W) = U1' ++ mx' :: U2' ∧
        (∀ y ∈ U1', y.2 ≤ mx'.2) ∧ (∀ y ∈ U2', y.2 ≤ mx'.2) ∧
        SelectMaxLoop s W.length (some mx.1) (firstOr (W ++ post) none) = some (some mx'.1) := by
  intro W
  induction W with
  | nil =>
      intro pre U1 mx M post _ h1 h2
      exact ⟨U1, mx, M, by simp, h1, h2, rfl⟩
  | cons w W ih =>
      intro pre U1 mx M post h h1 h2
      have hw : s.node (some w.1)
          = some ⟨w.2, lastOr (pre ++ (U1 ++ mx :: M)) none, firstOr (W ++ post) none⟩ :=
        @Chain.node_at T s (pre ++ (U1 ++ mx :: M)) (W ++ post) w (by simpa using h)
      have hm : s.node (some mx.1)
          = some ⟨mx.2, lastOr (pre ++ U1) none, firstOr (M ++ (w :: W ++ post)) none⟩ :=
        @Chain.node_at T s (pre ++ U1) (M ++ (w :: W ++ post)) mx (by simpa using h)
      by_cases hle : mx.2 ≤ w.2
      · obtain ⟨U1', mx', U2', e1, e2, e3, e4⟩ := ih pre (U1 ++ mx :: M) w [] post
          (by simpa using h)
          (by
            intro y hy
            rcases List.mem_append.mp hy with hy | hy
            · exact le_trans (h1 y hy) hle
            · rcases List.mem_cons.mp hy with rfl | hy
              · exact hle
              · exact le_trans (h2 y hy) hle)
          (by simp)
        refine ⟨U1', mx', U2', by rw [← e1]; simp, e2, e3, ?_⟩
        simp only [List.cons_append, firstOr, List.length_cons]
        rw [SelectMaxLoop_succ]
        simp only [hw, hm, Option.some_bind, hle, if_true]
        simpa using e4
      · obtain ⟨U1', mx', U2', e1, e2, e3, e4⟩ := ih pre U1 mx (M ++ [w]) post
          (by simpa using h) h1
          (by
            intro y hy
            rcases List.mem_append.mp hy with hy | hy
            · exact h2 y hy
            · rw [List.mem_singleton.mp hy]; exact le_of_lt (lt_of_not_le hle))
        refine ⟨U1', mx', U2', by rw [← e1]; simp, e2, e3, ?_⟩
        simp only [List.cons_append, firstOr, List.length_cons]
        rw [SelectMaxLoop_succ]
        simp only [hw, hm, Option.some_bind, hle, if_false]
        exact e4

theorem SelectMax_spec {s : Store T} (pre : List (Nat × T)) (u0 : Nat × T)
    (W post : List (Nat × T)) (h : Chain s (pre ++ (u0 :: W ++ post))) :
    ∃ U1' mx' U2', u0 :: W = U1' ++ mx' :: U2' ∧
      (∀ y ∈ U1', y.2 ≤ mx'.2) ∧ (∀ y ∈ U2', y.2 ≤ mx'.2) ∧
      SelectMax s (some u0.1) ((W.length : Int) + 1) = some (some mx'.1) := by
  have hu : s.node (some u0.1) = some ⟨u0.2, lastOr pre none, firstOr (W ++ post) none⟩ :=
    @Chain.node_at T s pre (W ++ post) u0 (by simpa using h)
  obtain ⟨U1', mx', U2', e1, e2, e3, e4⟩ := SelectMaxLoop_spec W pre [] u0 [] post
    (by simpa using h) (by simp) (by simp)
  refine ⟨U1', mx', U2', by simpa using e1, e2, e3, ?_⟩
  have e5 : ((W.length : Int) + 1 - 1).toNat = W.length := by omega
  simp only [SelectMax, hu, Option.bind_eq_bind, Option.some_bind, e5]
  exact e4

end LinkedList
end

section
variable {T : Type} [LinearOrder T]

namespace LinkedList

theorem SelectionLoop_succ (fuel k : Nat) (s : Store T) (L : LinkedList)
    (head tail : Option Nat) :
    SelectionLoop fuel (k + 1) s L head tail
      = (s.node head).bind (fun nh => (SelectMax s nh.succ_ ((k : Int) + 2)).bind (fun max =>
          (Remove fuel s L max).bind (fun r1 =>
            (InsertBefore r1.1 r1.2.1 tail r1.2.2).bind (fun r2 =>
              (r2.1.node tail).bind (fun nt =>
                SelectionLoop fuel k r2.1 r2.2.1 head nt.pred_))))) := rfl

theorem list_SelectionLoop_spec (fuel : Nat) :
    ∀ (k : Nat) (s : Store T) (L : LinkedList) (H E : Nat × T) (U Sd : List (Nat × T)),
      Chain s (H :: (U ++ (Sd ++ [E]))) → L.header_ = some H.1 → L.trailer_ = some E.1 →
      (U.length = k + 1 ∨ (U = [] ∧ k = 0)) → (Sd.map Prod.snd).Sorted (· ≤ ·) →
      (∀ x ∈ U, ∀ y ∈ Sd, x.2 ≤ y.2) → U.length < fuel →
      ∃ s' L' B', SelectionLoop fuel k s L (some H.1) (firstOr (Sd ++ [E]) none)
          = some (s', L') ∧
        Chain s' (H :: (B' ++ [E])) ∧ L'.size_ = L.size_ ∧ L'.header_ = L.header_ ∧
        L'.trailer_ = L.trailer_ ∧ (B'.map Prod.snd).Sorted (· ≤ ·) ∧
        (B'.map Prod.snd).Perm ((U ++ Sd).map Prod.snd) := by
  intro k
  induction k with
  | zero =>
      intro s L H E U Sd h hh ht hU hS hle hf
      refine ⟨s, L, U ++ Sd, rfl, by simpa using h, rfl, rfl, rfl, ?_, List.Perm.refl _⟩
      simp only [List.Sorted, List.pairwise_map, List.pairwise_append] at hS ⊢
      refine ⟨?_, hS, hle⟩
      rcases hU with hU | ⟨hU, -⟩
      · obtain ⟨u, rfl⟩ := List.length_eq_one.mp hU
        exact List.pairwise_singleton _ _
      · rw [hU]; exact List.Pairwise.nil
  | succ k ih =>
      intro s L H E U Sd h hh ht hU hS hle hf
      have hU2 : U.length = k + 2 := by
        rcases hU with hU | ⟨-, hk⟩
        · exact hU
        · exact absurd hk (Nat.succ_ne_zero _)
      cases U with
      | nil => simp at hU2
      | cons u0 W =>
      have hW : W.length = k + 1 := by simpa using hU2
      have hH : s.node (some H.1) = some ⟨H.2, none, some u0.1⟩ :=
        @Chain.node_at T s [] (u0 :: W ++ (Sd ++ [E])) H (by simpa using h)
      obtain ⟨U1, mx, U2, e1, e2, e3, e4⟩ := SelectMax_spec [H] u0 W (Sd ++ [E])
        (by simpa using h)
      have hmax : SelectMax s (some u0.1) ((k : Int) + 2) = some (some mx.1) := by
        rw [← e4, hW]; push_cast; ring_nf
      have hlen : U1.length + U2.length = k + 1 := by
        have := congrArg List.length e1
        simp at this; omega
      obtain ⟨s1, hrem, hc1, -⟩ := Remove_spec L (H := H) (b := mx) (M := U1)
        (Q := U2 ++ (Sd ++ [E])) (t := E.1) fuel hh ht (by simp)
        (by rw [e1] at h; simpa using h) (by simp at hf; omega)
      obtain ⟨c, Q, hcQ⟩ : ∃ c Q, Sd ++ [E] = c :: Q := by
        cases Sd with
        | nil => exact ⟨E, [], rfl⟩
        | cons c Sd => exact ⟨c, Sd ++ [E], rfl⟩
      obtain ⟨s2, hins, hc2, -⟩ := InsertBefore_spec (⟨L.size_ - 1, L.header_, L.trailer_⟩)
        (P := H :: U1 ++ U2) (Q := Q) (c := c) mx.2 (by simp)
        (by rw [← hcQ]; simpa using hc1)
      have hcf : (some c.1 : Option Nat) = firstOr (Sd ++ [E]) none := by rw [hcQ]; rfl
      rw [hcf] at hins
      have hnt : s2.node (firstOr (Sd ++ [E]) none)
          = some ⟨c.2, some s1.length, firstOr Q none⟩ := by
        have := @Chain.node_first T s2 ((H :: U1 ++ U2) ++ [(s1.length, mx.2)]) Q c
          (by simpa using hc2)
        rw [hcQ, this, lastOr_snoc]
      have hmem : mx ∈ u0 :: W := by rw [e1]; simp
      obtain ⟨s', L', B', hloop, hc', hsz, hhd, htl, hsort, hperm⟩ :=
        ih s2 ⟨L.size_ - 1 + 1, L.header_, L.trailer_⟩ H E (U1 ++ U2)
          ((s1.length, mx.2) :: Sd)
          (by rw [← hcQ] at hc2; simpa using hc2) hh ht
          (Or.inl (by simp; omega))
          (by
            simp only [List.map_cons, List.Sorted, List.pairwise_cons, List.mem_map,
              forall_exists_index, and_imp]
            refine ⟨?_, hS⟩
            intro y x hx hxy
            exact hxy ▸ hle mx hmem x hx)
          (by
            intro x hx y hy
            have hxU : x ∈ u0 :: W := by
              rw [e1]
              rcases List.mem_append.mp hx with hx | hx
              · exact List.mem_append_left _ hx
              · exact List.mem_append_right _ (List.mem_cons_of_mem _ hx)
            rcases List.mem_cons.mp hy with rfl | hy
            · rcases List.mem_append.mp hx with hx | hx
              · exact e2 x hx
              · exact e3 x hx
            · exact hle x hxU y hy)
          (by simp at hf ⊢; omega)
      refine ⟨s', L', B', ?_, hc', ?_, hhd, htl, hsort, ?_⟩
      · rw [SelectionLoop_succ]
        simp only [hH, Option.some_bind, hmax, hrem, hins, hnt]
        exact hloop
      · rw [hsz]; show L.size_ - 1 + 1 = L.size_; omega
      · refine hperm.trans ?_
        rw [e1]
        simp only [List.map_append, List.map_cons, List.append_assoc]
        refine List.Perm.append_left _ ?_
        exact List.perm_middle

end LinkedList
end

section
variable {T : Type} [LinearOrder T]

namespace LinkedList

theorem list_SelectionSort_spec (fuel : Nat) (s : Store T) (L : LinkedList) (H E : Nat × T)
    (B : List (Nat × T)) (h : Chain s (H :: (B ++ [E]))) (hh : L.header_ = some H.1)
    (ht : L.trailer_ = some E.1) (hs : L.size_ = (B.length : Int)) (hf : B.length < fuel) :
    ∃ s' L' B', SelectionSort fuel s L (firstOr (B ++ [E]) none) L.GetSize = some (s', L') ∧
      Chain s' (H :: (B' ++ [E])) ∧ L'.size_ = L.size_ ∧ L'.header_ = L.header_ ∧
      L'.trailer_ = L.trailer_ ∧ (B'.map Prod.snd).Sorted (· ≤ ·) ∧
      (B'.map Prod.snd).Perm (B.map Prod.snd) := by
  obtain ⟨c, Q, hcQ⟩ : ∃ c Q, B ++ [E] = c :: Q := by
    cases B with
    | nil => exact ⟨E, [], rfl⟩
    | cons c B => exact ⟨c, B ++ [E], rfl⟩
  have hp : s.node (firstOr (B ++ [E]) none) = some ⟨c.2, some H.1, firstOr Q none⟩ := by
    have := @Chain.node_first T s [H] Q c (by rw [← hcQ]; simpa using h)
    rw [hcQ, this]; rfl
  have hadv : advance s B.length (firstOr (B ++ [E]) none) = some (firstOr ([] ++ [E]) none) :=
    advance_spec B [H] [E] (by simpa using h)
  obtain ⟨s', L', B', h1, h2, h3, h4, h5, h6, h7⟩ :=
    list_SelectionLoop_spec fuel (B.length - 1) s L H E B [] (by simpa using h) hh ht
      (by
        cases B with
        | nil => exact Or.inr ⟨rfl, rfl⟩
        | cons b B => exact Or.inl (by simp))
      (by simp) (by simp) hf
  refine ⟨s', L', B', ?_, h2, h3, h4, h5, h6, by simpa using h7⟩
  have e1 : ((B.length : Int)).toNat = B.length := by omega
  have e2 : ((B.length : Int) - 1).toNat = B.length - 1 := by omega
  simp only [SelectionSort, GetSize, hs, hp, Option.bind_eq_bind, Option.some_bind, e1, e2,
    hadv]
  exact h1

end LinkedList
end

end DSA

namespace DSA

/-! ## List: Merge and MergeSort on a reference bound to a local variable -/

section
variable {T : Type} [LinearOrder T]

namespace LinkedList

theorem MergeLoop_zero (fuel d : Nat) (r : PRef) (st : MergeState T) (n : Nat)
    (q : Option Nat) : MergeLoop fuel r (d + 1) st n q 0 = some st := by
  simp only [MergeLoop, Nat.lt_irrefl, if_false]

theorem MergeLoop_take (fuel d : Nat) (s : Store T) (L : LinkedList) (p q : Option Nat)
    (n m : Nat) (np nq : ListNode T) (hm : 0 < m) (hn : 0 < n) (hp : s.node p = some np)
    (hq : s.node q = some nq) (hle : np.data_ ≤ nq.data_) :
    MergeLoop fuel PRef.var (d + 1) ⟨s, L, none, p⟩ n q m
      = if np.succ_ = q then some ⟨s, L, none, np.succ_⟩
        else MergeLoop fuel PRef.var d ⟨s, L, none, np.succ_⟩ (n - 1) q m := by
  simp only [MergeLoop, hm, hn, if_true, MergeState.rdP, MergeState.wrP, hp, hq,
    Option.bind_eq_bind, Option.some_bind, hle, decide_True]

theorem MergeLoop_move (fuel d : Nat) (s : Store T) (L : LinkedList) (p q : Option Nat)
    (n m : Nat) (np nq nq1 : ListNode T) (hm : 0 < m) (hn : 0 < n) (hp : s.node p = some np)
    (hq : s.node q = some nq) (hle : ¬ np.data_ ≤ nq.data_)
    (hq1 : s.node nq.succ_ = some nq1) (s1 s2 : Store T) (L1 L2 : LinkedList) (e : T)
    (x : Option Nat) (hrem : Remove fuel s L nq1.pred_ = some (s1, L1, e))
    (hins : InsertBefore s1 L1 p e = some (s2, L2, x)) :
    MergeLoop fuel PRef.var (d + 1) ⟨s, L, none, p⟩ n q m
      = MergeLoop fuel PRef.var d ⟨s2, L2, none, p⟩ n nq.succ_ (m - 1) := by
  simp only [MergeLoop, hm, hn, if_true, MergeState.rdP, hp, hq, hq1,
    Option.bind_eq_bind, Option.some_bind, hle, decide_False, MergeState.removeOther, hrem,
    MergeState.insertSelf, hins, Bool.false_eq_true, if_false]

end LinkedList
end

section
variable {T : Type} [LinearOrder T]

namespace LinkedList

theorem list_MergeLoop_spec (fuel : Nat) :
    ∀ (d : Nat) (s : Store T) (L : LinkedList) (H E : Nat × T)
      (X Done Pr Qr Y : List (Nat × T)),
      Chain s (H :: (X ++ (Done ++ (Pr ++ (Qr ++ (Y ++ [E])))))) →
      L.header_ = some H.1 → L.trailer_ = some E.1 → Pr ≠ [] →
      List.Pairwise (fun x y : Nat × T => x.2 ≤ y.2) Done →
      List.Pairwise (fun x y : Nat × T => x.2 ≤ y.2) Pr →
      List.Pairwise (fun x y : Nat × T => x.2 ≤ y.2) Qr →
      (∀ x ∈ Done, ∀ y ∈ Pr ++ Qr, x.2 ≤ y.2) →
      Pr.length + Qr.length < d →
      X.length + Done.length + Pr.length + Qr.length < fuel →
      ∃ st' R, MergeLoop fuel PRef.var d
            ⟨s, L, none, firstOr (Pr ++ (Qr ++ (Y ++ [E]))) none⟩ Pr.length
            (firstOr (Qr ++ (Y ++ [E])) none) Qr.length = some st' ∧
        Chain st'.store (H :: (X ++ (R ++ (Y ++ [E])))) ∧ st'.self.size_ = L.size_ ∧
        st'.self.header_ = L.header_ ∧ st'.self.trailer_ = L.trailer_ ∧
        List.Pairwise (fun x y : Nat × T => x.2 ≤ y.2) R ∧
        (R.map Prod.snd).Perm ((Done ++ (Pr ++ Qr)).map Prod.snd) := by
  intro d
  induction d with
  | zero => intro s L H E X Done Pr Qr Y _ _ _ _ _ _ _ _ hd; exact absurd hd (Nat.not_lt_zero _)
  | succ d ih =>
  intro s L H E X Done Pr Qr Y h hh ht hne hD hP hQ hle hd hf
  cases Qr with
  | nil =>
      refine ⟨_, Done ++ Pr, MergeLoop_zero fuel d PRef.var _ _ _, by simpa using h, rfl, rfl,
        rfl, ?_, by simp⟩
      rw [List.pairwise_append]
      exact ⟨hD, hP, fun x hx y hy => hle x hx y (by simpa using hy)⟩
  | cons qc Qr =>
  cases Pr with
  | nil => exact absurd rfl hne
  | cons pc Pr =>
  have hp : s.node (some pc.1) = some ⟨pc.2, lastOr (H :: (X ++ Done)) none,
      firstOr (Pr ++ (qc :: Qr ++ (Y ++ [E]))) none⟩ :=
    @Chain.node_at T s (H :: (X ++ Done)) (Pr ++ (qc :: Qr ++ (Y ++ [E]))) pc
      (by simpa using h)
  have hq : s.node (some qc.1) = some ⟨qc.2, lastOr (H :: (X ++ (Done ++ pc :: Pr))) none,
      firstOr (Qr ++ (Y ++ [E])) none⟩ :=
    @Chain.node_at T s (H :: (X ++ (Done ++ pc :: Pr))) (Qr ++ (Y ++ [E])) qc
      (by simpa using h)
  by_cases hc : pc.2 ≤ qc.2
  · have hstep := MergeLoop_take fuel d s L (some pc.1) (some qc.1) (pc :: Pr).length
      (qc :: Qr).length _ _ (by simp) (by simp) hp hq hc
    cases Pr with
    | nil =>
        refine ⟨⟨s, L, none, some qc.1⟩, Done ++ pc :: qc :: Qr, ?_, by simpa using h, rfl,
          rfl, rfl, ?_, by simp⟩
        · show MergeLoop fuel PRef.var (d + 1) ⟨s, L, none, some pc.1⟩ _ (some qc.1) _ = _
          rw [hstep]
          simp only [List.nil_append, List.cons_append, firstOr, if_true]
        · rw [List.pairwise_append]
          refine ⟨hD, ?_, fun x hx y hy => hle x hx y (by simpa using hy)⟩
          rw [List.pairwise_cons]
          refine ⟨?_, hQ⟩
          intro y hy
          rcases List.mem_cons.mp hy with rfl | hy
          · exact hc
          · exact le_trans hc ((List.pairwise_cons.mp hQ).1 y hy)
    | cons pc' Pr =>
        have hnm := (show Chain s ((H :: (X ++ Done) ++ [pc]) ++ pc' :: (Pr ++ (qc :: Qr ++
          (Y ++ [E]))))  from by simpa using h).not_mem_tail
        have hneq : (some pc'.1 : Option Nat) ≠ some qc.1 := by
          intro hc'
          apply hnm
          rw [Option.some.inj hc']
          simp
        obtain ⟨st', R, h1, h2, h3, h4, h5, h6, h7⟩ := ih s L H E X (Done ++ [pc])
          (pc' :: Pr) (qc :: Qr) Y (by simpa using h) hh ht (by simp)
          (by
            rw [List.pairwise_append]
            refine ⟨hD, List.pairwise_singleton _ _, ?_⟩
            intro x hx y hy
            rw [List.mem_singleton.mp hy]
            exact hle x hx pc (by simp))
          (List.pairwise_cons.mp hP).2 hQ
          (by
            intro x hx y hy
            rcases List.mem_append.mp hx with hx | hx
            · exact hle x hx y (by
                rcases List.mem_append.mp hy with hy | hy
                · exact List.mem_append_left _ (List.mem_cons_of_mem _ hy)
                · exact List.mem_append_right _ hy)
            · rw [List.mem_singleton.mp hx]
              rcases List.mem_append.mp hy with hy | hy
              · exact (List.pairwise_cons.mp hP).1 y hy
              · rcases List.mem_cons.mp hy with rfl | hy
                · exact hc
                · exact le_trans hc ((List.pairwise_cons.mp hQ).1 y hy))
          (by simp at hd ⊢; omega) (by simp at hf ⊢; omega)
        refine ⟨st', R, ?_, h2, h3, h4, h5, h6, ?_⟩
        · show MergeLoop fuel PRef.var (d + 1) ⟨s, L, none, some pc.1⟩ _ (some qc.1) _ = _
          rw [hstep]
          simp only [List.cons_append, firstOr, hneq, if_false]
          exact h1
        · refine h7.trans ?_
          simp
  · obtain ⟨c, Qx, hcQ⟩ : ∃ c Qx, Qr ++ (Y ++ [E]) = c :: Qx := by
      cases Qr with
      | nil =>
          cases Y with
          | nil => exact ⟨E, [], rfl⟩
          | cons y Y => exact ⟨y, Y ++ [E], rfl⟩
      | cons c Qr => exact ⟨c, Qr ++ (Y ++ [E]), rfl⟩
    have hq1 : s.node (firstOr (Qr ++ (Y ++ [E])) none)
        = some ⟨c.2, some qc.1, firstOr Qx none⟩ := by
      have := @Chain.node_first T s ((H :: (X ++ (Done ++ pc :: Pr))) ++ [qc]) Qx c
        (by rw [← hcQ]; simpa using h)
      rw [hcQ, this, lastOr_snoc]
    obtain ⟨s1, hrem, hc1, -⟩ := Remove_spec L (H := H) (b := qc)
      (M := X ++ (Done ++ pc :: Pr)) (Q := Qr ++ (Y ++ [E])) (t := E.1) fuel hh ht
      (by simp) (by simpa using h) (by simp at hf ⊢; omega)
    obtain ⟨s2, hins, hc2, -⟩ := InsertBefore_spec (⟨L.size_ - 1, L.header_, L.trailer_⟩)
      (P := H :: (X ++ Done)) (Q := Pr ++ (Qr ++ (Y ++ [E]))) (c := pc) qc.2 (by simp)
      (by simpa using hc1)
    have hstep := MergeLoop_move fuel d s L (some pc.1) (some qc.1) (pc :: Pr).length
      (qc :: Qr).length _ _ _ (by simp) (by simp) hp hq hc hq1 s1 s2 _ _ qc.2 _ hrem hins
    have hlt : qc.2 < pc.2 := lt_of_not_le hc
    obtain ⟨st', R, h1, h2, h3, h4, h5, h6, h7⟩ := ih s2
      ⟨L.size_ - 1 + 1, L.header_, L.trailer_⟩ H E X (Done ++ [(s1.length, qc.2)])
      (pc :: Pr) Qr Y (by simpa using hc2) hh ht (by simp)
      (by
        rw [List.pairwise_append]
        refine ⟨hD, List.pairwise_singleton _ _, ?_⟩
        intro x hx y hy
        rw [List.mem_singleton.mp hy]
        exact hle x hx qc (by simp))
      hP (List.pairwise_cons.mp hQ).2
      (by
        intro x hx y hy
        rcases List.mem_append.mp hx with hx | hx
        · exact hle x hx y (by
            rcases List.mem_append.mp hy with hy | hy
            · exact List.mem_append_left _ hy
            · exact List.mem_append_right _ (List.mem_cons_of_mem _ hy))
        · rw [List.mem_singleton.mp hx]
          show qc.2 ≤ y.2
          rcases List.mem_append.mp hy with hy | hy
          · rcases List.mem_cons.mp hy with rfl | hy
            · exact le_of_lt hlt
            · exact le_trans (le_of_lt hlt) ((List.pairwise_cons.mp hP).1 y hy)
          · exact (List.pairwise_cons.mp hQ).1 y hy)
      (by simp at hd ⊢; omega) (by simp at hf ⊢; omega)
    refine ⟨st', R, ?_, h2, ?_, h4, h5, h6, ?_⟩
    · show MergeLoop fuel PRef.var (d + 1) ⟨s, L, none, some pc.1⟩ _ (some qc.1) _ = _
      rw [hstep]
      simpa using h1
    · rw [h3]; show L.size_ - 1 + 1 = L.size_; omega
    · refine h7.trans ?_
      simp only [List.map_append, List.map_cons, List.map_nil, List.append_assoc,
        List.singleton_append, List.cons_append]
      refine List.Perm.append_left _ ?_
      exact (@List.perm_middle T qc.2 (pc.2 :: List.map Prod.snd Pr)
        (List.map Prod.snd Qr)).symm

end LinkedList
end

section
variable {T : Type} [LinearOrder T]

namespace LinkedList

theorem MergeAt_spec (fuel : Nat) (s : Store T) (L : LinkedList) (H E : Nat × T)
    (X P Q Y : List (Nat × T)) (h : Chain s (H :: (X ++ (P ++ (Q ++ (Y ++ [E]))))))
    (hh : L.header_ = some H.1) (ht : L.trailer_ = some E.1) (hne : P ≠ [])
    (hP : List.Pairwise (fun x y : Nat × T => x.2 ≤ y.2) P)
    (hQ : List.Pairwise (fun x y : Nat × T => x.2 ≤ y.2) Q)
    (hf : X.length + P.length + Q.length < fuel) :
    ∃ st' R, MergeAt fuel PRef.var ⟨s, L, none, firstOr (P ++ (Q ++ (Y ++ [E]))) none⟩
          (P.length : Int) (firstOr (Q ++ (Y ++ [E])) none) (Q.length : Int) = some st' ∧
      Chain st'.store (H :: (X ++ (R ++ (Y ++ [E])))) ∧
      st'.pvar = firstOr (R ++ (Y ++ [E])) none ∧ st'.self.size_ = L.size_ ∧
      st'.self.header_ = L.header_ ∧ st'.self.trailer_ = L.trailer_ ∧
      List.Pairwise (fun x y : Nat × T => x.2 ≤ y.2) R ∧
      (R.map Prod.snd).Perm ((P ++ Q).map Prod.snd) := by
  cases P with
  | nil => exact absurd rfl hne
  | cons pc P =>
  have hp : s.node (some pc.1) = some ⟨pc.2, lastOr (H :: X) none,
      firstOr (P ++ (Q ++ (Y ++ [E]))) none⟩ :=
    @Chain.node_at T s (H :: X) (P ++ (Q ++ (Y ++ [E]))) pc (by simpa using h)
  obtain ⟨st1, R, h1, h2, h3, h4, h5, h6, h7⟩ := list_MergeLoop_spec fuel fuel s L H E X []
    (pc :: P) Q Y (by simpa using h) hh ht hne List.Pairwise.nil hP hQ (by simp)
    (by simp at hf ⊢; omega) (by simp at hf ⊢; omega)
  obtain ⟨pre, a, hpa⟩ := exists_snoc H X
  have hpp : st1.store.node (lastOr (H :: X) none)
      = some ⟨a.2, lastOr pre none, firstOr (R ++ (Y ++ [E])) none⟩ := by
    rw [hpa, lastOr_snoc]
    exact @Chain.node_at T st1.store pre (R ++ (Y ++ [E])) a
      (by
        have e : H :: (X ++ (R ++ (Y ++ [E]))) = pre ++ a :: (R ++ (Y ++ [E])) := by
          rw [← List.cons_append, hpa, List.append_assoc]; rfl
        rw [← e]; exact h2)
  refine ⟨⟨st1.store, st1.self, st1.other, firstOr (R ++ (Y ++ [E])) none⟩, R, ?_, h2, rfl,
    h3, h4, h5, h6, by simpa using h7⟩
  have e1 : (((pc :: P).length : Nat) : Int).toNat = (pc :: P).length := Int.toNat_ofNat _
  have e2 : ((Q.length : Nat) : Int).toNat = Q.length := Int.toNat_ofNat _
  simp only [MergeAt, MergeState.rdP, Option.bind_eq_bind, Option.some_bind, e1, e2]
  show (s.node (some pc.1)).bind _ = _
  rw [hp]
  simp only [Option.some_bind]
  erw [h1]
  simp only [Option.some_bind, hpp, MergeState.wrP]

end LinkedList
end

section
variable {T : Type} [LinearOrder T]

namespace LinkedList

theorem MergeSortRec_succ (fuel d : Nat) (s : Store T) (L : LinkedList) (p : Option Nat)
    (n : Nat) (hn : ¬ n ≤ 1) :
    MergeSortRec fuel (d + 1) s L p n
      = (advance s (n / 2) p).bind (fun q => (MergeSortRec fuel d s L p (n / 2)).bind
          (fun r1 => (MergeSortRec fuel d r1.1 r1.2.1 q (n - n / 2)).bind (fun r2 =>
            (MergeAt fuel PRef.var ⟨r2.1, r2.2.1, none, r1.2.2⟩ ((n / 2 : Nat) : Int) r2.2.2
              ((n - n / 2 : Nat) : Int)).bind (fun st =>
                some (st.store, st.self, st.pvar))))) := by
  simp only [MergeSortRec, hn, if_false, Option.bind_eq_bind]

theorem firstOr_ne_nil {A : Type} (P : List (Nat × A)) (hP : P ≠ []) (Z Z' : List (Nat × A))
    (n n' : Option Nat) : firstOr (P ++ Z) n = firstOr (P ++ Z') n' := by
  cases P with
  | nil => exact absurd rfl hP
  | cons c P => rfl

omit [LinearOrder T] in
theorem perm_length_cells {P P' : List (Nat × T)}
    (h : (P'.map Prod.snd).Perm (P.map Prod.snd)) : P'.length = P.length := by
  simpa using h.length_eq

theorem list_MergeSortRec_spec (fuel : Nat) :
    ∀ (d n : Nat) (s : Store T) (L : LinkedList) (H E : Nat × T) (X Seg Y : List (Nat × T)),
      Chain s (H :: (X ++ (Seg ++ (Y ++ [E])))) → L.header_ = some H.1 →
      L.trailer_ = some E.1 → Seg.length = n → n < d → X.length + Seg.length < fuel →
      ∃ s' L' Seg', MergeSortRec fuel d s L (firstOr (Seg ++ (Y ++ [E])) none) n
          = some (s', L', firstOr (Seg' ++ (Y ++ [E])) none) ∧
        Chain s' (H :: (X ++ (Seg' ++ (Y ++ [E])))) ∧ L'.size_ = L.size_ ∧
        L'.header_ = L.header_ ∧ L'.trailer_ = L.trailer_ ∧
        List.Pairwise (fun x y : Nat × T => x.2 ≤ y.2) Seg' ∧
        (Seg'.map Prod.snd).Perm (Seg.map Prod.snd) := by
  intro d
  induction d with
  | zero => intro n s L H E X Seg Y _ _ _ _ hd; exact absurd hd (Nat.not_lt_zero _)
  | succ d ih =>
  intro n s L H E X Seg Y h hh ht hn hd hf
  by_cases h1 : n ≤ 1
  · refine ⟨s, L, Seg, by simp only [MergeSortRec, h1, if_true], h, rfl, rfl, rfl, ?_,
      List.Perm.refl _⟩
    cases Seg with
    | nil => exact List.Pairwise.nil
    | cons a Seg =>
        cases Seg with
        | nil => exact List.pairwise_singleton _ _
        | cons b Seg => simp at hn; omega
  · have hsplit : Seg = Seg.take (n / 2) ++ Seg.drop (n / 2) := (List.take_append_drop _ _).symm
    obtain ⟨P, Q, hPQ, hPl, hQl⟩ : ∃ P Q, Seg = P ++ Q ∧ P.length = n / 2 ∧
        Q.length = n - n / 2 :=
      ⟨Seg.take (n / 2), Seg.drop (n / 2), hsplit, by simp; omega, by simp; omega⟩
    subst hPQ
    have hPne : P ≠ [] := by
      intro hc; rw [hc] at hPl; simp at hPl; omega
    have hadv : advance s (n / 2) (firstOr (P ++ Q ++ (Y ++ [E])) none)
        = some (firstOr (Q ++ (Y ++ [E])) none) := by
      have := advance_spec P (H :: X) (Q ++ (Y ++ [E])) (by simpa using h)
      rw [hPl] at this
      rw [← this]; simp
    obtain ⟨s1, L1, P', e1, c1, z1, hd1, tl1, pw1, pm1⟩ := ih (n / 2) s L H E X P (Q ++ Y)
      (by simpa using h) hh ht hPl (by omega) (by simp at hf; omega)
    have hP'l : P'.length = n / 2 := (perm_length_cells pm1).trans hPl
    have hP'ne : P' ≠ [] := by
      intro hc; rw [hc] at hP'l; simp at hP'l; omega
    obtain ⟨s2, L2, Q', e2, c2, z2, hd2, tl2, pw2, pm2⟩ := ih (n - n / 2) s1 L1 H E
      (X ++ P') Q Y (by simpa using c1) (hd1.trans hh) (tl1.trans ht) hQl (by omega)
      (by simp at hf ⊢; omega)
    have hQ'l : Q'.length = n - n / 2 := (perm_length_cells pm2).trans hQl
    obtain ⟨st, R, e3, c3, pv3, z3, hd3, tl3, pw3, pm3⟩ := MergeAt_spec fuel s2 L2 H E X P'
      Q' Y (by simpa using c2) (hd2.trans (hd1.trans hh)) (tl2.trans (tl1.trans ht)) hP'ne
      pw1 pw2 (by simp at hf; omega)
    refine ⟨st.store, st.self, R, ?_, c3, z3.trans (z2.trans z1), hd3.trans (hd2.trans hd1),
      tl3.trans (tl2.trans tl1), pw3, ?_⟩
    · rw [MergeSortRec_succ fuel d s L _ n h1, hadv]
      simp only [Option.some_bind]
      have hp0 : firstOr (P ++ Q ++ (Y ++ [E])) none = firstOr (P ++ (Q ++ Y ++ [E])) none := by
        rw [List.append_assoc]; exact firstOr_ne_nil P hPne _ _ _ _
      have hp1 : firstOr (P' ++ (Q ++ Y ++ [E])) none
          = firstOr (P' ++ (Q' ++ (Y ++ [E]))) none := firstOr_ne_nil P' hP'ne _ _ _ _
      rw [hP'l, hQ'l] at e3
      rw [hp0, e1]
      simp only [Option.some_bind]
      rw [e2]
      simp only [Option.some_bind]
      rw [hp1, e3]
      simp only [Option.some_bind, pv3]
    · refine pm3.trans ?_
      simp only [List.map_append]
      exact List.Perm.append pm1 pm2

end LinkedList
end

end DSA

namespace DSA

/-! ## List: the claims C27 and C28 -/

section
variable {T : Type}

theorem firstOr_cons (c : Nat × T) (l : List (Nat × T)) (n : Option Nat) :
    firstOr (c :: l) n = some c.1 := rfl

namespace LinkedList

theorem TraverseLoop_spec {s : Store T} (L : LinkedList) {E : Nat × T}
    (ht : L.trailer_ = some E.1) :
    ∀ (W pre : List (Nat × T)) (fuel : Nat), Chain s (pre ++ (W ++ [E])) → W.length < fuel →
      TraverseLoop s L fuel (firstOr (W ++ [E]) none) = some (W.map Prod.snd) := by
  intro W
  induction W with
  | nil =>
      intro pre fuel _ hf
      cases fuel with
      | zero => exact absurd hf (Nat.not_lt_zero _)
      | succ fuel => simp only [List.nil_append, firstOr, TraverseLoop, ht, if_true, List.map_nil]
  | cons w W ih =>
      intro pre fuel h hf
      cases fuel with
      | zero => exact absurd hf (Nat.not_lt_zero _)
      | succ fuel =>
          have h0 : Chain s (pre ++ w :: (W ++ [E])) := by simpa using h
          have hw : s.node (some w.1) = some ⟨w.2, lastOr pre none, firstOr (W ++ [E]) none⟩ :=
            h0.node_at
          have hne : w.1 ≠ E.1 := fun hc => h0.not_mem_tail (by rw [hc]; simp)
          simp only [List.cons_append, firstOr_cons, TraverseLoop, ht, Option.some.injEq, hne,
            if_false, hw, Option.bind_eq_bind, Option.some_bind, List.map_cons]
          rw [ih (pre ++ [w]) fuel (by simpa using h) (by simpa using hf)]
          rfl

/-- The visits of `Traverse` on a well-formed list give its data in order. -/
theorem Holds.traverse {s : Store T} {L : LinkedList} {xs : List T}
    (h : LinkedList.Holds s L xs) (fuel : Nat) (hf : xs.length < fuel) :
    Traverse fuel s L = some xs := by
  obtain ⟨H, B, E, hB, hc, hh, ht, -⟩ := h
  have hn : s.node (some H.1) = some ⟨H.2, none, firstOr (B ++ [E]) none⟩ :=
    @Chain.node_at T s [] (B ++ [E]) H hc
  simp only [Traverse, hh, hn, Option.bind_eq_bind, Option.some_bind]
  rw [TraverseLoop_spec L ht B [H] fuel (by simpa using hc) (by rw [← hB] at hf; simpa using hf),
    hB]

end LinkedList
end

section
variable {T : Type} [LinearOrder T]

namespace LinkedList

theorem list_MergeSort_spec (fuel : Nat) (s : Store T) (L : LinkedList) (H E : Nat × T)
    (B : List (Nat × T)) (h : Chain s (H :: (B ++ [E]))) (hh : L.header_ = some H.1)
    (ht : L.trailer_ = some E.1) (hs : L.size_ = (B.length : Int)) (hf : B.length < fuel) :
    ∃ s' L' B' p', MergeSort fuel s L (firstOr (B ++ [E]) none) L.GetSize
        = some (s', L', p') ∧
      Chain s' (H :: (B' ++ [E])) ∧ L'.size_ = L.size_ ∧ L'.header_ = L.header_ ∧
      L'.trailer_ = L.trailer_ ∧ (B'.map Prod.snd).Sorted (· ≤ ·) ∧
      (B'.map Prod.snd).Perm (B.map Prod.snd) := by
  obtain ⟨s', L', B', h1, h2, h3, h4, h5, h6, h7⟩ :=
    list_MergeSortRec_spec fuel fuel B.length s L H E [] B [] (by simpa using h) hh ht rfl hf
      (by simpa using hf)
  refine ⟨s', L', B', firstOr (B' ++ [E]) none, ?_, by simpa using h2, h3, h4, h5, ?_, h7⟩
  · rw [MergeSort, GetSize, hs, Int.toNat_ofNat]
    simpa using h1
  · rw [List.Sorted, List.pairwise_map]; exact h6

/-- The three algorithms of `Sort` on a well-formed chain. -/
theorem SortList_spec (fuel : Nat) (choice : Fin 3) (s : Store T) (L : LinkedList)
    (H E : Nat × T) (B : List (Nat × T)) (h : Chain s (H :: (B ++ [E])))
    (hh : L.header_ = some H.1) (ht : L.trailer_ = some E.1)
    (hs : L.size_ = (B.length : Int)) (hf : B.length < fuel) :
    ∃ s' L' B', SortList fuel choice s L = some (s', L') ∧
      Chain s' (H :: (B' ++ [E])) ∧ L'.size_ = L.size_ ∧ L'.header_ = L.header_ ∧
      L'.trailer_ = L.trailer_ ∧ (B'.map Prod.snd).Sorted (· ≤ ·) ∧
      (B'.map Prod.snd).Perm (B.map Prod.snd) := by
  have hn : s.node (some H.1) = some ⟨H.2, none, firstOr (B ++ [E]) none⟩ :=
    @Chain.node_at T s [] (B ++ [E]) H (by simpa using h)
  have hc : choice = 0 ∨ choice = 1 ∨ choice = 2 := by
    revert choice; decide
  rcases hc with rfl | rfl | rfl
  · obtain ⟨s', L', B', h1, h2⟩ := InsertionSort_spec fuel s L H E B h hh ht hs hf
    refine ⟨s', L', B', ?_, h2⟩
    simp only [SortList, hh, hn, Option.bind_eq_bind, Option.some_bind]
    exact h1
  · obtain ⟨s', L', B', h1, h2⟩ := list_SelectionSort_spec fuel s L H E B h hh ht hs hf
    refine ⟨s', L', B', ?_, h2⟩
    simp only [SortList, hh, hn, Option.bind_eq_bind, Option.some_bind]
    exact h1
  · obtain ⟨s', L', B', p', h1, h2⟩ := list_MergeSort_spec fuel s L H E B h hh ht hs hf
    refine ⟨s', L', B', ?_, h2⟩
    simp only [SortList, hh, hn, Option.bind_eq_bind, Option.some_bind]
    rw [h1]; rfl

end LinkedList

/-- C27: on every well-formed list, whichever of InsertionSort, SelectionSort and MergeSort
the dispatch of `Sort()` selects, `Sort()` returns and leaves a well-formed list (the links
consistent from the header to the trailer and back) whose data are in non-decreasing order
and a permutation of the former data, with `GetSize()` unchanged and the same header and
trailer; `Traverse` then visits these data in order. -/
theorem C27_Sort (fuel : Nat) (choice : Fin 3) (s : Store T) (L : LinkedList) (xs : List T)
    (hL : LinkedList.Holds s L xs) (hf : xs.length < fuel) :
    ∃ s' L' xs', LinkedList.SortList fuel choice s L = some (s', L') ∧
      LinkedList.Holds s' L' xs' ∧ xs'.Sorted (· ≤ ·) ∧ xs'.Perm xs ∧
      L'.GetSize = L.GetSize ∧ L'.header_ = L.header_ ∧ L'.trailer_ = L.trailer_ ∧
      LinkedList.Traverse fuel s' L' = some xs' := by
  obtain ⟨H, B, E, hB, hc, hh, ht, hs⟩ := hL
  subst hB
  obtain ⟨s', L', B', h1, h2, h3, h4, h5, h6, h7⟩ :=
    LinkedList.SortList_spec fuel choice s L H E B (by simpa using hc) hh ht
      (by simpa using hs) (by simpa using hf)
  have hlen : (B'.map Prod.snd).length = (B.map Prod.snd).length := h7.length_eq
  have hH : LinkedList.Holds s' L' (B'.map Prod.snd) :=
    ⟨H, B', E, rfl, by simpa using h2, h4.trans hh, h5.trans ht, by rw [h3, hs, hlen]⟩
  exact ⟨s', L', B'.map Prod.snd, h1, hH, h6, h7, h3, h4, h5,
    hH.traverse fuel (by rw [hlen]; exact hf)⟩

end

theorem listMain_ofList :
    LinkedList.ofList [] [6, 5, 4, 3, 2, 1, 7, 11, 10, 9, 8] = some (listMainStore, listMain) := by
  decide

theorem listMain_holds :
    LinkedList.Holds listMainStore listMain [6, 5, 4, 3, 2, 1, 7, 11, 10, 9, 8] := by
  refine ⟨(0, 0), listMainCells, (1, 0), by decide, ?_, rfl, rfl, rfl⟩
  unfold Chain
  decide

/-- C27, on the list of `main`: each of the three algorithms leaves the data 1 to 11 in
order. -/
theorem C27_Sort_witness :
    (LinkedList.Holds listMainStore listMain [6, 5, 4, 3, 2, 1, 7, 11, 10, 9, 8] ∧
      ∀ choice : Fin 3, (LinkedList.SortList 12 choice listMainStore listMain).bind
        (fun r => LinkedList.Traverse 12 r.1 r.2) = some [1, 2, 3, 4, 5, 6, 7, 8, 9, 10, 11]) ∧
      ∃ s' L' xs', LinkedList.SortList 12 2 listMainStore listMain = some (s', L') ∧
        LinkedList.Holds s' L' xs' ∧ xs'.Sorted (· ≤ ·) ∧
        xs'.Perm [6, 5, 4, 3, 2, 1, 7, 11, 10, 9, 8] ∧
        L'.GetSize = listMain.GetSize ∧ L'.header_ = listMain.header_ ∧
        L'.trailer_ = listMain.trailer_ ∧ LinkedList.Traverse 12 s' L' = some xs' :=
  ⟨⟨listMain_holds, by decide⟩,
    C27_Sort 12 2 listMainStore listMain [6, 5, 4, 3, 2, 1, 7, 11, 10, 9, 8] listMain_holds
      (by decide)⟩

theorem merge_ofList :
    (LinkedList.ofList [] [1]).bind (fun r => (LinkedList.ofList r.1 [2]).map
      (fun r2 => (r2.1, r.2, r2.2))) = some (mergeStore, mergeA, mergeB) := by
  decide

/-- C28 fails on the code: with `A = [1]` and `B = [2]`, two distinct well-formed sorted
lists, `A.Merge(B)` returns with `A.GetSize() = 2` and `B` empty, but the header of `A`
points to the trailer of `A`: `Traverse` on `A` visits nothing, and the nodes with 1 and 2
are reached from the trailer only. -/
theorem C28_Merge_header :
    LinkedList.Holds mergeStore mergeA [1] ∧ LinkedList.Holds mergeStore mergeB [2] ∧
      LinkedList.Merge 4 mergeStore mergeA mergeB
        = some (mergeStoreAfter, ⟨2, some 0, some 1⟩, ⟨0, some 3, some 4⟩) ∧
      LinkedList.Traverse 4 mergeStoreAfter ⟨2, some 0, some 1⟩ = some [] ∧
      LinkedList.Traverse 4 mergeStoreAfter ⟨0, some 3, some 4⟩ = some [] ∧
      ¬ LinkedList.Holds mergeStoreAfter ⟨2, some 0, some 1⟩ [1, 2] := by
  refine ⟨⟨(0, 0), [(2, 1)], (1, 0), rfl, by unfold Chain; decide, rfl, rfl, rfl⟩,
    ⟨(3, 0), [(5, 2)], (4, 0), rfl, by unfold Chain; decide, rfl, rfl, rfl⟩,
    by decide, by decide, by decide, ?_⟩
  intro h
  have := h.traverse 4 (by decide)
  revert this
  decide

end DSA

namespace DSA
open Node
variable {K V : Type}

/-! ## The claims C31 and C32: `RotateAt` -/

theorem stature_max (a b : Int) : (if a > b then a else b) = max a b := by
  split_ifs with h
  · exact (max_eq_left (le_of_lt h)).symm
  · exact (max_eq_right (not_lt.mp h)).symm

theorem Connect34_eq (a b c : K × V × Int) (t0 t1 t2 t3 : Node K V) :
    Connect34 a b c t0 t1 t2 t3
      = mk (mk t0 a.1 a.2.1 (1 + max (GetStature t0) (GetStature t1)) t1) b.1 b.2.1
          (1 + max (1 + max (GetStature t0) (GetStature t1))
            (1 + max (GetStature t2) (GetStature t3)))
          (mk t2 c.1 c.2.1 (1 + max (GetStature t2) (GetStature t3)) t3) := by
  simp only [Connect34, UpdateHeight, GetStature, stature_max]

theorem keys_lt_first [LT K] {x1 x2 x3 x4 : List (K × V)} {a b c : K × V}
    (h : KeysIncreasing (x1 ++ a :: x2 ++ b :: x3 ++ c :: x4)) : a.1 < b.1 := by
  simp only [KeysIncreasing, List.pairwise_append, List.pairwise_cons, List.mem_append,
    List.mem_cons] at h
  exact h.1.2.2 a (Or.inr (Or.inl rfl)) b (Or.inl rfl)

theorem keys_lt_second [LT K] {x1 x2 x3 x4 : List (K × V)} {a b c : K × V}
    (h : KeysIncreasing (x1 ++ a :: x2 ++ b :: x3 ++ c :: x4)) : b.1 < c.1 := by
  simp only [KeysIncreasing, List.pairwise_append, List.pairwise_cons, List.mem_append,
    List.mem_cons] at h
  exact h.2.2 b (Or.inr (Or.inl rfl)) c (Or.inl rfl)

section
variable [LinearOrder K]

/-- C31: `RotateAt(v)` for a node `v` with parent `p` and grandparent `g`, the subtree of `g`
being in key order.  It returns the node `b` holding the middle key of the three as the new
local root, with the node `a` of the smallest key as its left child over `t0`, `t1` and the
node `c` of the greatest key as its right child over `t2`, `t3`, where `t0 a t1 b t2 c t3` is
the subtree of `g` in inorder; the cached heights of `a` and `c` and then of `b` are
recomputed from the new children.  In the shape LL the seven are `v->lc_, v, v->rc_, p,
p->rc_, g, g->rc_`, in LR `p->lc_, p, v->lc_, v, v->rc_, g, g->rc_`, in RR `g->lc_, g,
p->lc_, p, v->lc_, v, v->rc_`, in RL `g->lc_, g, v->lc_, v, v->rc_, p, p->rc_`.  A node hangs
under its parent in the embedding, so the links `parent_` are those of the tree returned. -/
theorem C31_RotateAt (vl : Node K V) (vk : K) (vv : V) (vh : Int) (vr : Node K V)
    (p g : Frame K V) (up : List (Frame K V))
    (ho : KeysIncreasing (g.attach (p.attach (mk vl vk vv vh vr))).inorder) :
    ∃ (t0 : Node K V) (a : K × V) (t1 : Node K V) (b : K × V) (t2 : Node K V) (c : K × V)
      (t3 : Node K V),
      RotateAt (mk vl vk vv vh vr) (p :: g :: up)
        = some (mk (mk t0 a.1 a.2 (1 + max (GetStature t0) (GetStature t1)) t1) b.1 b.2
            (1 + max (1 + max (GetStature t0) (GetStature t1))
              (1 + max (GetStature t2) (GetStature t3)))
            (mk t2 c.1 c.2 (1 + max (GetStature t2) (GetStature t3)) t3)) ∧
      a.1 < b.1 ∧ b.1 < c.1 ∧
      (g.attach (p.attach (mk vl vk vv vh vr))).inorder
        = t0.inorder ++ a :: t1.inorder ++ b :: t2.inorder ++ c :: t3.inorder ∧
      (g.side = Side.left → p.side = Side.left →
        (t0, a, t1, b, t2, c, t3)
          = (vl, (vk, vv), vr, (p.key_, p.value_), p.other, (g.key_, g.value_), g.other)) ∧
      (g.side = Side.left → p.side = Side.right →
        (t0, a, t1, b, t2, c, t3)
          = (p.other, (p.key_, p.value_), vl, (vk, vv), vr, (g.key_, g.value_), g.other)) ∧
      (g.side = Side.right → p.side = Side.right →
        (t0, a, t1, b, t2, c, t3)
          = (g.other, (g.key_, g.value_), p.other, (p.key_, p.value_), vl, (vk, vv), vr)) ∧
      (g.side = Side.right → p.side = Side.left →
        (t0, a, t1, b, t2, c, t3)
          = (g.other, (g.key_, g.value_), vl, (vk, vv), vr, (p.key_, p.value_), p.other)) := by
  obtain ⟨ps, pk, pv, ph, po⟩ := p
  obtain ⟨gs, gk, gv, gh, go⟩ := g
  cases gs <;> cases ps
  · have e : (Frame.attach ⟨Side.left, gk, gv, gh, go⟩
        (Frame.attach ⟨Side.left, pk, pv, ph, po⟩ (mk vl vk vv vh vr))).inorder
        = vl.inorder ++ (vk, vv) :: vr.inorder ++ (pk, pv) :: po.inorder ++ (gk, gv)
          :: go.inorder := by
      simp only [Frame.attach, inorder, List.append_assoc, List.cons_append]
    rw [e] at ho
    exact ⟨vl, (vk, vv), vr, (pk, pv), po, (gk, gv), go, by simp only [RotateAt, Connect34_eq],
      keys_lt_first ho, keys_lt_second ho, e, fun _ _ => rfl, fun _ h => (by cases h),
      fun h => (by cases h), fun h => (by cases h)⟩
  · have e : (Frame.attach ⟨Side.left, gk, gv, gh, go⟩
        (Frame.attach ⟨Side.right, pk, pv, ph, po⟩ (mk vl vk vv vh vr))).inorder
        = po.inorder ++ (pk, pv) :: vl.inorder ++ (vk, vv) :: vr.inorder ++ (gk, gv)
          :: go.inorder := by
      simp only [Frame.attach, inorder, List.append_assoc, List.cons_append]
    rw [e] at ho
    exact ⟨po, (pk, pv), vl, (vk, vv), vr, (gk, gv), go, by simp only [RotateAt, Connect34_eq],
      keys_lt_first ho, keys_lt_second ho, e, fun _ h => (by cases h), fun _ _ => rfl,
      fun h => (by cases h), fun h => (by cases h)⟩
  · have e : (Frame.attach ⟨Side.right, gk, gv, gh, go⟩
        (Frame.attach ⟨Side.left, pk, pv, ph, po⟩ (mk vl vk vv vh vr))).inorder
        = go.inorder ++ (gk, gv) :: vl.inorder ++ (vk, vv) :: vr.inorder ++ (pk, pv)
          :: po.inorder := by
      simp only [Frame.attach, inorder, List.append_assoc, List.cons_append]
    rw [e] at ho
    exact ⟨go, (gk, gv), vl, (vk, vv), vr, (pk, pv), po, by simp only [RotateAt, Connect34_eq],
      keys_lt_first ho, keys_lt_second ho, e, fun h => (by cases h), fun h => (by cases h),
      fun _ h => (by cases h), fun _ _ => rfl⟩
  · have e : (Frame.attach ⟨Side.right, gk, gv, gh, go⟩
        (Frame.attach ⟨Side.right, pk, pv, ph, po⟩ (mk vl vk vv vh vr))).inorder
        = go.inorder ++ (gk, gv) :: po.inorder ++ (pk, pv) :: vl.inorder ++ (vk, vv)
          :: vr.inorder := by
      simp only [Frame.attach, inorder, List.append_assoc, List.cons_append]
    rw [e] at ho
    exact ⟨go, (gk, gv), po, (pk, pv), vl, (vk, vv), vr, by simp only [RotateAt, Connect34_eq],
      keys_lt_first ho, keys_lt_second ho, e, fun h => (by cases h), fun h => (by cases h),
      fun _ _ => rfl, fun _ h => (by cases h)⟩

end

/-- C31, at the rotation that `Insert(1)` does in the map holding 3 and 2 (shape LL), with
the shape LR for comparison. -/
theorem C31_RotateAt_witness :
    (KeysIncreasing ((⟨Side.left, 3, 3, 1, Node.null⟩ : Frame Nat Nat).attach
        ((⟨Side.left, 2, 2, 0, Node.null⟩ : Frame Nat Nat).attach (leaf 1))).inorder ∧
      RotateAt (leaf 1) [⟨Side.left, 2, 2, 0, Node.null⟩, ⟨Side.left, 3, 3, 1, Node.null⟩]
        = some (Node.mk (leaf 1) 2 2 1 (leaf 3)) ∧
      RotateAt (leaf 2) [⟨Side.right, 1, 1, 0, Node.null⟩, ⟨Side.left, 3, 3, 1, Node.null⟩]
        = some (Node.mk (leaf 1) 2 2 1 (leaf 3))) ∧
    ∃ (t0 : Node Nat Nat) (a : Nat × Nat) (t1 : Node Nat Nat) (b : Nat × Nat)
      (t2 : Node Nat Nat) (c : Nat × Nat) (t3 : Node Nat Nat),
      RotateAt (Node.mk Node.null 1 1 0 Node.null)
          [⟨Side.left, 2, 2, 0, Node.null⟩, ⟨Side.left, 3, 3, 1, Node.null⟩]
        = some (Node.mk (Node.mk t0 a.1 a.2 (1 + max (GetStature t0) (GetStature t1)) t1)
            b.1 b.2
            (1 + max (1 + max (GetStature t0) (GetStature t1))
              (1 + max (GetStature t2) (GetStature t3)))
            (Node.mk t2 c.1 c.2 (1 + max (GetStature t2) (GetStature t3)) t3)) ∧
      a.1 < b.1 ∧ b.1 < c.1 ∧
      ((⟨Side.left, 3, 3, 1, Node.null⟩ : Frame Nat Nat).attach
          ((⟨Side.left, 2, 2, 0, Node.null⟩ : Frame Nat Nat).attach
            (Node.mk Node.null 1 1 0 Node.null))).inorder
        = t0.inorder ++ a :: t1.inorder ++ b :: t2.inorder ++ c :: t3.inorder ∧
      ((⟨Side.left, 3, 3, 1, Node.null⟩ : Frame Nat Nat).side = Side.left →
        (⟨Side.left, 2, 2, 0, Node.null⟩ : Frame Nat Nat).side = Side.left →
        (t0, a, t1, b, t2, c, t3)
          = (Node.null, (1, 1), Node.null, (2, 2), Node.null, (3, 3), Node.null)) ∧
      ((⟨Side.left, 3, 3, 1, Node.null⟩ : Frame Nat Nat).side = Side.left →
        (⟨Side.left, 2, 2, 0, Node.null⟩ : Frame Nat Nat).side = Side.right →
        (t0, a, t1, b, t2, c, t3)
          = (Node.null, (2, 2), Node.null, (1, 1), Node.null, (3, 3), Node.null)) ∧
      ((⟨Side.left, 3, 3, 1, Node.null⟩ : Frame Nat Nat).side = Side.right →
        (⟨Side.left, 2, 2, 0, Node.null⟩ : Frame Nat Nat).side = Side.right →
        (t0, a, t1, b, t2, c, t3)
          = (Node.null, (3, 3), Node.null, (2, 2), Node.null, (1, 1), Node.null)) ∧
      ((⟨Side.left, 3, 3, 1, Node.null⟩ : Frame Nat Nat).side = Side.right →
        (⟨Side.left, 2, 2, 0, Node.null⟩ : Frame Nat Nat).side = Side.left →
        (t0, a, t1, b, t2, c, t3)
          = (Node.null, (3, 3), Node.null, (1, 1), Node.null, (2, 2), Node.null)) :=
  ⟨⟨by unfold KeysIncreasing; decide, by decide, by decide⟩,
    C31_RotateAt Node.null 1 1 0 Node.null ⟨Side.left, 2, 2, 0, Node.null⟩
      ⟨Side.left, 3, 3, 1, Node.null⟩ [] (by unfold KeysIncreasing; decide)⟩

theorem GetHigherChild_some {g p : Node K V} {up pp : List (Frame K V)}
    (h : GetHigherChild g up = some (p, pp)) : ∃ f, pp = f :: up ∧ f.attach p = g := by
  cases g with
  | null => simp [GetHigherChild] at h
  | mk l k v hh r =>
      simp only [GetHigherChild] at h
      split_ifs at h <;>
        · simp only [Option.some.injEq, Prod.mk.injEq] at h
          obtain ⟨rfl, rfl⟩ := h
          exact ⟨_, rfl, rfl⟩

theorem rotateHigher_safe {g b : Node K V} {up : List (Frame K V)}
    (h : rotateHigher g up = some b) : Node.RotationSafe g up := by
  unfold rotateHigher at h
  cases h1 : GetHigherChild g up with
  | none => simp [h1] at h
  | some r1 =>
      obtain ⟨p, pp⟩ := r1
      simp only [h1] at h
      cases h2 : GetHigherChild p pp with
      | none => simp [h2] at h
      | some r2 =>
          obtain ⟨v, vp⟩ := r2
          simp only [h2] at h
          obtain ⟨fg, e1, e2⟩ := GetHigherChild_some h1
          obtain ⟨fp, e3, e4⟩ := GetHigherChild_some h2
          subst e1; subst e3
          cases p with
          | null => simp [GetHigherChild] at h2
          | mk pl pk pv ph pr =>
              cases v with
              | null => simp [RotateAt] at h
              | mk vl vk vv vh vr =>
                  exact ⟨pl, pk, pv, ph, pr, fg :: up, vl, vk, vv, vh, vr, fp, fg, b, h1, h2,
                    by rw [e4, e2], h⟩

section
variable [LinearOrder K]

omit [LinearOrder K] in
theorem InsertLoopUnbalanced_safe :
    ∀ (path : List (Frame K V)) (c t : Node K V), AVLTreeMap.InsertLoop c path = some t →
      ∀ e ∈ AVLTreeMap.InsertLoopUnbalanced c path, Node.RotationSafe e.1 e.2 := by
  intro path
  induction path with
  | nil => intro c t _ e he; simp [AVLTreeMap.InsertLoopUnbalanced] at he
  | cons f up ih =>
      intro c t h e he
      simp only [AVLTreeMap.InsertLoop] at h
      simp only [AVLTreeMap.InsertLoopUnbalanced] at he
      by_cases hb : IsAVLBalanced (f.attach c) = false
      · simp only [hb, if_true] at h he
        cases hr : rotateHigher (f.attach c) up with
        | none => simp [hr] at h
        | some b =>
            rw [List.mem_singleton.mp he]
            exact rotateHigher_safe hr
      · simp only [hb, if_false] at h he
        exact ih _ t h e he

omit [LinearOrder K] in
theorem RemoveLoopUnbalanced_safe :
    ∀ (path : List (Frame K V)) (c t : Node K V), AVLTreeMap.RemoveLoop c path = some t →
      ∀ e ∈ AVLTreeMap.RemoveLoopUnbalanced c path, Node.RotationSafe e.1 e.2 := by
  intro path
  induction path with
  | nil => intro c t _ e he; simp [AVLTreeMap.RemoveLoopUnbalanced] at he
  | cons f up ih =>
      intro c t h e he
      simp only [AVLTreeMap.RemoveLoop] at h
      simp only [AVLTreeMap.RemoveLoopUnbalanced] at he
      by_cases hb : IsAVLBalanced (f.attach c) = false
      · simp only [hb, if_true] at h he
        cases hr : rotateHigher (f.attach c) up with
        | none => simp [hr] at h
        | some b =>
            simp only [hr] at h he
            rcases List.mem_cons.mp he with he | he
            · rw [he]; exact rotateHigher_safe hr
            · exact ih _ t h e he
      · simp only [hb, if_false] at h he
        exact ih _ t h e he

/-- C32: on every tree of an `AVLTreeMap` reachable from the empty map, `Insert` and `Remove`
return, and for every ancestor `g` that their loop finds not AVL-balanced,
`p = GetHigherChild(g)` and `v = GetHigherChild(p)` are both non-null, `v` has the parent `p`
and the grandparent `g`, and `RotateAt(v)` returns: no null pointer is dereferenced. -/
theorem C32_rotation_safe (m : AVLTreeMap K V) (h : AVLTreeMap.Reachable m) (k : K) (v : V) :
    (∃ r, m.Insert k v = some r) ∧
      (∀ e ∈ AVLTreeMap.InsertUnbalanced m k v, Node.RotationSafe e.1 e.2) ∧
      (∃ r, m.Remove k = some r) ∧
      (∀ e ∈ AVLTreeMap.RemoveUnbalanced m k, Node.RotationSafe e.1 e.2) := by
  obtain ⟨r1, h1⟩ := AVLTreeMap.avl_Insert_isSome m h k v
  obtain ⟨r2, h2⟩ := AVLTreeMap.avl_Remove_isSome m h k
  refine ⟨⟨r1, h1⟩, ?_, ⟨r2, h2⟩, ?_⟩
  · intro e he
    unfold AVLTreeMap.InsertUnbalanced at he
    unfold AVLTreeMap.Insert at h1
    cases hs : m.Search k with
    | mk x hot =>
        rw [hs] at he h1
        cases x with
        | mk _ _ _ _ _ => simp at he
        | null =>
            simp only at he h1
            cases hl : AVLTreeMap.InsertLoop (Node.mk null k v 0 null) hot with
            | none => simp [hl] at h1
            | some t => exact InsertLoopUnbalanced_safe hot _ t hl e he
  · intro e he
    unfold AVLTreeMap.RemoveUnbalanced at he
    unfold AVLTreeMap.Remove at h2
    cases hs : m.Search k with
    | mk x hot =>
        rw [hs] at he h2
        cases x with
        | null => simp at he
        | mk l key val hh r =>
            simp only at he h2
            cases hl : AVLTreeMap.RemoveLoop (RemoveAt l key val hh r hot).1
                (RemoveAt l key val hh r hot).2 with
            | none => simp [hl] at h2
            | some t => exact RemoveLoopUnbalanced_safe _ _ t hl e he

end

/-- C32, at the map holding 1 and 2: `Insert(3, 3)` finds the root not balanced and rotates;
`Remove(4)` on the map of twelve keys finds two ancestors not balanced. -/
theorem C32_rotation_safe_witness :
    (AVLTreeMap.Reachable avl2 ∧
      AVLTreeMap.InsertUnbalanced avl2 3 3
        = [(Node.mk Node.null 1 1 1 (Node.mk Node.null 2 2 1 (leaf 3)), [])] ∧
      (AVLTreeMap.RemoveUnbalanced avl12 4).length = 2) ∧
    ((∃ r, avl2.Insert 3 3 = some r) ∧
      (∀ e ∈ AVLTreeMap.InsertUnbalanced avl2 3 3, Node.RotationSafe e.1 e.2) ∧
      (∃ r, avl2.Remove 3 = some r) ∧
      (∀ e ∈ AVLTreeMap.RemoveUnbalanced avl2 3, Node.RotationSafe e.1 e.2)) :=
  ⟨⟨avl2_reachable, by decide, by decide⟩, C32_rotation_safe avl2 avl2_reachable 3 3⟩

end DSA

namespace DSA
open Node
variable {K V : Type}

/-! ## The claims C33, C34 and C35: `SplayTreeMap` -/

section
variable [LinearOrder K]

/-- C33: for a non-empty `SplayTreeMap` in a reachable state and a key `k` that is not
stored, after `Search(k)` the key of the root is a stored key that is a nearest neighbour of
`k`: the greatest stored key smaller than `k`, or the smallest stored key greater than
`k`. -/
theorem C33_splay_search_neighbour (m : SplayTreeMap K V) (h : SplayTreeMap.Reachable m)
    (k : K) (hne : m.root_ ≠ Node.null) (hk : k ∉ m.root_.keys) :
    ∃ L tk tv hh R, (m.Search k).root_ = Node.mk L tk tv hh R ∧ tk ∈ m.root_.keys ∧
      ((tk < k ∧ ∀ x ∈ m.root_.keys, x < k → x ≤ tk) ∨
        (k < tk ∧ ∀ x ∈ m.root_.keys, k < x → tk ≤ x)) := by
  have ht := (SplayTreeMap.splay_reachable_inv h).1
  obtain ⟨L, tk, tv, hh, R, e, e1, e2, e3, -⟩ := SplayTreeMap.splay_Search_spec m k ht hne
  have hmem : tk ∈ m.root_.keys := by
    simp [keys, e1]
  have hso := ht
  rw [e1] at hso
  simp only [KeysIncreasing, List.pairwise_append, List.pairwise_cons, List.mem_cons] at hso
  obtain ⟨-, ⟨hR, -⟩, hLR⟩ := hso
  have hkeys : ∀ x ∈ m.root_.keys,
      (∃ p ∈ L.inorder, p.1 = x) ∨ x = tk ∨ ∃ p ∈ R.inorder, p.1 = x := by
    intro x hx
    simp only [keys, e1, List.map_append, List.map_cons, List.mem_append, List.mem_cons,
      List.mem_map] at hx
    rcases hx with ⟨p, hp, rfl⟩ | rfl | ⟨p, hp, rfl⟩
    · exact Or.inl ⟨p, hp, rfl⟩
    · exact Or.inr (Or.inl rfl)
    · exact Or.inr (Or.inr ⟨p, hp, rfl⟩)
  refine ⟨L, tk, tv, hh, R, e, hmem, ?_⟩
  rcases lt_trichotomy tk k with hlt | heq | hgt
  · left
    refine ⟨hlt, fun x hx hxk => ?_⟩
    rcases hkeys x hx with ⟨p, hp, rfl⟩ | rfl | ⟨p, hp, rfl⟩
    · exact le_of_lt (hLR p hp (tk, tv) (Or.inl rfl))
    · exact le_refl _
    · exact absurd hxk (not_lt.mpr (le_of_lt (e2 hlt p hp)))
  · exact absurd (heq ▸ hmem) hk
  · right
    refine ⟨hgt, fun x hx hxk => ?_⟩
    rcases hkeys x hx with ⟨p, hp, rfl⟩ | rfl | ⟨p, hp, rfl⟩
    · exact absurd hxk (not_lt.mpr (le_of_lt (e3 hgt p hp)))
    · exact le_refl _
    · exact le_of_lt (hR p hp)

/-- C33, at the map holding 1, 2, 3: `Search(99)` brings 3 to the root, the greatest stored
key below 99. -/
theorem C33_splay_search_neighbour_witness :
    (SplayTreeMap.Reachable splay3 ∧ splay3.root_ ≠ Node.null ∧ 99 ∉ splay3.root_.keys ∧
      (splay3.Search 99).root_ = Node.mk (Node.mk (leaf 1) 2 2 1 Node.null) 3 3 2 Node.null ∧
      (splay3.Search 0).root_
        = Node.mk Node.null 1 1 2 (Node.mk Node.null 2 2 1 (leaf 3))) ∧
    ∃ L tk tv hh R, (splay3.Search 99).root_ = Node.mk L tk tv hh R ∧ tk ∈ splay3.root_.keys ∧
      ((tk < 99 ∧ ∀ x ∈ splay3.root_.keys, x < 99 → x ≤ tk) ∨
        (99 < tk ∧ ∀ x ∈ splay3.root_.keys, 99 < x → tk ≤ x)) :=
  ⟨⟨splay3_reachable, by decide, by decide, by decide, by decide⟩,
    C33_splay_search_neighbour splay3 splay3_reachable 99 (by decide) (by decide)⟩

end

theorem ne_mk_left (l r : Node K V) (k : K) (v : V) (h : Int) : l ≠ Node.mk l k v h r := by
  intro e
  have := congrArg Node.GetSize e
  simp only [Node.GetSize] at this
  omega

theorem ne_mk_right (l r : Node K V) (k : K) (v : V) (h : Int) : r ≠ Node.mk l k v h r := by
  intro e
  have := congrArg Node.GetSize e
  simp only [Node.GetSize] at this
  omega

/-- C34: one double step of `Splay` in the zig-zig shapes.  When `v` is the left child of `p`
and `p` the left child of `g`, with `A`, `B` the subtrees of `v`, `C` the right subtree of
`p` and `D` that of `g`, the step puts `v` on top with left subtree `A` and right child `p`,
`p` with left subtree `B` and right child `g`, `g` with the subtrees `C` and `D`, the heights
of `g`, `p`, `v` being recomputed in this order, and `Splay` goes on with `v` in the place of
`g` under the former ancestors of `g`.  Two single rotations at `v` (the last step of
`Splay`, done under `p` and then under `g`) would put `g` under `v` with `p` as the left
child of `g`: the results differ.  The right-right shape is the mirror image. -/
theorem C34_zig_zig (A B C D : Node K V) (vk : K) (vv : V) (vh : Int) (pk : K) (pv : V)
    (ph : Int) (gk : K) (gv : V) (gh : Int) (up : List (Frame K V)) :
    (splayStep A vk vv vh B ⟨Side.left, pk, pv, ph, C⟩ ⟨Side.left, gk, gv, gh, D⟩
        = Node.mk A vk vv
            (1 + max (GetStature A)
              (1 + max (GetStature B) (1 + max (GetStature C) (GetStature D))))
            (Node.mk B pk pv (1 + max (GetStature B) (1 + max (GetStature C) (GetStature D)))
              (Node.mk C gk gv (1 + max (GetStature C) (GetStature D)) D)) ∧
      Splay (Node.mk A vk vv vh B)
          (⟨Side.left, pk, pv, ph, C⟩ :: ⟨Side.left, gk, gv, gh, D⟩ :: up)
        = Splay (splayStep A vk vv vh B ⟨Side.left, pk, pv, ph, C⟩
            ⟨Side.left, gk, gv, gh, D⟩) up ∧
      (∃ h1 h2 h3 h4,
        splayLast A vk vv vh B ⟨Side.left, pk, pv, ph, C⟩
          = Node.mk A vk vv h1 (Node.mk B pk pv h2 C) ∧
        splayLast A vk vv h1 (Node.mk B pk pv h2 C) ⟨Side.left, gk, gv, gh, D⟩
          = Node.mk A vk vv h3 (Node.mk (Node.mk B pk pv h2 C) gk gv h4 D) ∧
        splayStep A vk vv vh B ⟨Side.left, pk, pv, ph, C⟩ ⟨Side.left, gk, gv, gh, D⟩
          ≠ Node.mk A vk vv h3 (Node.mk (Node.mk B pk pv h2 C) gk gv h4 D))) ∧
    (splayStep A vk vv vh B ⟨Side.right, pk, pv, ph, C⟩ ⟨Side.right, gk, gv, gh, D⟩
        = Node.mk
            (Node.mk (Node.mk D gk gv (1 + max (GetStature D) (GetStature C)) C) pk pv
              (1 + max (1 + max (GetStature D) (GetStature C)) (GetStature A)) A)
            vk vv
            (1 + max (1 + max (1 + max (GetStature D) (GetStature C)) (GetStature A))
              (GetStature B)) B ∧
      Splay (Node.mk A vk vv vh B)
          (⟨Side.right, pk, pv, ph, C⟩ :: ⟨Side.right, gk, gv, gh, D⟩ :: up)
        = Splay (splayStep A vk vv vh B ⟨Side.right, pk, pv, ph, C⟩
            ⟨Side.right, gk, gv, gh, D⟩) up ∧
      (∃ h1 h2 h3 h4,
        splayLast A vk vv vh B ⟨Side.right, pk, pv, ph, C⟩
          = Node.mk (Node.mk C pk pv h2 A) vk vv h1 B ∧
        splayLast (Node.mk C pk pv h2 A) vk vv h1 B ⟨Side.right, gk, gv, gh, D⟩
          = Node.mk (Node.mk D gk gv h4 (Node.mk C pk pv h2 A)) vk vv h3 B ∧
        splayStep A vk vv vh B ⟨Side.right, pk, pv, ph, C⟩ ⟨Side.right, gk, gv, gh, D⟩
          ≠ Node.mk (Node.mk D gk gv h4 (Node.mk C pk pv h2 A)) vk vv h3 B)) := by
  have eL : splayStep A vk vv vh B ⟨Side.left, pk, pv, ph, C⟩ ⟨Side.left, gk, gv, gh, D⟩
        = Node.mk A vk vv
            (1 + max (GetStature A)
              (1 + max (GetStature B) (1 + max (GetStature C) (GetStature D))))
            (Node.mk B pk pv (1 + max (GetStature B) (1 + max (GetStature C) (GetStature D)))
              (Node.mk C gk gv (1 + max (GetStature C) (GetStature D)) D)) := by
    simp only [splayStep, UpdateHeight, GetStature, stature_max]
  have eR : splayStep A vk vv vh B ⟨Side.right, pk, pv, ph, C⟩ ⟨Side.right, gk, gv, gh, D⟩
        = Node.mk
            (Node.mk (Node.mk D gk gv (1 + max (GetStature D) (GetStature C)) C) pk pv
              (1 + max (1 + max (GetStature D) (GetStature C)) (GetStature A)) A)
            vk vv
            (1 + max (1 + max (1 + max (GetStature D) (GetStature C)) (GetStature A))
              (GetStature B)) B := by
    simp only [splayStep, UpdateHeight, GetStature, stature_max]
  refine ⟨⟨eL, by simp only [Splay], ?_⟩, ⟨eR, by simp only [Splay], ?_⟩⟩
  · refine ⟨1 + max (GetStature A) (1 + max (GetStature B) (GetStature C)),
      1 + max (GetStature B) (GetStature C),
      1 + max (GetStature A) (1 + max (1 + max (GetStature B) (GetStature C)) (GetStature D)),
      1 + max (1 + max (GetStature B) (GetStature C)) (GetStature D),
      by simp only [splayLast, UpdateHeight, GetStature, stature_max],
      by simp only [splayLast, UpdateHeight, GetStature, stature_max], ?_⟩
    rw [eL]
    intro e
    injection e with _ _ _ _ e5
    injection e5 with e6
    exact ne_mk_left B C pk pv _ e6
  · refine ⟨1 + max (1 + max (GetStature C) (GetStature A)) (GetStature B),
      1 + max (GetStature C) (GetStature A),
      1 + max (1 + max (GetStature D) (1 + max (GetStature C) (GetStature A))) (GetStature B),
      1 + max (GetStature D) (1 + max (GetStature C) (GetStature A)),
      by simp only [splayLast, UpdateHeight, GetStature, stature_max],
      by simp only [splayLast, UpdateHeight, GetStature, stature_max], ?_⟩
    rw [eR]
    intro e
    injection e with e1
    injection e1 with e2 _ _ _ e6
    exact ne_mk_right C A pk pv _ e6


section
variable [LinearOrder K]

/-- C35: for a `SplayTreeMap` in a reachable state and a stored key `k` whose node, once
`Search(k)` has splayed it to the root, has a left subtree `wl` and a right subtree `wr`,
both non-empty: `Remove(k)` returns true, the new root holds the smallest stored key greater
than `k`, which is the first key of `wr` in inorder (its leftmost node), the left subtree of
the new root is exactly `wl`, and its right subtree holds the rest of `wr`. -/
theorem C35_splay_remove_two (m : SplayTreeMap K V) (h : SplayTreeMap.Reachable m) (k : K)
    (wl : Node K V) (wv : V) (wh : Int) (wr : Node K V)
    (hs : (m.Search k).root_ = Node.mk wl k wv wh wr) (hl : wl ≠ Node.null)
    (hr : wr ≠ Node.null) :
    ∃ m' rk rv hh rr, m.Remove k = some (m', true) ∧ m'.root_ = Node.mk wl rk rv hh rr ∧
      wr.inorder = (rk, rv) :: rr.inorder ∧ k < rk ∧ rk ∈ m.root_.keys ∧
      (∀ x ∈ m.root_.keys, k < x → rk ≤ x) ∧ m'.GetSize = m.GetSize - 1 := by
  have ht := (SplayTreeMap.splay_reachable_inv h).1
  have hin := SplayTreeMap.splay_Search_inorder m k ht
  rw [hs] at hin
  have hso := ht
  rw [← hin] at hso
  rw [keysIncreasing_node] at hso
  obtain ⟨-, hRs, hLk, hRk, -⟩ := hso
  cases hroot : m.root_ with
  | null =>
      rw [SplayTreeMap.splay_Search_null m k hroot, hroot] at hs
      exact absurd hs (fun e => Node.noConfusion e)
  | mk l0 k0 v0 h0 r0 =>
      cases hwr : wr with
      | null => exact absurd hwr hr
      | mk b1 b2 b3 b4 b5 =>
      have hne2 : (⟨(m.Search k).size_, wr⟩ : SplayTreeMap K V).root_ ≠ Node.null := hr
      obtain ⟨L', tk', tv', h', R', f, f1, -, f3, -⟩ :=
        SplayTreeMap.splay_Search_spec (⟨(m.Search k).size_, wr⟩ : SplayTreeMap K V) k hRs hne2
      simp only at f1
      have hgt : k < tk' := hRk (tk', tv') (by rw [f1]; simp)
      have hL : L'.inorder = [] := by
        rw [List.eq_nil_iff_forall_not_mem]
        intro p hp
        have h1 := f3 hgt p hp
        have h2 := hRk p (by rw [f1]; simp [hp])
        exact lt_irrefl _ (lt_trans h1 h2)
      have hwin : wr.inorder = (tk', tv') :: R'.inorder := by rw [f1, hL]; rfl
      have hsr := hRs
      rw [hwin] at hsr
      simp only [KeysIncreasing, List.pairwise_cons] at hsr
      have hall : m.root_.inorder = wl.inorder ++ (k, wv) :: (tk', tv') :: R'.inorder := by
        rw [← hin, ← hwin]; rfl
      rw [hwr] at f
      rw [← hroot]
      refine ⟨⟨(m.Search k).size_ - 1, UpdateHeight (Node.mk wl tk' tv' h' R')⟩, tk', tv', _,
        R', ?_, rfl, by rw [← hwr]; exact hwin, hgt, ?_, ?_, ?_⟩
      · cases wl with
        | null => exact absurd rfl hl
        | mk a1 a2 a3 a4 a5 =>
            simp only [SplayTreeMap.Remove, hroot, hs, hwr, ne_eq, not_true_eq_false, if_false,
              f]
      · simp [keys, hall]
      · intro x hx hkx
        simp only [keys, hall, List.map_append, List.map_cons, List.mem_append,
          List.mem_cons, List.mem_map] at hx
        rcases hx with ⟨p, hp, rfl⟩ | hx | hx | ⟨p, hp, rfl⟩
        · exact absurd hkx (not_lt.mpr (le_of_lt (hLk p hp)))
        · rw [hx] at hkx; exact absurd hkx (lt_irrefl _)
        · rw [hx]
        · exact le_of_lt (hsr.1 p hp)
      · simp only [SplayTreeMap.GetSize, SplayTreeMap.splay_Search_size]

end

/-- C35, at the map holding 1, 2, 3 and the key 2: `Search(2)` brings 2 to the root between 1
and 3, and `Remove(2)` leaves 3 at the root over the left subtree holding 1. -/
theorem C35_splay_remove_two_witness :
    (SplayTreeMap.Reachable splay3 ∧
      (splay3.Search 2).root_ = Node.mk (leaf 1) 2 2 1 (leaf 3) ∧
      (splay3.Remove 2).map (fun r => (r.1.root_, r.2))
        = some (Node.mk (leaf 1) 3 3 1 Node.null, true)) ∧
    ∃ m' rk rv hh rr, splay3.Remove 2 = some (m', true) ∧
      m'.root_ = Node.mk (leaf 1) rk rv hh rr ∧
      (leaf 3).inorder = (rk, rv) :: rr.inorder ∧ 2 < rk ∧ rk ∈ splay3.root_.keys ∧
      (∀ x ∈ splay3.root_.keys, 2 < x → rk ≤ x) ∧ m'.GetSize = splay3.GetSize - 1 :=
  ⟨⟨splay3_reachable, by decide, by decide⟩,
    C35_splay_remove_two splay3 splay3_reachable 2 (leaf 1) 2 1 (leaf 3) (by decide)
      (by decide) (by decide)⟩

end DSA

namespace DSA

/-! ## The claim C38: the heap order -/

section
variable {T : Type} [LinearOrder T]

open PriorityQueueArrayHeap

/-- C38: in every state of a `PriorityQueueArrayHeap` produced by a constructor, by `Insert`
or by `DeleteMax`, the cells below `size` hold values in max-heap order: for every index `i`
with `0 < i < size`, `element[i] <= element[(i - 1) / 2]`.  `Heapify`, run on any array of
`n` elements, returns, leaves them in heap order and keeps their multiset; so does the array
constructor, whose state is one of these. -/
theorem C38_heap_order (h : PriorityQueueArrayHeap T) (hr : Reachable h) :
    (∀ i, 0 < i → i < h.size_ →
      ∃ x y, h.element_[i]? = some x ∧ h.element_[(i - 1) / 2]? = some y ∧ x ≤ y) ∧
    (∀ (fuel n cap : Nat) (a : List T), n < fuel → n ≤ a.length →
      ∃ a', Heapify fuel ⟨n, cap, a⟩ = some ⟨n, cap, a'⟩ ∧
        List.Perm (contents ⟨n, cap, a'⟩) (contents ⟨n, cap, a⟩) ∧
        ∀ i, 0 < i → i < n →
          ∃ x y, a'[i]? = some x ∧ a'[(i - 1) / 2]? = some y ∧ x ≤ y) ∧
    (∀ (fuel : Nat) (A : List T) (n : Nat), n ≤ A.length → n < fuel →
      ∃ h', ofArray fuel A n = some h' ∧ Reachable h' ∧ h'.size_ = n ∧
        List.Perm h'.contents (A.take n)) := by
  have key : ∀ (a : List T) (n : Nat), n ≤ a.length → HeapFrom a n 0 →
      ∀ i, 0 < i → i < n → ∃ x y, a[i]? = some x ∧ a[(i - 1) / 2]? = some y ∧ x ≤ y := by
    intro a n hn hh i h0 hi
    have h1 : i < a.length := by omega
    have h2 : (i - 1) / 2 < a.length := by omega
    refine ⟨a[i], a[(i - 1) / 2], List.getElem?_eq_getElem h1, List.getElem?_eq_getElem h2, ?_⟩
    exact hh i _ _ h0 hi (Nat.zero_le _) (List.getElem?_eq_getElem h1)
      (List.getElem?_eq_getElem h2)
  refine ⟨?_, ?_, ?_⟩
  · obtain ⟨hlen, hheap⟩ := heap_reachable_inv hr
    exact key h.element_ h.size_ hlen hheap
  · intro fuel n cap a hf hn
    obtain ⟨a', e, hh, hp, hs⟩ := Heapify_spec n cap fuel a hf hn
    refine ⟨a', e, ?_, key a' n (by rw [hs.1]; exact hn) hh⟩
    have := segment_perm hp hs (Nat.zero_le n)
    rw [segment_zero, segment_zero] at this
    exact this
  · intro fuel A n hn hf
    obtain ⟨a', e, -, hp⟩ := ofArray_spec fuel A n hn hf
    exact ⟨_, e, Reachable.ofArray fuel A n e, rfl, hp⟩

/-- C38, at the queue holding 1, 2, 3 and at the array 1, 2, 3, 4, 5 given to the array
constructor. -/
theorem C38_heap_order_witness :
    (Reachable pq123 ∧
      ofArray 6 [(1 : Int), 2, 3, 4, 5] 5 = some ⟨5, 10, [5, 4, 3, 1, 2]⟩) ∧
    ((∀ i, 0 < i → i < pq123.size_ →
      ∃ x y, pq123.element_[i]? = some x ∧ pq123.element_[(i - 1) / 2]? = some y ∧ x ≤ y) ∧
    (∀ (fuel n cap : Nat) (a : List Int), n < fuel → n ≤ a.length →
      ∃ a', Heapify fuel ⟨n, cap, a⟩ = some ⟨n, cap, a'⟩ ∧
        List.Perm (contents ⟨n, cap, a'⟩) (contents ⟨n, cap, a⟩) ∧
        ∀ i, 0 < i → i < n →
          ∃ x y, a'[i]? = some x ∧ a'[(i - 1) / 2]? = some y ∧ x ≤ y) ∧
    (∀ (fuel : Nat) (A : List Int) (n : Nat), n ≤ A.length → n < fuel →
      ∃ h', ofArray fuel A n = some h' ∧ Reachable h' ∧ h'.size_ = n ∧
        List.Perm h'.contents (A.take n))) :=
  ⟨⟨pq123_reachable, by decide⟩, C38_heap_order pq123 pq123_reachable⟩

end

end DSA

namespace DSA

/-! ## HashMapDictionary: `GetPrime` -/

namespace HashMapDictionary

theorem sqrtFrom_eq (n : Nat) : ∀ k, Nat.sqrt n ≤ k → sqrtFrom n k = Nat.sqrt n
  | 0, h => by simp [sqrtFrom]; omega
  | k + 1, h => by
      unfold sqrtFrom
      by_cases hk : (k + 1) * (k + 1) ≤ n
      · rw [if_pos hk]
        have := Nat.le_sqrt.mpr hk
        omega
      · rw [if_neg hk]
        have : ¬ (k + 1 ≤ Nat.sqrt n) := fun h' => hk (Nat.le_sqrt.mp h')
        exact sqrtFrom_eq n k (by omega)

theorem sqrtInt_eq (n : Nat) : sqrtInt n = Nat.sqrt n :=
  sqrtFrom_eq n n (Nat.sqrt_le_self n)

/-- The trial division of `GetPrime` accepts a number from 2 on exactly when it is prime. -/
theorem trial_iff_prime (i : Nat) (h : 2 ≤ i) :
    (List.range' 2 (sqrtInt i - 1)).all (fun j => decide (i % j ≠ 0)) = true ↔ Nat.Prime i := by
  rw [sqrtInt_eq, Nat.prime_def_le_sqrt, List.all_eq_true]
  constructor
  · intro H
    refine ⟨h, fun m h2 hm hd => ?_⟩
    have := H m (by rw [List.mem_range'_1]; omega)
    simp only [ne_eq, decide_eq_true_eq] at this
    exact this (Nat.mod_eq_zero_of_dvd hd)
  · rintro ⟨_, H⟩ j hj
    rw [List.mem_range'_1] at hj
    simp only [ne_eq, decide_eq_true_eq]
    intro hd
    exact H j hj.1 (by omega) (Nat.dvd_of_mod_eq_zero hd)

theorem GetPrimeLoop_succ (fuel i : Nat) :
    GetPrimeLoop (fuel + 1) i =
      if (List.range' 2 (sqrtInt i - 1)).all (fun j => decide (i % j ≠ 0)) then some i
      else GetPrimeLoop fuel (i + 1) := rfl

/-- The result of `GetPrime` is at least its argument. -/
theorem GetPrimeLoop_le : ∀ (fuel i p : Nat), GetPrimeLoop fuel i = some p → i ≤ p
  | 0, _, _, h => by simp [GetPrimeLoop] at h
  | fuel + 1, i, p, h => by
      rw [GetPrimeLoop_succ] at h
      split at h
      · simp only [Option.some.injEq] at h; omega
      · have := GetPrimeLoop_le fuel (i + 1) p h
        omega

/-- From 2 on, a result of `GetPrime` is the first prime from its argument on. -/
theorem GetPrimeLoop_prime : ∀ (fuel i p : Nat), 2 ≤ i → GetPrimeLoop fuel i = some p →
    Nat.Prime p ∧ i ≤ p ∧ ∀ q, i ≤ q → q < p → ¬ Nat.Prime q
  | 0, _, _, _, h => by simp [GetPrimeLoop] at h
  | fuel + 1, i, p, h2, h => by
      rw [GetPrimeLoop_succ] at h
      by_cases ht : (List.range' 2 (sqrtInt i - 1)).all (fun j => decide (i % j ≠ 0)) = true
      · rw [if_pos ht] at h
        simp only [Option.some.injEq] at h
        subst h
        exact ⟨(trial_iff_prime i h2).mp ht, le_refl _, fun q h1 h3 => by omega⟩
      · rw [if_neg ht] at h
        obtain ⟨hp, hle, hq⟩ := GetPrimeLoop_prime fuel (i + 1) p (by omega) h
        refine ⟨hp, by omega, fun q h1 h3 => ?_⟩
        by_cases e : q = i
        · subst e
          exact fun hpr => ht ((trial_iff_prime q h2).mpr hpr)
        · exact hq q (by omega) h3

/-- From 2 on, `GetPrime` returns when the fuel exceeds the distance to the next prime. -/
theorem GetPrimeLoop_total : ∀ (d i p fuel : Nat), 2 ≤ i → Nat.Prime p → i + d = p → d < fuel →
    ∃ r, GetPrimeLoop fuel i = some r
  | 0, i, p, fuel + 1, h2, hp, e, _ => by
      have e' : i = p := by omega
      subst e'
      rw [GetPrimeLoop_succ, if_pos ((trial_iff_prime i h2).mpr hp)]
      exact ⟨i, rfl⟩
  | d + 1, i, p, fuel + 1, h2, hp, e, hf => by
      rw [GetPrimeLoop_succ]
      split
      · exact ⟨i, rfl⟩
      · exact GetPrimeLoop_total d (i + 1) p fuel (by omega) hp (by omega) (by omega)

/-- From 2 on, `GetPrime` returns the first prime from its argument on, for every fuel beyond a
bound. -/
theorem hash_GetPrime_spec (c : Nat) (h : 2 ≤ c) :
    ∃ p, Nat.Prime p ∧ c ≤ p ∧ (∀ q, c ≤ q → q < p → ¬ Nat.Prime q) ∧
      ∀ fuel, p - c < fuel → GetPrime fuel c = some p := by
  obtain ⟨p0, hle, hp0⟩ := Nat.exists_infinite_primes c
  obtain ⟨r, hr⟩ := GetPrimeLoop_total (p0 - c) c p0 (p0 - c + 1) h hp0 (by omega) (by omega)
  obtain ⟨hp, hcr, hq⟩ := GetPrimeLoop_prime _ c r h hr
  refine ⟨r, hp, hcr, hq, fun fuel hf => ?_⟩
  obtain ⟨r', hr'⟩ := GetPrimeLoop_total (r - c) c r fuel h hp (by omega) hf
  obtain ⟨hp', hcr', hq'⟩ := GetPrimeLoop_prime _ c r' h hr'
  have e : r' = r := by
    rcases Nat.lt_trichotomy r' r with h1 | h1 | h1
    · exact absurd hp' (hq r' hcr' h1)
    · exact h1
    · exact absurd hp (hq' r hcr h1)
  rw [← e]
  exact hr'

end HashMapDictionary

section

open HashMapDictionary

/-- C40 (defect at the arguments 0 and 1): whatever the fuel, `GetPrime(0)` returns 0 and
`GetPrime(1)` returns 1, since no `j` from 2 to the square root is tried; neither is a prime,
and the first prime from 0 or from 1 on is 2. The constructor called with the capacity
request 1 therefore builds a table of one bucket. -/
theorem C40_GetPrime_small (fuel : Nat) :
    GetPrime (fuel + 1) 0 = some 0 ∧ GetPrime (fuel + 1) 1 = some 1 ∧
    ¬ Nat.Prime 0 ∧ ¬ Nat.Prime 1 ∧ Nat.Prime 2 ∧
    (HashMapDictionary.new (fuel + 1) 1 : Option (HashMapDictionary Int Int)) =
      some ⟨0, [none], BitMap.Init 1⟩ ∧
    (HashMapDictionary.mk 0 [(none : Option (Int × Int))] (BitMap.Init 1)).capacity_ = 1 :=
  ⟨rfl, rfl, Nat.not_prime_zero, Nat.not_prime_one, Nat.prime_two, rfl, rfl⟩

end

end DSA

namespace DSA

/-! ## HashMapDictionary: a table whose empty buckets are all marked -/

namespace HashMapDictionary

variable {K V : Type} [DecidableEq K]

/-- When every bucket is empty and marked as lazily removed, the loop of `ProbeForHit` does
not return, whatever the fuel. -/
theorem ProbeForHitLoop_marked (m : HashMapDictionary K V) (k : K)
    (h : ∀ r, r < m.capacity_ → m.ht_[r]? = some none ∧ m.IsLazilyRemoved r = true) :
    ∀ (fuel r : Nat), r < m.capacity_ → ProbeForHitLoop m k fuel r = none
  | 0, _, _ => rfl
  | fuel + 1, r, hr => by
      obtain ⟨h1, h2⟩ := h r hr
      unfold ProbeForHitLoop
      rw [h1]
      simp only [h2, if_true]
      exact ProbeForHitLoop_marked m k h fuel _ (Nat.mod_lt _ (by omega))

theorem ProbeForHit_marked (hc : K → Nat) (m : HashMapDictionary K V) (k : K)
    (h : ∀ r, r < m.capacity_ → m.ht_[r]? = some none ∧ m.IsLazilyRemoved r = true)
    (fuel : Nat) : ProbeForHit hc fuel m k = none := by
  unfold ProbeForHit
  split
  · rfl
  · exact ProbeForHitLoop_marked m k h fuel _ (Nat.mod_lt _ (by omega))

theorem hash_marked_none (hc : K → Nat) (m : HashMapDictionary K V) (k : K)
    (h : ∀ r, r < m.capacity_ → m.ht_[r]? = some none ∧ m.IsLazilyRemoved r = true)
    (fuel : Nat) :
    ProbeForHit hc fuel m k = none ∧ Get hc fuel m k = none ∧ Remove hc fuel m k = none ∧
      ∀ v, Put hc fuel m k v = none := by
  have hp := ProbeForHit_marked hc m k h
  refine ⟨hp fuel, ?_, ?_, fun v => ?_⟩
  · simp only [Get, hp fuel]
  · simp only [Remove, hp fuel]
  · cases fuel with
    | zero => rfl
    | succ f => simp only [Put, hp (f + 1)]

end HashMapDictionary

theorem hashMarked_reachable : HashMapDictionary.Reachable hcInt hashMarked := by
  have h0 : HashMapDictionary.Reachable hcInt
      (⟨0, [none, none], BitMap.Init 2⟩ : HashMapDictionary Int Int) :=
    HashMapDictionary.Reachable.new 1 2 (by decide)
  have h1 : HashMapDictionary.Reachable hcInt
      (⟨1, [some (0, 0), none], BitMap.Init 2⟩ : HashMapDictionary Int Int) :=
    HashMapDictionary.Reachable.put 1 0 0 true h0 (by decide)
  have h2 : HashMapDictionary.Reachable hcInt
      (⟨0, [none, none], (BitMap.Init 2).Set 0⟩ : HashMapDictionary Int Int) :=
    HashMapDictionary.Reachable.remove 1 0 true h1 (by decide)
  have h3 : HashMapDictionary.Reachable hcInt
      (⟨1, [none, some (1, 0)], (BitMap.Init 2).Set 0⟩ : HashMapDictionary Int Int) :=
    HashMapDictionary.Reachable.put 1 1 0 true h2 (by decide)
  exact HashMapDictionary.Reachable.remove 1 1 true h3 (by decide)

theorem hashMarkedUpTo_reachable :
    ∀ j, j ≤ 11 → HashMapDictionary.Reachable hcInt (hashMarkedUpTo j)
  | 0, _ => HashMapDictionary.Reachable.new 1 11 (by decide)
  | j + 1, h => by
      have ih := hashMarkedUpTo_reachable j (by omega)
      have hj : j < 11 := by omega
      have e1 : HashMapDictionary.Put hcInt 1 (hashMarkedUpTo j) (j : Int) 0
          = some (hashMarkedPut j, true) := by
        interval_cases j <;> decide
      have e2 : HashMapDictionary.Remove hcInt 1 (hashMarkedPut j) (j : Int)
          = some (hashMarkedUpTo (j + 1), true) := by
        interval_cases j <;> decide
      exact HashMapDictionary.Reachable.remove 1 _ true
        (HashMapDictionary.Reachable.put 1 _ 0 true ih e1) e2

section

open HashMapDictionary

/-- C36 (defect): the dictionary `d(2)` after `Put(0, 0)`, `Remove(0)`, `Put(1, 0)`,
`Remove(1)`, and the dictionary of the default capacity 11 after `Put(i, 0)`, `Remove(i)` for
`i = 0, ..., 10`, are reachable; all their buckets are empty and marked as lazily removed, and
with any fuel and for any key `k` the loop of `ProbeForHit` does not return in them, nor do
`Get`, `Remove` and `Put`. -/
theorem C36_probe_marked (k : Int) (fuel : Nat) :
    HashMapDictionary.Reachable hcInt hashMarked ∧
    HashMapDictionary.Reachable hcInt (hashMarkedUpTo 11) ∧
    (ProbeForHit hcInt fuel hashMarked k = none ∧ Get hcInt fuel hashMarked k = none ∧
      Remove hcInt fuel hashMarked k = none ∧ ∀ v, Put hcInt fuel hashMarked k v = none) ∧
    (ProbeForHit hcInt fuel (hashMarkedUpTo 11) k = none ∧
      Get hcInt fuel (hashMarkedUpTo 11) k = none ∧
      Remove hcInt fuel (hashMarkedUpTo 11) k = none ∧
      ∀ v, Put hcInt fuel (hashMarkedUpTo 11) k v = none) := by
  refine ⟨hashMarked_reachable, hashMarkedUpTo_reachable 11 (le_refl _),
    hash_marked_none hcInt hashMarked k ?_ fuel,
    hash_marked_none hcInt (hashMarkedUpTo 11) k ?_ fuel⟩
  · intro r hr
    have hr' : r < 2 := hr
    interval_cases r <;> decide
  · intro r hr
    have hr' : r < 11 := hr
    interval_cases r <;> decide

end

end DSA

namespace DSA

/-! ## HashMapDictionary: the load factor -/

namespace HashMapDictionary

variable {K V : Type}

theorem exists_none_of_countP_lt {α : Type} :
    ∀ (l : List (Option α)), l.countP Option.isSome < l.length → ∃ i : Nat, l[i]? = some none
  | [], h => by simp at h
  | none :: _, _ => ⟨0, by simp⟩
  | some a :: t, h => by
      have h' : t.countP Option.isSome < t.length := by
        simp only [List.countP_cons, Option.isSome_some, if_true, List.length_cons] at h
        omega
      obtain ⟨i, hi⟩ := exists_none_of_countP_lt t h'
      exact ⟨i + 1, by simpa using hi⟩

/-- The loop of `ProbeForFree` returns when an empty bucket lies `d` steps ahead and the fuel
exceeds `d`, and the result does not depend on the fuel. -/
theorem ProbeForFreeLoop_total (m : HashMapDictionary K V) (h : Nat) (hcap : 0 < m.capacity_) :
    ∀ d s, m.ht_[(h + (s + d)) % m.capacity_]? = some none →
      ∃ r, m.ht_[r]? = some none ∧
        ∀ fuel, d < fuel → ProbeForFreeLoop m fuel ((h + s) % m.capacity_) = some r
  | 0, s, he => by
      refine ⟨(h + s) % m.capacity_, he, fun fuel hf => ?_⟩
      obtain ⟨f, rfl⟩ : ∃ f, fuel = f + 1 := ⟨fuel - 1, by omega⟩
      unfold ProbeForFreeLoop
      rw [show m.ht_[(h + s) % m.capacity_]? = some none from he]
  | d + 1, s, he => by
      have hlt : (h + s) % m.capacity_ < m.ht_.length := Nat.mod_lt _ hcap
      cases hb : m.ht_[(h + s) % m.capacity_]? with
      | none =>
          rw [List.getElem?_eq_none_iff] at hb
          omega
      | some bucket =>
          cases bucket with
          | none =>
              refine ⟨(h + s) % m.capacity_, hb, fun fuel hf => ?_⟩
              obtain ⟨f, rfl⟩ : ∃ f, fuel = f + 1 := ⟨fuel - 1, by omega⟩
              unfold ProbeForFreeLoop
              rw [hb]
          | some e =>
              have he' : m.ht_[(h + (s + 1 + d)) % m.capacity_]? = some none := by
                rw [show h + (s + 1 + d) = h + (s + (d + 1)) by omega]
                exact he
              obtain ⟨r, hr, hfu⟩ := ProbeForFreeLoop_total m h hcap d (s + 1) he'
              refine ⟨r, hr, fun fuel hf => ?_⟩
              obtain ⟨f, rfl⟩ : ∃ f, fuel = f + 1 := ⟨fuel - 1, by omega⟩
              unfold ProbeForFreeLoop
              rw [hb]
              simp only
              rw [succ_mod_step]
              exact hfu f (by omega)

/-- With an empty bucket in the table, `ProbeForFree` returns an empty bucket for every fuel
from twice the capacity on. -/
theorem ProbeForFree_total (hc : K → Nat) (m : HashMapDictionary K V) (k : K)
    (h : ∃ i : Nat, m.ht_[i]? = some none) :
    ∃ r : Nat, m.ht_[r]? = some none ∧
      ∀ fuel, 2 * m.capacity_ ≤ fuel → ProbeForFree hc fuel m k = some r := by
  obtain ⟨i, hi⟩ := h
  have hil : i < m.capacity_ := lt_length_of_getElem? _ _ _ hi
  have hcap : 0 < m.capacity_ := by omega
  have hm : hc k % m.capacity_ < m.capacity_ := Nat.mod_lt _ hcap
  have e : (hc k + (0 + (i + m.capacity_ - hc k % m.capacity_))) % m.capacity_ = i := by
    have h1 := Nat.div_add_mod (hc k) m.capacity_
    have h2 : hc k + (0 + (i + m.capacity_ - hc k % m.capacity_))
        = i + m.capacity_ * (hc k / m.capacity_ + 1) := by
      rw [Nat.mul_add, Nat.mul_one]
      omega
    rw [h2, Nat.add_mul_mod_self_left, Nat.mod_eq_of_lt hil]
  obtain ⟨r, hr, hfu⟩ := ProbeForFreeLoop_total m (hc k) hcap
    (i + m.capacity_ - hc k % m.capacity_) 0 (by rw [e]; exact hi)
  refine ⟨r, hr, fun fuel hf => ?_⟩
  unfold ProbeForFree
  rw [if_neg (by omega)]
  exact hfu fuel (by omega)

variable [DecidableEq K]

/-- A `Put` that leaves the load at one half or below keeps the capacity and calls no
`Rehash`. -/
theorem Put_small (hc : K → Nat) (fuel : Nat) (m : HashMapDictionary K V) (k : K) (v : V)
    (m' : HashMapDictionary K V) (b : Bool)
    (hl : (m.size_ + 1) * 2 ≤ (m.capacity_ : Int)) (h : Put hc fuel m k v = some (m', b)) :
    m'.capacity_ = m.capacity_ ∧ m'.size_ ≤ m.size_ + 1 ∧
      PutCount hc fuel m k v = some (m', b, 0) := by
  cases fuel with
  | zero => simp [Put] at h
  | succ fuel =>
      unfold Put at h
      unfold PutCount
      cases hr : ProbeForHit hc (fuel + 1) m k with
      | none => simp [hr] at h
      | some r =>
          simp only [hr] at h ⊢
          cases hb : m.ht_[r]? with
          | none => simp [hb] at h
          | some bucket =>
              cases bucket with
              | some e =>
                  simp only [hb, Option.some.injEq, Prod.mk.injEq] at h ⊢
                  obtain ⟨h1, h2⟩ := h
                  subst h1; subst h2
                  exact ⟨rfl, by omega, rfl, rfl, trivial⟩
              | none =>
                  simp only [hb] at h ⊢
                  cases hf : ProbeForFree hc (fuel + 1) m k with
                  | none => simp [hf] at h
                  | some r' =>
                      simp only [hf] at h ⊢
                      by_cases hlt : r' < m.ht_.length
                      · have hload : ¬ ((m.size_ + 1) * 2 > (m.capacity_ : Int)) := by omega
                        simp only [hlt, if_true, hload, if_false, Option.some.injEq,
                          Prod.mk.injEq] at h ⊢
                        obtain ⟨h1, h2⟩ := h
                        subst h1; subst h2
                        exact ⟨by simp [capacity_], le_refl _, rfl, rfl, trivial⟩
                      · simp [hlt] at h

/-- The loop of `Rehash` into a table that holds all the entries at a load of one half or
below keeps the capacity of that table and calls no `Rehash`. -/
theorem RehashLoop_small (hc : K → Nat) (fuel : Nat) :
    ∀ (l : List (Option (K × V))) (m0 m2 : HashMapDictionary K V),
      (m0.size_ + (l.countP Option.isSome : Int)) * 2 ≤ (m0.capacity_ : Int) →
      RehashLoop (Put hc fuel) l m0 = some m2 →
      m2.capacity_ = m0.capacity_ ∧ m2.size_ ≤ m0.size_ + (l.countP Option.isSome : Int) ∧
        RehashLoopCount (PutCount hc fuel) l m0 = some (m2, 0)
  | [], m0, m2, _, h => by
      simp only [RehashLoop, Option.some.injEq] at h
      subst h
      exact ⟨rfl, by simp, rfl⟩
  | none :: rest, m0, m2, hl, h => by
      simp only [RehashLoop] at h
      have hl' : (m0.size_ + (rest.countP Option.isSome : Int)) * 2 ≤ (m0.capacity_ : Int) := by
        simpa using hl
      obtain ⟨a1, a2, a3⟩ := RehashLoop_small hc fuel rest m0 m2 hl' h
      refine ⟨a1, by simpa using a2, ?_⟩
      simp only [RehashLoopCount]
      exact a3
  | some e :: rest, m0, m2, hl, h => by
      have hc1 : (((some e :: rest).countP Option.isSome : Nat) : Int)
          = (rest.countP Option.isSome : Int) + 1 := by simp
      rw [hc1] at hl
      simp only [RehashLoop] at h
      cases hp : Put hc fuel m0 e.1 e.2 with
      | none => simp [hp] at h
      | some res =>
          obtain ⟨m1, b⟩ := res
          simp only [hp] at h
          have hn : (0 : Int) ≤ (rest.countP Option.isSome : Int) := Int.ofNat_nonneg _
          obtain ⟨p1, p2, p3⟩ := Put_small hc fuel m0 e.1 e.2 m1 b (by omega) hp
          obtain ⟨a1, a2, a3⟩ := RehashLoop_small hc fuel rest m1 m2 (by rw [p1]; omega) h
          refine ⟨by rw [a1, p1], by rw [hc1]; omega, ?_⟩
          simp only [RehashLoopCount, p3, a3]

omit [DecidableEq K] in
/-- The loop of `Rehash` with the count forgotten is the loop of `Rehash`. -/
theorem RehashLoopCount_erase
    (put : HashMapDictionary K V → K → V → Option (HashMapDictionary K V × Bool))
    (putc : HashMapDictionary K V → K → V → Option (HashMapDictionary K V × Bool × Nat))
    (h : ∀ m k v, (putc m k v).map (fun x => (x.1, x.2.1)) = put m k v) :
    ∀ (l : List (Option (K × V))) (m : HashMapDictionary K V),
      (RehashLoopCount putc l m).map Prod.fst = RehashLoop put l m
  | [], m => rfl
  | none :: rest, m => by
      simp only [RehashLoopCount, RehashLoop]
      exact RehashLoopCount_erase put putc h rest m
  | some e :: rest, m => by
      simp only [RehashLoopCount, RehashLoop]
      rw [← h m e.1 e.2]
      cases hp : putc m e.1 e.2 with
      | none => rfl
      | some res =>
          obtain ⟨m1, b, n⟩ := res
          simp only [Option.map_some']
          rw [← RehashLoopCount_erase put putc h rest m1]
          cases RehashLoopCount putc rest m1 with
          | none => rfl
          | some res2 => rfl

/-- The function `PutCount` with the count forgotten is `Put`. -/
theorem PutCount_erase (hc : K → Nat) :
    ∀ (fuel : Nat) (m : HashMapDictionary K V) (k : K) (v : V),
      (PutCount hc fuel m k v).map (fun x => (x.1, x.2.1)) = Put hc fuel m k v
  | 0, _, _, _ => rfl
  | fuel + 1, m, k, v => by
      unfold PutCount Put
      cases ProbeForHit hc (fuel + 1) m k with
      | none => rfl
      | some r =>
          simp only
          cases m.ht_[r]? with
          | none => rfl
          | some bucket =>
              cases bucket with
              | some e => rfl
              | none =>
                  simp only
                  cases ProbeForFree hc (fuel + 1) m k with
                  | none => rfl
                  | some r' =>
                      simp only
                      by_cases hlt : r' < m.ht_.length
                      · simp only [hlt, if_true]
                        by_cases hload : (m.size_ + 1) * 2 > (m.capacity_ : Int)
                        · simp only [hload, if_true]
                          unfold RehashWithCount RehashWith
                          cases GetPrime (fuel + 1) (2 * capacity_
                              ⟨m.size_ + 1, m.ht_.set r' (some (k, v)), m.lazy_removal_⟩) with
                          | none => rfl
                          | some p =>
                              simp only
                              rw [← RehashLoopCount_erase (Put hc fuel) (PutCount hc fuel)
                                (PutCount_erase hc fuel)]
                              cases RehashLoopCount (PutCount hc fuel)
                                  (m.ht_.set r' (some (k, v)))
                                  ⟨0, List.replicate p none, BitMap.Init p⟩ with
                              | none => rfl
                              | some res => rfl
                        · simp only [hload, if_false, Option.map_some']
                      · simp only [hlt, if_false, Option.map_none']

/-- From a state that satisfies the invariant with a capacity of 2 or more and a load of one
half or below, `Put` leads to such a state, and calls `Rehash` once at most, the nested calls
counted. -/
theorem Put_load (hc : K → Nat) (fuel : Nat) (m : HashMapDictionary K V) (k : K) (v : V)
    (m' : HashMapDictionary K V) (b : Bool) (hinv : Inv hc m) (h2 : 2 ≤ m.capacity_)
    (hl : 2 * m.size_ ≤ (m.capacity_ : Int)) (h : Put hc fuel m k v = some (m', b)) :
    2 ≤ m'.capacity_ ∧ 2 * m'.size_ ≤ (m'.capacity_ : Int) ∧
      ∃ n, PutCount hc fuel m k v = some (m', b, n) ∧ n ≤ 1 := by
  by_cases hload : (m.size_ + 1) * 2 > (m.capacity_ : Int)
  · cases fuel with
    | zero => simp [Put] at h
    | succ fuel =>
        unfold Put at h
        unfold PutCount
        cases hr : ProbeForHit hc (fuel + 1) m k with
        | none => simp [hr] at h
        | some r =>
            simp only [hr] at h ⊢
            cases hb : m.ht_[r]? with
            | none => simp [hb] at h
            | some bucket =>
                cases bucket with
                | some e =>
                    simp only [hb, Option.some.injEq, Prod.mk.injEq] at h ⊢
                    obtain ⟨h1, h3⟩ := h
                    subst h1; subst h3
                    exact ⟨h2, hl, 0, ⟨rfl, rfl, rfl⟩, by omega⟩
                | none =>
                    simp only [hb] at h ⊢
                    cases hf : ProbeForFree hc (fuel + 1) m k with
                    | none => simp [hf] at h
                    | some r' =>
                        simp only [hf] at h ⊢
                        obtain ⟨t, -, t2, -⟩ := ProbeForFree_steps hc (fuel + 1) m k r' hf
                        have hlt : r' < m.ht_.length := lt_length_of_getElem? _ _ _ t2
                        simp only [hlt, if_true, hload] at h ⊢
                        cases hre : RehashWith (Put hc fuel) (fuel + 1)
                            ⟨m.size_ + 1, m.ht_.set r' (some (k, v)), m.lazy_removal_⟩ with
                        | none => simp [hre] at h
                        | some m2 =>
                            simp only [hre, Option.some.injEq, Prod.mk.injEq] at h
                            obtain ⟨h1, h3⟩ := h
                            subst h1; subst h3
                            unfold RehashWith at hre
                            unfold RehashWithCount
                            cases hp : GetPrime (fuel + 1) (2 * capacity_
                                ⟨m.size_ + 1, m.ht_.set r' (some (k, v)), m.lazy_removal_⟩) with
                            | none => simp [hp] at hre
                            | some p =>
                                simp only [hp] at hre ⊢
                                have hple := GetPrimeLoop_le _ _ _ hp
                                have hcap : capacity_ (⟨m.size_ + 1, m.ht_.set r' (some (k, v)),
                                    m.lazy_removal_⟩ : HashMapDictionary K V) = m.capacity_ := by
                                  simp [capacity_]
                                rw [hcap] at hple
                                have hcnt := countP_set_some m.ht_ r' (k, v) t2
                                have hsz := hinv.1
                                have hfc : capacity_ (⟨0, List.replicate p none, BitMap.Init p⟩ :
                                    HashMapDictionary K V) = p := by simp [capacity_]
                                obtain ⟨a1, a2, a3⟩ := RehashLoop_small hc fuel _ _ m2
                                  (by rw [hfc, hcnt]; simp only; omega) hre
                                rw [hfc] at a1
                                simp only [hcnt] at a2
                                refine ⟨by omega, by omega, 1, ?_, le_refl _⟩
                                rw [a3]
  · obtain ⟨p1, p2, p3⟩ := Put_small hc fuel m k v m' b (by omega) h
    refine ⟨by omega, ?_, 0, p3, by omega⟩
    rw [p1]
    cases fuel with
    | zero => simp [Put] at h
    | succ fuel =>
        unfold Put at h
        cases hr : ProbeForHit hc (fuel + 1) m k with
        | none => simp [hr] at h
        | some r =>
            simp only [hr] at h
            cases hb : m.ht_[r]? with
            | none => simp [hb] at h
            | some bucket =>
                cases bucket with
                | some e =>
                    simp only [hb, Option.some.injEq, Prod.mk.injEq] at h
                    rw [← h.1]; exact hl
                | none =>
                    simp only [hb] at h
                    cases hf : ProbeForFree hc (fuel + 1) m k with
                    | none => simp [hf] at h
                    | some r' =>
                        simp only [hf] at h
                        by_cases hlt : r' < m.ht_.length
                        · simp only [hlt, if_true, hload, if_false, Option.some.injEq,
                            Prod.mk.injEq] at h
                          rw [← h.1]
                          simp only
                          omega
                        · simp [hlt] at h

/-- The call `Remove` keeps the capacity and does not raise the size. -/
theorem Remove_load (hc : K → Nat) (fuel : Nat) (m : HashMapDictionary K V) (k : K)
    (m' : HashMapDictionary K V) (b : Bool) (h : Remove hc fuel m k = some (m', b)) :
    m'.capacity_ = m.capacity_ ∧ m'.size_ ≤ m.size_ := by
  unfold Remove at h
  cases hr : ProbeForHit hc fuel m k with
  | none => simp [hr] at h
  | some r =>
      simp only [hr] at h
      cases hb : m.ht_[r]? with
      | none => simp [hb] at h
      | some bucket =>
          cases bucket with
          | none =>
              simp only [hb, Option.some.injEq, Prod.mk.injEq] at h
              rw [← h.1]
              exact ⟨rfl, le_refl _⟩
          | some e =>
              simp only [hb, Option.some.injEq, Prod.mk.injEq] at h
              rw [← h.1]
              exact ⟨by simp [capacity_], by simp only; omega⟩

theorem ReachableFrom.reachable (hc : K → Nat) {c : Nat} {m : HashMapDictionary K V}
    (h : ReachableFrom hc c m) : Reachable hc m := by
  induction h with
  | new fuel he => exact Reachable.new fuel c he
  | put fuel k v b _ he ih => exact Reachable.put fuel k v b ih he
  | remove fuel k b _ he ih => exact Reachable.remove fuel k b ih he

/-- From a capacity request of 2 or more, every reachable state has a capacity of 2 or more
and a load of one half or below. -/
theorem ReachableFrom.load (hc : K → Nat) {c : Nat} (h2 : 2 ≤ c) {m : HashMapDictionary K V}
    (h : ReachableFrom hc c m) : 2 ≤ m.capacity_ ∧ 2 * m.size_ ≤ (m.capacity_ : Int) := by
  induction h with
  | @new fuel m he =>
      unfold HashMapDictionary.new at he
      cases hp : GetPrime fuel c with
      | none => simp [hp] at he
      | some p =>
          simp only [hp, Option.some.injEq] at he
          subst he
          have := GetPrimeLoop_le _ _ _ hp
          simp only [capacity_, List.length_replicate]
          omega
  | @put fuel k v b m m' hm he ih =>
      obtain ⟨a1, a2, -⟩ := Put_load hc fuel m k v m' b
        (hash_reachable_inv hc (ReachableFrom.reachable hc hm)) ih.1 ih.2 he
      exact ⟨a1, a2⟩
  | @remove fuel k b m m' hm he ih =>
      obtain ⟨a1, a2⟩ := Remove_load hc fuel m k m' b he
      rw [a1]
      exact ⟨ih.1, by omega⟩

end HashMapDictionary

section

open HashMapDictionary

variable {K V : Type} [DecidableEq K]

theorem hashOne_reachableFrom : HashMapDictionary.ReachableFrom hcInt 2
    (⟨1, [some (0, 0), none], BitMap.Init 2⟩ : HashMapDictionary Int Int) := by
  have h0 : HashMapDictionary.ReachableFrom hcInt 2
      (⟨0, [none, none], BitMap.Init 2⟩ : HashMapDictionary Int Int) :=
    HashMapDictionary.ReachableFrom.new 1 (by decide)
  exact HashMapDictionary.ReachableFrom.put 1 0 0 true h0 (by decide)

/-- C37: in every state of a `HashMapDictionary` constructed with a capacity request `c >= 2`
and reached by calls of `Put` and `Remove` that return, `2 * GetSize() <= capacity_`; some
bucket is empty; for every key `ProbeForFree` returns an empty bucket, the same for every fuel
from twice the capacity on; and a call of `Put` that returns has called `Rehash` once at most,
the calls made inside `Rehash` counted, so that a `Rehash` triggers no nested `Rehash`. -/
theorem C37_load_factor (hc : K → Nat) (c : Nat) (hc2 : 2 ≤ c) (m : HashMapDictionary K V)
    (h : HashMapDictionary.ReachableFrom hc c m) :
    2 * m.GetSize ≤ (m.capacity_ : Int) ∧
    (∃ i : Nat, i < m.capacity_ ∧ m.ht_[i]? = some none) ∧
    (∀ k, ∃ r : Nat, m.ht_[r]? = some none ∧
      ∀ fuel, 2 * m.capacity_ ≤ fuel → ProbeForFree hc fuel m k = some r) ∧
    (∀ fuel k v m' b, Put hc fuel m k v = some (m', b) →
      ∃ n, PutCount hc fuel m k v = some (m', b, n) ∧ n ≤ 1) ∧
    (∀ fuel k v m' b n, PutCount hc fuel m k v = some (m', b, n) →
      Put hc fuel m k v = some (m', b) ∧ n ≤ 1) := by
  obtain ⟨l1, l2⟩ := HashMapDictionary.ReachableFrom.load hc hc2 h
  have hinv := hash_reachable_inv hc (HashMapDictionary.ReachableFrom.reachable hc h)
  have hex : ∃ i : Nat, m.ht_[i]? = some none := by
    apply exists_none_of_countP_lt
    have hs := hinv.1
    have : m.capacity_ = m.ht_.length := rfl
    omega
  have hput : ∀ fuel k v m' b, Put hc fuel m k v = some (m', b) →
      ∃ n, PutCount hc fuel m k v = some (m', b, n) ∧ n ≤ 1 :=
    fun fuel k v m' b hp => (Put_load hc fuel m k v m' b hinv l1 l2 hp).2.2
  refine ⟨l2, ?_, fun k => ProbeForFree_total hc m k hex, hput, ?_⟩
  · obtain ⟨i, hi⟩ := hex
    exact ⟨i, lt_length_of_getElem? _ _ _ hi, hi⟩
  · intro fuel k v m' b n hpc
    have he := PutCount_erase hc fuel m k v
    rw [hpc] at he
    have hp : Put hc fuel m k v = some (m', b) := he.symm
    obtain ⟨n', hn, hle⟩ := hput fuel k v m' b hp
    rw [hpc] at hn
    simp only [Option.some.injEq, Prod.mk.injEq] at hn
    exact ⟨hp, by omega⟩

/-- C37 at the dictionary `d(2)` after `d.Put(0, 0)`: one entry in two buckets; the call
`d.Put(1, 1)` then rehashes once, into five buckets. -/
theorem C37_load_factor_witness :
    (2 ≤ 2 ∧ HashMapDictionary.ReachableFrom hcInt 2
      (⟨1, [some (0, 0), none], BitMap.Init 2⟩ : HashMapDictionary Int Int)) ∧
    2 * (⟨1, [some (0, 0), none], BitMap.Init 2⟩ : HashMapDictionary Int Int).GetSize
      ≤ ((⟨1, [some (0, 0), none], BitMap.Init 2⟩ : HashMapDictionary Int Int).capacity_ : Int) ∧
    PutCount hcInt 3 (⟨1, [some (0, 0), none], BitMap.Init 2⟩ : HashMapDictionary Int Int) 1 1
      = some (⟨2, [some (0, 0), some (1, 1), none, none, none], BitMap.Init 5⟩, true, 1) :=
  ⟨⟨by decide, hashOne_reachableFrom⟩,
    (C37_load_factor hcInt 2 (by decide) _ hashOne_reachableFrom).1, by decide⟩

end

end DSA

namespace DSA

/-! ## BinNode: the iterative postorder traversal -/

namespace BinNode

variable {T : Type}

theorem sub_null (p : List Side) : (null : BinNode T).sub p = null := by
  cases p <;> rfl

theorem sub_nil (t : BinNode T) : t.sub [] = t := by
  cases t <;> rfl

theorem sub_left (l r : BinNode T) (d : T) : (mk l d r).sub [Side.left] = l := by
  rw [sub, sub_nil]

theorem sub_right (l r : BinNode T) (d : T) : (mk l d r).sub [Side.right] = r := by
  rw [sub, sub_nil]

theorem sub_append : ∀ (t : BinNode T) (p q : List Side), t.sub (p ++ q) = (t.sub p).sub q
  | t, [], _ => by rw [sub_nil, List.nil_append]
  | null, _ :: _, q => by rw [List.cons_append, sub, sub, sub_null]
  | mk l _ _, Side.left :: p, q => by
      rw [List.cons_append, sub, sub]
      exact sub_append l p q
  | mk _ _ r, Side.right :: p, q => by
      rw [List.cons_append, sub, sub]
      exact sub_append r p q

theorem lcAt_eq (t : BinNode T) (y : List Side) (l r : BinNode T) (d : T)
    (h : t.sub y = mk l d r) : t.lcAt y = ptr l (y ++ [Side.left]) := by
  unfold lcAt
  rw [sub_append, h, sub_left]

theorem rcAt_eq (t : BinNode T) (y : List Side) (l r : BinNode T) (d : T)
    (h : t.sub y = mk l d r) : t.rcAt y = ptr r (y ++ [Side.right]) := by
  unfold rcAt
  rw [sub_append, h, sub_right]

theorem dataAt_eq (t : BinNode T) (y : List Side) (l r : BinNode T) (d : T)
    (h : t.sub y = mk l d r) : t.dataAt y = some d := by
  unfold dataAt
  rw [h]

theorem parentAt_concat (y : List Side) (s : Side) : parentAt (y ++ [s]) = some y := by
  cases y with
  | nil => rfl
  | cons a y =>
      show some ((a :: y) ++ [s]).dropLast = some (a :: y)
      rw [List.dropLast_concat]

theorem concat_ne (y : List Side) (s : Side) : y ++ [s] ≠ y := by
  intro h
  have := congrArg List.length h
  simp at this

theorem loop_descend (t : BinNode T) (G f : Nat) (x : List Side) (top : Option (List Side))
    (s : List (Option (List Side))) (out : List (List Side × T)) (h : top ≠ parentAt x) :
    TraversePostILoop t G (f + 1) (some x) (top :: s) out
      = visitTop t (GotoHLVFL t G (top :: s)) out (TraversePostILoop t G f) := by
  show (if top ≠ parentAt x then _ else _) = _
  rw [if_pos h]

theorem loop_parent (t : BinNode T) (G f : Nat) (x : List Side) (top : Option (List Side))
    (s : List (Option (List Side))) (out : List (List Side × T)) (h : top = parentAt x) :
    TraversePostILoop t G (f + 1) (some x) (top :: s) out
      = visitTop t (some (top :: s)) out (TraversePostILoop t G f) := by
  show (if top ≠ parentAt x then _ else _) = _
  rw [if_neg (not_not.mpr h)]

theorem GotoHLVFL_both (t : BinNode T) (g : Nat) (x a b : List Side)
    (s : List (Option (List Side))) (ha : t.lcAt x = some a) (hb : t.rcAt x = some b) :
    GotoHLVFL t (g + 1) (some x :: s) = GotoHLVFL t g (some a :: some b :: some x :: s) := by
  show (if t.HasLChild x = true then _ else _) = _
  simp only [HasLChild, HasRChild, ha, hb, Option.isSome_some, if_true]

theorem GotoHLVFL_left (t : BinNode T) (g : Nat) (x a : List Side)
    (s : List (Option (List Side))) (ha : t.lcAt x = some a) (hb : t.rcAt x = none) :
    GotoHLVFL t (g + 1) (some x :: s) = GotoHLVFL t g (some a :: some x :: s) := by
  show (if t.HasLChild x = true then _ else _) = _
  simp [HasLChild, HasRChild, ha, hb]

theorem GotoHLVFL_right (t : BinNode T) (g : Nat) (x : List Side) (b : Option (List Side))
    (s : List (Option (List Side))) (ha : t.lcAt x = none) (hb : t.rcAt x = b) :
    GotoHLVFL t (g + 1) (some x :: s) = GotoHLVFL t g (b :: some x :: s) := by
  show (if t.HasLChild x = true then _ else _) = _
  simp [HasLChild, ha, hb]

theorem TraversePostRLog_mk (y : List Side) (l r : BinNode T) (d : T) :
    TraversePostRLog y (mk l d r)
      = TraversePostRLog (y ++ [Side.left]) l ++ TraversePostRLog (y ++ [Side.right]) r
        ++ [(y, d)] := rfl

/-- The descent of `GotoHLVFL` from the node at `y` and the iterations of the loop that
follow it visit the subtree at `y` in postorder, and leave the loop at `y` with the stack that
was below `y`. -/
theorem walk (t : BinNode T) (G : Nat) :
    ∀ (n : BinNode T) (y : List Side) (g f F : Nat) (s : List (Option (List Side)))
      (out : List (List Side × T)),
      t.sub y = n → n ≠ null → n.depth + 1 ≤ g → n.depth + 1 ≤ G → F + 1 = f + n.size →
      visitTop t (GotoHLVFL t g (some y :: s)) out (TraversePostILoop t G F)
        = TraversePostILoop t G f (some y) s (out ++ TraversePostRLog y n) := by
  intro n
  induction n with
  | null => intro y g f F s out _ h; exact absurd rfl h
  | mk l d r ihl ihr =>
      intro y g f F s out hy _ hg hG hF
      obtain ⟨g, rfl⟩ : ∃ g', g = g' + 1 := ⟨g - 1, by omega⟩
      have hl := lcAt_eq t y l r d hy
      have hr := rcAt_eq t y l r d hy
      have hd := dataAt_eq t y l r d hy
      have hsl : t.sub (y ++ [Side.left]) = l := by rw [sub_append, hy, sub_left]
      have hsr : t.sub (y ++ [Side.right]) = r := by rw [sub_append, hy, sub_right]
      simp only [depth, size] at hg hG hF
      cases l with
      | null =>
          cases r with
          | null =>
              obtain ⟨g, rfl⟩ : ∃ g', g = g' + 1 := ⟨g - 1, by simp only [depth] at hg; omega⟩
              rw [GotoHLVFL_right t _ y none s hl hr]
              have e : F = f := by simp only [size] at hF; omega
              subst e
              show visitTop t (some (some y :: s)) out _ = _
              simp only [visitTop, hd, TraversePostRLog, List.nil_append]
          | mk rl rd rr =>
              rw [GotoHLVFL_right t _ y _ s hl hr]
              show visitTop t (GotoHLVFL t g (some (y ++ [Side.right]) :: some y :: s)) out _ = _
              rw [ihr (y ++ [Side.right]) g (f + 1) F (some y :: s) out hsr (by simp)
                (by omega) (by omega) (by simp only [size] at hF ⊢; omega)]
              rw [loop_parent t G f _ _ _ _ (parentAt_concat y Side.right).symm]
              simp only [visitTop, hd, TraversePostRLog, List.nil_append, List.append_assoc]
      | mk ll ld lr =>
          cases r with
          | null =>
              rw [GotoHLVFL_left t _ y _ s hl hr]
              rw [ihl (y ++ [Side.left]) g (f + 1) F (some y :: s) out hsl (by simp)
                (by omega) (by omega) (by simp only [size] at hF ⊢; omega)]
              rw [loop_parent t G f _ _ _ _ (parentAt_concat y Side.left).symm]
              simp only [visitTop, hd, TraversePostRLog, List.append_nil, List.append_assoc]
          | mk rl rd rr =>
              rw [GotoHLVFL_both t _ y _ _ s hl hr]
              rw [ihl (y ++ [Side.left]) g (f + (mk rl rd rr).size + 1) F
                (some (y ++ [Side.right]) :: some y :: s) out hsl (by simp)
                (by omega) (by omega) (by omega)]
              rw [loop_descend t G _ _ _ _ _ (by
                rw [parentAt_concat]
                intro h
                exact concat_ne y Side.right (Option.some.inj h))]
              rw [ihr (y ++ [Side.right]) G (f + 1) (f + (mk rl rd rr).size) (some y :: s) _ hsr
                (by simp) (by omega) (by omega) (by omega)]
              rw [loop_parent t G f _ _ _ _ (parentAt_concat y Side.right).symm]
              simp only [visitTop, hd, List.append_assoc]
              rw [TraversePostRLog_mk y, List.append_assoc]

end BinNode

namespace BinNode

variable {T : Type}

theorem depth_le_size : ∀ (n : BinNode T), n.depth ≤ n.size
  | null => le_refl _
  | mk l _ r => by
      have h1 := depth_le_size l
      have h2 := depth_le_size r
      simp only [depth, size]
      omega

/-- With a fuel above the number of nodes, the iterative traversal makes the calls of `visit`
that the recursive one makes. -/
theorem TraversePostILog_eq (t : BinNode T) (fuel : Nat) (h : t.size + 1 ≤ fuel) :
    TraversePostILog t fuel = some (TraversePostRLog [] t) := by
  obtain ⟨F, rfl⟩ : ∃ F, fuel = F + 1 := ⟨fuel - 1, by omega⟩
  cases t with
  | null => rfl
  | mk l d r =>
      have hd := depth_le_size (mk l d r)
      show TraversePostILoop (mk l d r) (F + 1) (F + 1) (some []) [some []] [] = _
      rw [loop_descend _ _ _ _ _ _ _ (by simp [parentAt])]
      rw [walk (mk l d r) (F + 1) (mk l d r) [] (F + 1) (F + 1 - (mk l d r).size) F [] []
        (sub_nil _) (by simp) (by omega) (by omega) (by omega)]
      obtain ⟨f, hf⟩ : ∃ f, F + 1 - (mk l d r).size = f + 1 :=
        ⟨F - (mk l d r).size, by omega⟩
      rw [hf, List.nil_append]
      rfl

theorem TraversePostRLog_values : ∀ (n : BinNode T) (y : List Side),
    (TraversePostRLog y n).map Prod.snd = TraversePostR n
  | null, _ => rfl
  | mk l d r, y => by
      simp only [TraversePostRLog, TraversePostR, List.map_append, List.map_cons, List.map_nil,
        TraversePostRLog_values l, TraversePostRLog_values r]

theorem TraversePostRLog_length : ∀ (n : BinNode T) (y : List Side),
    (TraversePostRLog y n).length = n.size
  | null, _ => rfl
  | mk l d r, y => by
      simp only [TraversePostRLog, size, List.length_append, List.length_cons, List.length_nil,
        TraversePostRLog_length l, TraversePostRLog_length r]
      omega

theorem dataAt_null (q : List Side) : (null : BinNode T).dataAt q = none := by
  unfold dataAt
  rw [sub_null]

/-- The recursive traversal from the node at `y` visits the nodes below `y`, each with its
value. -/
theorem TraversePostRLog_mem : ∀ (n : BinNode T) (y p : List Side) (d : T),
    (p, d) ∈ TraversePostRLog y n ↔ ∃ q, p = y ++ q ∧ n.dataAt q = some d
  | null, y, p, d => by
      simp [TraversePostRLog, dataAt_null]
  | mk l e r, y, p, d => by
      rw [TraversePostRLog_mk, List.mem_append, List.mem_append, TraversePostRLog_mem l,
        TraversePostRLog_mem r]
      constructor
      · rintro ((⟨q, rfl, hq⟩ | ⟨q, rfl, hq⟩) | hm)
        · exact ⟨Side.left :: q, by simp, hq⟩
        · exact ⟨Side.right :: q, by simp, hq⟩
        · simp only [List.mem_singleton, Prod.mk.injEq] at hm
          obtain ⟨rfl, rfl⟩ := hm
          exact ⟨[], by simp, rfl⟩
      · rintro ⟨q, rfl, hq⟩
        cases q with
        | nil =>
            have : e = d := by
              have h' : (mk l e r).dataAt [] = some e := rfl
              rw [h'] at hq
              exact Option.some.inj hq
            subst this
            exact Or.inr (by simp)
        | cons a q =>
            cases a with
            | left => exact Or.inl (Or.inl ⟨q, by simp, hq⟩)
            | right => exact Or.inl (Or.inr ⟨q, by simp, hq⟩)

theorem TraversePostRLog_prefix (n : BinNode T) (y p : List Side)
    (h : p ∈ (TraversePostRLog y n).map Prod.fst) : ∃ q, p = y ++ q := by
  rw [List.mem_map] at h
  obtain ⟨⟨p', d⟩, hm, rfl⟩ := h
  obtain ⟨q, hq, -⟩ := (TraversePostRLog_mem n y p' d).mp hm
  exact ⟨q, hq⟩

/-- The recursive traversal visits no node twice. -/
theorem TraversePostRLog_nodup : ∀ (n : BinNode T) (y : List Side),
    ((TraversePostRLog y n).map Prod.fst).Nodup
  | null, _ => List.nodup_nil
  | mk l d r, y => by
      rw [TraversePostRLog_mk, List.map_append, List.map_append]
      have hl := TraversePostRLog_nodup l (y ++ [Side.left])
      have hr := TraversePostRLog_nodup r (y ++ [Side.right])
      rw [List.nodup_append]
      refine ⟨?_, by simp, ?_⟩
      · rw [List.nodup_append]
        refine ⟨hl, hr, ?_⟩
        intro p h1 h2
        obtain ⟨q1, e1⟩ := TraversePostRLog_prefix l _ p h1
        obtain ⟨q2, e2⟩ := TraversePostRLog_prefix r _ p h2
        rw [e1, List.append_assoc, List.append_assoc] at e2
        have := List.append_cancel_left e2
        simp at this
      · intro p h1 h2
        simp only [List.map_cons, List.map_nil, List.mem_singleton] at h2
        subst h2
        rw [List.mem_append] at h1
        rcases h1 with h1 | h1
        · obtain ⟨q1, e1⟩ := TraversePostRLog_prefix l _ p h1
          rw [List.append_assoc] at e1
          have := congrArg List.length e1
          simp at this
        · obtain ⟨q1, e1⟩ := TraversePostRLog_prefix r _ p h1
          rw [List.append_assoc] at e1
          have := congrArg List.length e1
          simp at this

end BinNode

section

open BinNode

variable {T : Type}

/-- C39: with a fuel above the number of nodes, `TraversePostI` on the root of a tree returns
and passes to `visit` the sequence of values that `TraversePostR` passes; the nodes it visits
are those of the tree, each with its value, and none is visited twice. -/
theorem C39_postorder (t : BinNode T) (fuel : Nat) (h : t.size + 1 ≤ fuel) :
    TraversePostI t fuel = some (TraversePostR t) ∧
    ∃ log, TraversePostILog t fuel = some log ∧
      log.map Prod.snd = TraversePostR t ∧
      (log.map Prod.fst).Nodup ∧
      (∀ p d, (p, d) ∈ log ↔ t.dataAt p = some d) ∧
      log.length = t.size := by
  have e := TraversePostILog_eq t fuel h
  refine ⟨?_, TraversePostRLog [] t, e, TraversePostRLog_values t [],
    TraversePostRLog_nodup t [], fun p d => ?_, TraversePostRLog_length t []⟩
  · unfold TraversePostI
    rw [e, Option.map_some', TraversePostRLog_values]
  · rw [TraversePostRLog_mem]
    constructor
    · rintro ⟨q, rfl, hq⟩
      exact hq
    · intro hq
      exact ⟨p, rfl, hq⟩

/-- C39 at the tree of the nodes 1 to 6, with the fuel 7. -/
theorem C39_postorder_witness :
    bin6.size + 1 ≤ 7 ∧ TraversePostI bin6 7 = some (TraversePostR bin6) ∧
      TraversePostR bin6 = [4, 5, 2, 6, 3, 1] :=
  ⟨by decide, (C39_postorder bin6 7 (by decide)).1, by decide⟩

end

end DSA
